import Mathlib

/-!
# The two pipelines of `kaltz`

A shallow embedding of `automaton.cpp` (reading an NFA, subset construction, writing the
DFA), of `Homework completo/ERtoND.cpp` (prefix-regex parser, Thompson construction,
writing the NFA) and of `driver.cpp` (lowering of the syntax tree of the source language
to IR), followed by the properties proved about them.

Conventions of the embedding
* `int` is `Int`, `char` is `Char`, `std::string` is `List Char`.
* `std::set<T>` is a `List T` kept in strictly ascending order (`setInsert`);
  iterating a set is iterating the list.
* `std::multimap<K, V>` is a `List (K × V)` kept in ascending key order, equal keys in
  insertion order (`mmInsert`); `std::map<K, V>` is the same with unique keys
  (`mapEmplace`).
* `std::queue<T>` is a `List T`: `push` appends at the back, `front`/`pop` take the head.
* a function that can throw returns `Except Error _`.
* a file is its text; an input stream carries the text left and its `eofbit`, `failbit`.
* the lowering of `driver.cpp` passes the state explicitly: the symbol table of the
  driver and the global module and builder are the fields of `Driver`.
* `while` loops whose termination is not structural carry a fuel argument; the entry
  point supplies a bound that is proved sufficient.
-/

namespace Kaltz

/-! ## Containers -/

/-- The character that stands for ε: `const char epsilon = '*'`. -/
def epsilon : Char := '*'

/-- Insertion into a `std::set`: the element is placed in ascending order and an element
that is already present is not inserted again. -/
def setInsert {α : Type} [LT α] [DecidableRel (α := α) (· < ·)] [DecidableEq α]
    (x : α) : List α → List α
  | [] => [x]
  | y :: ys =>
    if x = y then y :: ys
    else if x < y then x :: y :: ys
    else y :: setInsert x ys

/-- Range insertion `s.insert(first, last)` into a `std::set`. -/
def setInsertRange {α : Type} [LT α] [DecidableRel (α := α) (· < ·)] [DecidableEq α]
    (s : List α) (range : List α) : List α :=
  range.foldl (fun acc x => setInsert x acc) s

/-- Insertion into a `std::multimap` (`emplace`/`insert`): the entry goes after every
entry whose key is not greater (upper bound of the equal range). -/
def mmInsert {κ ν : Type} [LT κ] [DecidableRel (α := κ) (· < ·)]
    (e : κ × ν) : List (κ × ν) → List (κ × ν)
  | [] => [e]
  | x :: xs => if e.1 < x.1 then e :: x :: xs else x :: mmInsert e xs

/-- Range insertion `m.insert(first, last)` into a `std::multimap`. -/
def mmInsertRange {κ ν : Type} [LT κ] [DecidableRel (α := κ) (· < ·)]
    (m : List (κ × ν)) (range : List (κ × ν)) : List (κ × ν) :=
  range.foldl (fun acc e => mmInsert e acc) m

/-- The entries `m.equal_range(key)` runs over: those whose key equals `key`, in the
order of the container. -/
def equalRange {κ ν : Type} [DecidableEq κ] (m : List (κ × ν)) (key : κ) : List (κ × ν) :=
  m.filter (fun e => decide (e.1 = key))

/-- Insertion into a `std::map` (`emplace`): nothing happens when an entry with the key
is present, otherwise the entry is placed in ascending key order. -/
def mapEmplace {κ ν : Type} [LT κ] [DecidableRel (α := κ) (· < ·)] [DecidableEq κ]
    (e : κ × ν) (m : List (κ × ν)) : List (κ × ν) :=
  if m.any (fun x => decide (x.1 = e.1)) then m else mmInsert e m

/-- The value of `m.find(key)` in a `std::map`, `none` standing for `end()`. -/
def mapFind {κ ν : Type} [DecidableEq κ] (m : List (κ × ν)) (key : κ) : Option ν :=
  (m.find? (fun e => decide (e.1 = key))).map Prod.snd

/-- A key `std::pair<State, char>` of a transition container; keys are compared
lexicographically, as `std::pair` does. -/
structure Key (σ : Type) where
  state : σ
  symbol : Char
deriving DecidableEq, Repr

instance {σ : Type} [LT σ] : LT (Key σ) :=
  ⟨fun a b => a.state < b.state ∨ (a.state = b.state ∧ a.symbol < b.symbol)⟩

instance {σ : Type} [LT σ] [DecidableRel (α := σ) (· < ·)] [DecidableEq σ] :
    DecidableRel (α := Key σ) (· < ·) :=
  fun a b => inferInstanceAs
    (Decidable (a.state < b.state ∨ (a.state = b.state ∧ a.symbol < b.symbol)))

/-! ## The automaton class -/

/-- The class template `Automaton<State, Symbol, TransitionType>`. -/
structure Automaton (State Symbol TransitionType : Type) where
  initialState : State
  finalStates : State
  alphabet : List Symbol
  transitions : TransitionType
  allStates : List State

/-- The method `Automaton::addState`: append the state unless it is already listed. -/
def Automaton.addState {State Symbol TransitionType : Type} [DecidableEq State]
    (a : Automaton State Symbol TransitionType) (state : State) :
    Automaton State Symbol TransitionType :=
  if state ∈ a.allStates then a else { a with allStates := a.allStates ++ [state] }

/-- The method `Automaton::countAllStates`. -/
def Automaton.countAllStates {State Symbol TransitionType : Type}
    (a : Automaton State Symbol TransitionType) : Int :=
  (a.allStates.length : Int)

/-- The transitions of an NFA: `multimap<pair<int, char>, int>`. -/
abbrev NTransitions := List (Key Int × Int)

/-- The transitions of a DFA: `map<pair<set<int>, char>, set<int>>`. -/
abbrev DTransitions := List (Key (List Int) × List Int)

/-- The type `Automaton<int, char, multimap<pair<int, char>, int>>`. -/
abbrev NDFA := Automaton Int Char NTransitions

/-- The type `Automaton<set<int>, char, map<pair<set<int>, char>, set<int>>>`. -/
abbrev DFA := Automaton (List Int) Char DTransitions

/-! ## `automaton.cpp`: ε-closure and subset construction -/

/-- The `for` loop inside the `while` of `epsilonClosure`: every ε-transition leaving
`current` whose target is not yet in the closure adds it to the closure and to the
queue. The pair is `(closure, stateQueue)`. -/
def epsilonClosureScan (current : Int) :
    NTransitions → List Int × List Int → List Int × List Int
  | [], st => st
  | entry :: rest, (closure, stateQueue) =>
    if entry.1.state = current ∧ entry.1.symbol = epsilon then
      if entry.2 ∈ closure then epsilonClosureScan current rest (closure, stateQueue)
      else epsilonClosureScan current rest (setInsert entry.2 closure, stateQueue ++ [entry.2])
    else epsilonClosureScan current rest (closure, stateQueue)

/-- The `while (!stateQueue.empty())` loop of `epsilonClosure`, returning the pair
`(closure, stateQueue)` with which it stops. -/
def epsilonClosureLoop (transitions : NTransitions) :
    Nat → List Int → List Int → List Int × List Int
  | 0, closure, stateQueue => (closure, stateQueue)
  | _ + 1, closure, [] => (closure, [])
  | fuel + 1, closure, current :: stateQueue =>
    let st := epsilonClosureScan current transitions (closure, stateQueue)
    epsilonClosureLoop transitions fuel st.1 st.2

/-- The function `epsilonClosure(NDFA, states)`. Every state is queued at most once
after the initial ones and only targets of transitions are queued, so
`states.length + transitions.length` iterations empty the queue
(`epsilonClosureLoop_queue_empty`). -/
def epsilonClosure (NDFA : NDFA) (states : List Int) : List Int :=
  (epsilonClosureLoop NDFA.transitions (states.length + NDFA.transitions.length)
    states states).1

/-- The two inner `for` loops of `NDtoD` that fill `nextStateSet` for one subset and one
symbol. -/
def nextStateSet (NDFA : NDFA) (currentStateSet : List Int) (symbol : Char) : List Int :=
  currentStateSet.foldl
    (fun next state =>
      (equalRange NDFA.transitions ⟨state, symbol⟩).foldl
        (fun next it => setInsertRange next (epsilonClosure NDFA [it.2]))
        next)
    []

/-- The local variables of `NDtoD` that its worklist loop updates. -/
structure Worklist where
  stateQueue : List (List Int)
  visitedStates : List (List Int)
  transitions : DTransitions
  DFA : DFA

/-- The body of `for (char symbol : alphabet)` in `NDtoD`. -/
def NDtoDSymbol (NDFA : NDFA) (currentStateSet : List Int) (w : Worklist) (symbol : Char) :
    Worklist :=
  let epsilonClosureSet := epsilonClosure NDFA (nextStateSet NDFA currentStateSet symbol)
  if epsilonClosureSet ≠ [] then
    let transitions := mapEmplace (⟨currentStateSet, symbol⟩, epsilonClosureSet) w.transitions
    if epsilonClosureSet ∉ w.visitedStates then
      { stateQueue := w.stateQueue ++ [epsilonClosureSet]
        visitedStates := setInsert epsilonClosureSet w.visitedStates
        transitions := transitions
        DFA := w.DFA.addState epsilonClosureSet }
    else { w with transitions := transitions }
  else w

/-- The `while (!stateQueue.empty())` loop of `NDtoD`. -/
def NDtoDLoop (NDFA : NDFA) (alphabet : List Char) : Nat → Worklist → Worklist
  | 0, w => w
  | fuel + 1, w =>
    match w.stateQueue with
    | [] => w
    | currentStateSet :: rest =>
      NDtoDLoop NDFA alphabet fuel
        (alphabet.foldl (NDtoDSymbol NDFA currentStateSet) { w with stateQueue := rest })

/-- The last loop of `NDtoD`: the indices of the subsets that hold the NFA's final
state. -/
def finalStatesDFAIndices (nfaFinalState : Int) (work : List (List Int)) : List Int :=
  (List.range work.length).foldl
    (fun acc i => if nfaFinalState ∈ work.getD i [] then setInsert (i : Int) acc else acc)
    []

/-- The number of worklist iterations granted to `NDtoD`: every queued subset is a
distinct set of states drawn from the start state and the transition targets. -/
def NDtoDFuel (NDFA : NDFA) : Nat :=
  2 ^ (NDFA.transitions.length + 1)

/-- The worklist with which `NDtoD` enters its loop. -/
def NDtoDInit (NDFA : NDFA) : Worklist :=
  let alphabet := NDFA.alphabet.filter (fun c => decide (c ≠ epsilon))
  let zeroEpsilonClosure := epsilonClosure NDFA (setInsert NDFA.initialState [])
  let DFA : DFA :=
    { initialState := zeroEpsilonClosure
      finalStates := []
      alphabet := alphabet
      transitions := []
      allStates := [] }
  { stateQueue := [zeroEpsilonClosure]
    visitedStates := setInsert zeroEpsilonClosure []
    transitions := []
    DFA := DFA.addState zeroEpsilonClosure }

/-- The function `NDtoD`: subset construction. -/
def NDtoD (NDFA : NDFA) : DFA :=
  let alphabet := NDFA.alphabet.filter (fun c => decide (c ≠ epsilon))
  let w := NDtoDLoop NDFA alphabet (NDtoDFuel NDFA) (NDtoDInit NDFA)
  let DFA := { w.DFA with transitions := w.transitions }
  { DFA with finalStates := finalStatesDFAIndices NDFA.finalStates DFA.allStates }

/-- The loop of `getIndexForState`, `index` being the position reached. -/
def getIndexForStateFrom (state : List Int) : List (List Int) → Int → Int
  | [], _ => -1
  | subState :: rest, index =>
    if subState = state then index else getIndexForStateFrom state rest (index + 1)

/-- The function `getIndexForState`. -/
def getIndexForState (dfa : DFA) (state : List Int) : Int :=
  getIndexForStateFrom state dfa.allStates 0

/-! ## `ERtoND.cpp`: errors, syntax tree, parser -/

/-- The exceptions the regex pipeline throws. -/
inductive Error where
  /-- `invalid_argument("unknow c...")` of `buildSyntaxTree`. -/
  | unknownSymbol (character : Char)
  /-- `invalid_argument("unknow c operator...")` of `buildSyntaxTree`. -/
  | unknownOperator (op : Char)
  /-- `std::out_of_range`, thrown by `string::at` and `string::substr`. -/
  | outOfRange
  /-- `runtime_error("ERROR - Transitions number, addTransition")`. -/
  | transitionsNumber
  /-- `invalid_argument` thrown on a null tree by `visitingASTforAutoma` and `REtoND`. -/
  | nullTree
  /-- `runtime_error("Invalid union operator.")`. -/
  | invalidUnion
  /-- `runtime_error("Invalid Kleene star operator.")`. -/
  | invalidKleeneStar
  /-- `runtime_error("Invalid concatenation operator.")`. -/
  | invalidConcatenation
  /-- `invalid_argument("ERROR - operator, REtoND")`. -/
  | invalidOperator
  /-- `runtime_error("ERROR - Invalid regular expression, REtoND")`. -/
  | invalidRegularExpression
deriving DecidableEq, Repr

/-- The function `isSymbol`: `isalpha(c) || isdigit(c)`. -/
def isSymbol (character : Char) : Bool :=
  character.isAlpha || character.isDigit

/-- The global `set<char> operators = {'*','|','.'}`, in ascending order. -/
def operators : List Char := ['*', '.', '|']

/-- The class `Regex`. -/
structure Regex where
  alphabet : List Char
  expression : List Char

/-- A value of type `AST*`: the null pointer or a node holding a character and two
child pointers. -/
inductive AST where
  | null : AST
  | node (character : Char) (left right : AST) : AST
deriving DecidableEq, Repr

/-- The method `AST::REview`, called on a node. -/
def AST.REview : AST → List Char
  | .null => []
  | .node character .null _ => [character]
  | .node character (.node lc ll lr) .null =>
    character :: '(' :: (AST.REview (.node lc ll lr) ++ [')'])
  | .node character (.node lc ll lr) (.node rc rl rr) =>
    character :: '(' :: (AST.REview (.node lc ll lr) ++
      (')' :: '(' :: (AST.REview (.node rc rl rr) ++ [')'])))

/-- The loop of `skipblank`; the first argument is the text from position `j` on. -/
def skipblankFrom : List Char → Nat → Nat
  | [], j => j
  | c :: rest, j => if c = ' ' then skipblankFrom rest (j + 1) else j

/-- The function `skipblank(S, j)`. -/
def skipblank (S : List Char) (j : Nat) : Nat :=
  skipblankFrom (S.drop j) j

/-- The `while (j < n)` loop of `removeblank`. -/
def removeblankLoop (S : List Char) : Nat → Nat → List Char → List Char
  | 0, _, compact => compact
  | fuel + 1, j, compact =>
    if j < S.length then
      removeblankLoop S fuel (skipblank S (j + 1)) (compact ++ [S.getD j ' '])
    else compact

/-- The function `removeblank(S)`; `j` grows in every iteration, so `S.length`
iterations suffice. -/
def removeblank (S : List Char) : List Char :=
  removeblankLoop S S.length (skipblank S 0) []

/-- The `while (numpar > 0)` loop of `getSubTree`; the first argument is the text from
position `j` on, and `S.at(j)` throws when it is empty. -/
def getSubTreeLoop : List Char → Int → Nat → Except Error Nat
  | [], numpar, j => if numpar > 0 then .error .outOfRange else .ok j
  | c :: rest, numpar, j =>
    if numpar > 0 then
      let numpar := if c = '(' then numpar + 1 else numpar
      let numpar := if c = ')' then numpar - 1 else numpar
      getSubTreeLoop rest numpar (j + 1)
    else .ok j

/-- The function `getSubTree(S, j)`. -/
def getSubTree (S : List Char) (j : Nat) : Except Error Nat :=
  match getSubTreeLoop (S.drop (j + 1)) 1 (j + 1) with
  | .ok j1 => .ok (j1 - j)
  | .error e => .error e

/-- The method `string::at`. -/
def stringAt (S : List Char) (pos : Nat) : Except Error Char :=
  match S.get? pos with
  | some c => .ok c
  | none => .error .outOfRange

/-- The method `string::substr(pos, len)`. -/
def substr (S : List Char) (pos len : Nat) : Except Error (List Char) :=
  if pos > S.length then .error .outOfRange else .ok ((S.drop pos).take len)

/-- The body of `buildSyntaxTree`; `recurse` stands for the two recursive calls. -/
def buildSyntaxTreeBody (regex : Regex) (recurse : List Char → Except Error AST)
    (inputRegex : List Char) : Except Error AST :=
  let lenght : Int := inputRegex.length
  if lenght = 1 ∨ lenght = 3 then
    match stringAt inputRegex (max 0 (lenght - 2)).toNat with
    | .error e => .error e
    | .ok character =>
      if character ∉ regex.alphabet then .error (.unknownSymbol character)
      else .ok (.node character .null .null)
  else
    match stringAt inputRegex 1 with
    | .error e => .error e
    | .ok op =>
      if op ∉ operators then .error (.unknownOperator op)
      else
        let startIndex := 2
        match getSubTree inputRegex startIndex with
        | .error e => .error e
        | .ok stopIndex =>
          match substr inputRegex startIndex stopIndex with
          | .error e => .error e
          | .ok leftRegex =>
            let startIndex := startIndex + stopIndex
            if op = '*' then
              match recurse leftRegex with
              | .error e => .error e
              | .ok leftTree => .ok (.node op leftTree .null)
            else
              match getSubTree inputRegex startIndex with
              | .error e => .error e
              | .ok stopIndex =>
                match substr inputRegex startIndex stopIndex with
                | .error e => .error e
                | .ok rightRegex =>
                  match recurse leftRegex with
                  | .error e => .error e
                  | .ok leftTree =>
                    match recurse rightRegex with
                    | .error e => .error e
                    | .ok rightTree => .ok (.node op leftTree rightTree)

/-- The function `buildSyntaxTree` with a bound on the depth of the recursion. -/
def buildSyntaxTreeFuel (regex : Regex) : Nat → List Char → Except Error AST
  | 0, _ => .error .outOfRange
  | fuel + 1, inputRegex =>
    buildSyntaxTreeBody regex (buildSyntaxTreeFuel regex fuel) inputRegex

/-- The function `buildSyntaxTree(regex, inputRegex)`. Every recursive call is on a
strictly shorter text, so a depth of `inputRegex.length + 1` is never exhausted
(`buildSyntaxTreeFuel_stable`), and the function satisfies the recursion equation of
the source (`buildSyntaxTree_eq`). -/
def buildSyntaxTree (regex : Regex) (inputRegex : List Char) : Except Error AST :=
  buildSyntaxTreeFuel regex (inputRegex.length + 1) inputRegex

/-! ## `ERtoND.cpp`: Thompson construction -/

/-- The specialisation `Automaton<int, char, multimap<...>>::addTransition`: a state
gets at most two ε-transitions and at most one transition on any other symbol. -/
def Automaton.addTransition (a : NDFA) (stateInReading : Int) (inputAlpha : Char)
    (toState : Int) : Except Error NDFA :=
  let starCount := (equalRange a.transitions ⟨stateInReading, '*'⟩).length
  if inputAlpha = '*' then
    if starCount < 2 then
      .ok { a with transitions := mmInsert (⟨stateInReading, inputAlpha⟩, toState) a.transitions }
    else .error .transitionsNumber
  else
    let count := (equalRange a.transitions ⟨stateInReading, inputAlpha⟩).length
    if count = 0 then
      .ok { a with transitions := mmInsert (⟨stateInReading, inputAlpha⟩, toState) a.transitions }
    else .error .transitionsNumber

/-- The closing loop of the pool functions: every source and target of a transition is
added to the state list, in the order of the multimap. -/
def addTransitionStates (a : NDFA) : NDFA :=
  a.transitions.foldl (fun acc entry => (acc.addState entry.1.state).addState entry.2) a

/-- A default-constructed `Automaton<int, char, multimap<...>>` whose start and final
state are then set to the given values. -/
def emptyNDFA (initialState finalStates : Int) (alphabet : List Char) : NDFA :=
  { initialState := initialState
    finalStates := finalStates
    alphabet := alphabet
    transitions := []
    allStates := [] }

/-- The function `AutomataPool_Symbol(symbol, stateCounter)`; the second component is
the value of `stateCounter` on return. -/
def AutomataPool_Symbol (symbol : Char) (stateCounter : Int) : Except Error (NDFA × Int) :=
  let alphabet := setInsert symbol (setInsert epsilon [])
  let finalState := stateCounter + 1
  let ndfa := emptyNDFA stateCounter finalState alphabet
  let ndfa := ndfa.addState stateCounter
  let ndfa := ndfa.addState finalState
  match ndfa.addTransition stateCounter symbol finalState with
  | .error e => .error e
  | .ok ndfa => .ok (ndfa, stateCounter + 2)

/-- The function `AutomataPool_KleeneStar(left, stateCounter)`. -/
def AutomataPool_KleeneStar (left : NDFA) (stateCounter : Int) : Except Error (NDFA × Int) :=
  let alphabet := setInsertRange [] left.alphabet
  let newStartState := stateCounter
  let newFinalState := stateCounter + 1
  let kleeneStar := emptyNDFA newStartState newFinalState alphabet
  let stateCounter := stateCounter + 2
  let mergeTransitions := mmInsertRange [] left.transitions
  let kleeneStar := { kleeneStar with transitions := mergeTransitions }
  match kleeneStar.addTransition newStartState epsilon newFinalState with
  | .error e => .error e
  | .ok kleeneStar =>
  match kleeneStar.addTransition left.finalStates epsilon newFinalState with
  | .error e => .error e
  | .ok kleeneStar =>
  match kleeneStar.addTransition newStartState epsilon left.initialState with
  | .error e => .error e
  | .ok kleeneStar =>
  match kleeneStar.addTransition left.finalStates epsilon left.initialState with
  | .error e => .error e
  | .ok kleeneStar => .ok (addTransitionStates kleeneStar, stateCounter)

/-- The function `AutomataPool_Union(left, right, stateCounter)`. -/
def AutomataPool_Union (left right : NDFA) (stateCounter : Int) : Except Error (NDFA × Int) :=
  let alphabet := setInsertRange (setInsertRange [] left.alphabet) right.alphabet
  let newStartState := stateCounter
  let stateCounter := stateCounter + 1
  let newFinalState := stateCounter
  let stateCounter := stateCounter + 1
  let union_ := emptyNDFA newStartState newFinalState alphabet
  let mergeTransitions := mmInsertRange (mmInsertRange [] left.transitions) right.transitions
  let union_ := { union_ with transitions := mergeTransitions }
  match union_.addTransition newStartState epsilon left.initialState with
  | .error e => .error e
  | .ok union_ =>
  match union_.addTransition newStartState epsilon right.initialState with
  | .error e => .error e
  | .ok union_ =>
  match union_.addTransition left.finalStates epsilon newFinalState with
  | .error e => .error e
  | .ok union_ =>
  match union_.addTransition right.finalStates epsilon newFinalState with
  | .error e => .error e
  | .ok union_ => .ok (addTransitionStates union_, stateCounter)

/-- The function `AutomataPool_Concatenation(left, right)`. -/
def AutomataPool_Concatenation (left right : NDFA) : Except Error NDFA :=
  let alphabet := setInsertRange (setInsertRange [] left.alphabet) right.alphabet
  let concatenation := emptyNDFA left.initialState right.finalStates alphabet
  let mergeTransitions := mmInsertRange (mmInsertRange [] left.transitions) right.transitions
  let concatenation := { concatenation with transitions := mergeTransitions }
  match concatenation.addTransition left.finalStates epsilon right.initialState with
  | .error e => .error e
  | .ok concatenation => .ok (addTransitionStates concatenation)

/-- The number of nodes of a tree. -/
def AST.size : AST → Nat
  | .null => 0
  | .node _ left right => left.size + right.size + 1

/-- The `while (!working.empty())` loop of `visitingASTforAutoma`; both stacks have
their top at the head of the list. Only non-null children are pushed, so the loop never
pops a null pointer when it is started on a non-null tree. -/
def visitingLoop : Nat → List AST → List AST → List AST
  | 0, _, end_ => end_
  | _ + 1, [], end_ => end_
  | fuel + 1, node :: working, end_ =>
    match node with
    | .null => visitingLoop fuel working (node :: end_)
    | .node _ left right =>
      let working := if left ≠ .null then left :: working else working
      let working := if right ≠ .null then right :: working else working
      visitingLoop fuel working (node :: end_)

/-- The function `visitingASTforAutoma`: every node is pushed on `working` once, so
`size` iterations empty it. -/
def visitingASTforAutoma (abstractSyntaxTree : AST) : Except Error (List AST) :=
  if abstractSyntaxTree = .null then .error .nullTree
  else .ok (visitingLoop abstractSyntaxTree.size [abstractSyntaxTree] [])

/-- The body of the `while (!visitingAST.empty())` loop of `REtoND` for the popped node
with character `character`; the state is the stack `automatons` (top at the head) and
`stateCounter`. -/
def REtoNDStep (alphabet : List Char) (character : Char) (st : List NDFA × Int) :
    Except Error (List NDFA × Int) :=
  let automatons := st.1
  let stateCounter := st.2
  if character ∈ alphabet then
    match AutomataPool_Symbol character stateCounter with
    | .error e => .error e
    | .ok (newAutoma, stateCounter) => .ok (newAutoma :: automatons, stateCounter)
  else if character = '|' then
    match automatons with
    | rightNDFA :: leftNDFA :: automatons =>
      match AutomataPool_Union leftNDFA rightNDFA stateCounter with
      | .error e => .error e
      | .ok (newAutoma, stateCounter) => .ok (newAutoma :: automatons, stateCounter)
    | _ => .error .invalidUnion
  else if character = '*' then
    match automatons with
    | leftNDFA :: automatons =>
      match AutomataPool_KleeneStar leftNDFA stateCounter with
      | .error e => .error e
      | .ok (newAutoma, stateCounter) => .ok (newAutoma :: automatons, stateCounter)
    | _ => .error .invalidKleeneStar
  else if character = '.' then
    match automatons with
    | rightNDFA :: leftNDFA :: automatons =>
      match AutomataPool_Concatenation leftNDFA rightNDFA with
      | .error e => .error e
      | .ok newAutoma => .ok (newAutoma :: automatons, stateCounter)
    | _ => .error .invalidConcatenation
  else .error .invalidOperator

/-- The character of a node, `_operator->getCharacter()`. The stack returned by
`visitingASTforAutoma` holds no null pointer, so the first case is never used. -/
def AST.getCharacter : AST → Char
  | .null => ' '
  | .node character _ _ => character

/-- The `while (!visitingAST.empty())` loop of `REtoND`. -/
def REtoNDLoop (alphabet : List Char) : List AST → List NDFA × Int →
    Except Error (List NDFA × Int)
  | [], st => .ok st
  | _operator :: visitingAST, st =>
    match REtoNDStep alphabet _operator.getCharacter st with
    | .error e => .error e
    | .ok st => REtoNDLoop alphabet visitingAST st

/-- The function `REtoND(abstractSyntaxTree, regex)`. -/
def REtoND (abstractSyntaxTree : AST) (regex : Regex) : Except Error NDFA :=
  if abstractSyntaxTree = .null then .error .nullTree
  else
    match visitingASTforAutoma abstractSyntaxTree with
    | .error e => .error e
    | .ok visitingAST =>
      match REtoNDLoop regex.alphabet visitingAST ([], 0) with
      | .error e => .error e
      | .ok (automatons, _) =>
        match automatons with
        | [resultNDFA] => .ok resultNDFA
        | _ => .error .invalidRegularExpression

/-! ## Definitions used to state the properties -/

/-- The nesting depth reached after reading `cs` behind an opening parenthesis: one,
plus the opening parentheses of `cs`, minus its closing ones. -/
def parDepth (cs : List Char) : Int :=
  1 + (cs.count '(' : Int) - (cs.count ')' : Int)

/-- The text `S` ends before the parenthesis opened at position `j` is closed: the depth
stays positive after every prefix of what follows position `j`. -/
def Unclosed (S : List Char) (j : Nat) : Prop :=
  ∀ m : Nat, m ≤ S.length - (j + 1) → 0 < parDepth ((S.drop (j + 1)).take m)

/-- The run of length `n` that starts at position `j` of `S` ends at the parenthesis
closing the one opened at `j`: the depth is zero after the `n - 1` characters that
follow position `j` and positive after every shorter prefix. -/
def ClosesAfter (S : List Char) (j n : Nat) : Prop :=
  2 ≤ n ∧ j + n ≤ S.length ∧ parDepth ((S.drop (j + 1)).take (n - 1)) = 0 ∧
    ∀ m : Nat, m < n - 1 → 0 < parDepth ((S.drop (j + 1)).take m)

/-- The expressions of the grammar `E := sym | *(E) | .(E)(E) | |(E)(E)`. -/
inductive Expr where
  | sym (c : Char) : Expr
  | star (e : Expr) : Expr
  | concat (e1 e2 : Expr) : Expr
  | union (e1 e2 : Expr) : Expr
deriving DecidableEq, Repr

/-- The text of an expression, without blanks. -/
def Expr.text : Expr → List Char
  | .sym c => [c]
  | .star e => '*' :: '(' :: (e.text ++ [')'])
  | .concat e1 e2 => '.' :: '(' :: (e1.text ++ (')' :: '(' :: (e2.text ++ [')'])))
  | .union e1 e2 => '|' :: '(' :: (e1.text ++ (')' :: '(' :: (e2.text ++ [')'])))

/-- The syntax tree an expression denotes. -/
def Expr.tree : Expr → AST
  | .sym c => .node c .null .null
  | .star e => .node '*' e.tree .null
  | .concat e1 e2 => .node '.' e1.tree e2.tree
  | .union e1 e2 => .node '|' e1.tree e2.tree

/-- The symbols that occur in an expression. -/
def Expr.symbols : Expr → List Char
  | .sym c => [c]
  | .star e => e.symbols
  | .concat e1 e2 => e1.symbols ++ e2.symbols
  | .union e1 e2 => e1.symbols ++ e2.symbols

/-- An ε-transition `p --ε--> q` of the transition multimap `T`. -/
def EpsStep (T : NTransitions) (p q : Int) : Prop :=
  ((⟨p, epsilon⟩, q) : Key Int × Int) ∈ T

/-- The state `q` is reachable from `p` by a path of zero or more ε-transitions. -/
def EpsReach (T : NTransitions) : Int → Int → Prop :=
  Relation.ReflTransGen (EpsStep T)

/-- Some path from `p` to `q` spells the word: ε-transitions consume nothing, a
transition on another symbol consumes that symbol. -/
inductive NfaPath (T : NTransitions) : Int → List Char → Int → Prop where
  | done (p : Int) : NfaPath T p [] p
  | eps {p q r : Int} {w : List Char} :
      ((⟨p, epsilon⟩, q) : Key Int × Int) ∈ T → NfaPath T q w r → NfaPath T p w r
  | sym {p q r : Int} {a : Char} {w : List Char} :
      a ≠ epsilon → ((⟨p, a⟩, q) : Key Int × Int) ∈ T → NfaPath T q w r →
      NfaPath T p (a :: w) r

/-- The NFA accepts the word: some path from its start state to its accept state spells
it. -/
def NfaAccepts (N : NDFA) (w : List Char) : Prop :=
  NfaPath N.transitions N.initialState w N.finalStates

/-- The run of a DFA from the subset `Q` along its transition map; `none` when a
transition is missing. -/
def dfaRun (D : DFA) : List Int → List Char → Option (List Int)
  | Q, [] => some Q
  | Q, a :: w =>
    match mapFind D.transitions ⟨Q, a⟩ with
    | none => none
    | some R => dfaRun D R w

/-- The DFA accepts the word: the run from the start subset ends in a subset whose index
is in the accept-index set. -/
def dfaAccepts (D : DFA) (w : List Char) : Bool :=
  match dfaRun D D.initialState w with
  | none => false
  | some Q => decide (getIndexForState D Q ∈ D.finalStates)

/-- The number of transitions whose target is outside `closure`. -/
def outsideCount (T : NTransitions) (closure : List Int) : Nat :=
  T.countP (fun e => decide (e.2 ∉ closure))

/-- The subset the worklist loop of `NDtoD` computes for the subset `Q` and the symbol
`a` (its local `epsilonClosureSet`): the ε-closure of `move(Q, a)`. -/
def subsetStep (N : NDFA) (Q : List Int) (a : Char) : List Int :=
  epsilonClosure N (nextStateSet N Q a)

/-- The states a subset built by `NDtoD` can hold: the start state and the targets of
the transitions. -/
def stateUniverse (N : NDFA) : List Int :=
  N.initialState :: N.transitions.map Prod.snd

/-- What holds of every subset in the state list of `NDtoD`: it is in ascending order
(a `std::set`), it is not empty, its members are states of the NFA, and it is closed
under ε-transitions. -/
structure GoodSubset (N : NDFA) (Q : List Int) : Prop where
  sorted : Q.Sorted (· < ·)
  nonempty : Q ≠ []
  inUniverse : ∀ x ∈ Q, x ∈ stateUniverse N
  closed : ∀ x ∈ Q, ∀ y, EpsStep N.transitions x y → y ∈ Q

/-- The invariant of the worklist loop of `NDtoD`. `pre` holds the subsets taken from
the queue so far and `P Q a` says that the symbol `a` has been handled for the subset
`Q`. -/
structure WorklistInv (N : NDFA) (A : List Char) (pre : List (List Int))
    (P : List Int → Char → Prop) (w : Worklist) : Prop where
  states : w.DFA.allStates = pre ++ w.stateQueue
  visited : ∀ Q, Q ∈ w.visitedStates ↔ Q ∈ w.DFA.allStates
  nodup : w.DFA.allStates.Nodup
  good : ∀ Q ∈ w.DFA.allStates, GoodSubset N Q
  initial : w.DFA.initialState = epsilonClosure N (setInsert N.initialState [])
  initialMem : w.DFA.initialState ∈ w.DFA.allStates
  trans : ∀ e ∈ w.transitions, e.2 = subsetStep N e.1.state e.1.symbol ∧ e.2 ≠ [] ∧
    e.1.symbol ∈ A ∧ e.1.state ∈ w.DFA.allStates ∧ e.2 ∈ w.DFA.allStates
  keys : (w.transitions.map Prod.fst).Nodup
  complete : ∀ Q a, P Q a → subsetStep N Q a ≠ [] →
    ∃ R, ((⟨Q, a⟩, R) : Key (List Int) × List Int) ∈ w.transitions

/-- The NFA `0 --a--> 1 --ε--> 2 --b--> 3` over `{a, b}`, start 0, accept 3. -/
def nfa_ab : NDFA where
  initialState := 0
  finalStates := 3
  alphabet := ['*', 'a', 'b']
  transitions := [(⟨0, 'a'⟩, 1), (⟨1, '*'⟩, 2), (⟨2, 'b'⟩, 3)]
  allStates := [0, 1, 2, 3]

/-- The nodes of a tree in post-order: left subtree, right subtree, node. -/
def AST.postorder : AST → List AST
  | .null => []
  | .node character left right =>
    left.postorder ++ (right.postorder ++ [.node character left right])

/-- A well-formed syntax tree over the alphabet `A`: a leaf carries a symbol of `A`, a
`*` node has only a left child, a `.` or `|` node has both children. -/
def AST.WellFormed (A : List Char) : AST → Prop
  | .null => False
  | .node character left right =>
    (character ∈ A ∧ left = .null ∧ right = .null) ∨
    (character = '*' ∧ left.WellFormed A ∧ right = .null) ∨
    ((character = '.' ∨ character = '|') ∧ left.WellFormed A ∧ right.WellFormed A)

/-- The language a syntax tree denotes: `*` is zero or more repetitions of the left
operand, `.` the concatenation of left then right, `|` the union, and a node with any
other character `c` the single word `c`. -/
def AST.language : AST → Language Char
  | .null => 0
  | .node character left right =>
    if character = '*' then KStar.kstar left.language
    else if character = '.' then left.language * right.language
    else if character = '|' then left.language + right.language
    else {[character]}

/-- The number of transitions of `m` that leave the key `k`. -/
def outCount (m : NTransitions) (k : Key Int) : Nat :=
  (equalRange m k).length

/-- What holds of every NFA the Thompson construction builds with the states
`lo, …, hi - 1`: all its states lie in that range and no transition leaves its accept
state. -/
structure ThompsonShape (A : NDFA) (lo hi : Int) : Prop where
  range : ∀ e ∈ A.transitions, lo ≤ e.1.state ∧ e.1.state < hi ∧ lo ≤ e.2 ∧ e.2 < hi
  start : lo ≤ A.initialState ∧ A.initialState < hi
  final : lo ≤ A.finalStates ∧ A.finalStates < hi
  finalOut : ∀ e ∈ A.transitions, e.1.state ≠ A.finalStates

/-- Every state id an NFA mentions: its start state, its accept state, the entries of
its state list, and the sources and the targets of its transitions. -/
def Automaton.stateIds (A : NDFA) : List Int :=
  A.initialState :: A.finalStates ::
    (A.allStates ++ (A.transitions.map (fun e => e.1.state) ++ A.transitions.map Prod.snd))

/-- The method `addTransition` with the object made explicit: the automaton after the
call, and `ok` when the call returns or the exception it throws. Both `throw`
statements of the source are reached before anything is stored. -/
def Automaton.addTransitionState (a : NDFA) (stateInReading : Int) (inputAlpha : Char)
    (toState : Int) : NDFA × Except Error Unit :=
  let starCount := (equalRange a.transitions ⟨stateInReading, '*'⟩).length
  if inputAlpha = '*' then
    if starCount < 2 then
      ({ a with transitions := mmInsert (⟨stateInReading, inputAlpha⟩, toState) a.transitions },
        .ok ())
    else (a, .error .transitionsNumber)
  else
    let count := (equalRange a.transitions ⟨stateInReading, inputAlpha⟩).length
    if count = 0 then
      ({ a with transitions := mmInsert (⟨stateInReading, inputAlpha⟩, toState) a.transitions },
        .ok ())
    else (a, .error .transitionsNumber)

/-- The number of transitions that leave the state `x` on a symbol other than ε. -/
def symOut (T : NTransitions) (x : Int) : Nat :=
  T.countP (fun e => decide (e.1.state = x ∧ e.1.symbol ≠ epsilon))

/-- The number of ε-transitions that leave the state `x`. -/
def epsOut (T : NTransitions) (x : Int) : Nat :=
  T.countP (fun e => decide (e.1.state = x ∧ e.1.symbol = epsilon))

/-- The Thompson invariant on the out-degree of a state: at most one transition on a
symbol other than ε and no ε-transition, or at most two ε-transitions and no other
transition. -/
def ThompsonDegree (T : NTransitions) (x : Int) : Prop :=
  (symOut T x ≤ 1 ∧ epsOut T x = 0) ∨ (epsOut T x ≤ 2 ∧ symOut T x = 0)

/-- What `main` of `ERtoND.cpp` computes from the regex it has read: the tree of the
blank-stripped expression, then its NFA. -/
def ERtoND.main (regex : Regex) : Except Error NDFA :=
  match buildSyntaxTree regex (removeblank regex.expression) with
  | .error e => .error e
  | .ok ast => REtoND ast regex

/-- The NFA `0 --a--> 1`, start 0, accept 1: the symbol machine of `a` at counter 0. -/
def machine_a : NDFA where
  initialState := 0
  finalStates := 1
  alphabet := ['*', 'a']
  transitions := [(⟨0, 'a'⟩, 1)]
  allStates := [0, 1]

/-- The NFA `2 --b--> 3`, start 2, accept 3: the symbol machine of `b` at counter 2. -/
def machine_b : NDFA where
  initialState := 2
  finalStates := 3
  alphabet := ['*', 'b']
  transitions := [(⟨2, 'b'⟩, 3)]
  allStates := [2, 3]

/-- The regex input with alphabet `{a, b}` and the bare text `.(a)(b)`. -/
def regex_ab_bare : Regex where
  alphabet := ['a', 'b']
  expression := ['.', '(', 'a', ')', '(', 'b', ')']

/-- The regex input with alphabet `{a, b}` and the text `(.(a)(b))`. -/
def regex_ab_wrapped : Regex where
  alphabet := ['a', 'b']
  expression := ['(', '.', '(', 'a', ')', '(', 'b', ')', ')']

/-- The syntax tree `Star(a)` of the regex `*(a)`. -/
def tree_star_a : AST :=
  .node '*' (.node 'a' .null .null) .null

/-- The syntax tree `Union(a, b)` of the regex `|(a)(b)`. -/
def tree_union_ab : AST :=
  .node '|' (.node 'a' .null .null) (.node 'b' .null .null)

/-- The NFA `REtoND` builds for `Star(a)` over `{a}`. -/
def nfa_star_a : NDFA where
  initialState := 2
  finalStates := 3
  alphabet := ['*', 'a']
  transitions := [(⟨0, 'a'⟩, 1), (⟨1, '*'⟩, 3), (⟨1, '*'⟩, 0), (⟨2, '*'⟩, 3), (⟨2, '*'⟩, 0)]
  allStates := [0, 1, 3, 2]

/-- The NFA `REtoND` builds for `Union(a, b)` over `{a, b}`. -/
def nfa_union_ab : NDFA where
  initialState := 4
  finalStates := 5
  alphabet := ['*', 'a', 'b']
  transitions := [(⟨0, 'a'⟩, 1), (⟨1, '*'⟩, 5), (⟨2, 'b'⟩, 3), (⟨3, '*'⟩, 5), (⟨4, '*'⟩, 0),
    (⟨4, '*'⟩, 2)]
  allStates := [0, 1, 5, 2, 3, 4]

/-- The DFA `NDtoD` returns for `nfa_ab`: subsets `{0}`, `{1, 2}`, `{3}`. -/
def dfa_ab : DFA where
  initialState := [0]
  finalStates := [2]
  alphabet := ['a', 'b']
  transitions := [(⟨[0], 'a'⟩, [1, 2]), (⟨[1, 2], 'b'⟩, [3])]
  allStates := [[0], [1, 2], [3]]

/-- The DFA `NDtoD` returns for `nfa_star_a`: subsets `{0, 2, 3}` and `{0, 1, 3}`. -/
def dfa_star_a : DFA where
  initialState := [0, 2, 3]
  finalStates := [0, 1]
  alphabet := ['a']
  transitions := [(⟨[0, 1, 3], 'a'⟩, [0, 1, 3]), (⟨[0, 2, 3], 'a'⟩, [0, 1, 3])]
  allStates := [[0, 2, 3], [0, 1, 3]]

/-- The DFA `NDtoD` returns for `nfa_union_ab`: subsets `{0, 2, 4}`, `{1, 5}`, `{3, 5}`. -/
def dfa_union_ab : DFA where
  initialState := [0, 2, 4]
  finalStates := [1, 2]
  alphabet := ['a', 'b']
  transitions := [(⟨[0, 2, 4], 'a'⟩, [1, 5]), (⟨[0, 2, 4], 'b'⟩, [3, 5])]
  allStates := [[0, 2, 4], [1, 5], [3, 5]]

/-! ## Text streams

A file is its text, a `List Char` with `'\n'` ending each line. Reading follows the
flags of `std::istream`; writing appends to the text. Decimal numbers are unbounded. -/

/-- The state of a `std::istream`: the characters not yet read, `eofbit`, `failbit`. -/
structure IStream where
  buffer : List Char
  eofbit : Bool
  failbit : Bool
deriving DecidableEq, Repr

/-- A stream opened on a text. -/
def IStream.onText (text : List Char) : IStream :=
  { buffer := text, eofbit := false, failbit := false }

/-- The method `good()`: no flag is set. -/
def IStream.good (s : IStream) : Bool :=
  !s.eofbit && !s.failbit

/-- The characters before the first line feed and, when there is a line feed, the
characters behind it. -/
def splitLine : List Char → List Char × Option (List Char)
  | [] => ([], none)
  | c :: cs =>
    if c = '\n' then ([], some cs)
    else ((c :: (splitLine cs).1), (splitLine cs).2)

/-- The call `getline(stream, line)` on an empty `line`: the line read and the stream
afterwards. A stream that is not good only gets `failbit`; reaching the end of the text
sets `eofbit`, and `failbit` too when nothing was extracted. -/
def getline (s : IStream) : List Char × IStream :=
  if s.good then
    match splitLine s.buffer with
    | (line, some rest) => (line, { s with buffer := rest })
    | (line, none) => (line, { buffer := [], eofbit := true, failbit := line.isEmpty })
  else ([], { s with failbit := true })

/-- The call `stream.ignore(numeric_limits<streamsize>::max(), '\n')`. -/
def ignoreLine (s : IStream) : IStream :=
  if s.good then
    match splitLine s.buffer with
    | (_, some rest) => { s with buffer := rest }
    | (_, none) => { s with buffer := [], eofbit := true }
  else { s with failbit := true }

/-- The characters `isspace` accepts in the "C" locale. -/
def isSpace (c : Char) : Bool :=
  c = ' ' || c = '\t' || c = '\n' || c = '\x0b' || c = '\x0c' || c = '\r'

/-- The value of a run of decimal digits, most significant first. -/
def digitsValue (digits : List Char) : Nat :=
  digits.foldl (fun acc c => acc * 10 + (c.toNat - 48)) 0

/-- The extraction `stream >> n` for an `int n`: the value written to `n` (`none` when
`n` is left untouched) and the stream afterwards. White space is skipped, then an
optional sign and decimal digits are read; without a digit the extraction fails and
writes 0. -/
def extractInt (s : IStream) : Option Int × IStream :=
  if s.good then
    match s.buffer.dropWhile isSpace with
    | [] => (none, { buffer := [], eofbit := true, failbit := true })
    | c :: cs =>
      let field := if c = '-' ∨ c = '+' then cs else c :: cs
      let digits := field.takeWhile Char.isDigit
      let rest := field.dropWhile Char.isDigit
      if digits.isEmpty then
        (some 0, { buffer := rest, eofbit := rest.isEmpty, failbit := true })
      else
        (some (if c = '-' then -(digitsValue digits : Int) else (digitsValue digits : Int)),
          { buffer := rest, eofbit := rest.isEmpty, failbit := false })
  else (none, { s with failbit := true })

/-- The decimal digit of `d < 10`. -/
def digitChar (d : Nat) : Char :=
  ['0', '1', '2', '3', '4', '5', '6', '7', '8', '9'].getD d '0'

/-- The digits of `n` placed in front of `acc`, least significant digit first computed. -/
def printNatCore : Nat → Nat → List Char → List Char
  | 0, _, acc => acc
  | fuel + 1, n, acc =>
    if n / 10 = 0 then digitChar (n % 10) :: acc
    else printNatCore fuel (n / 10) (digitChar (n % 10) :: acc)

/-- The decimal text of a natural number. -/
def printNat (n : Nat) : List Char :=
  printNatCore (n + 1) n []

/-- The text `stream << n` appends for an `int n`. -/
def printInt (n : Int) : List Char :=
  if n < 0 then '-' :: printNat n.natAbs else printNat n.natAbs

/-! ## `automaton.cpp`: reading an NFA, writing a DFA -/

/-- The function `getValueAtIndex(set, index)`: the element at the 1-based `index`. -/
def getValueAtIndex {α : Type} (set : List α) (index : Nat) : Except Error α :=
  if 0 < index ∧ index ≤ set.length then
    match set[index - 1]? with
    | some value => .ok value
    | none => .error .outOfRange
  else .error .outOfRange

/-- The function `findStartState(transitions)`: the least source state that is no
target, `-1` when there is none. -/
def findStartState (transitions : NTransitions) : Int :=
  let stateStart := transitions.foldl (fun s entry => setInsert entry.1.state s) []
  let stateEnd := transitions.foldl (fun s entry => setInsert entry.2 s) []
  match stateStart.find? (fun value => decide (value ∉ stateEnd)) with
  | some value => value
  | none => -1

/-- The loop `while (lineStream >> toState)`: the values extracted, in order. -/
def readIntsLoop : Nat → IStream → List Int
  | 0, _ => []
  | fuel + 1, lineStream =>
    match extractInt lineStream with
    | (some toState, lineStream) =>
      if lineStream.failbit then [] else toState :: readIntsLoop fuel lineStream
    | (none, _) => []

/-- The values `while (lineStream >> toState)` extracts from `line`; every round that
does not stop consumes a character. -/
def readInts (line : List Char) : List Int :=
  readIntsLoop (line.length + 1) (IStream.onText line)

/-- The loop `for (int i = 1; i <= alphabet.size(); i++)` of `importNDFA`, over the
values of `i` still to come: one line is read per symbol. -/
def importNDFARow (alphabet : List Char) (stateInReading : Int) :
    List Nat → IStream × NTransitions → Except Error (IStream × NTransitions)
  | [], st => .ok st
  | i :: rest, (fi, transitions) =>
    let read := getline fi
    if read.1.isEmpty then importNDFARow alphabet stateInReading rest (read.2, transitions)
    else
      match getValueAtIndex alphabet i with
      | .error e => .error e
      | .ok inputAlpha =>
        importNDFARow alphabet stateInReading rest
          (read.2, (readInts read.1).foldl
            (fun m toState => mmInsert (⟨stateInReading, inputAlpha⟩, toState) m) transitions)

/-- The loop `while (!fi.eof())` of `importNDFA`; `none` when the rounds granted do not
reach the end of the file. -/
def importNDFALoop (alphabet : List Char) :
    Nat → IStream → NTransitions → Int → Option (Except Error NTransitions)
  | 0, _, _, _ => none
  | fuel + 1, fi, transitions, stateInReading =>
    if fi.eofbit then some (.ok transitions)
    else
      match importNDFARow alphabet stateInReading
          ((List.range alphabet.length).map (· + 1)) (fi, transitions) with
      | .error e => some (.error e)
      | .ok st => importNDFALoop alphabet fuel st.1 st.2 (stateInReading + 1)

/-- The function `importNDFA` on a file that opens, given by its text. The result is
`none` when the accept state is never written (the stream is already at its end) or
when the reading loop does not end: a stream with `failbit` and without `eofbit` never
gets `eofbit`. Otherwise every round of the loop reads a line or reaches the end, so
`text.length + 2` rounds are enough. -/
def importNDFA (text : List Char) : Option (Except Error NDFA) :=
  let first := getline (IStream.onText text)
  let alphabet := first.1.foldl
    (fun a character => if isSymbol character then setInsert character a else a)
    (setInsert epsilon [])
  let second := extractInt first.2
  let fi := ignoreLine second.2
  match second.1 with
  | none => none
  | some finalState =>
    match importNDFALoop alphabet (text.length + 2) fi [] 0 with
    | none => none
    | some (.error e) => some (.error e)
    | some (.ok transitions) =>
      let automaton : NDFA :=
        { initialState := findStartState transitions
          finalStates := finalState
          alphabet := alphabet
          transitions := transitions
          allStates := [] }
      some (.ok (transitions.foldl
        (fun a entry => (a.addState entry.1.state).addState entry.2) automaton))

/-- The function `writeOutputDFA` on a file that opens: the text written. -/
def writeOutputDFA (automaton : DFA) : List Char :=
  automaton.allStates.flatMap
      (fun subState => subState.flatMap (fun value => printInt value ++ [' ']) ++ ['\n']) ++
    (automaton.finalStates.flatMap (fun state => printInt state ++ [' ']) ++ ['\n']) ++
    automaton.allStates.flatMap (fun state =>
      automaton.alphabet.flatMap (fun symbol =>
        (if automaton.transitions.any (fun e => decide (¬ e.1 < ⟨state, symbol⟩)) then
          (equalRange automaton.transitions ⟨state, symbol⟩).flatMap
            (fun it => printInt (getIndexForState automaton it.2))
        else []) ++ ['\n']))

/-! ## `ERtoND.cpp`: writing an NFA -/

/-- The body of the inner loop of `writeOutputNDFA`: the line for the state `i` and the
symbol `symbol`. -/
def writeOutputNDFARow (transitions : NTransitions) (i : Int) (symbol : Char) : List Char :=
  if equalRange transitions ⟨i, symbol⟩ = [] then ['\n']
  else (equalRange transitions ⟨i, symbol⟩).flatMap (fun it => printInt it.2 ++ [' ']) ++ ['\n']

/-- The function `writeOutputNDFA` on a file that opens: the text written. -/
def writeOutputNDFA (automaton : NDFA) : List Char :=
  (automaton.alphabet.filter (fun c => decide (c ≠ epsilon))).flatMap
      (fun symbol => [symbol, ' ']) ++ ['\n'] ++
    (printInt automaton.finalStates ++ ['\n']) ++
    (List.range automaton.allStates.length).flatMap (fun i =>
      automaton.alphabet.flatMap (fun symbol =>
        writeOutputNDFARow automaton.transitions (i : Int) symbol))

/-- The NFA input of the example: alphabet `a`, accept state 1, and for state 0 the
target 1 on the ε row and on the `a` row. -/
def nfa_text_eps : List Char :=
  "a\n1\n1\n1\n\n\n".toList

/-- The text made of the given lines, each ended by a line feed. -/
def textOfLines (lines : List (List Char)) : List Char :=
  lines.flatMap (fun line => line ++ ['\n'])

/-- The line of the DFA output for the state `state` and the symbol `symbol`: the index
of the target when the transition map has the pair, nothing otherwise. -/
def dfaPairLine (D : DFA) (state : List Int) (symbol : Char) : List Char :=
  match mapFind D.transitions ⟨state, symbol⟩ with
  | some target => printInt (getIndexForState D target)
  | none => []

/-- The lines of the DFA output as the format describes them: one line per state with
the members of its subset, one line with the accept indices, one line per state and
symbol. -/
def dfaOutputLines (D : DFA) : List (List Char) :=
  D.allStates.map (fun subState => subState.flatMap (fun value => printInt value ++ [' '])) ++
    [D.finalStates.flatMap (fun state => printInt state ++ [' '])] ++
    D.allStates.flatMap (fun state => D.alphabet.map (fun symbol => dfaPairLine D state symbol))

/-- The entries of a transition container are in ascending key order (equal keys may
follow each other): the order a `std::multimap` keeps. -/
def KeySorted (T : NTransitions) : Prop :=
  T.Pairwise (fun a b => ¬ b.1 < a.1)

/-- The layout of an NFA the Thompson construction builds with the states `lo .. hi - 1`
over the alphabet `A`: the transitions are in key order, the alphabet is an ascending
set holding ε and otherwise symbols of `A`, every label is in the alphabet, the start
state has an outgoing and no incoming transition, every other state is the target of a
transition, and the state list holds exactly the states `lo .. hi - 1`, each once. -/
structure ThompsonLayout (A : List Char) (S : NDFA) (lo hi : Int) : Prop where
  sorted : KeySorted S.transitions
  alphabetSorted : S.alphabet.Pairwise (· < ·)
  epsilonMem : epsilon ∈ S.alphabet
  alphabetMem : ∀ c ∈ S.alphabet, c = epsilon ∨ c ∈ A
  symbolMem : ∀ e ∈ S.transitions, e.1.symbol ∈ S.alphabet
  startOut : ∃ e ∈ S.transitions, e.1.state = S.initialState
  startIn : ∀ e ∈ S.transitions, e.2 ≠ S.initialState
  targets : ∀ x : Int, lo ≤ x → x < hi → x ≠ S.initialState → ∃ e ∈ S.transitions, e.2 = x
  statesNodup : S.allStates.Nodup
  statesMem : ∀ x : Int, x ∈ S.allStates ↔ lo ≤ x ∧ x < hi

/-! ## `driver.cpp`: lowering the syntax tree to IR

The IR library (`LLVMContext`, `Module`, `IRBuilder`) is not part of the repository. Its
objects are modelled by what the lowering code does with them:
* a `Value*` is an `Option Value`, `none` being the null pointer; a function is named by
  the number it got when it was created, a basic block by its number;
* every call of the builder is recorded, in order, in `Driver.code` together with the
  place it inserts at; a call that is handed a null operand is recorded with it, what
  the library then does is outside the source;
* the name hints handed to the builder (`"addres"`, `"calltmp"`, ...) are left out;
* the symbol table `NamedValues` is a `std::map`, `operator[]` inserting a null entry
  for a key that is absent;
* what is printed on `std::cerr` and `std::cout` is recorded line by line. -/

/-- The bit pattern of a `double`: constants are passed on, no arithmetic is done. -/
abbrev Double := Nat

/-- A non-null `Value*`: a floating-point constant, a parameter of a function, a global
variable (by its position in the module), or the result of a recorded builder call. -/
inductive Value where
  | constant (Val : Double)
  | argument (function : Nat) (index : Nat)
  | global (index : Nat)
  | instruction (id : Nat)
deriving DecidableEq, Repr

/-- The two-operand instructions `BinaryExprAST::codegen` creates. -/
inductive BinaryKind where
  | FAdd | FSub | FMul | FDiv | FCmpULT | FCmpUGT | FCmpUEQ | LogicalAnd | LogicalOr
deriving DecidableEq, Repr

/-- A call of the builder, with its operands. -/
inductive Instr where
  | alloca (VarName : String)
  | store (Val : Option Value) (Ptr : Value)
  | load (Ptr : Value) (Name : String)
  | not (V : Value)
  | binary (kind : BinaryKind) (L R : Value)
  | call (Callee : Nat) (Args : List Value)
  | condBr (Cond : Value) (True False : Nat)
  | br (Dest : Nat)
  | phi (incoming : List (Value × Option Nat))
  | ret (V : Value)
deriving DecidableEq, Repr

/-- Where a builder call inserts: at the end of the builder's insertion block, or at the
beginning of the entry block of a function (`CreateEntryBlockAlloca`). -/
inductive Place where
  | block (BB : Option Nat)
  | entry (function : Option Nat)
deriving DecidableEq, Repr

/-- A function of the module. `renamed` says that the name was taken when the function
was created, so that the module knows it under another name. -/
structure Function where
  id : Nat
  Name : String
  Args : List String
  renamed : Bool
deriving DecidableEq, Repr

/-- A global variable of the module. -/
structure GlobalVariable where
  Name : String
  renamed : Bool
deriving DecidableEq, Repr

/-- A line on `std::cerr`: a message, or the text of a function or of a global variable
printed by the library. -/
inductive LogLine where
  | message (Str : String)
  | function (id : Nat)
  | global (index : Nat)
  | blank
deriving DecidableEq, Repr

/-- The object `drv` (its symbol table `NamedValues`) together with the global module,
builder and context: the functions and global variables of the module, the number of
functions created so far, the labels of the basic blocks created so far, the pairs
(function, block) in the order in which blocks were put into functions, the insertion
block of the builder, the recorded builder calls, the calls of `verifyFunction` with
their results, and the two output streams. -/
structure Driver where
  NamedValues : List (String × Option Value)
  functions : List Function
  functionCount : Nat
  globals : List GlobalVariable
  blocks : List String
  layout : List (Nat × Nat)
  insertBlock : Option Nat
  code : List (Place × Instr)
  verified : List (Nat × Bool)
  cerr : List LogLine
  cout : List String
deriving DecidableEq, Repr

/-- The state at program start: empty module, builder without insertion point. -/
def Driver.initial : Driver :=
  { NamedValues := [], functions := [], functionCount := 0, globals := [], blocks := [],
    layout := [], insertBlock := none, code := [], verified := [], cerr := [], cout := [] }

/-- The expression `m[Name]` on the symbol table: the value found and the table
afterwards, which has a null entry for `Name` when there was none. -/
def namedValuesAt (m : List (String × Option Value)) (Name : String) :
    Option Value × List (String × Option Value) :=
  match mapFind m Name with
  | some A => (A, m)
  | none => (none, mmInsert (Name, none) m)

/-- The assignment `m[Name] = A` on the symbol table. -/
def namedValuesSet (m : List (String × Option Value)) (Name : String) (A : Option Value) :
    List (String × Option Value) :=
  (namedValuesAt m Name).2.map (fun e => if e.1 = Name then (Name, A) else e)

/-- The function `LogErrorV`. -/
def Driver.LogErrorV (drv : Driver) (Str : String) : Option Value × Driver :=
  (none, { drv with cerr := drv.cerr ++ [.message Str] })

/-- A builder call that creates an instruction at the insertion block. -/
def Driver.emit (drv : Driver) (i : Instr) : Value × Driver :=
  (.instruction drv.code.length,
    { drv with code := drv.code ++ [(.block drv.insertBlock, i)] })

/-- The utility `CreateEntryBlockAlloca(fun, VarName)`. -/
def Driver.CreateEntryBlockAlloca (drv : Driver) (function : Option Nat) (VarName : String) :
    Value × Driver :=
  (.instruction drv.code.length,
    { drv with code := drv.code ++ [(.entry function, .alloca VarName)] })

/-- The call `module->getFunction(Name)`. -/
def Driver.getFunction (drv : Driver) (Name : String) : Option Function :=
  drv.functions.find? (fun f => decide (f.Name = Name) && !f.renamed)

/-- The call `module->getNamedGlobal(Name)`. -/
def Driver.getNamedGlobal (drv : Driver) (Name : String) : Option Value :=
  match drv.globals.findIdx? (fun g => decide (g.Name = Name) && !g.renamed) with
  | some index => some (.global index)
  | none => none

/-- The function a basic block has been put into, if any. -/
def Driver.getParent (drv : Driver) (BB : Nat) : Option Nat :=
  (drv.layout.find? (fun e => decide (e.2 = BB))).map Prod.fst

/-- The expression `builder->GetInsertBlock()->getParent()`. -/
def Driver.insertParent (drv : Driver) : Option Nat :=
  drv.insertBlock.bind drv.getParent

/-- The call `BasicBlock::Create(*context, label, parent)`; without `parent` the block
is in no function. -/
def Driver.createBlock (drv : Driver) (label : String) (parent : Option Nat) : Nat × Driver :=
  (drv.blocks.length,
    { drv with
      blocks := drv.blocks ++ [label]
      layout := match parent with
        | some function => drv.layout ++ [(function, drv.blocks.length)]
        | none => drv.layout })

/-- The call `fun->insert(fun->end(), BB)`. -/
def Driver.insertBlockInto (drv : Driver) (function : Option Nat) (BB : Nat) : Driver :=
  match function with
  | some function => { drv with layout := drv.layout ++ [(function, BB)] }
  | none => drv

/-- The call `builder->SetInsertPoint(BB)`. -/
def Driver.SetInsertPoint (drv : Driver) (BB : Nat) : Driver :=
  { drv with insertBlock := some BB }

/-- The instruction kind of an operator character in the `switch` of
`BinaryExprAST::codegen`; `none` is the `default` branch. -/
def binaryKind (Op : Char) : Option BinaryKind :=
  if Op = '+' then some .FAdd
  else if Op = '-' then some .FSub
  else if Op = '*' then some .FMul
  else if Op = '/' then some .FDiv
  else if Op = '<' then some .FCmpULT
  else if Op = '>' then some .FCmpUGT
  else if Op = '=' then some .FCmpUEQ
  else if Op = 'a' then some .LogicalAnd
  else if Op = 'o' then some .LogicalOr
  else none

/-- The value of `InitAST::getType()`. -/
inductive initType where
  | ASSIGNMENT | BINDING | INIT
deriving DecidableEq, Repr

mutual
/-- The classes derived from `ExprAST`. In `binary` with the operator `n` (unary not)
the field `LHS` is never read. -/
inductive ExprAST where
  | number (Val : Double)
  | variable (Name : String)
  | binary (Op : Char) (LHS RHS : ExprAST)
  | call (Callee : String) (Args : ExprList)
  | ifExpr (cond trueexp falseexp : ExprAST)
  | block (Def : InitList) (Stmts : StmtList)
/-- A `std::vector<ExprAST *>`. -/
inductive ExprList where
  | nil
  | cons (head : ExprAST) (tail : ExprList)
/-- The classes derived from `InitAST`: `VarBindingsAST` with and without (null `Val`)
an initial value, and `AssignmentExprAST`. -/
inductive InitAST where
  | varBinding (Name : String) (Val : ExprAST)
  | varBindingDefault (Name : String)
  | assignment (Name : String) (Val : ExprAST)
/-- A `std::vector<InitAST *>`. -/
inductive InitList where
  | nil
  | cons (head : InitAST) (tail : InitList)
/-- The classes derived from `StmtAST`: expressions, declarations and assignments,
`IfStmtAST` with and without (null `falseblock`) an else branch, and `ForStmtAST`,
whose `step` is an `AssignmentExprAST` given by its name and value. -/
inductive StmtAST where
  | expr (e : ExprAST)
  | init (i : InitAST)
  | ifStmt (cond : ExprAST) (trueblock falseblock : StmtAST)
  | ifStmtNoElse (cond : ExprAST) (trueblock : StmtAST)
  | forStmt (init : InitAST) (cond : ExprAST) (stepName : String) (stepVal : ExprAST)
      (body : StmtAST)
/-- A `std::vector<StmtAST *>`. -/
inductive StmtList where
  | nil
  | cons (head : StmtAST) (tail : StmtList)
end

/-- The method `size()` of a vector of expressions. -/
def ExprList.size : ExprList → Nat
  | .nil => 0
  | .cons _ tail => tail.size + 1

/-- The method `getName()` of the classes derived from `InitAST`. -/
def InitAST.getName : InitAST → String
  | .varBinding Name _ => Name
  | .varBindingDefault Name => Name
  | .assignment Name _ => Name

/-- The method `getType()` of the classes derived from `InitAST`. -/
def InitAST.getType : InitAST → initType
  | .varBinding _ _ => .BINDING
  | .varBindingDefault _ => .BINDING
  | .assignment _ _ => .ASSIGNMENT

/-- The names `Def[i]->getName()` of a vector of declarations, in order. -/
def InitList.names : InitList → List String
  | .nil => []
  | .cons head tail => head.getName :: tail.names

/-- The end of `AssignmentExprAST::codegen`, after the value has been lowered to
`boundval`: store into the local slot `Variable`, or into the global of that name. -/
def Driver.storeAssigned (drv : Driver) (Name : String) (Variable : Option Value)
    (boundval : Value) : Option Value × Driver :=
  match Variable with
  | none =>
    match drv.getNamedGlobal Name with
    | none => (none, drv)
    | some globVar => (some boundval, (drv.emit (.store (some boundval) globVar)).2)
  | some Variable => (some boundval, (drv.emit (.store (some boundval) Variable)).2)

/-- The last loop of `BlockAST::codegen`: `NamedValues[Def[i]->getName()] = tmp[i]`. -/
def Driver.restore (drv : Driver) (names : List String) (tmp : List (Option Value)) : Driver :=
  { drv with
    NamedValues := (names.zip tmp).foldl (fun m e => namedValuesSet m e.1 e.2) drv.NamedValues }

mutual
/-- The methods `codegen` of the classes derived from `ExprAST`. -/
def ExprAST.codegen : ExprAST → Driver → Option Value × Driver
  | .number Val, drv => (some (.constant Val), drv)
  | .variable Name, drv =>
    match (namedValuesAt drv.NamedValues Name).1 with
    | none =>
      match drv.getNamedGlobal Name with
      | none =>
        { drv with NamedValues := (namedValuesAt drv.NamedValues Name).2 }.LogErrorV
          ("undefined variable: " ++ Name)
      | some globVar =>
        (some ({ drv with NamedValues := (namedValuesAt drv.NamedValues Name).2 }.emit
            (.load globVar Name)).1,
          ({ drv with NamedValues := (namedValuesAt drv.NamedValues Name).2 }.emit
            (.load globVar Name)).2)
    | some A =>
      (some ({ drv with NamedValues := (namedValuesAt drv.NamedValues Name).2 }.emit
          (.load A Name)).1,
        ({ drv with NamedValues := (namedValuesAt drv.NamedValues Name).2 }.emit
          (.load A Name)).2)
  | .binary Op LHS RHS, drv =>
    if Op = 'n' then
      match RHS.codegen drv with
      | (none, drv) => (none, drv)
      | (some R, drv) => (some (drv.emit (.not R)).1, (drv.emit (.not R)).2)
    else
      match LHS.codegen drv with
      | (L, drv) =>
        match RHS.codegen drv with
        | (R, drv) =>
          match L, R with
          | some L, some R =>
            match binaryKind Op with
            | some kind => (some (drv.emit (.binary kind L R)).1, (drv.emit (.binary kind L R)).2)
            | none =>
              { drv with cout := drv.cout ++ [String.singleton Op] }.LogErrorV
                "binary operator not supported"
          | _, _ => (none, drv)
  | .call Callee Args, drv =>
    match drv.getFunction Callee with
    | none => drv.LogErrorV "undefined function"
    | some CalleeF =>
      if CalleeF.Args.length ≠ Args.size then drv.LogErrorV "incorrect number of arguments"
      else
        match Args.codegen [] drv with
        | (none, drv) => (none, drv)
        | (some ArgsV, drv) =>
          (some (drv.emit (.call CalleeF.id ArgsV)).1, (drv.emit (.call CalleeF.id ArgsV)).2)
  | .ifExpr cond trueexp falseexp, drv =>
    match cond.codegen drv with
    | (none, drv) => (none, drv)
    | (some CondV, drv) =>
      let function := drv.insertParent
      let TrueBB := drv.createBlock "trueblock" function
      let FalseBB := TrueBB.2.createBlock "falseblock" none
      let MergeBB := FalseBB.2.createBlock "mergeblock" none
      let drv := (MergeBB.2.emit (.condBr CondV TrueBB.1 FalseBB.1)).2
      match trueexp.codegen (drv.SetInsertPoint TrueBB.1) with
      | (none, drv) => (none, drv)
      | (some trueV, drv) =>
        let TrueEnd := drv.insertBlock
        let drv := ((drv.emit (.br MergeBB.1)).2.insertBlockInto function FalseBB.1)
        match falseexp.codegen (drv.SetInsertPoint FalseBB.1) with
        | (none, drv) => (none, drv)
        | (some falseV, drv) =>
          let FalseEnd := drv.insertBlock
          let drv := ((drv.emit (.br MergeBB.1)).2.insertBlockInto function MergeBB.1)
          let P := (drv.SetInsertPoint MergeBB.1).emit
            (.phi [(trueV, TrueEnd), (falseV, FalseEnd)])
          (some P.1, P.2)
  | .block Def Stmts, drv =>
    match Def.codegen [] drv with
    | (none, drv) => (none, drv)
    | (some tmp, drv) =>
      match Stmts.codegen none drv with
      | (none, drv) => (none, drv)
      | (some blockvalue, drv) => (blockvalue, drv.restore Def.names tmp)
/-- The loop over `Args` in `CallExprAST::codegen`; `ArgsV` holds the values lowered so
far and the result is `none` when an argument lowers to null. -/
def ExprList.codegen : ExprList → List Value → Driver → Option (List Value) × Driver
  | .nil, ArgsV, drv => (some ArgsV, drv)
  | .cons arg rest, ArgsV, drv =>
    match arg.codegen drv with
    | (none, drv) => (none, drv)
    | (some V, drv) => rest.codegen (ArgsV ++ [V]) drv
/-- The methods `VarBindingsAST::codegen` and `AssignmentExprAST::codegen`. -/
def InitAST.codegen : InitAST → Driver → Option Value × Driver
  | .varBinding Name Val, drv =>
    let function := drv.insertParent
    match Val.codegen drv with
    | (boundval, drv) =>
      let Alloca := drv.CreateEntryBlockAlloca function Name
      (some Alloca.1, (Alloca.2.emit (.store boundval Alloca.1)).2)
  | .varBindingDefault Name, drv =>
    let function := drv.insertParent
    let Alloca := drv.CreateEntryBlockAlloca function Name
    (some Alloca.1, (Alloca.2.emit (.store (some (.constant 0)) Alloca.1)).2)
  | .assignment Name Val, drv =>
    match Val.codegen { drv with NamedValues := (namedValuesAt drv.NamedValues Name).2 } with
    | (none, drv2) => (none, drv2)
    | (some boundval, drv2) =>
      drv2.storeAssigned Name (namedValuesAt drv.NamedValues Name).1 boundval
/-- The first loop of `BlockAST::codegen`; `tmp` holds the bindings saved so far and the
result is `none` when a declaration lowers to null. -/
def InitList.codegen : InitList → List (Option Value) → Driver →
    Option (List (Option Value)) × Driver
  | .nil, tmp, drv => (some tmp, drv)
  | .cons def_ rest, tmp, drv =>
    match def_.codegen drv with
    | (none, drv) => (none, drv)
    | (some boundval, drv) =>
      rest.codegen (tmp ++ [(namedValuesAt drv.NamedValues def_.getName).1])
        { drv with NamedValues := namedValuesSet drv.NamedValues def_.getName (some boundval) }
/-- The methods `codegen` of the classes derived from `StmtAST`. -/
def StmtAST.codegen : StmtAST → Driver → Option Value × Driver
  | .expr e, drv => e.codegen drv
  | .init i, drv => i.codegen drv
  | .ifStmt cond trueblock falseblock, drv =>
    match cond.codegen drv with
    | (none, drv) => (none, drv)
    | (some CondV, drv) =>
      let function := drv.insertParent
      let TrueBB := drv.createBlock "trueblock" function
      let FalseBB := TrueBB.2.createBlock "falseblock" none
      let MergeBB := FalseBB.2.createBlock "mergeblock" none
      let drv := (MergeBB.2.emit (.condBr CondV TrueBB.1 FalseBB.1)).2
      match trueblock.codegen (drv.SetInsertPoint TrueBB.1) with
      | (none, drv) => (none, drv)
      | (some _, drv) =>
        let TrueEnd := drv.insertBlock
        let drv := (drv.emit (.br MergeBB.1)).2
        match falseblock.codegen
            (((drv.SetInsertPoint FalseBB.1).insertBlockInto function FalseBB.1).SetInsertPoint
              FalseBB.1) with
        | (none, drv) => (none, drv)
        | (some _, drv) =>
          let FalseEnd := drv.insertBlock
          let drv := ((drv.emit (.br MergeBB.1)).2.insertBlockInto function MergeBB.1)
          let P := (drv.SetInsertPoint MergeBB.1).emit
            (.phi [(.constant 0, TrueEnd), (.constant 0, FalseEnd)])
          (some P.1, P.2)
  | .ifStmtNoElse cond trueblock, drv =>
    match cond.codegen drv with
    | (none, drv) => (none, drv)
    | (some CondV, drv) =>
      let function := drv.insertParent
      let TrueBB := drv.createBlock "trueblock" function
      let FalseBB := TrueBB.2.createBlock "falseblock" none
      let MergeBB := FalseBB.2.createBlock "mergeblock" none
      let drv := (MergeBB.2.emit (.condBr CondV TrueBB.1 FalseBB.1)).2
      match trueblock.codegen (drv.SetInsertPoint TrueBB.1) with
      | (none, drv) => (none, drv)
      | (some _, drv) =>
        let TrueEnd := drv.insertBlock
        let drv := (drv.emit (.br MergeBB.1)).2
        let drv := ((drv.SetInsertPoint FalseBB.1).insertBlockInto function
          FalseBB.1).SetInsertPoint FalseBB.1
        let drv := ((drv.emit (.br MergeBB.1)).2.insertBlockInto function MergeBB.1)
        let P := (drv.SetInsertPoint MergeBB.1).emit
          (.phi [(.constant 0, TrueEnd), (.constant 0, some FalseBB.1)])
        (some P.1, P.2)
  | .forStmt init cond stepName stepVal body, drv =>
    let function := drv.insertParent
    let InitBB := drv.createBlock "init" function
    let drv := (InitBB.2.emit (.br InitBB.1)).2
    let CondBB := drv.createBlock "cond" function
    let LoopBB := CondBB.2.createBlock "loop" function
    let EndLoop := LoopBB.2.createBlock "endloop" function
    match init.codegen (EndLoop.2.SetInsertPoint InitBB.1) with
    | (none, drv) => (none, drv)
    | (some initVal, drv) =>
      let oldVar := (namedValuesAt drv.NamedValues init.getName).1
      let drv :=
        if init.getType = .BINDING then
          { drv with NamedValues := namedValuesSet drv.NamedValues init.getName (some initVal) }
        else drv
      let drv := (drv.emit (.br CondBB.1)).2
      match cond.codegen (drv.SetInsertPoint CondBB.1) with
      | (none, drv) => (none, drv)
      | (some condVal, drv) =>
        let drv := (drv.emit (.condBr condVal LoopBB.1 EndLoop.1)).2
        match body.codegen (drv.SetInsertPoint LoopBB.1) with
        | (none, drv) => (none, drv)
        | (some _, drv) =>
          match stepVal.codegen
              { drv with NamedValues := (namedValuesAt drv.NamedValues stepName).2 } with
          | (none, drv2) => (none, drv2)
          | (some boundval, drv2) =>
            match drv2.storeAssigned stepName (namedValuesAt drv.NamedValues stepName).1
                boundval with
            | (none, drv) => (none, drv)
            | (some _, drv) =>
              let drv := (drv.emit (.br CondBB.1)).2
              let P := (drv.SetInsertPoint EndLoop.1).emit (.phi [(.constant 0, some CondBB.1)])
              (some P.1,
                if init.getType = .BINDING then
                  { P.2 with NamedValues := namedValuesSet P.2.NamedValues init.getName oldVar }
                else P.2)
/-- The second loop of `BlockAST::codegen`; `blockvalue` is the value of the last
statement lowered (`none` before the first, where the source has an uninitialised
pointer), and the result is `none` when a statement lowers to null. -/
def StmtList.codegen : StmtList → Option Value → Driver → Option (Option Value) × Driver
  | .nil, blockvalue, drv => (some blockvalue, drv)
  | .cons stmt rest, _, drv =>
    match stmt.codegen drv with
    | (none, drv) => (none, drv)
    | (some blockvalue, drv) => rest.codegen (some blockvalue) drv
end

/-- The class `PrototypeAST`. -/
structure PrototypeAST where
  Name : String
  Args : List String
  emitcode : Bool

/-- The class `FunctionAST`. -/
structure FunctionAST where
  Proto : PrototypeAST
  Body : ExprAST

/-- The name is in the symbol table of the module: a function or a global variable is
known under it. -/
def Driver.nameTaken (drv : Driver) (Name : String) : Bool :=
  drv.functions.any (fun f => decide (f.Name = Name) && !f.renamed) ||
    drv.globals.any (fun g => decide (g.Name = Name) && !g.renamed)

/-- The method `PrototypeAST::codegen`: `Function::Create` puts a new function into the
module, under another name when the name is taken; the declaration is printed when
`emitcode` is set. The result is never null. -/
def PrototypeAST.codegen (proto : PrototypeAST) (drv : Driver) : Nat × Driver :=
  (drv.functionCount,
    { drv with
      functions := drv.functions ++
        [{ id := drv.functionCount, Name := proto.Name, Args := proto.Args,
           renamed := drv.nameTaken proto.Name }]
      functionCount := drv.functionCount + 1
      cerr := if proto.emitcode then drv.cerr ++ [.function drv.functionCount, .blank]
        else drv.cerr })

/-- The loop over `function->args()` in `FunctionAST::codegen`, from the parameter with
the index `Idx` on: a slot in the entry block, a store of the parameter, an entry in
the symbol table. Parameter names are taken as the prototype gives them. -/
def bindArgs (function : Nat) : List String → Nat → Driver → Driver
  | [], _, drv => drv
  | Arg :: rest, Idx, drv =>
    let Alloca := drv.CreateEntryBlockAlloca (some function) Arg
    let drv := (Alloca.2.emit (.store (some (.argument function Idx)) Alloca.1)).2
    bindArgs function rest (Idx + 1)
      { drv with NamedValues := namedValuesSet drv.NamedValues Arg (some Alloca.1) }

/-- The call `function->eraseFromParent()`. -/
def Driver.eraseFromParent (drv : Driver) (function : Nat) : Driver :=
  { drv with functions := drv.functions.filter (fun f => decide (f.id ≠ function)) }

/-- The part of `FunctionAST::codegen` between the test of the name and the lowering of
the body: the prototype is emitted, the entry block is created and made the insertion
point, and the parameters are bound. The result is the function and the state in which
the body is lowered. -/
def FunctionAST.prologue (f : FunctionAST) (drv : Driver) : Nat × Driver :=
  let function := f.Proto.codegen drv
  let BB := function.2.createBlock "entry" (some function.1)
  (function.1, bindArgs function.1 f.Proto.Args 0 (BB.2.SetInsertPoint BB.1))

/-- The method `FunctionAST::codegen`; `verifyFunction` is the verifier of the library,
which reports `true` when the function is broken. Its result is not read. -/
def FunctionAST.codegen (verifyFunction : Driver → Nat → Bool) (f : FunctionAST)
    (drv : Driver) : Option Nat × Driver :=
  match drv.getFunction f.Proto.Name with
  | some _ => (none, drv)
  | none =>
    match f.Body.codegen (f.prologue drv).2 with
    | (some RetVal, drv2) =>
      (some (f.prologue drv).1,
        { (drv2.emit (.ret RetVal)).2 with
          verified := drv2.verified ++
            [((f.prologue drv).1, verifyFunction (drv2.emit (.ret RetVal)).2 (f.prologue drv).1)]
          cerr := drv2.cerr ++ [.function (f.prologue drv).1, .blank] })
    | (none, drv2) => (none, drv2.eraseFromParent (f.prologue drv).1)

/-- The method `GlobalVariableAST::codegen`. -/
def GlobalVariableAST.codegen (Name : String) (drv : Driver) : Option Value × Driver :=
  (some (.global drv.globals.length),
    { drv with
      globals := drv.globals ++ [{ Name := Name, renamed := drv.nameTaken Name }]
      cerr := drv.cerr ++ [.global drv.globals.length, .blank] })

/-! ## Definitions used to state the properties of the lowering -/

/-- The slot a name has in the symbol table: what `NamedValues[x]` gives, a null entry
counting like no entry. -/
def Driver.lookup (drv : Driver) (x : String) : Option Value :=
  (namedValuesAt drv.NamedValues x).1

/-- The part of the state that belongs to the module and the verifier: the functions,
the number of functions created, the global variables, the verifier calls. -/
def Driver.module (drv : Driver) :
    List Function × Nat × List GlobalVariable × List (Nat × Bool) :=
  (drv.functions, drv.functionCount, drv.globals, drv.verified)

/-- The elements of a vector of expressions. -/
def ExprList.toList : ExprList → List ExprAST
  | .nil => []
  | .cons head tail => head :: tail.toList

/-- The elements of a vector of declarations. -/
def InitList.toList : InitList → List InitAST
  | .nil => []
  | .cons head tail => head :: tail.toList

/-- The elements of a vector of statements. -/
def StmtList.toList : StmtList → List StmtAST
  | .nil => []
  | .cons head tail => head :: tail.toList

/-- Lowering a list of expressions from left to right: the values in order, or null
with the state reached at the first expression that lowers to null. -/
def lowerInOrder : List ExprAST → Driver → Option (List Value) × Driver
  | [], drv => (some [], drv)
  | arg :: rest, drv =>
    match arg.codegen drv with
    | (none, drv) => (none, drv)
    | (some V, drv) =>
      match lowerInOrder rest drv with
      | (none, drv) => (none, drv)
      | (some Vs, drv) => (some (V :: Vs), drv)

/-- An expression built from numbers, variable references and operators only. -/
inductive ExprAST.Pure : ExprAST → Prop where
  | number (Val : Double) : ExprAST.Pure (.number Val)
  | reference (Name : String) : ExprAST.Pure (.variable Name)
  | binary (Op : Char) (LHS RHS : ExprAST) : ExprAST.Pure LHS → ExprAST.Pure RHS →
      ExprAST.Pure (.binary Op LHS RHS)

/-- The expression, built from numbers, references and operators, references the name
`y` in an operand that is lowered (the left operand of the unary `n` is not). -/
inductive ExprAST.Refers (y : String) : ExprAST → Prop where
  | reference : ExprAST.Refers y (.variable y)
  | lhs (Op : Char) (LHS RHS : ExprAST) : Op ≠ 'n' → ExprAST.Refers y LHS →
      ExprAST.Refers y (.binary Op LHS RHS)
  | rhs (Op : Char) (LHS RHS : ExprAST) : ExprAST.Refers y RHS →
      ExprAST.Refers y (.binary Op LHS RHS)

/-- A lowering step leaves every lookup in the symbol table as it found it. -/
def KeepsLookups {α : Type} (step : Driver → α × Driver) : Prop :=
  ∀ (drv : Driver) (x : String), (step drv).2.lookup x = drv.lookup x

/-- The function `def f(y) y`. -/
def function_f_y : FunctionAST :=
  { Proto := { Name := "f", Args := ["y"], emitcode := true }, Body := .variable "y" }

/-- The function `def f(x) x`. -/
def function_f_x : FunctionAST :=
  { Proto := { Name := "f", Args := ["x"], emitcode := true }, Body := .variable "x" }

/-- The prototype `extern f(x)`. -/
def prototype_f : PrototypeAST :=
  { Name := "f", Args := ["x"], emitcode := true }

/-- The block `{ var x = 1; h() }`: one declaration and a call of `h` as statement. -/
def block_x_then_call : ExprAST :=
  .block (.cons (.varBinding "x" (.number 1)) .nil) (.cons (.expr (.call "h" .nil)) .nil)

/-- The block `{ var x = { var x = 1; h() }; 1 }`: the initial value of the outer `x` is
a block that lowers to null after it has bound its own `x`. -/
def block_nested_null : ExprAST :=
  .block (.cons (.varBinding "x" block_x_then_call) .nil) (.cons (.expr (.number 1)) .nil)

/-- The state in which the body of a function `def main()` is lowered at program start:
the function is in the module and its entry block is the insertion point. -/
def state_in_main : Driver :=
  (FunctionAST.prologue
    { Proto := { Name := "main", Args := [], emitcode := true }, Body := .number 0 }
    Driver.initial).2

/-- A verifier that reports every function as broken. -/
def verifier_rejects : Driver → Nat → Bool :=
  fun _ _ => true

/-- A verifier that accepts every function. -/
def verifier_accepts : Driver → Nat → Bool :=
  fun _ _ => false

/-! ## Further definitions used to state the properties -/

/-- The set `move(Q, a)`: the targets of the transitions labelled `a` that leave a state
of `Q`, as an ascending set. -/
def move (N : NDFA) (Q : List Int) (a : Char) : List Int :=
  setInsertRange [] (Q.flatMap (fun q => (equalRange N.transitions ⟨q, a⟩).map Prod.snd))

/-- An NFA with the ε-cycle `0 --ε--> 1 --ε--> 0`. -/
def nfa_eps_cycle : NDFA where
  initialState := 0
  finalStates := 1
  alphabet := ['*']
  transitions := [(⟨0, '*'⟩, 1), (⟨1, '*'⟩, 0)]
  allStates := [0, 1]

/-- Every subset of the list after the first is the target of a transition of `T` whose
source stands earlier in the list. -/
def DiscoveryOrder (T : DTransitions) (L : List (List Int)) : Prop :=
  ∀ (j : Nat) (R : List Int), 0 < j → L[j]? = some R →
    ∃ (i : Nat) (Q : List Int) (a : Char), i < j ∧ L[i]? = some Q ∧
      ((⟨Q, a⟩, R) : Key (List Int) × List Int) ∈ T

/-- The subsets the `while` loop of `NDtoD` takes from the queue, in the order in which
it takes them; the loop is that of `NDtoDLoop`. -/
def NDtoDPopped (NDFA : NDFA) (alphabet : List Char) : Nat → Worklist → List (List Int)
  | 0, _ => []
  | fuel + 1, w =>
    match w.stateQueue with
    | [] => []
    | currentStateSet :: rest =>
      currentStateSet :: NDtoDPopped NDFA alphabet fuel
        (alphabet.foldl (NDtoDSymbol NDFA currentStateSet) { w with stateQueue := rest })

/-- The number of leaves of a syntax tree: the nodes without children. -/
def AST.leaves : AST → Nat
  | .null => 0
  | .node _ .null .null => 1
  | .node _ left right => left.leaves + right.leaves

/-- The number of nodes with a child that carry the character `op`. -/
def AST.operatorNodes (op : Char) : AST → Nat
  | .null => 0
  | .node _ .null .null => 0
  | .node character left right =>
    (if character = op then 1 else 0) + left.operatorNodes op + right.operatorNodes op

/-- The number of states of the Thompson NFA of a tree: two for every leaf, every `*`
node and every `|` node. -/
def AST.thompsonStates (t : AST) : Nat :=
  2 * (t.leaves + t.operatorNodes '*' + t.operatorNodes '|')

/-- The builder call was handed a null value. In the lowering code only the
`CreateStore` of `VarBindingsAST::codegen` is called with a value that has not been
tested. -/
def Instr.nullOperand : Instr → Bool
  | .store none _ => true
  | _ => false

/-- Some builder call recorded in the state was handed a null value. The library does
not return from such a call, so a run of the program has come this far only when this
is `false`. -/
def Driver.nullOperand (drv : Driver) : Bool :=
  drv.code.any (fun p => p.2.nullOperand)

mutual
/-- Every Block in the expression declares pairwise distinct names, the invariant the
specification states for the syntax tree. -/
def ExprAST.distinctNames : ExprAST → Bool
  | .number _ => true
  | .variable _ => true
  | .binary _ LHS RHS => LHS.distinctNames && RHS.distinctNames
  | .call _ Args => Args.distinctNames
  | .ifExpr cond trueexp falseexp =>
    cond.distinctNames && (trueexp.distinctNames && falseexp.distinctNames)
  | .block Def Stmts =>
    decide Def.names.Nodup && (Def.distinctNames && Stmts.distinctNames)
/-- Every Block in the arguments declares pairwise distinct names. -/
def ExprList.distinctNames : ExprList → Bool
  | .nil => true
  | .cons arg rest => arg.distinctNames && rest.distinctNames
/-- Every Block in the value of the declaration or assignment declares pairwise distinct
names. -/
def InitAST.distinctNames : InitAST → Bool
  | .varBinding _ Val => Val.distinctNames
  | .varBindingDefault _ => true
  | .assignment _ Val => Val.distinctNames
/-- Every Block in the values of the declarations declares pairwise distinct names; the
names of the declarations themselves are not compared here. -/
def InitList.distinctNames : InitList → Bool
  | .nil => true
  | .cons def_ rest => def_.distinctNames && rest.distinctNames
/-- Every Block in the statement declares pairwise distinct names. -/
def StmtAST.distinctNames : StmtAST → Bool
  | .expr e => e.distinctNames
  | .init i => i.distinctNames
  | .ifStmt cond trueblock falseblock =>
    cond.distinctNames && (trueblock.distinctNames && falseblock.distinctNames)
  | .ifStmtNoElse cond trueblock => cond.distinctNames && trueblock.distinctNames
  | .forStmt init cond _ stepVal body =>
    init.distinctNames && (cond.distinctNames && (stepVal.distinctNames && body.distinctNames))
/-- Every Block in the statements declares pairwise distinct names. -/
def StmtList.distinctNames : StmtList → Bool
  | .nil => true
  | .cons stmt rest => stmt.distinctNames && rest.distinctNames
end

/-- A lowering step that leaves every lookup in the symbol table as it found it whenever
it returns a value and no builder call has been handed a null value. -/
def KeepsLookupsOnSuccess {α : Type} (step : Driver → Option α × Driver) : Prop :=
  ∀ drv : Driver, (step drv).1 ≠ none → (step drv).2.nullOperand = false →
    ∀ x : String, (step drv).2.lookup x = drv.lookup x

mutual
/-- Lowering the expression in the state `drv` comes to lower a reference to `y` at a
point where `y` has no slot in the symbol table and names no global variable. The
states are those `ExprAST.codegen` passes on: a part is looked at when the parts
lowered before it have lowered to a value (both operands of a binary operator are
always lowered). -/
def ExprAST.reaches (y : String) : ExprAST → Driver → Bool
  | .number _, _ => false
  | .variable Name, drv =>
    decide (Name = y) && ((drv.lookup y).isNone && (drv.getNamedGlobal y).isNone)
  | .binary Op LHS RHS, drv =>
    if Op = 'n' then RHS.reaches y drv
    else LHS.reaches y drv || RHS.reaches y (LHS.codegen drv).2
  | .call Callee Args, drv =>
    match drv.getFunction Callee with
    | none => false
    | some CalleeF =>
      if CalleeF.Args.length ≠ Args.size then false else Args.reaches y drv
  | .ifExpr cond trueexp falseexp, drv =>
    cond.reaches y drv ||
    match cond.codegen drv with
    | (none, _) => false
    | (some CondV, drv) =>
      let function := drv.insertParent
      let TrueBB := drv.createBlock "trueblock" function
      let FalseBB := TrueBB.2.createBlock "falseblock" none
      let MergeBB := FalseBB.2.createBlock "mergeblock" none
      let drv := (MergeBB.2.emit (.condBr CondV TrueBB.1 FalseBB.1)).2
      trueexp.reaches y (drv.SetInsertPoint TrueBB.1) ||
      match trueexp.codegen (drv.SetInsertPoint TrueBB.1) with
      | (none, _) => false
      | (some _, drv) =>
        let drv := ((drv.emit (.br MergeBB.1)).2.insertBlockInto function FalseBB.1)
        falseexp.reaches y (drv.SetInsertPoint FalseBB.1)
  | .block Def Stmts, drv =>
    Def.reaches y drv ||
    match Def.codegen [] drv with
    | (none, _) => false
    | (some _, drv) => Stmts.reaches y drv
/-- The loop over the arguments of a call comes to lower such a reference to `y`. -/
def ExprList.reaches (y : String) : ExprList → Driver → Bool
  | .nil, _ => false
  | .cons arg rest, drv =>
    arg.reaches y drv ||
    match arg.codegen drv with
    | (none, _) => false
    | (some _, drv) => rest.reaches y drv
/-- Lowering the assignment comes to lower such a reference to `y`. The initial value of
a `VarBinding` is left out: `VarBindingsAST::codegen` does not test the value and hands
it to the builder. -/
def InitAST.reaches (y : String) : InitAST → Driver → Bool
  | .varBinding _ _, _ => false
  | .varBindingDefault _, _ => false
  | .assignment Name Val, drv =>
    Val.reaches y { drv with NamedValues := (namedValuesAt drv.NamedValues Name).2 }
/-- The first loop of a block comes to lower such a reference to `y`. -/
def InitList.reaches (y : String) : InitList → Driver → Bool
  | .nil, _ => false
  | .cons def_ rest, drv =>
    def_.reaches y drv ||
    match def_.codegen drv with
    | (none, _) => false
    | (some boundval, drv) =>
      rest.reaches y
        { drv with NamedValues := namedValuesSet drv.NamedValues def_.getName (some boundval) }
/-- Lowering the statement comes to lower such a reference to `y`. -/
def StmtAST.reaches (y : String) : StmtAST → Driver → Bool
  | .expr e, drv => e.reaches y drv
  | .init i, drv => i.reaches y drv
  | .ifStmt cond trueblock falseblock, drv =>
    cond.reaches y drv ||
    match cond.codegen drv with
    | (none, _) => false
    | (some CondV, drv) =>
      let function := drv.insertParent
      let TrueBB := drv.createBlock "trueblock" function
      let FalseBB := TrueBB.2.createBlock "falseblock" none
      let MergeBB := FalseBB.2.createBlock "mergeblock" none
      let drv := (MergeBB.2.emit (.condBr CondV TrueBB.1 FalseBB.1)).2
      trueblock.reaches y (drv.SetInsertPoint TrueBB.1) ||
      match trueblock.codegen (drv.SetInsertPoint TrueBB.1) with
      | (none, _) => false
      | (some _, drv) =>
        let drv := (drv.emit (.br MergeBB.1)).2
        falseblock.reaches y
          (((drv.SetInsertPoint FalseBB.1).insertBlockInto function FalseBB.1).SetInsertPoint
            FalseBB.1)
  | .ifStmtNoElse cond trueblock, drv =>
    cond.reaches y drv ||
    match cond.codegen drv with
    | (none, _) => false
    | (some CondV, drv) =>
      let function := drv.insertParent
      let TrueBB := drv.createBlock "trueblock" function
      let FalseBB := TrueBB.2.createBlock "falseblock" none
      let MergeBB := FalseBB.2.createBlock "mergeblock" none
      let drv := (MergeBB.2.emit (.condBr CondV TrueBB.1 FalseBB.1)).2
      trueblock.reaches y (drv.SetInsertPoint TrueBB.1)
  | .forStmt init cond stepName stepVal body, drv =>
    let function := drv.insertParent
    let InitBB := drv.createBlock "init" function
    let drv := (InitBB.2.emit (.br InitBB.1)).2
    let CondBB := drv.createBlock "cond" function
    let LoopBB := CondBB.2.createBlock "loop" function
    let EndLoop := LoopBB.2.createBlock "endloop" function
    init.reaches y (EndLoop.2.SetInsertPoint InitBB.1) ||
    match init.codegen (EndLoop.2.SetInsertPoint InitBB.1) with
    | (none, _) => false
    | (some initVal, drv) =>
      let drv :=
        if init.getType = .BINDING then
          { drv with NamedValues := namedValuesSet drv.NamedValues init.getName (some initVal) }
        else drv
      let drv := (drv.emit (.br CondBB.1)).2
      cond.reaches y (drv.SetInsertPoint CondBB.1) ||
      match cond.codegen (drv.SetInsertPoint CondBB.1) with
      | (none, _) => false
      | (some condVal, drv) =>
        let drv := (drv.emit (.condBr condVal LoopBB.1 EndLoop.1)).2
        body.reaches y (drv.SetInsertPoint LoopBB.1) ||
        match body.codegen (drv.SetInsertPoint LoopBB.1) with
        | (none, _) => false
        | (some _, drv) =>
          stepVal.reaches y
            { drv with NamedValues := (namedValuesAt drv.NamedValues stepName).2 }
/-- The second loop of a block comes to lower such a reference to `y`. -/
def StmtList.reaches (y : String) : StmtList → Driver → Bool
  | .nil, _ => false
  | .cons stmt rest, drv =>
    stmt.reaches y drv ||
    match stmt.codegen drv with
    | (none, _) => false
    | (some _, drv) => rest.reaches y drv
end

/-- The block `{ var x = 1; { var x = 2; x } }`: a block nested in a block, each with
one declaration. -/
def block_nested_x : ExprAST :=
  .block (.cons (.varBinding "x" (.number 1)) .nil)
    (.cons (.expr (.block (.cons (.varBinding "x" (.number 2)) .nil)
      (.cons (.expr (.variable "x")) .nil))) .nil)

/-- The statement `for (var x = 0; x < 1; x = x + 1) x`. -/
def for_x : StmtAST :=
  .forStmt (.varBinding "x" (.number 0)) (.binary '<' (.variable "x") (.number 1))
    "x" (.binary '+' (.variable "x") (.number 1)) (.expr (.variable "x"))

/-- The state `d2` holds every recorded builder call and every line of the log that the
state `d1` holds: the lowering only adds to them. -/
def Driver.Grows (d1 d2 : Driver) : Prop :=
  (∀ p ∈ d1.code, p ∈ d2.code) ∧ (∀ l ∈ d1.cerr, l ∈ d2.cerr)

/-! ## Lemmas on the parser -/

theorem substr_length_le (S : List Char) (pos len : Nat) (r : List Char)
    (h : substr S pos len = .ok r) : r.length ≤ S.length - pos := by
  unfold substr at h
  split at h
  · cases h
  · cases h
    simp only [List.length_take, List.length_drop]
    omega

theorem stringAt_ok_lt (S : List Char) (pos : Nat) (c : Char)
    (h : stringAt S pos = .ok c) : pos < S.length := by
  unfold stringAt at h
  split at h
  · rename_i c1 hc
    exact (List.get?_eq_some.mp hc).1
  · cases h

theorem buildSyntaxTreeBody_congr (regex : Regex) (f g : List Char → Except Error AST)
    (s : List Char) (h : ∀ r : List Char, r.length < s.length → f r = g r) :
    buildSyntaxTreeBody regex f s = buildSyntaxTreeBody regex g s := by
  unfold buildSyntaxTreeBody
  simp only
  split
  · rfl
  · split
    · rfl
    · rename_i op hop
      have hlen := stringAt_ok_lt s 1 op hop
      split
      · rfl
      · split
        · rfl
        · rename_i stopIndex _
          split
          · rfl
          · rename_i leftRegex hl
            have h1 := substr_length_le _ _ _ _ hl
            have hfl : f leftRegex = g leftRegex := h _ (by omega)
            split
            · rw [hfl]
            · split
              · rfl
              · split
                · rfl
                · rename_i rightRegex hr
                  have h2 := substr_length_le _ _ _ _ hr
                  have hfr : f rightRegex = g rightRegex := h _ (by omega)
                  rw [hfl, hfr]

theorem buildSyntaxTreeFuel_stable (regex : Regex) :
    ∀ (n m : Nat) (s : List Char), s.length < n → s.length < m →
      buildSyntaxTreeFuel regex n s = buildSyntaxTreeFuel regex m s := by
  intro n
  induction n with
  | zero => intro m s h; omega
  | succ n ih =>
    intro m s hn hm
    cases m with
    | zero => omega
    | succ m =>
      simp only [buildSyntaxTreeFuel]
      apply buildSyntaxTreeBody_congr
      intro r hr
      exact ih m r (by omega) (by omega)

theorem buildSyntaxTree_eq (regex : Regex) (s : List Char) :
    buildSyntaxTree regex s = buildSyntaxTreeBody regex (buildSyntaxTree regex) s := by
  unfold buildSyntaxTree
  simp only [buildSyntaxTreeFuel]
  apply buildSyntaxTreeBody_congr
  intro r hr
  exact buildSyntaxTreeFuel_stable regex s.length (r.length + 1) r hr (by omega)

theorem stringAt_eq (S : List Char) (pos : Nat) :
    stringAt S pos = match S.get? pos with
      | some c => .ok c
      | none => .error .outOfRange := rfl

/-- C7: a text of length 1 or 3 is parsed as a leaf over the character at position
`max(0, len - 2)`, or rejected with `unknownSymbol` when the alphabet lacks that
character; any other text of length 1 or 3 with the same character there gives the same
result. -/
theorem buildSyntaxTree_short (regex : Regex) (s : List Char)
    (h : s.length = 1 ∨ s.length = 3) :
    ∃ c : Char, s.get? (max 0 ((s.length : Int) - 2)).toNat = some c ∧
      buildSyntaxTree regex s =
        (if c ∈ regex.alphabet then .ok (.node c .null .null)
         else .error (.unknownSymbol c)) ∧
      ∀ s2 : List Char, (s2.length = 1 ∨ s2.length = 3) →
        s2.get? (max 0 ((s2.length : Int) - 2)).toNat = some c →
        buildSyntaxTree regex s2 = buildSyntaxTree regex s := by
  have key : ∀ (t : List Char) (c : Char), (t.length = 1 ∨ t.length = 3) →
      t.get? (max 0 ((t.length : Int) - 2)).toNat = some c →
      buildSyntaxTree regex t =
        (if c ∈ regex.alphabet then .ok (.node c .null .null)
         else .error (.unknownSymbol c)) := by
    intro t c ht hc
    have hl : ((t.length : Int) = 1 ∨ (t.length : Int) = 3) := by omega
    rw [buildSyntaxTree_eq]
    unfold buildSyntaxTreeBody
    simp only [hl, if_true, stringAt_eq, hc]
    by_cases hm : c ∈ regex.alphabet <;> simp [hm]
  have hpos : (max 0 ((s.length : Int) - 2)).toNat < s.length := by omega
  obtain ⟨c, hc⟩ : ∃ c, s.get? (max 0 ((s.length : Int) - 2)).toNat = some c :=
    ⟨_, List.get?_eq_get hpos⟩
  refine ⟨c, hc, key s c h hc, ?_⟩
  intro s2 h2 hc2
  rw [key s c h hc, key s2 c h2 hc2]

/-- C8 (amended): on a text whose length is neither 1 nor 3 the operator is the
character at position 1 and the first operand is scanned from position 2; the empty text
fails with `outOfRange`, and a character at position 1 that is no operator fails with
`unknownOperator`. -/
theorem buildSyntaxTree_long (regex : Regex) (s : List Char)
    (h1 : s.length ≠ 1) (h3 : s.length ≠ 3) :
    (s = [] → buildSyntaxTree regex s = .error .outOfRange) ∧
    (∀ op : Char, s.get? 1 = some op → op ∉ operators →
      buildSyntaxTree regex s = .error (.unknownOperator op)) ∧
    (∀ t : AST, buildSyntaxTree regex s = .ok t →
      ∃ (op : Char) (stopIndex : Nat) (left right : AST),
        t = .node op left right ∧ s.get? 1 = some op ∧ op ∈ operators ∧
        getSubTree s 2 = .ok stopIndex ∧
        buildSyntaxTree regex ((s.drop 2).take stopIndex) = .ok left) := by
  have hl : ¬ ((s.length : Int) = 1 ∨ (s.length : Int) = 3) := by omega
  refine ⟨?_, ?_, ?_⟩
  · intro hs
    subst hs
    rfl
  · intro op hop hnot
    rw [buildSyntaxTree_eq]
    unfold buildSyntaxTreeBody
    simp only [hl, if_false, stringAt_eq, hop]
    simp [hnot]
  · intro t ht
    rw [buildSyntaxTree_eq] at ht
    unfold buildSyntaxTreeBody at ht
    simp only [hl, if_false, stringAt_eq] at ht
    split at ht
    · cases ht
    · rename_i op hop
      split at hop
      · rename_i c hc
        cases hop
        split at ht
        · cases ht
        · rename_i hmem
          simp only [not_not] at hmem
          split at ht
          · cases ht
          · rename_i stopIndex hstop
            unfold substr at ht
            split at ht
            · cases ht
            · rename_i leftRegex hleft
              split at hleft
              · cases hleft
              · cases hleft
                split at ht
                · split at ht
                  · cases ht
                  · rename_i leftTree hlt
                    cases ht
                    exact ⟨_, _, _, _, rfl, hc, hmem, hstop, hlt⟩
                · split at ht
                  · cases ht
                  · split at ht
                    · cases ht
                    · split at ht
                      · cases ht
                      · rename_i leftTree hlt
                        split at ht
                        · cases ht
                        · cases ht
                          exact ⟨_, _, _, _, rfl, hc, hmem, hstop, hlt⟩
      · cases hop

theorem parDepth_nil : parDepth [] = 1 := by simp [parDepth]

theorem parDepth_cons (c : Char) (cs : List Char) :
    parDepth (c :: cs) =
      parDepth cs + (if c = '(' then 1 else 0) - (if c = ')' then 1 else 0) := by
  unfold parDepth
  by_cases h1 : c = '('
  · subst h1
    simp
    omega
  · by_cases h2 : c = ')'
    · subst h2
      simp
      omega
    · simp [List.count_cons, h1, h2]

theorem getSubTreeLoop_ok (rest : List Char) :
    ∀ (numpar : Int) (j j1 : Nat), 0 < numpar →
      (getSubTreeLoop rest numpar j = .ok j1 ↔
        ∃ k : Nat, 1 ≤ k ∧ k ≤ rest.length ∧ j1 = j + k ∧
          numpar - 1 + parDepth (rest.take k) = 0 ∧
          ∀ m : Nat, m < k → 0 < numpar - 1 + parDepth (rest.take m)) := by
  induction rest with
  | nil =>
    intro numpar j j1 hpos
    simp only [getSubTreeLoop, hpos, if_true, List.length_nil]
    constructor
    · intro h; cases h
    · rintro ⟨k, hk1, hk0, _⟩; omega
  | cons c rest ih =>
    intro numpar j j1 hpos
    simp only [getSubTreeLoop, hpos, if_true]
    have hstep : ∀ l : List Char, numpar - 1 + parDepth (c :: l) =
        ((if c = ')' then (if c = '(' then numpar + 1 else numpar) - 1
          else (if c = '(' then numpar + 1 else numpar)) - 1) + parDepth l := by
      intro l
      rw [parDepth_cons]
      by_cases h1 : c = '('
      · subst h1; simp
      · by_cases h2 : c = ')'
        · subst h2; simp; omega
        · simp [h1, h2]
    generalize hn : (if c = ')' then (if c = '(' then numpar + 1 else numpar) - 1
      else (if c = '(' then numpar + 1 else numpar)) = numpar2 at hstep
    have hge : 0 ≤ numpar2 := by
      rw [← hn]
      split <;> split <;> omega
    by_cases hz : 0 < numpar2
    · rw [ih numpar2 (j + 1) j1 hz]
      constructor
      · rintro ⟨k, hk1, hk2, hj, hd, hall⟩
        refine ⟨k + 1, by omega, by simp; omega, by omega, ?_, ?_⟩
        · rw [List.take_succ_cons, hstep]; exact hd
        · intro m hm
          cases m with
          | zero => simp [parDepth_nil]; omega
          | succ m =>
            rw [List.take_succ_cons, hstep]
            exact hall m (by omega)
      · rintro ⟨k, hk1, hk2, hj, hd, hall⟩
        cases k with
        | zero => omega
        | succ k =>
          cases k with
          | zero =>
            rw [List.take_succ_cons, hstep] at hd
            simp [parDepth_nil] at hd
            omega
          | succ k =>
            refine ⟨k + 1, by omega, by simp at hk2; omega, by omega, ?_, ?_⟩
            · rw [List.take_succ_cons, hstep] at hd; exact hd
            · intro m hm
              have := hall (m + 1) (by omega)
              rw [List.take_succ_cons, hstep] at this
              exact this
    · have hz0 : numpar2 = 0 := by omega
      have hexit : getSubTreeLoop rest numpar2 (j + 1) = .ok (j + 1) := by
        cases rest <;> simp [getSubTreeLoop, hz0]
      rw [hexit]
      constructor
      · intro h
        cases h
        refine ⟨1, le_refl _, by simp, rfl, ?_, ?_⟩
        · rw [List.take_succ_cons, hstep]; simp [parDepth_nil, hz0]
        · intro m hm
          have : m = 0 := by omega
          subst this
          simp [parDepth_nil]; omega
      · rintro ⟨k, hk1, hk2, hj, hd, hall⟩
        have hk : k = 1 := by
          by_contra hne
          have := hall 1 (by omega)
          rw [List.take_succ_cons, hstep] at this
          simp [parDepth_nil, hz0] at this
        subst hk
        rw [hj]

theorem getSubTreeLoop_error (rest : List Char) :
    ∀ (numpar : Int) (j : Nat) (e : Error), 0 < numpar →
      (getSubTreeLoop rest numpar j = .error e ↔
        e = .outOfRange ∧
          ∀ m : Nat, m ≤ rest.length → 0 < numpar - 1 + parDepth (rest.take m)) := by
  induction rest with
  | nil =>
    intro numpar j e hpos
    simp only [getSubTreeLoop, hpos, if_true, List.length_nil]
    constructor
    · intro h
      cases h
      refine ⟨rfl, ?_⟩
      intro m _
      simp [parDepth_nil]; omega
    · rintro ⟨rfl, _⟩; rfl
  | cons c rest ih =>
    intro numpar j e hpos
    simp only [getSubTreeLoop, hpos, if_true]
    have hstep : ∀ l : List Char, numpar - 1 + parDepth (c :: l) =
        ((if c = ')' then (if c = '(' then numpar + 1 else numpar) - 1
          else (if c = '(' then numpar + 1 else numpar)) - 1) + parDepth l := by
      intro l
      rw [parDepth_cons]
      by_cases h1 : c = '('
      · subst h1; simp
      · by_cases h2 : c = ')'
        · subst h2; simp; omega
        · simp [h1, h2]
    generalize hn : (if c = ')' then (if c = '(' then numpar + 1 else numpar) - 1
      else (if c = '(' then numpar + 1 else numpar)) = numpar2 at hstep
    have hge : 0 ≤ numpar2 := by
      rw [← hn]
      split <;> split <;> omega
    by_cases hz : 0 < numpar2
    · rw [ih numpar2 (j + 1) e hz]
      constructor
      · rintro ⟨he, hall⟩
        refine ⟨he, ?_⟩
        intro m hm
        cases m with
        | zero => simp [parDepth_nil]; omega
        | succ m =>
          rw [List.take_succ_cons, hstep]
          exact hall m (by simp at hm; omega)
      · rintro ⟨he, hall⟩
        refine ⟨he, ?_⟩
        intro m hm
        have := hall (m + 1) (by simp; omega)
        rw [List.take_succ_cons, hstep] at this
        exact this
    · have hz0 : numpar2 = 0 := by omega
      have hexit : getSubTreeLoop rest numpar2 (j + 1) = .ok (j + 1) := by
        cases rest <;> simp [getSubTreeLoop, hz0]
      rw [hexit]
      constructor
      · intro h; cases h
      · rintro ⟨_, hall⟩
        have := hall 1 (by simp)
        rw [List.take_succ_cons, hstep] at this
        simp [parDepth_nil, hz0] at this

theorem getSubTree_ok_iff (S : List Char) (j n : Nat) :
    getSubTree S j = .ok n ↔ ClosesAfter S j n := by
  unfold getSubTree ClosesAfter
  have hloop := getSubTreeLoop_ok (S.drop (j + 1)) 1 (j + 1)
  constructor
  · intro h
    split at h
    · rename_i j1 hj1
      cases h
      obtain ⟨k, hk1, hk2, hj, hd, hall⟩ := (hloop j1 (by decide)).mp hj1
      simp only [List.length_drop] at hk2
      subst hj
      have e : j + 1 + k - j - 1 = k := by omega
      refine ⟨by omega, by omega, ?_, ?_⟩
      · rw [e]; simpa using hd
      · intro m hm
        have := hall m (by omega)
        simpa using this
    · cases h
  · rintro ⟨h2, hlen, hd, hall⟩
    have : getSubTreeLoop (S.drop (j + 1)) 1 (j + 1) = .ok (j + 1 + (n - 1)) := by
      apply (hloop _ (by decide)).mpr
      refine ⟨n - 1, by omega, by simp only [List.length_drop]; omega, rfl, ?_, ?_⟩
      · simpa using hd
      · intro m hm
        simpa using hall m hm
    rw [this]
    simp only
    congr 1
    omega

theorem getSubTree_error_iff (S : List Char) (j : Nat) (e : Error) :
    getSubTree S j = .error e ↔ e = .outOfRange ∧ Unclosed S j := by
  unfold getSubTree Unclosed
  have hloop := getSubTreeLoop_error (S.drop (j + 1)) 1 (j + 1)
  constructor
  · intro h
    split at h
    · cases h
    · rename_i e1 he1
      cases h
      obtain ⟨he, hall⟩ := (hloop e (by decide)).mp he1
      refine ⟨he, ?_⟩
      intro m hm
      have := hall m (by simp only [List.length_drop]; omega)
      simpa using this
  · rintro ⟨he, hall⟩
    have : getSubTreeLoop (S.drop (j + 1)) 1 (j + 1) = .error e := by
      apply (hloop e (by decide)).mpr
      refine ⟨he, ?_⟩
      intro m hm
      simp only [List.length_drop] at hm
      simpa using hall m (by omega)
    rw [this]

/-- C9: `getSubTree(S, j)` returns `n` exactly when the run of length `n` from `j` ends
at the parenthesis closing the one opened at `j`, and fails with `outOfRange` exactly
when the text ends before the depth returns to zero; one of the two always happens.
Hence `buildSyntaxTree` returns no tree for a text of length other than 1 and 3 whose
first operand, or whose second operand behind an operator other than `*`, is unclosed. -/
theorem getSubTree_spec (S : List Char) :
    (∀ j n : Nat, getSubTree S j = .ok n ↔ ClosesAfter S j n) ∧
    (∀ (j : Nat) (e : Error), getSubTree S j = .error e ↔ e = .outOfRange ∧ Unclosed S j) ∧
    (∀ j : Nat, (∃ n : Nat, getSubTree S j = .ok n) ∨ getSubTree S j = .error .outOfRange) ∧
    (∀ regex : Regex, S.length ≠ 1 → S.length ≠ 3 →
      (Unclosed S 2 ∨
        ∃ n : Nat, ClosesAfter S 2 n ∧ S.get? 1 ≠ some '*' ∧ Unclosed S (2 + n)) →
      ∃ e : Error, buildSyntaxTree regex S = .error e) := by
  refine ⟨getSubTree_ok_iff S, getSubTree_error_iff S, ?_, ?_⟩
  · intro j
    cases h : getSubTree S j with
    | ok n => exact Or.inl ⟨n, rfl⟩
    | error e =>
      right
      rw [((getSubTree_error_iff S j e).mp h).1]
  · intro regex h1 h3 hun
    have hl : ¬ ((S.length : Int) = 1 ∨ (S.length : Int) = 3) := by omega
    rw [buildSyntaxTree_eq]
    unfold buildSyntaxTreeBody
    simp only [hl, if_false]
    cases hat : stringAt S 1 with
    | error e => exact ⟨e, rfl⟩
    | ok op =>
      simp only
      by_cases hop : op ∉ operators
      · simp only [hop, not_false_eq_true, if_true]
        exact ⟨_, rfl⟩
      · simp only [hop, if_false]
        rcases hun with hu | ⟨n, hn, hstar, hu⟩
        · rw [(getSubTree_error_iff S 2 .outOfRange).mpr ⟨rfl, hu⟩]
          exact ⟨_, rfl⟩
        · rw [(getSubTree_ok_iff S 2 n).mpr hn]
          simp only
          cases hsub : substr S 2 n with
          | error e => exact ⟨e, rfl⟩
          | ok leftRegex =>
            simp only
            have hne : op ≠ '*' := by
              intro hEq
              apply hstar
              rw [stringAt_eq] at hat
              split at hat
              · rename_i c hc
                cases hat
                rw [hc, hEq]
              · cases hat
            simp only [hne, if_false]
            rw [(getSubTree_error_iff S (2 + n) .outOfRange).mpr ⟨rfl, hu⟩]
            exact ⟨_, rfl⟩

theorem getSubTree_spec_witness :
    getSubTree ['(', '*', '(', 'a', ')', ')'] 2 = .ok 3 ∧
      ∃ e : Error, buildSyntaxTree ⟨['a'], []⟩ ['(', '*', '(', 'a'] = .error e :=
  ⟨((getSubTree_spec ['(', '*', '(', 'a', ')', ')']).1 2 3).mpr (by
      refine ⟨by decide, by decide, by decide, ?_⟩
      intro m hm
      have : m = 0 ∨ m = 1 := by omega
      rcases this with rfl | rfl <;> decide),
   (getSubTree_spec ['(', '*', '(', 'a']).2.2.2 ⟨['a'], []⟩ (by decide) (by decide)
     (Or.inl (by
        intro m hm
        have : m = 0 ∨ m = 1 := by simp at hm; omega
        rcases this with rfl | rfl <;> decide))⟩

theorem skipblankFrom_eq (l : List Char) : ∀ j : Nat,
    skipblankFrom l j = j + (l.takeWhile (fun c => decide (c = ' '))).length := by
  induction l with
  | nil => intro j; simp [skipblankFrom]
  | cons c l ih =>
    intro j
    by_cases h : c = ' '
    · simp [skipblankFrom, h, ih]; omega
    · simp [skipblankFrom, h]

theorem drop_takeWhile_length (l : List Char) (p : Char → Bool) :
    l.drop (l.takeWhile p).length = l.dropWhile p := by
  induction l with
  | nil => simp
  | cons c l ih =>
    by_cases h : p c
    · simp [List.takeWhile_cons, List.dropWhile_cons, h, ih]
    · simp [List.takeWhile_cons, List.dropWhile_cons, h]

theorem filter_dropWhile_blank (l : List Char) :
    (l.dropWhile (fun c => decide (c = ' '))).filter (fun c => decide (c ≠ ' ')) =
      l.filter (fun c => decide (c ≠ ' ')) := by
  induction l with
  | nil => simp
  | cons c l ih =>
    by_cases h : c = ' '
    · simp only [List.dropWhile_cons, h, decide_True, if_true]
      rw [ih]
      simp
    · simp [List.dropWhile_cons, h]

theorem skipblank_drop (S : List Char) (j : Nat) :
    S.drop (skipblank S j) = (S.drop j).dropWhile (fun c => decide (c = ' ')) := by
  unfold skipblank
  rw [skipblankFrom_eq, ← drop_takeWhile_length, List.drop_drop]

theorem skipblank_ge (S : List Char) (j : Nat) : j ≤ skipblank S j := by
  unfold skipblank
  rw [skipblankFrom_eq]
  omega

theorem dropWhile_head_not (l : List Char) (p : Char → Bool) (c : Char) (rest : List Char)
    (h : l.dropWhile p = c :: rest) : p c = false := by
  induction l with
  | nil => simp at h
  | cons d l ih =>
    by_cases hd : p d
    · simp [List.dropWhile_cons, hd] at h
      exact ih h
    · simp [List.dropWhile_cons, hd] at h
      rw [← h.1]
      simpa using hd

/-- The loop of `removeblank` from a position that is not on a blank. -/
theorem removeblankLoop_eq (S : List Char) : ∀ (fuel j : Nat) (compact : List Char),
    S.length ≤ j + fuel →
    (∀ c rest, S.drop j = c :: rest → c ≠ ' ') →
    removeblankLoop S fuel j compact =
      compact ++ (S.drop j).filter (fun c => decide (c ≠ ' ')) := by
  intro fuel
  induction fuel with
  | zero =>
    intro j compact hlen _
    have : S.drop j = [] := List.drop_eq_nil_of_le (by omega)
    simp [removeblankLoop, this]
  | succ fuel ih =>
    intro j compact hlen hhead
    unfold removeblankLoop
    by_cases hj : j < S.length
    · simp only [hj, if_true]
      have hdrop : S.drop j = S.getD j ' ' :: S.drop (j + 1) := by
        rw [List.getD_eq_getElem _ _ hj]
        exact List.drop_eq_getElem_cons hj
      have hc := hhead _ _ hdrop
      rw [ih (skipblank S (j + 1)) (compact ++ [S.getD j ' '])
        (by have := skipblank_ge S (j + 1); omega)
        (by
          intro c rest hcr
          rw [skipblank_drop] at hcr
          have := dropWhile_head_not _ _ _ _ hcr
          simpa using this)]
      rw [skipblank_drop, filter_dropWhile_blank, hdrop,
        List.filter_cons_of_pos (by simpa using hc)]
      simp
    · simp only [hj, if_false]
      have : S.drop j = [] := List.drop_eq_nil_of_le (by omega)
      simp [this]

theorem removeblank_eq_filter (S : List Char) :
    removeblank S = S.filter (fun c => decide (c ≠ ' ')) := by
  unfold removeblank
  rw [removeblankLoop_eq S S.length (skipblank S 0) [] (by omega)
    (by
      intro c rest hcr
      rw [skipblank_drop] at hcr
      have := dropWhile_head_not _ _ _ _ hcr
      simpa using this)]
  rw [skipblank_drop, filter_dropWhile_blank]
  simp

theorem Expr.text_length_pos (e : Expr) : 1 ≤ e.text.length := by
  cases e <;> simp [Expr.text]

theorem getSubTreeLoop_plain (c : Char) (rest : List Char) (numpar : Int) (j : Nat)
    (hpos : 0 < numpar) (h1 : c ≠ '(') (h2 : c ≠ ')') :
    getSubTreeLoop (c :: rest) numpar j = getSubTreeLoop rest numpar (j + 1) := by
  simp [getSubTreeLoop, hpos, h1, h2]

theorem getSubTreeLoop_open (rest : List Char) (numpar : Int) (j : Nat)
    (hpos : 0 < numpar) :
    getSubTreeLoop ('(' :: rest) numpar j = getSubTreeLoop rest (numpar + 1) (j + 1) := by
  simp [getSubTreeLoop, hpos]

theorem getSubTreeLoop_close (rest : List Char) (numpar : Int) (j : Nat)
    (hpos : 0 < numpar) :
    getSubTreeLoop (')' :: rest) numpar j = getSubTreeLoop rest (numpar - 1) (j + 1) := by
  simp [getSubTreeLoop, hpos]

theorem getSubTreeLoop_zero (rest : List Char) (j : Nat) :
    getSubTreeLoop rest 0 j = .ok j := by
  cases rest <;> simp [getSubTreeLoop]

/-- The scan runs over the text of an expression without changing the depth. -/
theorem getSubTreeLoop_text (e : Expr) (he : ∀ c ∈ e.symbols, c ≠ '(' ∧ c ≠ ')') :
    ∀ (rest : List Char) (numpar : Int) (j : Nat), 0 < numpar →
      getSubTreeLoop (e.text ++ rest) numpar j =
        getSubTreeLoop rest numpar (j + e.text.length) := by
  induction e with
  | sym c =>
    intro rest numpar j hpos
    have := he c (by simp [Expr.symbols])
    simp only [Expr.text, List.singleton_append, List.length_singleton]
    exact getSubTreeLoop_plain c rest numpar j hpos this.1 this.2
  | star e ih =>
    intro rest numpar j hpos
    have ih := ih (by intro c hc; exact he c (by simpa [Expr.symbols] using hc))
    simp only [Expr.text, List.cons_append, List.append_assoc, List.length_cons,
      List.length_append, List.length_nil]
    rw [getSubTreeLoop_plain _ _ _ _ hpos (by decide) (by decide),
      getSubTreeLoop_open _ _ _ hpos, ih _ _ _ (by omega),
      List.nil_append, getSubTreeLoop_close _ _ _ (by omega)]
    congr 1 <;> omega
  | concat e1 e2 ih1 ih2 =>
    intro rest numpar j hpos
    have ih1 := ih1 (by intro c hc; exact he c (by simp [Expr.symbols, hc]))
    have ih2 := ih2 (by intro c hc; exact he c (by simp [Expr.symbols, hc]))
    simp only [Expr.text, List.cons_append, List.append_assoc, List.length_cons,
      List.length_append, List.length_nil]
    rw [getSubTreeLoop_plain _ _ _ _ hpos (by decide) (by decide),
      getSubTreeLoop_open _ _ _ hpos, ih1 _ _ _ (by omega),
      getSubTreeLoop_close _ _ _ (by omega),
      getSubTreeLoop_open _ _ _ (by omega), ih2 _ _ _ (by omega),
      List.nil_append, getSubTreeLoop_close _ _ _ (by omega)]
    congr 1 <;> omega
  | union e1 e2 ih1 ih2 =>
    intro rest numpar j hpos
    have ih1 := ih1 (by intro c hc; exact he c (by simp [Expr.symbols, hc]))
    have ih2 := ih2 (by intro c hc; exact he c (by simp [Expr.symbols, hc]))
    simp only [Expr.text, List.cons_append, List.append_assoc, List.length_cons,
      List.length_append, List.length_nil]
    rw [getSubTreeLoop_plain _ _ _ _ hpos (by decide) (by decide),
      getSubTreeLoop_open _ _ _ hpos, ih1 _ _ _ (by omega),
      getSubTreeLoop_close _ _ _ (by omega),
      getSubTreeLoop_open _ _ _ (by omega), ih2 _ _ _ (by omega),
      List.nil_append, getSubTreeLoop_close _ _ _ (by omega)]
    congr 1 <;> omega

/-- The scan of a parenthesised expression stops right behind it. -/
theorem getSubTree_wrapped (e : Expr) (he : ∀ c ∈ e.symbols, c ≠ '(' ∧ c ≠ ')')
    (pre rest : List Char) :
    getSubTree (pre ++ '(' :: (e.text ++ ')' :: rest)) pre.length =
      .ok (e.text.length + 2) := by
  unfold getSubTree
  have hdrop : (pre ++ '(' :: (e.text ++ ')' :: rest)).drop (pre.length + 1) =
      e.text ++ ')' :: rest := by
    rw [List.drop_append_eq_append_drop]
    simp
  rw [hdrop, getSubTreeLoop_text e he _ _ _ (by decide),
    getSubTreeLoop_close _ _ _ (by decide)]
  simp only [sub_self, getSubTreeLoop_zero]
  congr 1
  omega

theorem substr_wrapped (pre t rest : List Char) :
    substr (pre ++ '(' :: (t ++ ')' :: rest)) pre.length (t.length + 2) =
      .ok ('(' :: (t ++ [')'])) := by
  unfold substr
  have h1 : ¬ pre.length > (pre ++ '(' :: (t ++ ')' :: rest)).length := by
    simp only [List.length_append, List.length_cons]
    omega
  simp only [h1, if_false]
  congr 1
  rw [List.drop_append_eq_append_drop]
  simp only [List.drop_length, Nat.sub_self, List.drop_zero, List.nil_append]
  rw [show t.length + 2 = (t.length + 1) + 1 by omega, List.take_succ_cons]
  congr 1
  rw [List.take_append]
  simp

theorem buildSyntaxTreeBody_star (regex : Regex) (f : List Char → Except Error AST)
    (e : Expr) (he : ∀ c ∈ e.symbols, c ≠ '(' ∧ c ≠ ')') :
    buildSyntaxTreeBody regex f ('(' :: '*' :: '(' :: (e.text ++ [')', ')'])) =
      match f ('(' :: (e.text ++ [')'])) with
      | .error err => .error err
      | .ok leftTree => .ok (.node '*' leftTree .null) := by
  have hpos := e.text_length_pos
  have hS : ('(' :: '*' :: '(' :: (e.text ++ [')', ')'])) =
      ['(', '*'] ++ '(' :: (e.text ++ ')' :: [')']) := by simp
  have hsub := getSubTree_wrapped e he ['(', '*'] [')']
  have hstr := substr_wrapped ['(', '*'] e.text [')']
  rw [← hS] at hsub hstr
  simp only [List.length_cons, List.length_nil] at hsub hstr
  unfold buildSyntaxTreeBody
  have hl : ¬ (((('(' :: '*' :: '(' :: (e.text ++ [')', ')'])).length : Nat) : Int) = 1 ∨
      ((('(' :: '*' :: '(' :: (e.text ++ [')', ')'])).length : Nat) : Int) = 3) := by
    simp only [List.length_cons, List.length_append, List.length_nil]
    omega
  simp only [hl, if_false]
  have hat : stringAt ('(' :: '*' :: '(' :: (e.text ++ [')', ')'])) 1 = .ok '*' := rfl
  rw [hat]
  simp only
  have hop : ¬ ('*' ∉ operators) := by decide
  simp only [hop, if_false, hsub, hstr, if_true]

theorem buildSyntaxTreeBody_binary (regex : Regex) (f : List Char → Except Error AST)
    (op : Char) (hop : op ∈ operators) (hne : op ≠ '*') (e1 e2 : Expr)
    (he1 : ∀ c ∈ e1.symbols, c ≠ '(' ∧ c ≠ ')')
    (he2 : ∀ c ∈ e2.symbols, c ≠ '(' ∧ c ≠ ')') :
    buildSyntaxTreeBody regex f
        ('(' :: op :: '(' :: (e1.text ++ (')' :: '(' :: (e2.text ++ [')', ')'])))) =
      match f ('(' :: (e1.text ++ [')'])) with
      | .error err => .error err
      | .ok leftTree =>
        match f ('(' :: (e2.text ++ [')'])) with
        | .error err => .error err
        | .ok rightTree => .ok (.node op leftTree rightTree) := by
  have hpos1 := e1.text_length_pos
  have hpos2 := e2.text_length_pos
  have hS1 : ('(' :: op :: '(' :: (e1.text ++ (')' :: '(' :: (e2.text ++ [')', ')'])))) =
      ['(', op] ++ '(' :: (e1.text ++ ')' :: ('(' :: (e2.text ++ [')', ')']))) := by simp
  have hS2 : ('(' :: op :: '(' :: (e1.text ++ (')' :: '(' :: (e2.text ++ [')', ')'])))) =
      ('(' :: op :: '(' :: (e1.text ++ [')'])) ++ '(' :: (e2.text ++ ')' :: [')']) := by simp
  have hsub1 := getSubTree_wrapped e1 he1 ['(', op] ('(' :: (e2.text ++ [')', ')']))
  have hstr1 := substr_wrapped ['(', op] e1.text ('(' :: (e2.text ++ [')', ')']))
  have hsub2 := getSubTree_wrapped e2 he2 ('(' :: op :: '(' :: (e1.text ++ [')'])) [')']
  have hstr2 := substr_wrapped ('(' :: op :: '(' :: (e1.text ++ [')'])) e2.text [')']
  rw [← hS1] at hsub1 hstr1
  rw [← hS2] at hsub2 hstr2
  simp only [List.length_cons, List.length_nil, List.length_append] at hsub1 hstr1 hsub2 hstr2
  have e4 : e1.text.length + (0 + 1) + 1 + 1 + 1 = 2 + (e1.text.length + 2) := by omega
  rw [e4] at hsub2 hstr2
  unfold buildSyntaxTreeBody
  have hl : ¬ (((('(' :: op :: '(' :: (e1.text ++ (')' :: '(' :: (e2.text ++ [')', ')'])))).length
        : Nat) : Int) = 1 ∨
      ((('(' :: op :: '(' :: (e1.text ++ (')' :: '(' :: (e2.text ++ [')', ')'])))).length
        : Nat) : Int) = 3) := by
    simp only [List.length_cons, List.length_append, List.length_nil]
    omega
  simp only [hl, if_false]
  have hat : stringAt ('(' :: op :: '(' :: (e1.text ++ (')' :: '(' :: (e2.text ++ [')', ')']))))
      1 = .ok op := rfl
  rw [hat]
  simp only
  have hop2 : ¬ (op ∉ operators) := by simpa using hop
  simp only [hop2, if_false, hsub1, hstr1, hne, hsub2, hstr2]

/-- Parsing the text of an expression enclosed in parentheses gives its tree. -/
theorem buildSyntaxTree_text (regex : Regex) (e : Expr)
    (he : ∀ c ∈ e.symbols, c ∈ regex.alphabet ∧ c ≠ '(' ∧ c ≠ ')') :
    buildSyntaxTree regex ('(' :: (e.text ++ [')'])) = .ok e.tree := by
  induction e with
  | sym c =>
    have hc := (he c (by simp [Expr.symbols])).1
    rw [buildSyntaxTree_eq]
    simp [Expr.text, Expr.tree, buildSyntaxTreeBody, stringAt, hc]
  | star e ih =>
    have he1 : ∀ c ∈ e.symbols, c ∈ regex.alphabet ∧ c ≠ '(' ∧ c ≠ ')' := by
      intro c hc; exact he c (by simpa [Expr.symbols] using hc)
    rw [buildSyntaxTree_eq]
    have hS : ('(' :: (e.star.text ++ [')'])) = '(' :: '*' :: '(' :: (e.text ++ [')', ')']) := by
      simp [Expr.text]
    rw [hS, buildSyntaxTreeBody_star regex _ e (fun c hc => (he1 c hc).2), ih he1]
    rfl
  | concat e1 e2 ih1 ih2 =>
    have he1 : ∀ c ∈ e1.symbols, c ∈ regex.alphabet ∧ c ≠ '(' ∧ c ≠ ')' := by
      intro c hc; exact he c (by simp [Expr.symbols, hc])
    have he2 : ∀ c ∈ e2.symbols, c ∈ regex.alphabet ∧ c ≠ '(' ∧ c ≠ ')' := by
      intro c hc; exact he c (by simp [Expr.symbols, hc])
    rw [buildSyntaxTree_eq]
    have hS : ('(' :: ((e1.concat e2).text ++ [')'])) =
        '(' :: '.' :: '(' :: (e1.text ++ (')' :: '(' :: (e2.text ++ [')', ')']))) := by
      simp [Expr.text]
    rw [hS, buildSyntaxTreeBody_binary regex _ '.' (by decide) (by decide) e1 e2
      (fun c hc => (he1 c hc).2) (fun c hc => (he2 c hc).2), ih1 he1, ih2 he2]
    rfl
  | union e1 e2 ih1 ih2 =>
    have he1 : ∀ c ∈ e1.symbols, c ∈ regex.alphabet ∧ c ≠ '(' ∧ c ≠ ')' := by
      intro c hc; exact he c (by simp [Expr.symbols, hc])
    have he2 : ∀ c ∈ e2.symbols, c ∈ regex.alphabet ∧ c ≠ '(' ∧ c ≠ ')' := by
      intro c hc; exact he c (by simp [Expr.symbols, hc])
    rw [buildSyntaxTree_eq]
    have hS : ('(' :: ((e1.union e2).text ++ [')'])) =
        '(' :: '|' :: '(' :: (e1.text ++ (')' :: '(' :: (e2.text ++ [')', ')']))) := by
      simp [Expr.text]
    rw [hS, buildSyntaxTreeBody_binary regex _ '|' (by decide) (by decide) e1 e2
      (fun c hc => (he1 c hc).2) (fun c hc => (he2 c hc).2), ih1 he1, ih2 he2]
    rfl

theorem isSymbol_ne (c : Char) (h : isSymbol c = true) : c ≠ '(' ∧ c ≠ ')' ∧ c ≠ ' ' := by
  refine ⟨?_, ?_, ?_⟩ <;> (intro hc; subst hc; revert h; decide)

theorem Expr.text_no_blank (e : Expr) (he : ∀ c ∈ e.symbols, c ≠ ' ') :
    ∀ c ∈ e.text, c ≠ ' ' := by
  induction e with
  | sym c => simpa [Expr.text, Expr.symbols] using he
  | star e ih =>
    have ih := ih (by intro c hc; exact he c (by simpa [Expr.symbols] using hc))
    intro c hc
    simp only [Expr.text, List.mem_cons, List.mem_append, List.mem_singleton,
      List.mem_nil_iff, or_false] at hc
    rcases hc with rfl | rfl | hc | rfl
    · decide
    · decide
    · exact ih c hc
    · decide
  | concat e1 e2 ih1 ih2 =>
    have ih1 := ih1 (by intro c hc; exact he c (by simp [Expr.symbols, hc]))
    have ih2 := ih2 (by intro c hc; exact he c (by simp [Expr.symbols, hc]))
    intro c hc
    simp only [Expr.text, List.mem_cons, List.mem_append, List.mem_singleton,
      List.mem_nil_iff, or_false] at hc
    rcases hc with rfl | rfl | hc | rfl | rfl | hc | rfl
    · decide
    · decide
    · exact ih1 c hc
    · decide
    · decide
    · exact ih2 c hc
    · decide
  | union e1 e2 ih1 ih2 =>
    have ih1 := ih1 (by intro c hc; exact he c (by simp [Expr.symbols, hc]))
    have ih2 := ih2 (by intro c hc; exact he c (by simp [Expr.symbols, hc]))
    intro c hc
    simp only [Expr.text, List.mem_cons, List.mem_append, List.mem_singleton,
      List.mem_nil_iff, or_false] at hc
    rcases hc with rfl | rfl | hc | rfl | rfl | hc | rfl
    · decide
    · decide
    · exact ih1 c hc
    · decide
    · decide
    · exact ih2 c hc
    · decide

/-- C6 (amended): for an alphabet of letters and digits and an expression of the grammar
over it, `buildSyntaxTree` applied to the blank-stripped expression enclosed in one pair
of parentheses returns the tree the expression denotes. -/
theorem buildSyntaxTree_expression (regex : Regex) (e : Expr)
    (hA : ∀ c ∈ regex.alphabet, isSymbol c = true)
    (he : ∀ c ∈ e.symbols, c ∈ regex.alphabet) :
    buildSyntaxTree regex (removeblank ('(' :: (e.text ++ [')']))) = .ok e.tree := by
  have hsym : ∀ c ∈ e.symbols, c ≠ '(' ∧ c ≠ ')' ∧ c ≠ ' ' :=
    fun c hc => isSymbol_ne c (hA c (he c hc))
  have hnb : ∀ c ∈ ('(' :: (e.text ++ [')'])), c ≠ ' ' := by
    intro c hc
    simp only [List.mem_cons, List.mem_append, List.mem_singleton, List.mem_nil_iff,
      or_false] at hc
    rcases hc with rfl | hc | rfl
    · decide
    · exact e.text_no_blank (fun c hc => (hsym c hc).2.2) c hc
    · decide
  have hrb : removeblank ('(' :: (e.text ++ [')'])) = '(' :: (e.text ++ [')']) := by
    rw [removeblank_eq_filter, List.filter_eq_self]
    intro c hc
    simpa using hnb c hc
  rw [hrb]
  exact buildSyntaxTree_text regex e (fun c hc => ⟨he c hc, (hsym c hc).1, (hsym c hc).2.1⟩)

/-- Witness of `buildSyntaxTree_expression` for `.(a)(*(|(a)(b)))` over `{a, b}`. -/
theorem buildSyntaxTree_expression_witness :
    buildSyntaxTree ⟨['a', 'b'], []⟩
        (removeblank ('(' :: ((Expr.concat (.sym 'a') (.star (.union (.sym 'a') (.sym 'b')))).text
          ++ [')']))) =
      .ok (Expr.concat (.sym 'a') (.star (.union (.sym 'a') (.sym 'b')))).tree :=
  buildSyntaxTree_expression ⟨['a', 'b'], []⟩ _ (by decide) (by decide)

/-- Counterexample to C6 as stated: the bare text `.(a)(*(|(a)(b)))` is rejected with
`unknownOperator '('`, because the operator is read at position 1. -/
theorem buildSyntaxTree_bare_expression_fails :
    (Expr.concat (.sym 'a') (.star (.union (.sym 'a') (.sym 'b')))).text =
        ['.', '(', 'a', ')', '(', '*', '(', '|', '(', 'a', ')', '(', 'b', ')', ')', ')'] ∧
      buildSyntaxTree ⟨['a', 'b'], []⟩
          (removeblank (Expr.concat (.sym 'a') (.star (.union (.sym 'a') (.sym 'b')))).text) =
        .error (.unknownOperator '(') ∧
      buildSyntaxTree ⟨['a', 'b'], []⟩
          (removeblank (Expr.concat (.sym 'a') (.star (.union (.sym 'a') (.sym 'b')))).text) ≠
        .ok (Expr.concat (.sym 'a') (.star (.union (.sym 'a') (.sym 'b')))).tree := by
  refine ⟨rfl, rfl, ?_⟩
  intro h
  have h2 : buildSyntaxTree ⟨['a', 'b'], []⟩
      (removeblank (Expr.concat (.sym 'a') (.star (.union (.sym 'a') (.sym 'b')))).text) =
      .error (.unknownOperator '(') := rfl
  rw [h2] at h
  cases h

/-- Witness of `buildSyntaxTree_short` for the text `(a)` over `{a}`. -/
theorem buildSyntaxTree_short_witness :
    (['(', 'a', ')'].length = 1 ∨ ['(', 'a', ')'].length = 3) ∧
      ∃ c : Char,
        ['(', 'a', ')'].get? (max 0 (((['(', 'a', ')'] : List Char).length : Int) - 2)).toNat
          = some c ∧
        buildSyntaxTree ⟨['a'], []⟩ ['(', 'a', ')'] =
          (if c ∈ (⟨['a'], []⟩ : Regex).alphabet then .ok (.node c .null .null)
           else .error (.unknownSymbol c)) ∧
        ∀ s2 : List Char, (s2.length = 1 ∨ s2.length = 3) →
          s2.get? (max 0 ((s2.length : Int) - 2)).toNat = some c →
          buildSyntaxTree ⟨['a'], []⟩ s2 = buildSyntaxTree ⟨['a'], []⟩ ['(', 'a', ')'] :=
  ⟨by decide, buildSyntaxTree_short ⟨['a'], []⟩ ['(', 'a', ')'] (by decide)⟩

/-- Witness of `buildSyntaxTree_long` for the text `(x(a))` over `{a}`: the character at
position 1 is no operator. -/
theorem buildSyntaxTree_long_witness :
    (['(', 'x', '(', 'a', ')', ')'].length ≠ 1 ∧ ['(', 'x', '(', 'a', ')', ')'].length ≠ 3) ∧
      buildSyntaxTree ⟨['a'], []⟩ ['(', 'x', '(', 'a', ')', ')'] = .error (.unknownOperator 'x') :=
  ⟨by decide,
   (buildSyntaxTree_long ⟨['a'], []⟩ ['(', 'x', '(', 'a', ')', ')'] (by decide) (by decide)).2.1
     'x' rfl (by decide)⟩

/-- Counterexample to C8 as stated: the text `(.(a)(b))` has length 9 and `(`, which is
no operator, at position 0, yet it is parsed; the text `.(a)(b)` has the operator `.` at
position 0 and is rejected with `unknownOperator`. -/
theorem buildSyntaxTree_operator_at_zero_fails :
    (['(', '.', '(', 'a', ')', '(', 'b', ')', ')'].length ≠ 1 ∧
      ['(', '.', '(', 'a', ')', '(', 'b', ')', ')'].length ≠ 3) ∧
    ['(', '.', '(', 'a', ')', '(', 'b', ')', ')'].get? 0 = some '(' ∧
    '(' ∉ operators ∧
    buildSyntaxTree ⟨['a', 'b'], []⟩ ['(', '.', '(', 'a', ')', '(', 'b', ')', ')'] =
      .ok (.node '.' (.node 'a' .null .null) (.node 'b' .null .null)) ∧
    ['.', '(', 'a', ')', '(', 'b', ')'].get? 0 = some '.' ∧
    '.' ∈ operators ∧
    buildSyntaxTree ⟨['a', 'b'], []⟩ ['.', '(', 'a', ')', '(', 'b', ')'] =
      .error (.unknownOperator '(') :=
  ⟨by decide, rfl, by decide, rfl, rfl, by decide, rfl⟩

/-! ## The pool of elementary machines -/

/-- C10: `AutomataPool_Symbol(c, n)` returns the NFA with start state `n`, accept state
`n + 1`, state list `[n, n + 1]`, alphabet `{ε, c}` and the single transition
`n --c--> n + 1`, and leaves the counter at `n + 2`. -/
theorem AutomataPool_Symbol_spec (symbol : Char) (stateCounter : Int) :
    AutomataPool_Symbol symbol stateCounter = .ok
      ({ initialState := stateCounter
         finalStates := stateCounter + 1
         alphabet := setInsert symbol [epsilon]
         transitions := [(⟨stateCounter, symbol⟩, stateCounter + 1)]
         allStates := [stateCounter, stateCounter + 1] }, stateCounter + 2) := by
  have hne : stateCounter + 1 ≠ stateCounter := by omega
  by_cases hs : symbol = '*'
  · subst hs
    simp [AutomataPool_Symbol, emptyNDFA, Automaton.addState, Automaton.addTransition,
      equalRange, mmInsert, setInsert, hne]
  · simp [AutomataPool_Symbol, emptyNDFA, Automaton.addState, Automaton.addTransition,
      equalRange, mmInsert, setInsert, hne, hs]

/-! ## Lemmas on the containers -/

theorem mem_setInsert {α : Type} [LT α] [DecidableRel (α := α) (· < ·)] [DecidableEq α]
    (x a : α) (l : List α) : a ∈ setInsert x l ↔ a = x ∨ a ∈ l := by
  induction l with
  | nil => simp [setInsert]
  | cons y ys ih =>
    unfold setInsert
    by_cases h1 : x = y
    · subst h1
      simp
    · by_cases h2 : x < y
      · simp [h1, h2]
      · simp only [h1, h2, if_false, List.mem_cons, ih]
        tauto

theorem mem_setInsertRange {α : Type} [LT α] [DecidableRel (α := α) (· < ·)] [DecidableEq α]
    (range : List α) : ∀ (s : List α) (a : α),
      a ∈ setInsertRange s range ↔ a ∈ s ∨ a ∈ range := by
  induction range with
  | nil => intro s a; simp [setInsertRange]
  | cons x xs ih =>
    intro s a
    have := ih (setInsert x s) a
    simp only [setInsertRange, List.foldl_cons] at this ⊢
    rw [this, mem_setInsert]
    simp only [List.mem_cons]
    tauto

theorem setInsert_sorted (x : Int) (l : List Int) (h : l.Sorted (· < ·)) :
    (setInsert x l).Sorted (· < ·) := by
  induction l with
  | nil => simp [setInsert]
  | cons y ys ih =>
    unfold setInsert
    by_cases h1 : x = y
    · simp [h1, h]
    · by_cases h2 : x < y
      · simp only [h1, h2, if_false, if_true]
        refine List.sorted_cons.mpr ⟨?_, h⟩
        intro b hb
        rcases List.mem_cons.mp hb with rfl | hb
        · exact h2
        · exact lt_trans h2 (List.rel_of_sorted_cons h b hb)
      · simp only [h1, h2, if_false]
        have hy : y < x := by omega
        refine List.sorted_cons.mpr ⟨?_, ih h.of_cons⟩
        intro b hb
        rcases (mem_setInsert x b ys).mp hb with rfl | hb
        · exact hy
        · exact List.rel_of_sorted_cons h b hb

theorem setInsertRange_sorted (range : List Int) : ∀ s : List Int, s.Sorted (· < ·) →
    (setInsertRange s range).Sorted (· < ·) := by
  induction range with
  | nil => intro s h; simpa [setInsertRange] using h
  | cons x xs ih =>
    intro s h
    have := ih (setInsert x s) (setInsert_sorted x s h)
    simpa [setInsertRange] using this

/-! ## The ε-closure -/

theorem outsideCount_le (T : NTransitions) (closure : List Int) :
    outsideCount T closure ≤ T.length :=
  List.countP_le_length _

theorem outsideCount_insert_lt (T : NTransitions) (closure : List Int) (e : Key Int × Int)
    (he : e ∈ T) (hout : e.2 ∉ closure) :
    outsideCount T (setInsert e.2 closure) < outsideCount T closure := by
  unfold outsideCount
  induction T with
  | nil => simp at he
  | cons t ts ih =>
    have hmono : List.countP (fun e1 => decide (e1.2 ∉ setInsert e.2 closure)) ts ≤
        List.countP (fun e1 => decide (e1.2 ∉ closure)) ts := by
      apply List.countP_mono_left
      intro x _ hx
      simp only [decide_eq_true_eq, mem_setInsert, not_or] at hx ⊢
      exact hx.2
    simp only [List.countP_cons]
    rcases List.mem_cons.mp he with rfl | hmem
    · have h1 : decide (e.2 ∉ setInsert e.2 closure) = false := by
        simp [mem_setInsert]
      have h2 : decide (e.2 ∉ closure) = true := by simpa using hout
      rw [h1, h2]
      simp only [if_true]
      have : (if false = true then 1 else 0) = 0 := by simp
      omega
    · have := ih hmem
      by_cases ht : t.2 ∉ setInsert e.2 closure
      · have ht2 : t.2 ∉ closure := by
          simp only [mem_setInsert, not_or] at ht
          exact ht.2
        have e1 : decide (t.2 ∉ setInsert e.2 closure) = true := by simpa using ht
        have e2 : decide (t.2 ∉ closure) = true := by simpa using ht2
        rw [e1, e2]
        omega
      · have e1 : decide (t.2 ∉ setInsert e.2 closure) = false := by simpa using ht
        rw [e1]
        simp only [Bool.false_eq_true, if_false]
        omega

/-- What one scan of the transitions does to the closure and the queue. -/
theorem epsilonClosureScan_spec (T : NTransitions) (current : Int) (l : NTransitions) :
    ∀ (closure stateQueue : List Int), (∀ e ∈ l, e ∈ T) →
      (∀ x, x ∈ (epsilonClosureScan current l (closure, stateQueue)).1 ↔
        x ∈ closure ∨ ((⟨current, epsilon⟩, x) : Key Int × Int) ∈ l) ∧
      (∀ x, x ∈ (epsilonClosureScan current l (closure, stateQueue)).2 →
        x ∈ stateQueue ∨ ((⟨current, epsilon⟩, x) : Key Int × Int) ∈ l) ∧
      (∀ x, x ∈ stateQueue → x ∈ (epsilonClosureScan current l (closure, stateQueue)).2) ∧
      (∀ x, x ∈ (epsilonClosureScan current l (closure, stateQueue)).1 → x ∉ closure →
        x ∈ (epsilonClosureScan current l (closure, stateQueue)).2) ∧
      (epsilonClosureScan current l (closure, stateQueue)).2.length +
          outsideCount T (epsilonClosureScan current l (closure, stateQueue)).1 ≤
        stateQueue.length + outsideCount T closure := by
  induction l with
  | nil =>
    intro closure stateQueue _
    simp only [epsilonClosureScan, List.not_mem_nil, or_false, implies_true, true_and,
      le_refl, and_true, iff_self]
    exact ⟨fun _ h => h, fun _ h => h, fun _ hx hn => absurd hx hn⟩
  | cons entry rest ih =>
    intro closure stateQueue hT
    have hrest : ∀ e ∈ rest, e ∈ T := fun e he => hT e (List.mem_cons_of_mem _ he)
    unfold epsilonClosureScan
    by_cases hk : entry.1.state = current ∧ entry.1.symbol = epsilon
    · have hentry : entry = (⟨current, epsilon⟩, entry.2) := by
        rcases entry with ⟨⟨s, c⟩, t⟩
        simp only at hk
        simp [hk.1, hk.2]
      by_cases hm : entry.2 ∈ closure
      · simp only [hk, and_self, if_true, hm]
        obtain ⟨h1, h2, h3, h4, h5⟩ := ih closure stateQueue hrest
        refine ⟨?_, ?_, h3, h4, h5⟩
        · intro x
          rw [h1 x]
          constructor
          · rintro (h | h)
            · exact Or.inl h
            · exact Or.inr (List.mem_cons_of_mem _ h)
          · rintro (h | h)
            · exact Or.inl h
            · rcases List.mem_cons.mp h with h | h
              · left
                rw [hentry] at h
                have : x = entry.2 := by
                  have := congrArg Prod.snd h
                  simpa using this
                rw [this]; exact hm
              · exact Or.inr h
        · intro x hx
          rcases h2 x hx with h | h
          · exact Or.inl h
          · exact Or.inr (List.mem_cons_of_mem _ h)
      · simp only [hk, and_self, if_true, hm, if_false]
        obtain ⟨h1, h2, h3, h4, h5⟩ :=
          ih (setInsert entry.2 closure) (stateQueue ++ [entry.2]) hrest
        refine ⟨?_, ?_, ?_, ?_, ?_⟩
        · intro x
          rw [h1 x, mem_setInsert]
          constructor
          · rintro ((h | h) | h)
            · right
              rw [h, ← hentry]
              exact List.mem_cons_self _ _
            · exact Or.inl h
            · exact Or.inr (List.mem_cons_of_mem _ h)
          · rintro (h | h)
            · exact Or.inl (Or.inr h)
            · rcases List.mem_cons.mp h with h | h
              · left; left
                rw [hentry] at h
                have := congrArg Prod.snd h
                simpa using this
              · exact Or.inr h
        · intro x hx
          rcases h2 x hx with h | h
          · rcases List.mem_append.mp h with h | h
            · exact Or.inl h
            · right
              have : x = entry.2 := by simpa using h
              rw [this, ← hentry]
              exact List.mem_cons_self _ _
          · exact Or.inr (List.mem_cons_of_mem _ h)
        · intro x hx
          exact h3 x (List.mem_append_left _ hx)
        · intro x hx hnc
          by_cases hxe : x = entry.2
          · exact h3 x (by simp [hxe])
          · exact h4 x hx (by rw [mem_setInsert]; tauto)
        · have hlt := outsideCount_insert_lt T closure entry (hT entry (List.mem_cons_self _ _)) hm
          simp only [List.length_append, List.length_singleton] at h5
          omega
    · simp only [hk, if_false]
      obtain ⟨h1, h2, h3, h4, h5⟩ := ih closure stateQueue hrest
      refine ⟨?_, ?_, h3, h4, h5⟩
      · intro x
        rw [h1 x]
        constructor
        · rintro (h | h)
          · exact Or.inl h
          · exact Or.inr (List.mem_cons_of_mem _ h)
        · rintro (h | h)
          · exact Or.inl h
          · rcases List.mem_cons.mp h with h | h
            · exfalso
              apply hk
              rw [← h]
              exact ⟨rfl, rfl⟩
            · exact Or.inr h
      · intro x hx
        rcases h2 x hx with h | h
        · exact Or.inl h
        · exact Or.inr (List.mem_cons_of_mem _ h)

theorem epsilonClosureScan_sorted (current : Int) (l : NTransitions) :
    ∀ (closure stateQueue : List Int), closure.Sorted (· < ·) →
      (epsilonClosureScan current l (closure, stateQueue)).1.Sorted (· < ·) := by
  induction l with
  | nil => intro closure stateQueue h; simpa [epsilonClosureScan] using h
  | cons entry rest ih =>
    intro closure stateQueue h
    unfold epsilonClosureScan
    split
    · split
      · exact ih _ _ h
      · exact ih _ _ (setInsert_sorted _ _ h)
    · exact ih _ _ h

theorem epsilonClosureLoop_sorted (T : NTransitions) : ∀ (fuel : Nat)
    (closure stateQueue : List Int), closure.Sorted (· < ·) →
      (epsilonClosureLoop T fuel closure stateQueue).1.Sorted (· < ·) := by
  intro fuel
  induction fuel with
  | zero => intro closure stateQueue h; simpa [epsilonClosureLoop] using h
  | succ fuel ih =>
    intro closure stateQueue h
    cases stateQueue with
    | nil => simpa [epsilonClosureLoop] using h
    | cons current rest =>
      simp only [epsilonClosureLoop]
      exact ih _ _ (epsilonClosureScan_sorted current T closure rest h)

/-- The invariant of the `while` loop of `epsilonClosure`, and what it gives when the
queue is empty. -/
theorem epsilonClosureLoop_spec (T : NTransitions) (S : List Int) : ∀ (fuel : Nat)
    (closure stateQueue : List Int),
    stateQueue.length + outsideCount T closure ≤ fuel →
    (∀ s ∈ S, s ∈ closure) →
    (∀ x ∈ closure, ∃ s ∈ S, EpsReach T s x) →
    (∀ x ∈ stateQueue, x ∈ closure) →
    (∀ x ∈ closure, x ∈ stateQueue ∨ ∀ y, EpsStep T x y → y ∈ closure) →
      (epsilonClosureLoop T fuel closure stateQueue).2 = [] ∧
      (∀ s ∈ S, s ∈ (epsilonClosureLoop T fuel closure stateQueue).1) ∧
      (∀ x ∈ (epsilonClosureLoop T fuel closure stateQueue).1, ∃ s ∈ S, EpsReach T s x) ∧
      (∀ x ∈ (epsilonClosureLoop T fuel closure stateQueue).1,
        ∀ y, EpsStep T x y → y ∈ (epsilonClosureLoop T fuel closure stateQueue).1) := by
  intro fuel
  induction fuel with
  | zero =>
    intro closure stateQueue hfuel hS hreach hq hclosed
    have hnil : stateQueue = [] := List.length_eq_zero.mp (by omega)
    subst hnil
    simp only [epsilonClosureLoop]
    refine ⟨trivial, hS, hreach, ?_⟩
    intro x hx
    rcases hclosed x hx with h | h
    · simp at h
    · exact h
  | succ fuel ih =>
    intro closure stateQueue hfuel hS hreach hq hclosed
    cases stateQueue with
    | nil =>
      simp only [epsilonClosureLoop]
      refine ⟨trivial, hS, hreach, ?_⟩
      intro x hx
      rcases hclosed x hx with h | h
      · simp at h
      · exact h
    | cons current rest =>
      simp only [epsilonClosureLoop]
      obtain ⟨h1, h2, h3, h4, h5⟩ :=
        epsilonClosureScan_spec T current T closure rest (fun e he => he)
      have hcur : current ∈ closure := hq current (List.mem_cons_self _ _)
      apply ih
      · simp only [List.length_cons] at hfuel
        omega
      · intro s hs
        exact (h1 s).mpr (Or.inl (hS s hs))
      · intro x hx
        rcases (h1 x).mp hx with h | h
        · exact hreach x h
        · obtain ⟨s, hs, hr⟩ := hreach current hcur
          exact ⟨s, hs, Relation.ReflTransGen.tail hr h⟩
      · intro x hx
        rcases h2 x hx with h | h
        · exact (h1 x).mpr (Or.inl (hq x (List.mem_cons_of_mem _ h)))
        · exact (h1 x).mpr (Or.inr h)
      · intro x hx
        by_cases hxc : x ∈ closure
        · rcases hclosed x hxc with h | h
          · rcases List.mem_cons.mp h with h | h
            · right
              intro y hy
              rw [h] at hy
              exact (h1 y).mpr (Or.inr hy)
            · exact Or.inl (h3 x h)
          · right
            intro y hy
            exact (h1 y).mpr (Or.inl (h y hy))
        · exact Or.inl (h4 x hx hxc)

/-- The loop of `epsilonClosure` started as the function starts it. -/
theorem epsilonClosure_loop (N : NDFA) (S : List Int) :
    (epsilonClosureLoop N.transitions (S.length + N.transitions.length) S S).2 = [] ∧
    (∀ s ∈ S, s ∈ epsilonClosure N S) ∧
    (∀ x ∈ epsilonClosure N S, ∃ s ∈ S, EpsReach N.transitions s x) ∧
    (∀ x ∈ epsilonClosure N S, ∀ y, EpsStep N.transitions x y → y ∈ epsilonClosure N S) := by
  unfold epsilonClosure
  apply epsilonClosureLoop_spec N.transitions S
  · have := outsideCount_le N.transitions S
    omega
  · exact fun s hs => hs
  · exact fun x hx => ⟨x, hx, Relation.ReflTransGen.refl⟩
  · exact fun x hx => hx
  · exact fun x hx => Or.inl hx

theorem epsilonClosure_closed_reach (N : NDFA) (S : List Int) (p q : Int)
    (hp : p ∈ epsilonClosure N S) (h : EpsReach N.transitions p q) :
    q ∈ epsilonClosure N S := by
  induction h with
  | refl => exact hp
  | tail _ hstep ih => exact (epsilonClosure_loop N S).2.2.2 _ ih _ hstep

theorem mem_epsilonClosure (N : NDFA) (S : List Int) (q : Int) :
    q ∈ epsilonClosure N S ↔ ∃ s ∈ S, EpsReach N.transitions s q := by
  constructor
  · exact (epsilonClosure_loop N S).2.2.1 q
  · rintro ⟨s, hs, hr⟩
    exact epsilonClosure_closed_reach N S s q ((epsilonClosure_loop N S).2.1 s hs) hr

theorem epsilonClosure_sorted (N : NDFA) (S : List Int) (h : S.Sorted (· < ·)) :
    (epsilonClosure N S).Sorted (· < ·) :=
  epsilonClosureLoop_sorted N.transitions _ S S h

/-- C3: `epsilonClosure(N, S)` holds exactly the states reachable from a state of `S` by
zero or more ε-transitions of `N`, and it contains `S`; the loop that computes it stops
with an empty queue. -/
theorem epsilonClosure_spec (N : NDFA) (S : List Int) :
    (∀ q : Int, q ∈ epsilonClosure N S ↔ ∃ s ∈ S, EpsReach N.transitions s q) ∧
    (∀ s ∈ S, s ∈ epsilonClosure N S) ∧
    (epsilonClosureLoop N.transitions (S.length + N.transitions.length) S S).2 = [] :=
  ⟨mem_epsilonClosure N S, (epsilonClosure_loop N S).2.1, (epsilonClosure_loop N S).1⟩

theorem epsilonClosureScan_noop (current : Int) (l : NTransitions)
    (closure stateQueue : List Int)
    (h : ∀ e ∈ l, e.1.state = current ∧ e.1.symbol = epsilon → e.2 ∈ closure) :
    epsilonClosureScan current l (closure, stateQueue) = (closure, stateQueue) := by
  induction l with
  | nil => rfl
  | cons entry rest ih =>
    have ih := ih (fun e he => h e (List.mem_cons_of_mem _ he))
    unfold epsilonClosureScan
    by_cases hk : entry.1.state = current ∧ entry.1.symbol = epsilon
    · have := h entry (List.mem_cons_self _ _) hk
      simp only [hk, and_self, if_true, this]
      exact ih
    · simp only [hk, if_false]
      exact ih

theorem epsilonClosureLoop_noop (T : NTransitions) (closure : List Int)
    (hclosed : ∀ x ∈ closure, ∀ y, EpsStep T x y → y ∈ closure) :
    ∀ (fuel : Nat) (stateQueue : List Int), (∀ x ∈ stateQueue, x ∈ closure) →
      (epsilonClosureLoop T fuel closure stateQueue).1 = closure := by
  intro fuel
  induction fuel with
  | zero => intro stateQueue _; rfl
  | succ fuel ih =>
    intro stateQueue hq
    cases stateQueue with
    | nil => rfl
    | cons current rest =>
      simp only [epsilonClosureLoop]
      rw [epsilonClosureScan_noop current T closure rest]
      · exact ih rest (fun x hx => hq x (List.mem_cons_of_mem _ hx))
      · intro e he hk
        apply hclosed current (hq current (List.mem_cons_self _ _))
        unfold EpsStep
        rcases e with ⟨⟨s, c⟩, t⟩
        simp only at hk
        rw [← hk.1, ← hk.2]
        exact he

/-- C4: the ε-closure is idempotent. -/
theorem epsilonClosure_idempotent (N : NDFA) (S : List Int) :
    epsilonClosure N (epsilonClosure N S) = epsilonClosure N S := by
  have hclosed := (epsilonClosure_loop N S).2.2.2
  conv_lhs => unfold epsilonClosure
  exact epsilonClosureLoop_noop N.transitions (epsilonClosure N S) hclosed _ _
    (fun x hx => hx)

theorem mem_mmInsert {κ ν : Type} [LT κ] [DecidableRel (α := κ) (· < ·)]
    (e x : κ × ν) (m : List (κ × ν)) : x ∈ mmInsert e m ↔ x = e ∨ x ∈ m := by
  induction m with
  | nil => simp [mmInsert]
  | cons y ys ih =>
    unfold mmInsert
    by_cases h : e.1 < y.1
    · simp [h]
    · simp only [h, if_false, List.mem_cons, ih]
      tauto

theorem mmInsert_perm {κ ν : Type} [LT κ] [DecidableRel (α := κ) (· < ·)]
    (e : κ × ν) (m : List (κ × ν)) : (mmInsert e m).Perm (e :: m) := by
  induction m with
  | nil => simp [mmInsert]
  | cons y ys ih =>
    unfold mmInsert
    by_cases h : e.1 < y.1
    · simp [h]
    · simp only [h, if_false]
      exact (List.Perm.cons y ih).trans (List.Perm.swap e y ys)

theorem mem_mmInsertRange {κ ν : Type} [LT κ] [DecidableRel (α := κ) (· < ·)]
    (range : List (κ × ν)) : ∀ (m : List (κ × ν)) (x : κ × ν),
      x ∈ mmInsertRange m range ↔ x ∈ m ∨ x ∈ range := by
  induction range with
  | nil => intro m x; simp [mmInsertRange]
  | cons e es ih =>
    intro m x
    have := ih (mmInsert e m) x
    simp only [mmInsertRange, List.foldl_cons] at this ⊢
    rw [this, mem_mmInsert]
    simp only [List.mem_cons]
    tauto

theorem mem_mapEmplace {κ ν : Type} [LT κ] [DecidableRel (α := κ) (· < ·)] [DecidableEq κ]
    (e x : κ × ν) (m : List (κ × ν)) :
    x ∈ mapEmplace e m ↔ x ∈ m ∨ (x = e ∧ ∀ y ∈ m, y.1 ≠ e.1) := by
  unfold mapEmplace
  by_cases h : m.any (fun x => decide (x.1 = e.1)) = true
  · rw [if_pos h]
    constructor
    · exact Or.inl
    · rintro (hx | ⟨_, hall⟩)
      · exact hx
      · exfalso
        obtain ⟨y, hy, hk⟩ := List.any_eq_true.mp h
        exact hall y hy (by simpa using hk)
  · rw [if_neg h]
    simp only [mem_mmInsert]
    have hall : ∀ y ∈ m, y.1 ≠ e.1 := by
      intro y hy hk
      apply h
      exact List.any_eq_true.mpr ⟨y, hy, by simpa using hk⟩
    constructor
    · rintro (hx | hx)
      · exact Or.inr ⟨hx, hall⟩
      · exact Or.inl hx
    · rintro (hx | ⟨hx, _⟩)
      · exact Or.inr hx
      · exact Or.inl hx

theorem mapEmplace_key {κ ν : Type} [LT κ] [DecidableRel (α := κ) (· < ·)] [DecidableEq κ]
    (e : κ × ν) (m : List (κ × ν)) : ∃ v : ν, (e.1, v) ∈ mapEmplace e m := by
  by_cases h : ∀ y ∈ m, y.1 ≠ e.1
  · exact ⟨e.2, (mem_mapEmplace e _ m).mpr (Or.inr ⟨rfl, h⟩)⟩
  · simp only [not_forall, not_not, exists_prop] at h
    obtain ⟨y, hy, hk⟩ := h
    refine ⟨y.2, (mem_mapEmplace e _ m).mpr (Or.inl ?_)⟩
    rw [← hk]
    exact hy

theorem mapEmplace_keys_nodup {κ ν : Type} [LT κ] [DecidableRel (α := κ) (· < ·)]
    [DecidableEq κ] (e : κ × ν) (m : List (κ × ν)) (h : (m.map Prod.fst).Nodup) :
    ((mapEmplace e m).map Prod.fst).Nodup := by
  unfold mapEmplace
  by_cases hany : m.any (fun x => decide (x.1 = e.1)) = true
  · rw [if_pos hany]
    exact h
  · rw [if_neg hany]
    have hperm := (mmInsert_perm e m).map Prod.fst
    rw [hperm.nodup_iff, List.map_cons, List.nodup_cons]
    refine ⟨?_, h⟩
    intro hmem
    obtain ⟨y, hy, hk⟩ := List.mem_map.mp hmem
    apply hany
    exact List.any_eq_true.mpr ⟨y, hy, by simpa using hk⟩

theorem mapFind_eq_some {κ ν : Type} [DecidableEq κ] (m : List (κ × ν)) (k : κ) (v : ν)
    (h : (m.map Prod.fst).Nodup) : mapFind m k = some v ↔ (k, v) ∈ m := by
  induction m with
  | nil => simp [mapFind]
  | cons x xs ih =>
    rw [List.map_cons, List.nodup_cons] at h
    have ih := ih h.2
    unfold mapFind at ih ⊢
    by_cases hk : x.1 = k
    · simp only [List.find?_cons, hk, decide_True, Option.map_some', Option.some.injEq,
        List.mem_cons]
      constructor
      · intro hv
        left
        rw [← hv, ← hk]
      · rintro (hx | hx)
        · rw [← hx]
        · exfalso
          apply h.1
          rw [hk]
          exact List.mem_map.mpr ⟨(k, v), hx, rfl⟩
    · have hk2 : decide (x.1 = k) = false := by simpa using hk
      simp only [List.find?_cons, hk2, List.mem_cons]
      rw [ih]
      constructor
      · exact Or.inr
      · rintro (hx | hx)
        · exfalso
          apply hk
          rw [← hx]
        · exact hx

theorem mapFind_eq_none {κ ν : Type} [DecidableEq κ] (m : List (κ × ν)) (k : κ) :
    mapFind m k = none ↔ ∀ v : ν, (k, v) ∉ m := by
  induction m with
  | nil => simp [mapFind]
  | cons x xs ih =>
    unfold mapFind at ih ⊢
    by_cases hk : x.1 = k
    · simp only [List.find?_cons, hk, decide_True, Option.map_some', List.mem_cons, not_or]
      constructor
      · intro h
        cases h
      · intro hall
        exfalso
        apply (hall x.2).1
        rw [← hk]
    · have hk2 : decide (x.1 = k) = false := by simpa using hk
      simp only [List.find?_cons, hk2, List.mem_cons, not_or]
      rw [ih]
      constructor
      · intro hall v
        refine ⟨?_, hall v⟩
        intro hx
        apply hk
        rw [← hx]
      · intro hall v
        exact (hall v).2

/-! ## The subset construction -/

theorem mem_equalRange {κ ν : Type} [DecidableEq κ] (m : List (κ × ν)) (k : κ) (e : κ × ν) :
    e ∈ equalRange m k ↔ e ∈ m ∧ e.1 = k := by
  simp [equalRange]

theorem mem_foldl_setInsertRange {β : Type} (f : β → List Int) (l : List β) :
    ∀ (init : List Int) (x : Int),
      x ∈ l.foldl (fun acc y => setInsertRange acc (f y)) init ↔
        x ∈ init ∨ ∃ y ∈ l, x ∈ f y := by
  induction l with
  | nil => intro init x; simp
  | cons y ys ih =>
    intro init x
    rw [List.foldl_cons, ih, mem_setInsertRange]
    simp only [List.mem_cons, exists_eq_or_imp]
    tauto

theorem foldl_setInsertRange_sorted {β : Type} (f : β → List Int) (l : List β) :
    ∀ (init : List Int), init.Sorted (· < ·) →
      (l.foldl (fun acc y => setInsertRange acc (f y)) init).Sorted (· < ·) := by
  induction l with
  | nil => intro init h; simpa using h
  | cons y ys ih =>
    intro init h
    rw [List.foldl_cons]
    exact ih _ (setInsertRange_sorted _ _ h)

theorem mem_nextStateSet_aux (N : NDFA) (a : Char) (Q : List Int) :
    ∀ (init : List Int) (x : Int),
      x ∈ Q.foldl
          (fun next state =>
            (equalRange N.transitions ⟨state, a⟩).foldl
              (fun next it => setInsertRange next (epsilonClosure N [it.2])) next)
          init ↔
        x ∈ init ∨ ∃ p ∈ Q, ∃ t : Int,
          ((⟨p, a⟩, t) : Key Int × Int) ∈ N.transitions ∧ x ∈ epsilonClosure N [t] := by
  induction Q with
  | nil => intro init x; simp
  | cons p ps ih =>
    intro init x
    rw [List.foldl_cons, ih, mem_foldl_setInsertRange]
    simp only [List.mem_cons, exists_eq_or_imp, mem_equalRange]
    constructor
    · rintro ((h | ⟨it, ⟨hit, hk⟩, hx⟩) | h)
      · exact Or.inl h
      · right; left
        refine ⟨it.2, ?_, hx⟩
        rw [← hk]
        exact hit
      · exact Or.inr (Or.inr h)
    · rintro (h | ⟨t, ht, hx⟩ | h)
      · exact Or.inl (Or.inl h)
      · exact Or.inl (Or.inr ⟨(⟨p, a⟩, t), ⟨ht, rfl⟩, hx⟩)
      · exact Or.inr h

theorem mem_nextStateSet (N : NDFA) (Q : List Int) (a : Char) (x : Int) :
    x ∈ nextStateSet N Q a ↔ ∃ p ∈ Q, ∃ t : Int,
      ((⟨p, a⟩, t) : Key Int × Int) ∈ N.transitions ∧ x ∈ epsilonClosure N [t] := by
  unfold nextStateSet
  rw [mem_nextStateSet_aux]
  simp

theorem nextStateSet_sorted_aux (N : NDFA) (a : Char) (Q : List Int) :
    ∀ (init : List Int), init.Sorted (· < ·) →
      (Q.foldl
          (fun next state =>
            (equalRange N.transitions ⟨state, a⟩).foldl
              (fun next it => setInsertRange next (epsilonClosure N [it.2])) next)
          init).Sorted (· < ·) := by
  induction Q with
  | nil => intro init h; simpa using h
  | cons p ps ih =>
    intro init h
    rw [List.foldl_cons]
    exact ih _ (foldl_setInsertRange_sorted _ _ _ h)

theorem nextStateSet_sorted (N : NDFA) (Q : List Int) (a : Char) :
    (nextStateSet N Q a).Sorted (· < ·) :=
  nextStateSet_sorted_aux N a Q [] List.sorted_nil

theorem EpsReach_target (T : NTransitions) (s x : Int) (h : EpsReach T s x) :
    x = s ∨ x ∈ T.map Prod.snd := by
  induction h with
  | refl => exact Or.inl rfl
  | tail _ hstep _ =>
    right
    exact List.mem_map.mpr ⟨_, hstep, rfl⟩

theorem mem_subsetStep (N : NDFA) (Q : List Int) (a : Char) (x : Int) :
    x ∈ subsetStep N Q a ↔ ∃ p ∈ Q, ∃ t : Int,
      ((⟨p, a⟩, t) : Key Int × Int) ∈ N.transitions ∧ EpsReach N.transitions t x := by
  unfold subsetStep
  rw [mem_epsilonClosure]
  constructor
  · rintro ⟨s, hs, hr⟩
    obtain ⟨p, hp, t, ht, hst⟩ := (mem_nextStateSet N Q a s).mp hs
    obtain ⟨t1, ht1, hr1⟩ := (mem_epsilonClosure N [t] s).mp hst
    have : t1 = t := by simpa using ht1
    subst this
    exact ⟨p, hp, t1, ht, hr1.trans hr⟩
  · rintro ⟨p, hp, t, ht, hr⟩
    refine ⟨t, (mem_nextStateSet N Q a t).mpr ⟨p, hp, t, ht, ?_⟩, hr⟩
    exact (mem_epsilonClosure N [t] t).mpr ⟨t, by simp, Relation.ReflTransGen.refl⟩

theorem subsetStep_good (N : NDFA) (Q : List Int) (a : Char) (h : subsetStep N Q a ≠ []) :
    GoodSubset N (subsetStep N Q a) where
  sorted := epsilonClosure_sorted N _ (nextStateSet_sorted N Q a)
  nonempty := h
  inUniverse := by
    intro x hx
    obtain ⟨p, _, t, ht, hr⟩ := (mem_subsetStep N Q a x).mp hx
    unfold stateUniverse
    rcases EpsReach_target _ _ _ hr with h1 | h1
    · rw [h1]
      exact List.mem_cons_of_mem _ (List.mem_map.mpr ⟨_, ht, rfl⟩)
    · exact List.mem_cons_of_mem _ h1
  closed := (epsilonClosure_loop N _).2.2.2

theorem mem_startSubset (N : NDFA) (x : Int) :
    x ∈ epsilonClosure N (setInsert N.initialState []) ↔
      EpsReach N.transitions N.initialState x := by
  rw [mem_epsilonClosure]
  simp [setInsert]

theorem startSubset_good (N : NDFA) :
    GoodSubset N (epsilonClosure N (setInsert N.initialState [])) where
  sorted := epsilonClosure_sorted N _ (by simp [setInsert])
  nonempty := by
    have : N.initialState ∈ epsilonClosure N (setInsert N.initialState []) :=
      (mem_startSubset N _).mpr Relation.ReflTransGen.refl
    exact List.ne_nil_of_mem this
  inUniverse := by
    intro x hx
    unfold stateUniverse
    rcases EpsReach_target _ _ _ ((mem_startSubset N x).mp hx) with h1 | h1
    · rw [h1]
      exact List.mem_cons_self _ _
    · exact List.mem_cons_of_mem _ h1
  closed := (epsilonClosure_loop N _).2.2.2

theorem WorklistInv.weaken {N : NDFA} {A : List Char} {pre : List (List Int)}
    {P P2 : List Int → Char → Prop} {w : Worklist} (h : WorklistInv N A pre P w)
    (hP : ∀ Q a, P2 Q a → P Q a) : WorklistInv N A pre P2 w :=
  { h with complete := fun Q a hp => h.complete Q a (hP Q a hp) }

theorem NDtoDSymbol_eq (N : NDFA) (Q : List Int) (w : Worklist) (a : Char) :
    NDtoDSymbol N Q w a =
      if subsetStep N Q a ≠ [] then
        if subsetStep N Q a ∉ w.visitedStates then
          { stateQueue := w.stateQueue ++ [subsetStep N Q a]
            visitedStates := setInsert (subsetStep N Q a) w.visitedStates
            transitions := mapEmplace (⟨Q, a⟩, subsetStep N Q a) w.transitions
            DFA := w.DFA.addState (subsetStep N Q a) }
        else { w with transitions := mapEmplace (⟨Q, a⟩, subsetStep N Q a) w.transitions }
      else w := rfl

/-- One symbol of the `for` loop keeps the invariant and handles that symbol. -/
theorem NDtoDSymbol_inv (N : NDFA) (A : List Char) (pre : List (List Int))
    (P : List Int → Char → Prop) (Q : List Int) (w : Worklist) (a : Char)
    (h : WorklistInv N A pre P w) (ha : a ∈ A) (hQ : Q ∈ w.DFA.allStates) :
    WorklistInv N A pre (fun Q2 a2 => P Q2 a2 ∨ (Q2 = Q ∧ a2 = a)) (NDtoDSymbol N Q w a) := by
  rw [NDtoDSymbol_eq]
  by_cases hne : subsetStep N Q a ≠ []
  · rw [if_pos hne]
    have hgood := subsetStep_good N Q a hne
    by_cases hvis : subsetStep N Q a ∉ w.visitedStates
    · rw [if_pos hvis]
      have hnot : subsetStep N Q a ∉ w.DFA.allStates := fun hm => hvis ((h.visited _).mpr hm)
      have hadd : (w.DFA.addState (subsetStep N Q a)).allStates =
          w.DFA.allStates ++ [subsetStep N Q a] := by
        simp [Automaton.addState, hnot]
      have hinit : (w.DFA.addState (subsetStep N Q a)).initialState = w.DFA.initialState := by
        simp [Automaton.addState, hnot]
      refine
        { states := ?_, visited := ?_, nodup := ?_, good := ?_, initial := ?_,
          initialMem := ?_, trans := ?_, keys := ?_, complete := ?_ }
      · simp only [hadd, h.states, List.append_assoc]
      · intro R
        simp only [hadd, mem_setInsert, h.visited, List.mem_append, List.mem_singleton]
        tauto
      · simp only [hadd]
        exact List.Nodup.append h.nodup (List.nodup_singleton _)
          (by
            intro x hx hx2
            rw [List.mem_singleton] at hx2
            exact hnot (hx2 ▸ hx))
      · intro R hR
        simp only [hadd, List.mem_append, List.mem_singleton] at hR
        rcases hR with hR | hR
        · exact h.good R hR
        · rw [hR]; exact hgood
      · simp only [hinit]
        exact h.initial
      · simp only [hinit, hadd]
        exact List.mem_append_left _ h.initialMem
      · intro e he
        simp only [hadd, List.mem_append, List.mem_singleton]
        rcases (mem_mapEmplace _ e _).mp he with he | ⟨he, _⟩
        · obtain ⟨h1, h2, h3, h4, h5⟩ := h.trans e he
          exact ⟨h1, h2, h3, Or.inl h4, Or.inl h5⟩
        · subst he
          exact ⟨rfl, hne, ha, Or.inl hQ, Or.inr rfl⟩
      · exact mapEmplace_keys_nodup _ _ h.keys
      · intro Q2 a2 hP hstep
        rcases hP with hP | ⟨rfl, rfl⟩
        · obtain ⟨R, hR⟩ := h.complete Q2 a2 hP hstep
          exact ⟨R, (mem_mapEmplace _ _ _).mpr (Or.inl hR)⟩
        · exact mapEmplace_key (⟨Q2, a2⟩, subsetStep N Q2 a2) w.transitions
    · rw [if_neg hvis]
      have hin : subsetStep N Q a ∈ w.DFA.allStates :=
        (h.visited _).mp (not_not.mp hvis)
      refine
        { states := h.states, visited := h.visited, nodup := h.nodup, good := h.good,
          initial := h.initial, initialMem := h.initialMem, trans := ?_, keys := ?_,
          complete := ?_ }
      · intro e he
        rcases (mem_mapEmplace _ e _).mp he with he | ⟨he, _⟩
        · exact h.trans e he
        · subst he
          exact ⟨rfl, hne, ha, hQ, hin⟩
      · exact mapEmplace_keys_nodup _ _ h.keys
      · intro Q2 a2 hP hstep
        rcases hP with hP | ⟨rfl, rfl⟩
        · obtain ⟨R, hR⟩ := h.complete Q2 a2 hP hstep
          exact ⟨R, (mem_mapEmplace _ _ _).mpr (Or.inl hR)⟩
        · exact mapEmplace_key (⟨Q2, a2⟩, subsetStep N Q2 a2) w.transitions
  · rw [if_neg hne]
    refine { h with complete := ?_ }
    intro Q2 a2 hP hstep
    rcases hP with hP | ⟨rfl, rfl⟩
    · exact h.complete Q2 a2 hP hstep
    · exact absurd hstep hne

theorem NDtoDSymbol_allStates_mono (N : NDFA) (Q : List Int) (w : Worklist) (a : Char)
    (R : List Int) (h : R ∈ w.DFA.allStates) : R ∈ (NDtoDSymbol N Q w a).DFA.allStates := by
  rw [NDtoDSymbol_eq]
  split
  · split
    · simp only [Automaton.addState]
      split
      · exact h
      · exact List.mem_append_left _ h
    · exact h
  · exact h

/-- The whole `for` loop over the symbols keeps the invariant. -/
theorem NDtoDSymbols_inv (N : NDFA) (A : List Char) (pre : List (List Int)) (Q : List Int)
    (l : List Char) : ∀ (P : List Int → Char → Prop) (w : Worklist),
    WorklistInv N A pre P w → (∀ a ∈ l, a ∈ A) → Q ∈ w.DFA.allStates →
      WorklistInv N A pre (fun Q2 a2 => P Q2 a2 ∨ (Q2 = Q ∧ a2 ∈ l))
        (l.foldl (NDtoDSymbol N Q) w) := by
  induction l with
  | nil =>
    intro P w h _ _
    exact h.weaken (by
      intro Q2 a2 hp
      rcases hp with hp | ⟨_, hp⟩
      · exact hp
      · simp at hp)
  | cons a as ih =>
    intro P w h hA hQ
    rw [List.foldl_cons]
    have h1 := NDtoDSymbol_inv N A pre P Q w a h (hA a (List.mem_cons_self _ _)) hQ
    have h2 := ih _ _ h1 (fun b hb => hA b (List.mem_cons_of_mem _ hb))
      (NDtoDSymbol_allStates_mono N Q w a Q hQ)
    exact h2.weaken (by
      intro Q2 a2 hp
      rcases hp with hp | ⟨hq, hp⟩
      · exact Or.inl (Or.inl hp)
      · rcases List.mem_cons.mp hp with hp | hp
        · exact Or.inl (Or.inr ⟨hq, hp⟩)
        · exact Or.inr ⟨hq, hp⟩)

theorem sorted_eq_of_toFinset_eq (l1 l2 : List Int) (h1 : l1.Sorted (· < ·))
    (h2 : l2.Sorted (· < ·)) (h : l1.toFinset = l2.toFinset) : l1 = l2 :=
  List.eq_of_perm_of_sorted
    (List.perm_of_nodup_nodup_toFinset_eq h1.nodup h2.nodup h) h1 h2

/-- A duplicate-free list of ascending lists over `U` has at most `2 ^ |U|` entries. -/
theorem subsets_length_le (U : List Int) (L : List (List Int)) (hnd : L.Nodup)
    (hs : ∀ Q ∈ L, Q.Sorted (· < ·)) (hU : ∀ Q ∈ L, ∀ x ∈ Q, x ∈ U) :
    L.length ≤ 2 ^ U.length := by
  have hinj : (L.map List.toFinset).Nodup := by
    apply List.Nodup.map_on _ hnd
    intro Q1 h1 Q2 h2 heq
    exact sorted_eq_of_toFinset_eq Q1 Q2 (hs Q1 h1) (hs Q2 h2) heq
  have hsub : (L.map List.toFinset).toFinset ⊆ U.toFinset.powerset := by
    intro s hs1
    rw [List.mem_toFinset, List.mem_map] at hs1
    obtain ⟨Q, hQ, rfl⟩ := hs1
    rw [Finset.mem_powerset]
    intro x hx
    rw [List.mem_toFinset] at hx ⊢
    exact hU Q hQ x hx
  have hcard := Finset.card_le_card hsub
  rw [List.toFinset_card_of_nodup hinj, List.length_map, Finset.card_powerset] at hcard
  have h2 : U.toFinset.card ≤ U.length := List.toFinset_card_le U
  calc L.length ≤ 2 ^ U.toFinset.card := hcard
    _ ≤ 2 ^ U.length := Nat.pow_le_pow_right (by decide) h2

theorem WorklistInv.length_le {N : NDFA} {A : List Char} {pre : List (List Int)}
    {P : List Int → Char → Prop} {w : Worklist} (h : WorklistInv N A pre P w) :
    w.DFA.allStates.length ≤ NDtoDFuel N := by
  have := subsets_length_le (stateUniverse N) w.DFA.allStates h.nodup
    (fun Q hQ => (h.good Q hQ).sorted) (fun Q hQ => (h.good Q hQ).inUniverse)
  simpa [NDtoDFuel, stateUniverse] using this

/-- The worklist loop keeps the invariant and, given `NDtoDFuel` iterations, stops with
an empty queue. -/
theorem NDtoDLoop_inv (N : NDFA) (A : List Char) : ∀ (fuel : Nat) (pre : List (List Int))
    (w : Worklist), WorklistInv N A pre (fun Q a => Q ∈ pre ∧ a ∈ A) w →
    NDtoDFuel N ≤ fuel + pre.length →
      (NDtoDLoop N A fuel w).stateQueue = [] ∧
      WorklistInv N A (NDtoDLoop N A fuel w).DFA.allStates
        (fun Q a => Q ∈ (NDtoDLoop N A fuel w).DFA.allStates ∧ a ∈ A)
        (NDtoDLoop N A fuel w) := by
  intro fuel
  induction fuel with
  | zero =>
    intro pre w h hfuel
    simp only [NDtoDLoop]
    have hlen := h.length_le
    have hst := h.states
    have hq : w.stateQueue = [] := by
      apply List.length_eq_zero.mp
      have := congrArg List.length hst
      simp only [List.length_append] at this
      omega
    refine ⟨hq, ?_⟩
    have hpre : w.DFA.allStates = pre := by rw [hst, hq, List.append_nil]
    rw [hpre]
    exact h
  | succ fuel ih =>
    intro pre w h hfuel
    unfold NDtoDLoop
    cases hq : w.stateQueue with
    | nil =>
      simp only
      refine ⟨hq, ?_⟩
      have hpre : w.DFA.allStates = pre := by rw [h.states, hq, List.append_nil]
      rw [hpre]
      exact h
    | cons Q rest =>
      simp only
      have hst : w.DFA.allStates = (pre ++ [Q]) ++ rest := by
        rw [h.states, hq]; simp
      have hQ : Q ∈ w.DFA.allStates := by rw [hst]; simp
      have h0 : WorklistInv N A (pre ++ [Q]) (fun Q2 a => Q2 ∈ pre ∧ a ∈ A)
          { w with stateQueue := rest } :=
        { states := hst, visited := h.visited, nodup := h.nodup, good := h.good,
          initial := h.initial, initialMem := h.initialMem, trans := h.trans,
          keys := h.keys, complete := h.complete }
      have h1 := NDtoDSymbols_inv N A (pre ++ [Q]) Q A _ _ h0 (fun a ha => ha) hQ
      have h2 : WorklistInv N A (pre ++ [Q]) (fun Q2 a => Q2 ∈ pre ++ [Q] ∧ a ∈ A)
          (A.foldl (NDtoDSymbol N Q) { w with stateQueue := rest }) :=
        h1.weaken (by
          intro Q2 a2 ⟨hq2, ha2⟩
          rcases List.mem_append.mp hq2 with hq2 | hq2
          · exact Or.inl ⟨hq2, ha2⟩
          · exact Or.inr ⟨by simpa using hq2, ha2⟩)
      exact ih _ _ h2 (by simp only [List.length_append, List.length_singleton]; omega)

theorem NDtoDInit_inv (N : NDFA) (A : List Char) :
    WorklistInv N A [] (fun Q a => Q ∈ ([] : List (List Int)) ∧ a ∈ A) (NDtoDInit N) := by
  have hall : (NDtoDInit N).DFA.allStates = [epsilonClosure N (setInsert N.initialState [])] := by
    simp [NDtoDInit, Automaton.addState]
  have hinit : (NDtoDInit N).DFA.initialState = epsilonClosure N (setInsert N.initialState []) := by
    simp [NDtoDInit, Automaton.addState]
  refine
    { states := ?_, visited := ?_, nodup := ?_, good := ?_, initial := hinit,
      initialMem := ?_, trans := ?_, keys := ?_, complete := ?_ }
  · rw [hall]; rfl
  · intro Q
    rw [hall]
    simp [NDtoDInit, setInsert]
  · rw [hall]; exact List.nodup_singleton _
  · intro Q hQ
    rw [hall, List.mem_singleton] at hQ
    rw [hQ]
    exact startSubset_good N
  · rw [hall, hinit]; exact List.mem_singleton_self _
  · intro e he
    simp [NDtoDInit] at he
  · simp [NDtoDInit]
  · intro Q a hP
    simp at hP

/-- The facts about the result of `NDtoD` from which its properties follow. -/
theorem NDtoD_inv (N : NDFA) :
    (NDtoDLoop N (N.alphabet.filter (fun c => decide (c ≠ epsilon))) (NDtoDFuel N)
      (NDtoDInit N)).stateQueue = [] ∧
    WorklistInv N (N.alphabet.filter (fun c => decide (c ≠ epsilon)))
      (NDtoD N).allStates
      (fun Q a => Q ∈ (NDtoD N).allStates ∧
        a ∈ N.alphabet.filter (fun c => decide (c ≠ epsilon)))
      (NDtoDLoop N (N.alphabet.filter (fun c => decide (c ≠ epsilon))) (NDtoDFuel N)
        (NDtoDInit N)) :=
  NDtoDLoop_inv N _ (NDtoDFuel N) [] (NDtoDInit N) (NDtoDInit_inv N _) (by simp)

theorem NDtoD_transitions (N : NDFA) :
    (NDtoD N).transitions =
      (NDtoDLoop N (N.alphabet.filter (fun c => decide (c ≠ epsilon))) (NDtoDFuel N)
        (NDtoDInit N)).transitions := rfl

theorem NDtoD_initialState (N : NDFA) :
    (NDtoD N).initialState =
      (NDtoDLoop N (N.alphabet.filter (fun c => decide (c ≠ epsilon))) (NDtoDFuel N)
        (NDtoDInit N)).DFA.initialState := rfl

theorem NDtoD_finalStates (N : NDFA) :
    (NDtoD N).finalStates = finalStatesDFAIndices N.finalStates (NDtoD N).allStates := rfl

/-- C5: the automaton returned by `NDtoD` is deterministic: its transition map holds at
most one entry for a subset and a symbol, two entries with the same subset and symbol
have the same target, and no entry is labelled with ε. -/
theorem NDtoD_deterministic (N : NDFA) :
    ((NDtoD N).transitions.map Prod.fst).Nodup ∧
    (∀ (Q : List Int) (a : Char) (R1 R2 : List Int),
      ((⟨Q, a⟩, R1) : Key (List Int) × List Int) ∈ (NDtoD N).transitions →
      ((⟨Q, a⟩, R2) : Key (List Int) × List Int) ∈ (NDtoD N).transitions → R1 = R2) ∧
    (∀ e ∈ (NDtoD N).transitions, e.1.symbol ≠ epsilon) := by
  have hinv := (NDtoD_inv N).2
  rw [NDtoD_transitions]
  refine ⟨hinv.keys, ?_, ?_⟩
  · intro Q a R1 R2 h1 h2
    have e1 : R1 = subsetStep N Q a := (hinv.trans _ h1).1
    have e2 : R2 = subsetStep N Q a := (hinv.trans _ h2).1
    rw [e1, e2]
  · intro e he
    have := (hinv.trans e he).2.2.1
    simpa using (List.mem_filter.mp this).2

theorem NfaPath_nil_iff (T : NTransitions) (p q : Int) :
    NfaPath T p [] q ↔ EpsReach T p q := by
  constructor
  · intro h
    generalize hw : ([] : List Char) = w at h
    induction h with
    | done p => exact Relation.ReflTransGen.refl
    | eps hstep _ ih => exact Relation.ReflTransGen.head hstep (ih hw)
    | sym _ _ _ _ => cases hw
  · intro h
    induction h using Relation.ReflTransGen.head_induction_on with
    | refl => exact NfaPath.done q
    | head hstep _ ih => exact NfaPath.eps hstep ih

theorem NfaPath.of_eps {T : NTransitions} {p p1 q : Int} {w : List Char}
    (h : EpsReach T p p1) (hp : NfaPath T p1 w q) : NfaPath T p w q := by
  induction h using Relation.ReflTransGen.head_induction_on with
  | refl => exact hp
  | head hstep _ ih => exact NfaPath.eps hstep ih

theorem NfaPath_cons_iff (T : NTransitions) (p q : Int) (a : Char) (w : List Char) :
    NfaPath T p (a :: w) q ↔ ∃ p1 t : Int, EpsReach T p p1 ∧ a ≠ epsilon ∧
      ((⟨p1, a⟩, t) : Key Int × Int) ∈ T ∧ NfaPath T t w q := by
  constructor
  · intro h
    generalize hw : a :: w = w1 at h
    induction h with
    | done p => cases hw
    | eps hstep _ ih =>
      obtain ⟨p1, t, hr, ha, ht, hp⟩ := ih hw
      exact ⟨p1, t, Relation.ReflTransGen.head hstep hr, ha, ht, hp⟩
    | sym ha ht hp _ =>
      cases hw
      exact ⟨_, _, Relation.ReflTransGen.refl, ha, ht, hp⟩
  · rintro ⟨p1, t, hr, ha, ht, hp⟩
    exact NfaPath.of_eps hr (NfaPath.sym ha ht hp)

theorem mem_finalStates_fold (c : Nat → Prop) [DecidablePred c] (l : List Nat) :
    ∀ (init : List Int) (x : Int),
      x ∈ l.foldl (fun acc i => if c i then setInsert (i : Int) acc else acc) init ↔
        x ∈ init ∨ ∃ n ∈ l, c n ∧ x = (n : Int) := by
  induction l with
  | nil => intro init x; simp
  | cons i is ih =>
    intro init x
    rw [List.foldl_cons, ih]
    by_cases hc : c i
    · simp only [hc, if_true, mem_setInsert, List.mem_cons, exists_eq_or_imp, true_and]
      tauto
    · simp only [hc, if_false, List.mem_cons, exists_eq_or_imp, false_and, false_or]

theorem mem_finalStatesDFAIndices (f : Int) (work : List (List Int)) (x : Int) :
    x ∈ finalStatesDFAIndices f work ↔
      ∃ n : Nat, n < work.length ∧ f ∈ work.getD n [] ∧ x = (n : Int) := by
  unfold finalStatesDFAIndices
  rw [mem_finalStates_fold (fun i => f ∈ work.getD i [])]
  simp only [List.not_mem_nil, false_or, List.mem_range]

theorem getIndexForStateFrom_mem (R : List Int) (l : List (List Int)) :
    ∀ k : Int, R ∈ l →
      ∃ n : Nat, n < l.length ∧ l.getD n [] = R ∧ getIndexForStateFrom R l k = k + n := by
  induction l with
  | nil => intro k h; simp at h
  | cons Q Qs ih =>
    intro k h
    unfold getIndexForStateFrom
    by_cases hq : Q = R
    · exact ⟨0, by simp, by simp [hq], by simp [hq]⟩
    · have hmem : R ∈ Qs := by
        rcases List.mem_cons.mp h with h | h
        · exact absurd h.symm hq
        · exact h
      obtain ⟨n, hn, hget, hidx⟩ := ih (k + 1) hmem
      refine ⟨n + 1, by simp; omega, by simpa using hget, ?_⟩
      simp only [hq, if_false, hidx]
      push_cast
      omega

/-- The index of a listed subset is an accept index exactly when the subset holds the
NFA's final state. -/
theorem index_mem_finalStates (N : NDFA) (R : List Int) (hR : R ∈ (NDtoD N).allStates) :
    getIndexForState (NDtoD N) R ∈ (NDtoD N).finalStates ↔ N.finalStates ∈ R := by
  obtain ⟨n, hn, hget, hidx⟩ := getIndexForStateFrom_mem R (NDtoD N).allStates 0 hR
  unfold getIndexForState
  rw [hidx, NDtoD_finalStates, mem_finalStatesDFAIndices]
  constructor
  · rintro ⟨m, _, hf, hm⟩
    have : n = m := by omega
    subst this
    rw [hget] at hf
    exact hf
  · intro hf
    exact ⟨n, hn, by rw [hget]; exact hf, by omega⟩

/-- The run of the DFA follows the set of NFA states reachable on the word. -/
theorem dfaRun_spec (N : NDFA) (w : List Char) :
    ∀ Q : List Int, Q ∈ (NDtoD N).allStates →
      (∀ a ∈ w, a ∈ N.alphabet ∧ a ≠ epsilon) →
      match dfaRun (NDtoD N) Q w with
      | some R => R ∈ (NDtoD N).allStates ∧
          ∀ q : Int, q ∈ R ↔ ∃ p ∈ Q, NfaPath N.transitions p w q
      | none => ∀ p ∈ Q, ∀ q : Int, ¬ NfaPath N.transitions p w q := by
  have hinv := (NDtoD_inv N).2
  induction w with
  | nil =>
    intro Q hQ _
    simp only [dfaRun]
    refine ⟨hQ, ?_⟩
    intro q
    have hclosed := (hinv.good Q hQ).closed
    constructor
    · intro hq
      exact ⟨q, hq, NfaPath.done q⟩
    · rintro ⟨p, hp, hpath⟩
      have hr := (NfaPath_nil_iff _ _ _).mp hpath
      clear hpath
      induction hr with
      | refl => exact hp
      | tail _ hstep ih => exact hclosed _ ih _ hstep
  | cons a w ih =>
    intro Q hQ hw
    have ha := hw a (List.mem_cons_self _ _)
    have hw2 : ∀ b ∈ w, b ∈ N.alphabet ∧ b ≠ epsilon :=
      fun b hb => hw b (List.mem_cons_of_mem _ hb)
    have haA : a ∈ N.alphabet.filter (fun c => decide (c ≠ epsilon)) :=
      List.mem_filter.mpr ⟨ha.1, by simpa using ha.2⟩
    have hclosed : ∀ p ∈ Q, ∀ p1, EpsReach N.transitions p p1 → p1 ∈ Q := by
      intro p hp p1 hr
      induction hr with
      | refl => exact hp
      | tail _ hstep ih2 => exact (hinv.good Q hQ).closed _ ih2 _ hstep
    simp only [dfaRun]
    cases hfind : mapFind (NDtoD N).transitions ⟨Q, a⟩ with
    | none =>
      simp only
      intro p hp q hpath
      obtain ⟨p1, t, hr, _, ht, _⟩ := (NfaPath_cons_iff _ _ _ _ _).mp hpath
      have hp1 := hclosed p hp p1 hr
      have hstep : subsetStep N Q a ≠ [] := by
        apply List.ne_nil_of_mem
        exact (mem_subsetStep N Q a t).mpr ⟨p1, hp1, t, ht, Relation.ReflTransGen.refl⟩
      obtain ⟨R, hR⟩ := hinv.complete Q a ⟨hQ, haA⟩ hstep
      rw [NDtoD_transitions] at hfind
      exact (mapFind_eq_none _ _).mp hfind R hR
    | some R =>
      simp only
      rw [NDtoD_transitions] at hfind
      have hmem := (mapFind_eq_some _ _ _ hinv.keys).mp hfind
      obtain ⟨hR1, _, _, _, hR5⟩ := hinv.trans _ hmem
      simp only at hR1 hR5
      have hih := ih R hR5 hw2
      cases hrun : dfaRun (NDtoD N) R w with
      | none =>
        rw [hrun] at hih
        simp only at hih ⊢
        intro p hp q hpath
        obtain ⟨p1, t, hr, _, ht, hrest⟩ := (NfaPath_cons_iff _ _ _ _ _).mp hpath
        have hp1 := hclosed p hp p1 hr
        have ht2 : t ∈ R := by
          rw [hR1]
          exact (mem_subsetStep N Q a t).mpr ⟨p1, hp1, t, ht, Relation.ReflTransGen.refl⟩
        exact hih t ht2 q hrest
      | some R2 =>
        rw [hrun] at hih
        simp only at hih ⊢
        refine ⟨hih.1, ?_⟩
        intro q
        rw [hih.2 q]
        constructor
        · rintro ⟨t1, ht1, hpath⟩
          rw [hR1] at ht1
          obtain ⟨p, hp, t, ht, hr⟩ := (mem_subsetStep N Q a t1).mp ht1
          exact ⟨p, hp, (NfaPath_cons_iff _ _ _ _ _).mpr
            ⟨p, t, Relation.ReflTransGen.refl, ha.2, ht, NfaPath.of_eps hr hpath⟩⟩
        · rintro ⟨p, hp, hpath⟩
          obtain ⟨p1, t, hr, _, ht, hrest⟩ := (NfaPath_cons_iff _ _ _ _ _).mp hpath
          have hp1 := hclosed p hp p1 hr
          refine ⟨t, ?_, hrest⟩
          rw [hR1]
          exact (mem_subsetStep N Q a t).mpr ⟨p1, hp1, t, ht, Relation.ReflTransGen.refl⟩

/-- C1: for every word over the non-ε alphabet of the NFA, the DFA returned by `NDtoD`
accepts the word (its run from the start subset ends in a subset whose index is an accept
index) exactly when some path of the NFA from its start state to its accept state spells
the word. -/
theorem NDtoD_language (N : NDFA) (w : List Char)
    (hw : ∀ a ∈ w, a ∈ N.alphabet ∧ a ≠ epsilon) :
    dfaAccepts (NDtoD N) w = true ↔ NfaAccepts N w := by
  have hinv := (NDtoD_inv N).2
  have hinit : (NDtoD N).initialState = epsilonClosure N (setInsert N.initialState []) := by
    rw [NDtoD_initialState]
    exact hinv.initial
  have hmem : (NDtoD N).initialState ∈ (NDtoD N).allStates := by
    rw [NDtoD_initialState]
    exact hinv.initialMem
  have hrun := dfaRun_spec N w (NDtoD N).initialState hmem hw
  have hstart : N.initialState ∈ (NDtoD N).initialState := by
    rw [hinit]
    exact (mem_startSubset N _).mpr Relation.ReflTransGen.refl
  unfold dfaAccepts NfaAccepts
  cases hr : dfaRun (NDtoD N) (NDtoD N).initialState w with
  | none =>
    rw [hr] at hrun
    simp only at hrun ⊢
    constructor
    · intro h; cases h
    · intro h
      exact absurd h (hrun _ hstart _)
  | some R =>
    rw [hr] at hrun
    simp only at hrun ⊢
    rw [decide_eq_true_iff, index_mem_finalStates N R hrun.1, hrun.2]
    constructor
    · rintro ⟨p, hp, hpath⟩
      rw [hinit] at hp
      exact NfaPath.of_eps ((mem_startSubset N p).mp hp) hpath
    · intro h
      exact ⟨_, hstart, h⟩

/-- Witness of `NDtoD_language`: the NFA `0 --a--> 1 --ε--> 2 --b--> 3` and the word
`ab`. -/
theorem NDtoD_language_witness :
    (∀ a ∈ ['a', 'b'], a ∈ nfa_ab.alphabet ∧ a ≠ epsilon) ∧
      (dfaAccepts (NDtoD nfa_ab) ['a', 'b'] = true ↔ NfaAccepts nfa_ab ['a', 'b']) :=
  ⟨by decide, NDtoD_language nfa_ab ['a', 'b'] (by decide)⟩

/-! ## The Thompson construction -/

theorem AST.postorder_null_iff (t : AST) : t.postorder = [] ↔ t = .null := by
  cases t <;> simp [AST.postorder]

/-- The traversal loop leaves on `end` the post-order of every tree of `working`, the
tree on top of `working` deepest. -/
theorem visitingLoop_eq : ∀ (fuel : Nat) (working end_ : List AST),
    (∀ t ∈ working, t ≠ .null) → (working.map AST.size).sum ≤ fuel →
      visitingLoop fuel working end_ =
        working.foldl (fun acc t => t.postorder ++ acc) end_ := by
  intro fuel
  induction fuel with
  | zero =>
    intro working end_ hnn hsize
    cases working with
    | nil => rfl
    | cons t ts =>
      exfalso
      have ht := hnn t (List.mem_cons_self _ _)
      cases t with
      | null => exact ht rfl
      | node c l r =>
        simp [AST.size] at hsize
  | succ fuel ih =>
    intro working end_ hnn hsize
    cases working with
    | nil => rfl
    | cons t ts =>
      have ht := hnn t (List.mem_cons_self _ _)
      have hts : ∀ u ∈ ts, u ≠ .null := fun u hu => hnn u (List.mem_cons_of_mem _ hu)
      cases t with
      | null => exact absurd rfl ht
      | node c l r =>
        simp only [visitingLoop]
        simp only [List.map_cons, List.sum_cons, AST.size] at hsize
        rw [ih]
        · by_cases hl : l = .null <;> by_cases hr : r = .null <;>
            simp [hl, hr, AST.postorder]
        · intro u hu
          by_cases hl : l = .null <;> by_cases hr : r = .null <;>
            simp only [hl, hr, ne_eq, not_true_eq_false, not_false_eq_true, if_true, if_false,
              List.mem_cons] at hu
          · exact hts u hu
          · rcases hu with rfl | hu
            · exact hr
            · exact hts u hu
          · rcases hu with rfl | hu
            · exact hl
            · exact hts u hu
          · rcases hu with rfl | rfl | hu
            · exact hr
            · exact hl
            · exact hts u hu
        · by_cases hl : l = .null <;> by_cases hr : r = .null <;>
            simp only [hl, hr, ne_eq, not_true_eq_false, not_false_eq_true, if_true, if_false,
              List.map_cons, List.sum_cons, AST.size] at hsize ⊢ <;> omega

theorem visitingASTforAutoma_eq (t : AST) (h : t ≠ .null) :
    visitingASTforAutoma t = .ok t.postorder := by
  unfold visitingASTforAutoma
  rw [if_neg h, visitingLoop_eq _ _ _ (by simpa using h) (by simp)]
  simp

theorem NfaPath.mono {T T2 : NTransitions} {p q : Int} {w : List Char}
    (hT : ∀ e ∈ T, e ∈ T2) (h : NfaPath T p w q) : NfaPath T2 p w q := by
  induction h with
  | done p => exact NfaPath.done p
  | eps he _ ih => exact NfaPath.eps (hT _ he) ih
  | sym ha he _ ih => exact NfaPath.sym ha (hT _ he) ih

theorem NfaPath.append {T : NTransitions} {p q r : Int} {u v : List Char}
    (h1 : NfaPath T p u q) (h2 : NfaPath T q v r) : NfaPath T p (u ++ v) r := by
  induction h1 with
  | done p => exact h2
  | eps he _ ih => exact NfaPath.eps he (ih h2)
  | sym ha he _ ih => exact NfaPath.sym ha he (ih h2)

/-- A path that starts in a set of states closed under the transitions of `T2`, all of
which are transitions of `T`, is a path of `T` and ends in the set. -/
theorem NfaPath.closed {T T2 : NTransitions} (P : Int → Prop)
    (hP : ∀ e ∈ T2, P e.1.state → e ∈ T ∧ P e.2) {p q : Int} {w : List Char}
    (h : NfaPath T2 p w q) (hp : P p) : NfaPath T p w q ∧ P q := by
  induction h with
  | done p => exact ⟨NfaPath.done p, hp⟩
  | eps he _ ih =>
    have := hP _ he hp
    exact ⟨NfaPath.eps this.1 (ih this.2).1, (ih this.2).2⟩
  | sym ha he _ ih =>
    have := hP _ he hp
    exact ⟨NfaPath.sym ha this.1 (ih this.2).1, (ih this.2).2⟩

/-- A path that starts in a set of states which the transitions of `T2` leave only at
the state `x`: it stays in the set along transitions of `T`, or it reaches `x` along
transitions of `T` and goes on from there. -/
theorem NfaPath.exit {T T2 : NTransitions} (P : Int → Prop) (x : Int)
    (hP : ∀ e ∈ T2, P e.1.state → e.1.state ≠ x → e ∈ T ∧ P e.2) {p q : Int}
    {w : List Char} (h : NfaPath T2 p w q) (hp : P p) :
    (NfaPath T p w q ∧ P q) ∨
      ∃ w1 w2 : List Char, w = w1 ++ w2 ∧ NfaPath T p w1 x ∧ NfaPath T2 x w2 q := by
  induction h with
  | done p => exact Or.inl ⟨NfaPath.done p, hp⟩
  | @eps p q1 r w he hrest ih =>
    by_cases hx : p = x
    · right
      exact ⟨[], w, rfl, hx ▸ NfaPath.done p, hx ▸ NfaPath.eps he hrest⟩
    · have := hP _ he hp hx
      rcases ih this.2 with ⟨h1, h2⟩ | ⟨w1, w2, hw, h1, h2⟩
      · exact Or.inl ⟨NfaPath.eps this.1 h1, h2⟩
      · exact Or.inr ⟨w1, w2, hw, NfaPath.eps this.1 h1, h2⟩
  | @sym p q1 r a w ha he hrest ih =>
    by_cases hx : p = x
    · right
      exact ⟨[], a :: w, rfl, hx ▸ NfaPath.done p, hx ▸ NfaPath.sym ha he hrest⟩
    · have := hP _ he hp hx
      rcases ih this.2 with ⟨h1, h2⟩ | ⟨w1, w2, hw, h1, h2⟩
      · exact Or.inl ⟨NfaPath.sym ha this.1 h1, h2⟩
      · exact Or.inr ⟨a :: w1, w2, by rw [hw]; rfl, NfaPath.sym ha this.1 h1, h2⟩

theorem NfaPath.stuck {T : NTransitions} {p q : Int} {w : List Char}
    (hT : ∀ e ∈ T, e.1.state ≠ p) (h : NfaPath T p w q) : w = [] ∧ q = p := by
  cases h with
  | done => exact ⟨rfl, rfl⟩
  | eps he _ => exact absurd rfl (hT _ he)
  | sym _ he _ => exact absurd rfl (hT _ he)

/-- The first transition of a path between two different states. -/
theorem NfaPath.first {T : NTransitions} {p q : Int} {w : List Char}
    (h : NfaPath T p w q) (hne : p ≠ q) :
    (∃ t : Int, ((⟨p, epsilon⟩, t) : Key Int × Int) ∈ T ∧ NfaPath T t w q) ∨
    (∃ (a : Char) (t : Int) (w1 : List Char), a ≠ epsilon ∧ w = a :: w1 ∧
      ((⟨p, a⟩, t) : Key Int × Int) ∈ T ∧ NfaPath T t w1 q) := by
  cases h with
  | done => exact absurd rfl hne
  | eps he hrest => exact Or.inl ⟨_, he, hrest⟩
  | sym ha he hrest => exact Or.inr ⟨_, _, _, ha, rfl, he, hrest⟩

theorem outCount_mmInsert (e : Key Int × Int) (m : NTransitions) (k : Key Int) :
    outCount (mmInsert e m) k = outCount m k + (if e.1 = k then 1 else 0) := by
  unfold outCount equalRange
  rw [((mmInsert_perm e m).filter _).length_eq, List.filter_cons]
  by_cases h : e.1 = k
  · simp [h]
  · simp [h]

theorem outCount_nil (k : Key Int) : outCount [] k = 0 := rfl

theorem outCount_mmInsertRange (r : NTransitions) : ∀ (m : NTransitions) (k : Key Int),
    outCount (mmInsertRange m r) k = outCount m k + outCount r k := by
  induction r with
  | nil => intro m k; simp [mmInsertRange, outCount_nil]
  | cons e es ih =>
    intro m k
    have := ih (mmInsert e m) k
    simp only [mmInsertRange, List.foldl_cons] at this ⊢
    rw [this, outCount_mmInsert]
    have : outCount (e :: es) k = outCount es k + (if e.1 = k then 1 else 0) := by
      unfold outCount equalRange
      rw [List.filter_cons]
      by_cases h : e.1 = k <;> simp [h]
    omega

theorem outCount_eq_zero (m : NTransitions) (k : Key Int) (h : ∀ e ∈ m, e.1 ≠ k) :
    outCount m k = 0 := by
  unfold outCount equalRange
  rw [List.length_eq_zero, List.filter_eq_nil_iff]
  intro e he
  simpa using h e he

theorem addTransition_eps (a : NDFA) (s t : Int)
    (h : outCount a.transitions ⟨s, epsilon⟩ < 2) :
    a.addTransition s epsilon t =
      .ok { a with transitions := mmInsert (⟨s, epsilon⟩, t) a.transitions } := by
  unfold Automaton.addTransition
  have h2 : (equalRange a.transitions ⟨s, '*'⟩).length < 2 := h
  simp only [h2, if_true, epsilon]

theorem addTransition_sym (a : NDFA) (s t : Int) (c : Char) (hc : c ≠ '*')
    (h : outCount a.transitions ⟨s, c⟩ = 0) :
    a.addTransition s c t =
      .ok { a with transitions := mmInsert (⟨s, c⟩, t) a.transitions } := by
  unfold Automaton.addTransition
  have h2 : (equalRange a.transitions ⟨s, c⟩).length = 0 := h
  simp only [hc, h2, if_true, if_false]

theorem addState_fields (a : NDFA) (s : Int) :
    (a.addState s).transitions = a.transitions ∧
    (a.addState s).initialState = a.initialState ∧
    (a.addState s).finalStates = a.finalStates ∧
    (a.addState s).alphabet = a.alphabet := by
  unfold Automaton.addState
  split <;> exact ⟨rfl, rfl, rfl, rfl⟩

theorem addTransitionStates_fold (l : NTransitions) : ∀ a : NDFA,
    (l.foldl (fun acc entry => (acc.addState entry.1.state).addState entry.2) a).transitions
        = a.transitions ∧
    (l.foldl (fun acc entry => (acc.addState entry.1.state).addState entry.2) a).initialState
        = a.initialState ∧
    (l.foldl (fun acc entry => (acc.addState entry.1.state).addState entry.2) a).finalStates
        = a.finalStates ∧
    (l.foldl (fun acc entry => (acc.addState entry.1.state).addState entry.2) a).alphabet
        = a.alphabet := by
  induction l with
  | nil => intro a; exact ⟨rfl, rfl, rfl, rfl⟩
  | cons e es ih =>
    intro a
    rw [List.foldl_cons]
    obtain ⟨h1, h2, h3, h4⟩ := ih ((a.addState e.1.state).addState e.2)
    obtain ⟨g1, g2, g3, g4⟩ := addState_fields (a.addState e.1.state) e.2
    obtain ⟨f1, f2, f3, f4⟩ := addState_fields a e.1.state
    exact ⟨by rw [h1, g1, f1], by rw [h2, g2, f2], by rw [h3, g3, f3], by rw [h4, g4, f4]⟩

theorem addTransitionStates_fields (a : NDFA) :
    (addTransitionStates a).transitions = a.transitions ∧
    (addTransitionStates a).initialState = a.initialState ∧
    (addTransitionStates a).finalStates = a.finalStates ∧
    (addTransitionStates a).alphabet = a.alphabet :=
  addTransitionStates_fold a.transitions a

/-- The Kleene-star machine over an NFA with states below the counter `n`. -/
theorem AutomataPool_KleeneStar_ok (left : NDFA) (lo n : Int)
    (h : ThompsonShape left lo n) :
    ∃ S : NDFA, AutomataPool_KleeneStar left n = .ok (S, n + 2) ∧
      S.initialState = n ∧ S.finalStates = n + 1 ∧
      ∀ e : Key Int × Int, e ∈ S.transitions ↔
        (e ∈ left.transitions ∨ e = (⟨n, epsilon⟩, n + 1) ∨
          e = (⟨left.finalStates, epsilon⟩, n + 1) ∨ e = (⟨n, epsilon⟩, left.initialState) ∨
          e = (⟨left.finalStates, epsilon⟩, left.initialState)) := by
  have hfin := h.final
  have c0 : ∀ k : Key Int, outCount (mmInsertRange [] left.transitions) k =
      outCount left.transitions k := by
    intro k
    rw [outCount_mmInsertRange, outCount_nil, Nat.zero_add]
  have cn : outCount left.transitions ⟨n, epsilon⟩ = 0 := by
    apply outCount_eq_zero
    intro e he hk
    have := (h.range e he).2.1
    rw [hk] at this
    simp at this
  have cf : outCount left.transitions ⟨left.finalStates, epsilon⟩ = 0 := by
    apply outCount_eq_zero
    intro e he hk
    apply h.finalOut e he
    rw [hk]
  have hne : ¬ ((⟨n, epsilon⟩ : Key Int) = ⟨left.finalStates, epsilon⟩) := by
    intro hk
    have := congrArg Key.state hk
    simp at this
    omega
  have hne2 : ¬ ((⟨left.finalStates, epsilon⟩ : Key Int) = ⟨n, epsilon⟩) := by
    intro hk
    exact hne hk.symm
  unfold AutomataPool_KleeneStar
  simp only [emptyNDFA]
  rw [addTransition_eps _ _ _ (by simp only [c0, cn]; decide)]
  simp only
  rw [addTransition_eps _ _ _ (by simp only [outCount_mmInsert, c0, cf, hne]; decide)]
  simp only
  rw [addTransition_eps _ _ _ (by
    simp only [outCount_mmInsert, c0, cn, hne2, if_true, if_false]; decide)]
  simp only
  rw [addTransition_eps _ _ _ (by
    simp only [outCount_mmInsert, c0, cf, hne, if_true, if_false]; decide)]
  simp only
  refine ⟨_, rfl, ?_, ?_, ?_⟩
  · rw [(addTransitionStates_fields _).2.1]
  · rw [(addTransitionStates_fields _).2.2.1]
  · intro e
    rw [(addTransitionStates_fields _).1]
    simp only [mem_mmInsert, mem_mmInsertRange, List.not_mem_nil, false_or]
    tauto

/-- The union machine over two NFAs with disjoint states below the counter `n`. -/
theorem AutomataPool_Union_ok (left right : NDFA) (lo mid n : Int)
    (hl : ThompsonShape left lo mid) (hr : ThompsonShape right mid n) :
    ∃ S : NDFA, AutomataPool_Union left right n = .ok (S, n + 2) ∧
      S.initialState = n ∧ S.finalStates = n + 1 ∧
      ∀ e : Key Int × Int, e ∈ S.transitions ↔
        (e ∈ left.transitions ∨ e ∈ right.transitions ∨
          e = (⟨n, epsilon⟩, left.initialState) ∨ e = (⟨n, epsilon⟩, right.initialState) ∨
          e = (⟨left.finalStates, epsilon⟩, n + 1) ∨
          e = (⟨right.finalStates, epsilon⟩, n + 1)) := by
  have hlf := hl.final
  have hrf := hr.final
  have c0 : ∀ k : Key Int,
      outCount (mmInsertRange (mmInsertRange [] left.transitions) right.transitions) k =
        outCount left.transitions k + outCount right.transitions k := by
    intro k
    rw [outCount_mmInsertRange, outCount_mmInsertRange, outCount_nil, Nat.zero_add]
  have cln : outCount left.transitions ⟨n, epsilon⟩ = 0 := by
    apply outCount_eq_zero
    intro e he hk
    have := (hl.range e he).2.1
    rw [hk] at this
    simp only at this
    omega
  have crn : outCount right.transitions ⟨n, epsilon⟩ = 0 := by
    apply outCount_eq_zero
    intro e he hk
    have := (hr.range e he).2.1
    rw [hk] at this
    simp at this
  have clf : outCount left.transitions ⟨left.finalStates, epsilon⟩ = 0 := by
    apply outCount_eq_zero
    intro e he hk
    apply hl.finalOut e he
    rw [hk]
  have crlf : outCount right.transitions ⟨left.finalStates, epsilon⟩ = 0 := by
    apply outCount_eq_zero
    intro e he hk
    have := (hr.range e he).1
    rw [hk] at this
    simp only at this
    omega
  have clrf : outCount left.transitions ⟨right.finalStates, epsilon⟩ = 0 := by
    apply outCount_eq_zero
    intro e he hk
    have := (hl.range e he).2.1
    rw [hk] at this
    simp only at this
    omega
  have crf : outCount right.transitions ⟨right.finalStates, epsilon⟩ = 0 := by
    apply outCount_eq_zero
    intro e he hk
    apply hr.finalOut e he
    rw [hk]
  have hne1 : ¬ ((⟨n, epsilon⟩ : Key Int) = ⟨left.finalStates, epsilon⟩) := by
    intro hk
    have := congrArg Key.state hk
    simp only at this
    omega
  have hne2 : ¬ ((⟨n, epsilon⟩ : Key Int) = ⟨right.finalStates, epsilon⟩) := by
    intro hk
    have := congrArg Key.state hk
    simp only at this
    omega
  have hne3 : ¬ ((⟨left.finalStates, epsilon⟩ : Key Int) = ⟨right.finalStates, epsilon⟩) := by
    intro hk
    have := congrArg Key.state hk
    simp only at this
    omega
  unfold AutomataPool_Union
  simp only [emptyNDFA]
  rw [addTransition_eps _ _ _ (by simp only [c0, cln, crn]; decide)]
  simp only
  rw [addTransition_eps _ _ _ (by simp only [outCount_mmInsert, c0, cln, crn, if_true]; decide)]
  simp only
  rw [addTransition_eps _ _ _ (by
    simp only [outCount_mmInsert, c0, clf, crlf, hne1, if_false]; decide)]
  simp only
  rw [addTransition_eps _ _ _ (by
    simp only [outCount_mmInsert, c0, clrf, crf, hne2, hne3, if_false]; decide)]
  simp only
  have e2 : n + 1 + 1 = n + 2 := by omega
  rw [e2]
  refine ⟨_, rfl, ?_, ?_, ?_⟩
  · rw [(addTransitionStates_fields _).2.1]
  · rw [(addTransitionStates_fields _).2.2.1]
  · intro e
    rw [(addTransitionStates_fields _).1]
    simp only [mem_mmInsert, mem_mmInsertRange, List.not_mem_nil, false_or]
    tauto

/-- The concatenation machine over two NFAs with disjoint states. -/
theorem AutomataPool_Concatenation_ok (left right : NDFA) (lo mid n : Int)
    (hl : ThompsonShape left lo mid) (hr : ThompsonShape right mid n) :
    ∃ S : NDFA, AutomataPool_Concatenation left right = .ok S ∧
      S.initialState = left.initialState ∧ S.finalStates = right.finalStates ∧
      ∀ e : Key Int × Int, e ∈ S.transitions ↔
        (e ∈ left.transitions ∨ e ∈ right.transitions ∨
          e = (⟨left.finalStates, epsilon⟩, right.initialState)) := by
  have hlf := hl.final
  have c0 : ∀ k : Key Int,
      outCount (mmInsertRange (mmInsertRange [] left.transitions) right.transitions) k =
        outCount left.transitions k + outCount right.transitions k := by
    intro k
    rw [outCount_mmInsertRange, outCount_mmInsertRange, outCount_nil, Nat.zero_add]
  have clf : outCount left.transitions ⟨left.finalStates, epsilon⟩ = 0 := by
    apply outCount_eq_zero
    intro e he hk
    apply hl.finalOut e he
    rw [hk]
  have crlf : outCount right.transitions ⟨left.finalStates, epsilon⟩ = 0 := by
    apply outCount_eq_zero
    intro e he hk
    have := (hr.range e he).1
    rw [hk] at this
    simp only at this
    omega
  unfold AutomataPool_Concatenation
  simp only [emptyNDFA]
  rw [addTransition_eps _ _ _ (by simp only [c0, clf, crlf]; decide)]
  simp only
  refine ⟨_, rfl, ?_, ?_, ?_⟩
  · rw [(addTransitionStates_fields _).2.1]
  · rw [(addTransitionStates_fields _).2.2.1]
  · intro e
    rw [(addTransitionStates_fields _).1]
    simp only [mem_mmInsert, mem_mmInsertRange, List.not_mem_nil, false_or]
    tauto

theorem symbol_language (n : Int) (c : Char) (hc : c ≠ epsilon) (w : List Char) :
    NfaPath [((⟨n, c⟩, n + 1) : Key Int × Int)] n w (n + 1) ↔ w = [c] := by
  have hstuck : ∀ e ∈ [((⟨n, c⟩, n + 1) : Key Int × Int)], e.1.state ≠ n + 1 := by
    intro e he
    rw [List.mem_singleton] at he
    rw [he]
    simp
  constructor
  · intro h
    rcases h.first (by omega) with ⟨t, ht, _⟩ | ⟨a, t, w1, _, hw, ht, hrest⟩
    · rw [List.mem_singleton] at ht
      have := congrArg (fun e : Key Int × Int => e.1.symbol) ht
      exact absurd this.symm hc
    · rw [List.mem_singleton] at ht
      have h1 := congrArg (fun e : Key Int × Int => e.1.symbol) ht
      have h2 := congrArg (fun e : Key Int × Int => e.2) ht
      simp only at h1 h2
      subst h1 h2
      have := hrest.stuck hstuck
      rw [hw, this.1]
  · intro h
    rw [h]
    exact NfaPath.sym hc (List.mem_singleton_self _) (NfaPath.done _)

/-- The language of the concatenation machine. -/
theorem concatenation_language (TA TB T2 : NTransitions) (sA fA sB fB lo mid hi : Int)
    (LA LB : Language Char)
    (hTA : ∀ e ∈ TA, lo ≤ e.1.state ∧ e.1.state < mid ∧ lo ≤ e.2 ∧ e.2 < mid)
    (hTB : ∀ e ∈ TB, mid ≤ e.1.state ∧ e.1.state < hi ∧ mid ≤ e.2 ∧ e.2 < hi)
    (hsA : lo ≤ sA ∧ sA < mid) (hfA : lo ≤ fA ∧ fA < mid)
    (hsB : mid ≤ sB ∧ sB < hi) (hfB : mid ≤ fB ∧ fB < hi)
    (hfAout : ∀ e ∈ TA, e.1.state ≠ fA)
    (hT2 : ∀ e : Key Int × Int, e ∈ T2 ↔ (e ∈ TA ∨ e ∈ TB ∨ e = (⟨fA, epsilon⟩, sB)))
    (hLA : ∀ w, NfaPath TA sA w fA ↔ w ∈ LA)
    (hLB : ∀ w, NfaPath TB sB w fB ↔ w ∈ LB) (w : List Char) :
    NfaPath T2 sA w fB ↔ w ∈ LA * LB := by
  constructor
  · intro h
    have hexit := h.exit (T := TA) (fun x => lo ≤ x ∧ x < mid) fA
      (by
        intro e he hp hx
        rcases (hT2 e).mp he with h1 | h1 | h1
        · exact ⟨h1, (hTA e h1).2.2⟩
        · have := hTB e h1
          omega
        · rw [h1] at hx
          exact absurd rfl hx)
      hsA
    rcases hexit with ⟨_, hq⟩ | ⟨w1, w2, hw, h1, h2⟩
    · omega
    · have hw1 : w1 ∈ LA := (hLA w1).mp h1
      have hstep : NfaPath T2 sB w2 fB := by
        rcases h2.first (by omega) with ⟨t, ht, hrest⟩ | ⟨a, t, w3, ha, _, ht, _⟩
        · rcases (hT2 _).mp ht with h3 | h3 | h3
          · exact absurd rfl (hfAout _ h3)
          · have := hTB _ h3
            simp only at this
            omega
          · have := congrArg Prod.snd h3
            simp only at this
            rw [← this]
            exact hrest
        · rcases (hT2 _).mp ht with h3 | h3 | h3
          · exact absurd rfl (hfAout _ h3)
          · have := hTB _ h3
            simp only at this
            omega
          · have := congrArg (fun e : Key Int × Int => e.1.symbol) h3
            exact absurd this ha
      have hB := (hstep.closed (T := TB) (fun x => mid ≤ x ∧ x < hi)
        (by
          intro e he hp
          rcases (hT2 e).mp he with h3 | h3 | h3
          · have := hTA e h3
            omega
          · exact ⟨h3, (hTB e h3).2.2⟩
          · rw [h3] at hp
            simp only at hp
            omega)
        hsB).1
      rw [hw]
      exact Language.append_mem_mul hw1 ((hLB w2).mp hB)
  · intro h
    obtain ⟨u, hu, v, hv, rfl⟩ := Language.mem_mul.mp h
    have h1 : NfaPath T2 sA u fA :=
      ((hLA u).mpr hu).mono (fun e he => (hT2 e).mpr (Or.inl he))
    have h2 : NfaPath T2 sB v fB :=
      ((hLB v).mpr hv).mono (fun e he => (hT2 e).mpr (Or.inr (Or.inl he)))
    exact h1.append (NfaPath.eps ((hT2 _).mpr (Or.inr (Or.inr rfl))) h2)

/-- In the union and star machines, a path from a state of an operand to the new accept
state `f` leaves the operand through its accept state `fA`. -/
theorem path_through_final (TA T2 : NTransitions) (fA f lo mid : Int)
    (hTA : ∀ e ∈ TA, lo ≤ e.1.state ∧ e.1.state < mid ∧ lo ≤ e.2 ∧ e.2 < mid)
    (hf : ¬ (lo ≤ f ∧ f < mid))
    (hin : ∀ e ∈ T2, lo ≤ e.1.state ∧ e.1.state < mid → e.1.state ≠ fA → e ∈ TA)
    (p : Int) (hp : lo ≤ p ∧ p < mid) (w : List Char) (h : NfaPath T2 p w f) :
    ∃ w1 w2 : List Char, w = w1 ++ w2 ∧ NfaPath TA p w1 fA ∧ NfaPath T2 fA w2 f := by
  have hexit := h.exit (T := TA) (fun x => lo ≤ x ∧ x < mid) fA
    (by
      intro e he hp2 hx
      have := hin e he hp2 hx
      exact ⟨this, (hTA e this).2.2⟩)
    hp
  rcases hexit with ⟨_, hq⟩ | h2
  · exact absurd hq hf
  · exact h2

/-- The language of the union machine. -/
theorem union_language (TA TB T2 : NTransitions) (sA fA sB fB lo mid n : Int)
    (LA LB : Language Char)
    (hTA : ∀ e ∈ TA, lo ≤ e.1.state ∧ e.1.state < mid ∧ lo ≤ e.2 ∧ e.2 < mid)
    (hTB : ∀ e ∈ TB, mid ≤ e.1.state ∧ e.1.state < n ∧ mid ≤ e.2 ∧ e.2 < n)
    (hsA : lo ≤ sA ∧ sA < mid) (hfA : lo ≤ fA ∧ fA < mid)
    (hsB : mid ≤ sB ∧ sB < n) (hfB : mid ≤ fB ∧ fB < n)
    (hfAout : ∀ e ∈ TA, e.1.state ≠ fA) (hfBout : ∀ e ∈ TB, e.1.state ≠ fB)
    (hT2 : ∀ e : Key Int × Int, e ∈ T2 ↔
      (e ∈ TA ∨ e ∈ TB ∨ e = (⟨n, epsilon⟩, sA) ∨ e = (⟨n, epsilon⟩, sB) ∨
        e = (⟨fA, epsilon⟩, n + 1) ∨ e = (⟨fB, epsilon⟩, n + 1)))
    (hLA : ∀ w, NfaPath TA sA w fA ↔ w ∈ LA)
    (hLB : ∀ w, NfaPath TB sB w fB ↔ w ∈ LB) (w : List Char) :
    NfaPath T2 n w (n + 1) ↔ w ∈ LA + LB := by
  have hstuck : ∀ e ∈ T2, e.1.state ≠ n + 1 := by
    intro e he
    rcases (hT2 e).mp he with h | h | h | h | h | h
    · have := hTA e h; omega
    · have := hTB e h; omega
    · rw [h]; simp
    · rw [h]; simp
    · rw [h]; simp only; omega
    · rw [h]; simp only; omega
  constructor
  · intro h
    rw [Language.mem_add]
    rcases h.first (by omega) with ⟨t, ht, hrest⟩ | ⟨a, t, w3, ha, _, ht, _⟩
    · rcases (hT2 _).mp ht with h3 | h3 | h3 | h3 | h3 | h3
      · have := hTA _ h3; simp only at this; omega
      · have := hTB _ h3; simp only at this; omega
      · left
        have ht2 : t = sA := congrArg Prod.snd h3
        subst ht2
        obtain ⟨w1, w2, hw, h1, h2⟩ := path_through_final TA T2 fA (n + 1) lo mid hTA
          (by omega)
          (by
            intro e he hp hx
            rcases (hT2 e).mp he with h4 | h4 | h4 | h4 | h4 | h4
            · exact h4
            · have := hTB e h4; omega
            · rw [h4] at hp; simp only at hp; omega
            · rw [h4] at hp; simp only at hp; omega
            · rw [h4] at hx; exact absurd rfl hx
            · rw [h4] at hp; simp only at hp; omega)
          t hsA w hrest
        have hw2 : w2 = [] := by
          rcases h2.first (by omega) with ⟨t2, ht2, hrest2⟩ | ⟨a, t2, w3, ha, _, ht2, _⟩
          · rcases (hT2 _).mp ht2 with h4 | h4 | h4 | h4 | h4 | h4
            · exact absurd rfl (hfAout _ h4)
            · have := hTB _ h4; simp only at this; omega
            · have := congrArg (fun e : Key Int × Int => e.1.state) h4
              simp only at this; omega
            · have := congrArg (fun e : Key Int × Int => e.1.state) h4
              simp only at this; omega
            · have : t2 = n + 1 := congrArg Prod.snd h4
              subst this
              exact (hrest2.stuck hstuck).1
            · have : t2 = n + 1 := congrArg Prod.snd h4
              subst this
              exact (hrest2.stuck hstuck).1
          · rcases (hT2 _).mp ht2 with h4 | h4 | h4 | h4 | h4 | h4
            · exact absurd rfl (hfAout _ h4)
            · have := hTB _ h4; simp only at this; omega
            · exact absurd (congrArg (fun e : Key Int × Int => e.1.symbol) h4) ha
            · exact absurd (congrArg (fun e : Key Int × Int => e.1.symbol) h4) ha
            · exact absurd (congrArg (fun e : Key Int × Int => e.1.symbol) h4) ha
            · exact absurd (congrArg (fun e : Key Int × Int => e.1.symbol) h4) ha
        rw [hw, hw2, List.append_nil]
        exact (hLA w1).mp h1
      · right
        have ht2 : t = sB := congrArg Prod.snd h3
        subst ht2
        obtain ⟨w1, w2, hw, h1, h2⟩ := path_through_final TB T2 fB (n + 1) mid n hTB
          (by omega)
          (by
            intro e he hp hx
            rcases (hT2 e).mp he with h4 | h4 | h4 | h4 | h4 | h4
            · have := hTA e h4; omega
            · exact h4
            · rw [h4] at hp; simp only at hp; omega
            · rw [h4] at hp; simp only at hp; omega
            · rw [h4] at hp; simp only at hp; omega
            · rw [h4] at hx; exact absurd rfl hx)
          t hsB w hrest
        have hw2 : w2 = [] := by
          rcases h2.first (by omega) with ⟨t2, ht2, hrest2⟩ | ⟨a, t2, w3, ha, _, ht2, _⟩
          · rcases (hT2 _).mp ht2 with h4 | h4 | h4 | h4 | h4 | h4
            · have := hTA _ h4; simp only at this; omega
            · exact absurd rfl (hfBout _ h4)
            · have := congrArg (fun e : Key Int × Int => e.1.state) h4
              simp only at this; omega
            · have := congrArg (fun e : Key Int × Int => e.1.state) h4
              simp only at this; omega
            · have : t2 = n + 1 := congrArg Prod.snd h4
              subst this
              exact (hrest2.stuck hstuck).1
            · have : t2 = n + 1 := congrArg Prod.snd h4
              subst this
              exact (hrest2.stuck hstuck).1
          · rcases (hT2 _).mp ht2 with h4 | h4 | h4 | h4 | h4 | h4
            · have := hTA _ h4; simp only at this; omega
            · exact absurd rfl (hfBout _ h4)
            · exact absurd (congrArg (fun e : Key Int × Int => e.1.symbol) h4) ha
            · exact absurd (congrArg (fun e : Key Int × Int => e.1.symbol) h4) ha
            · exact absurd (congrArg (fun e : Key Int × Int => e.1.symbol) h4) ha
            · exact absurd (congrArg (fun e : Key Int × Int => e.1.symbol) h4) ha
        rw [hw, hw2, List.append_nil]
        exact (hLB w1).mp h1
      · have := congrArg (fun e : Key Int × Int => e.1.state) h3
        simp only at this; omega
      · have := congrArg (fun e : Key Int × Int => e.1.state) h3
        simp only at this; omega
    · rcases (hT2 _).mp ht with h3 | h3 | h3 | h3 | h3 | h3
      · have := hTA _ h3; simp only at this; omega
      · have := hTB _ h3; simp only at this; omega
      · exact absurd (congrArg (fun e : Key Int × Int => e.1.symbol) h3) ha
      · exact absurd (congrArg (fun e : Key Int × Int => e.1.symbol) h3) ha
      · exact absurd (congrArg (fun e : Key Int × Int => e.1.symbol) h3) ha
      · exact absurd (congrArg (fun e : Key Int × Int => e.1.symbol) h3) ha
  · intro h
    rcases (Language.mem_add _ _ _).mp h with hA | hB
    · have h1 : NfaPath T2 sA w fA :=
        ((hLA w).mpr hA).mono (fun e he => (hT2 e).mpr (Or.inl he))
      have h2 := h1.append (NfaPath.eps ((hT2 (⟨fA, epsilon⟩, n + 1)).mpr (by tauto))
        (NfaPath.done (n + 1)))
      rw [List.append_nil] at h2
      exact NfaPath.eps ((hT2 (⟨n, epsilon⟩, sA)).mpr (by tauto)) h2
    · have h1 : NfaPath T2 sB w fB :=
        ((hLB w).mpr hB).mono (fun e he => (hT2 e).mpr (Or.inr (Or.inl he)))
      have h2 := h1.append (NfaPath.eps ((hT2 (⟨fB, epsilon⟩, n + 1)).mpr (by tauto))
        (NfaPath.done (n + 1)))
      rw [List.append_nil] at h2
      exact NfaPath.eps ((hT2 (⟨n, epsilon⟩, sB)).mpr (by tauto)) h2

theorem kstar_append_mem (L : Language Char) (u v : List Char) (hu : u ∈ L)
    (hv : v ∈ KStar.kstar L) : u ++ v ∈ KStar.kstar L := by
  obtain ⟨S, hS, hall⟩ := Language.mem_kstar.mp hv
  refine Language.mem_kstar.mpr ⟨u :: S, by rw [hS]; rfl, ?_⟩
  intro y hy
  rcases List.mem_cons.mp hy with rfl | hy
  · exact hu
  · exact hall y hy

/-- The language of the Kleene-star machine. -/
theorem star_language (TA T2 : NTransitions) (sA fA lo n : Int) (LA : Language Char)
    (hTA : ∀ e ∈ TA, lo ≤ e.1.state ∧ e.1.state < n ∧ lo ≤ e.2 ∧ e.2 < n)
    (hsA : lo ≤ sA ∧ sA < n) (hfA : lo ≤ fA ∧ fA < n)
    (hfAout : ∀ e ∈ TA, e.1.state ≠ fA)
    (hT2 : ∀ e : Key Int × Int, e ∈ T2 ↔
      (e ∈ TA ∨ e = (⟨n, epsilon⟩, n + 1) ∨ e = (⟨fA, epsilon⟩, n + 1) ∨
        e = (⟨n, epsilon⟩, sA) ∨ e = (⟨fA, epsilon⟩, sA)))
    (hLA : ∀ w, NfaPath TA sA w fA ↔ w ∈ LA) (w : List Char) :
    NfaPath T2 n w (n + 1) ↔ w ∈ KStar.kstar LA := by
  have hstuck : ∀ e ∈ T2, e.1.state ≠ n + 1 := by
    intro e he
    rcases (hT2 e).mp he with h | h | h | h | h
    · have := hTA e h; omega
    · rw [h]; simp
    · rw [h]; simp only; omega
    · rw [h]; simp
    · rw [h]; simp only; omega
  have inner : ∀ (p q : Int) (v : List Char), NfaPath T2 p v q → q = n + 1 →
      lo ≤ p ∧ p < n →
      ∃ w1 w2 : List Char, v = w1 ++ w2 ∧ NfaPath TA p w1 fA ∧ w2 ∈ KStar.kstar LA := by
    intro p q v h
    induction h with
    | done p =>
      intro hq hp
      omega
    | @eps p q1 r v he hrest ih =>
      intro hq hp
      rcases (hT2 _).mp he with h | h | h | h | h
      · obtain ⟨w1, w2, hw, h1, h2⟩ := ih hq (hTA _ h).2.2
        exact ⟨w1, w2, hw, NfaPath.eps h h1, h2⟩
      · have := congrArg (fun e : Key Int × Int => e.1.state) h
        simp only at this; omega
      · have hp2 : p = fA := congrArg (fun e : Key Int × Int => e.1.state) h
        have hq2 : q1 = n + 1 := congrArg Prod.snd h
        subst hp2 hq2
        have := (hrest.stuck hstuck).1
        exact ⟨[], [], by rw [this]; rfl, NfaPath.done _, Language.nil_mem_kstar _⟩
      · have := congrArg (fun e : Key Int × Int => e.1.state) h
        simp only at this; omega
      · have hp2 : p = fA := congrArg (fun e : Key Int × Int => e.1.state) h
        have hq2 : q1 = sA := congrArg Prod.snd h
        subst hp2 hq2
        obtain ⟨w1, w2, hw, h1, h2⟩ := ih hq hsA
        refine ⟨[], v, rfl, NfaPath.done _, ?_⟩
        rw [hw]
        exact kstar_append_mem LA w1 w2 ((hLA w1).mp h1) h2
    | @sym p q1 r a v ha he hrest ih =>
      intro hq hp
      rcases (hT2 _).mp he with h | h | h | h | h
      · obtain ⟨w1, w2, hw, h1, h2⟩ := ih hq (hTA _ h).2.2
        exact ⟨a :: w1, w2, by rw [hw]; rfl, NfaPath.sym ha h h1, h2⟩
      · exact absurd (congrArg (fun e : Key Int × Int => e.1.symbol) h) ha
      · exact absurd (congrArg (fun e : Key Int × Int => e.1.symbol) h) ha
      · exact absurd (congrArg (fun e : Key Int × Int => e.1.symbol) h) ha
      · exact absurd (congrArg (fun e : Key Int × Int => e.1.symbol) h) ha
  have back : ∀ S : List (List Char), (∀ y ∈ S, y ∈ LA) →
      NfaPath T2 fA S.flatten (n + 1) := by
    intro S
    induction S with
    | nil =>
      intro _
      exact NfaPath.eps ((hT2 (⟨fA, epsilon⟩, n + 1)).mpr (by tauto)) (NfaPath.done _)
    | cons u S ih =>
      intro hall
      have hu : NfaPath T2 sA u fA :=
        ((hLA u).mpr (hall u (List.mem_cons_self _ _))).mono
          (fun e he => (hT2 e).mpr (Or.inl he))
      have hrest := ih (fun y hy => hall y (List.mem_cons_of_mem _ hy))
      rw [List.flatten_cons]
      exact NfaPath.eps ((hT2 (⟨fA, epsilon⟩, sA)).mpr (by tauto)) (hu.append hrest)
  constructor
  · intro h
    rcases h.first (by omega) with ⟨t, ht, hrest⟩ | ⟨a, t, w3, ha, _, ht, _⟩
    · rcases (hT2 _).mp ht with h3 | h3 | h3 | h3 | h3
      · have := hTA _ h3; simp only at this; omega
      · have : t = n + 1 := congrArg Prod.snd h3
        subst this
        rw [(hrest.stuck hstuck).1]
        exact Language.nil_mem_kstar _
      · have := congrArg (fun e : Key Int × Int => e.1.state) h3
        simp only at this; omega
      · have : t = sA := congrArg Prod.snd h3
        subst this
        obtain ⟨w1, w2, hw, h1, h2⟩ := inner _ _ _ hrest rfl hsA
        rw [hw]
        exact kstar_append_mem LA w1 w2 ((hLA w1).mp h1) h2
      · have := congrArg (fun e : Key Int × Int => e.1.state) h3
        simp only at this; omega
    · rcases (hT2 _).mp ht with h3 | h3 | h3 | h3 | h3
      · have := hTA _ h3; simp only at this; omega
      · exact absurd (congrArg (fun e : Key Int × Int => e.1.symbol) h3) ha
      · exact absurd (congrArg (fun e : Key Int × Int => e.1.symbol) h3) ha
      · exact absurd (congrArg (fun e : Key Int × Int => e.1.symbol) h3) ha
      · exact absurd (congrArg (fun e : Key Int × Int => e.1.symbol) h3) ha
  · intro h
    obtain ⟨S, hS, hall⟩ := Language.mem_kstar.mp h
    rw [hS]
    cases S with
    | nil =>
      exact NfaPath.eps ((hT2 (⟨n, epsilon⟩, n + 1)).mpr (by tauto)) (NfaPath.done _)
    | cons u S =>
      have hu : NfaPath T2 sA u fA :=
        ((hLA u).mpr (hall u (List.mem_cons_self _ _))).mono
          (fun e he => (hT2 e).mpr (Or.inl he))
      have hrest := back S (fun y hy => hall y (List.mem_cons_of_mem _ hy))
      rw [List.flatten_cons]
      exact NfaPath.eps ((hT2 (⟨n, epsilon⟩, sA)).mpr (by tauto)) (hu.append hrest)

/-- The symbol machine. -/
theorem AutomataPool_Symbol_ok (symbol : Char) (n : Int) :
    ∃ S : NDFA, AutomataPool_Symbol symbol n = .ok (S, n + 2) ∧
      S.initialState = n ∧ S.finalStates = n + 1 ∧
      S.transitions = [(⟨n, symbol⟩, n + 1)] := by
  by_cases hs : symbol = '*'
  · subst hs
    simp [AutomataPool_Symbol, emptyNDFA, Automaton.addState, Automaton.addTransition,
      equalRange, mmInsert]
  · simp [AutomataPool_Symbol, emptyNDFA, Automaton.addState, Automaton.addTransition,
      equalRange, mmInsert, hs]

theorem REtoNDLoop_append_single (alphabet : List Char) (t : AST) (rest : List AST)
    (st : List NDFA × Int) :
    REtoNDLoop alphabet ([t] ++ rest) st =
      match REtoNDStep alphabet t.getCharacter st with
      | .error e => .error e
      | .ok st => REtoNDLoop alphabet rest st := rfl

/-- The loop of `REtoND` run over the post-order of a well-formed tree pushes one NFA,
built with the states from the counter on, that recognises the language of the tree. -/
theorem REtoNDLoop_tree (alphabet : List Char) (hA : ∀ c ∈ alphabet, c ∉ operators)
    (t : AST) : t.WellFormed alphabet → ∀ n : Int,
    ∃ (S : NDFA) (n2 : Int), ThompsonShape S n n2 ∧
      (∀ w, NfaPath S.transitions S.initialState w S.finalStates ↔ w ∈ t.language) ∧
      ∀ (rest : List AST) (stack : List NDFA),
        REtoNDLoop alphabet (t.postorder ++ rest) (stack, n) =
          REtoNDLoop alphabet rest (S :: stack, n2) := by
  have hstar : '*' ∉ alphabet := fun h => hA _ h (by decide)
  have hdot : '.' ∉ alphabet := fun h => hA _ h (by decide)
  have hbar : '|' ∉ alphabet := fun h => hA _ h (by decide)
  induction t with
  | null => intro h; exact absurd h (by simp [AST.WellFormed])
  | node c l r ihl ihr =>
    intro hwf n
    simp only [AST.WellFormed] at hwf
    rcases hwf with ⟨hc, hl, hr⟩ | ⟨hc, hl, hr⟩ | ⟨hc, hl, hr⟩
    · -- a leaf
      subst hl hr
      obtain ⟨S, hS, hs, hf, hT⟩ := AutomataPool_Symbol_ok c n
      have hne : c ≠ epsilon := fun h => hstar (by rw [← show c = '*' from h]; exact hc)
      have hc1 : c ≠ '*' := fun h => hstar (h ▸ hc)
      have hc2 : c ≠ '.' := fun h => hdot (h ▸ hc)
      have hc3 : c ≠ '|' := fun h => hbar (h ▸ hc)
      refine ⟨S, n + 2, ?_, ?_, ?_⟩
      · refine { range := ?_, start := ?_, final := ?_, finalOut := ?_ }
        · intro e he
          rw [hT, List.mem_singleton] at he
          rw [he]
          simp only
          omega
        · omega
        · omega
        · intro e he
          rw [hT, List.mem_singleton] at he
          rw [he, hf]
          simp
      · intro w
        rw [hT, hs, hf, symbol_language n c hne]
        simp only [AST.language, hc1, hc2, hc3, if_false]
        exact Set.mem_singleton_iff.symm
      · intro rest stack
        simp only [AST.postorder, List.nil_append]
        rw [REtoNDLoop_append_single]
        simp only [AST.getCharacter, REtoNDStep, hc, if_true, hS]
    · -- a star node
      subst hc hr
      obtain ⟨S1, n1, hshape, hlang, hloop⟩ := ihl hl n
      obtain ⟨S, hS, hs, hf, hT⟩ := AutomataPool_KleeneStar_ok S1 n n1 hshape
      have hlo := hshape.start
      refine ⟨S, n1 + 2, ?_, ?_, ?_⟩
      · have hfin := hshape.final
        refine { range := ?_, start := ?_, final := ?_, finalOut := ?_ }
        · intro e he
          rcases (hT e).mp he with h | h | h | h | h
          · have := hshape.range e h; omega
          · rw [h]; simp only; omega
          · rw [h]; simp only; omega
          · rw [h]; simp only; omega
          · rw [h]; simp only; omega
        · omega
        · omega
        · intro e he
          rw [hf]
          rcases (hT e).mp he with h | h | h | h | h
          · have := hshape.range e h; omega
          · rw [h]; simp
          · rw [h]; simp only; omega
          · rw [h]; simp
          · rw [h]; simp only; omega
      · intro w
        rw [hs, hf, star_language S1.transitions S.transitions S1.initialState S1.finalStates
          n n1 l.language hshape.range hshape.start hshape.final hshape.finalOut hT hlang]
        simp [AST.language]
      · intro rest stack
        simp only [AST.postorder, List.nil_append, List.append_assoc]
        rw [hloop, REtoNDLoop_append_single]
        simp only [AST.getCharacter, REtoNDStep, hstar, if_false, hS]
        simp
    · -- a binary node
      obtain ⟨S1, n1, hshape1, hlang1, hloop1⟩ := ihl hl n
      obtain ⟨S2, n2, hshape2, hlang2, hloop2⟩ := ihr hr n1
      have hlo1 := hshape1.start
      have hlo2 := hshape2.start
      have hf1 := hshape1.final
      have hf2 := hshape2.final
      rcases hc with hc | hc
      · -- concatenation
        subst hc
        obtain ⟨S, hS, hs, hf, hT⟩ := AutomataPool_Concatenation_ok S1 S2 n n1 n2 hshape1 hshape2
        refine ⟨S, n2, ?_, ?_, ?_⟩
        · refine { range := ?_, start := ?_, final := ?_, finalOut := ?_ }
          · intro e he
            rcases (hT e).mp he with h | h | h
            · have := hshape1.range e h; omega
            · have := hshape2.range e h; omega
            · rw [h]; simp only; omega
          · omega
          · omega
          · intro e he
            rw [hf]
            rcases (hT e).mp he with h | h | h
            · have := hshape1.range e h; omega
            · exact hshape2.finalOut e h
            · rw [h]; simp only; omega
        · intro w
          rw [hs, hf, concatenation_language S1.transitions S2.transitions S.transitions
            S1.initialState S1.finalStates S2.initialState S2.finalStates n n1 n2
            l.language r.language hshape1.range hshape2.range hshape1.start hshape1.final
            hshape2.start hshape2.final hshape1.finalOut hT hlang1 hlang2]
          simp [AST.language]
        · intro rest stack
          simp only [AST.postorder, List.append_assoc]
          rw [hloop1, hloop2, REtoNDLoop_append_single]
          simp only [AST.getCharacter, REtoNDStep, hdot, if_false, hS]
          simp
      · -- union
        subst hc
        obtain ⟨S, hS, hs, hf, hT⟩ := AutomataPool_Union_ok S1 S2 n n1 n2 hshape1 hshape2
        refine ⟨S, n2 + 2, ?_, ?_, ?_⟩
        · refine { range := ?_, start := ?_, final := ?_, finalOut := ?_ }
          · intro e he
            rcases (hT e).mp he with h | h | h | h | h | h
            · have := hshape1.range e h; omega
            · have := hshape2.range e h; omega
            · rw [h]; simp only; omega
            · rw [h]; simp only; omega
            · rw [h]; simp only; omega
            · rw [h]; simp only; omega
          · omega
          · omega
          · intro e he
            rw [hf]
            rcases (hT e).mp he with h | h | h | h | h | h
            · have := hshape1.range e h; omega
            · have := hshape2.range e h; omega
            · rw [h]; simp
            · rw [h]; simp
            · rw [h]; simp only; omega
            · rw [h]; simp only; omega
        · intro w
          rw [hs, hf, union_language S1.transitions S2.transitions S.transitions
            S1.initialState S1.finalStates S2.initialState S2.finalStates n n1 n2
            l.language r.language hshape1.range hshape2.range hshape1.start hshape1.final
            hshape2.start hshape2.final hshape1.finalOut hshape2.finalOut hT hlang1 hlang2]
          simp [AST.language]
        · intro rest stack
          simp only [AST.postorder, List.append_assoc]
          rw [hloop1, hloop2, REtoNDLoop_append_single]
          simp only [AST.getCharacter, REtoNDStep, hbar, if_false, hS]
          simp

/-- C2: for an alphabet without `*`, `.` and `|` and a well-formed syntax tree over it,
`REtoND` returns an NFA that accepts exactly the language the tree denotes. -/
theorem REtoND_language (regex : Regex) (t : AST)
    (hA : ∀ c ∈ regex.alphabet, c ∉ operators) (ht : t.WellFormed regex.alphabet) :
    ∃ N : NDFA, REtoND t regex = .ok N ∧ ∀ w : List Char, NfaAccepts N w ↔ w ∈ t.language := by
  obtain ⟨S, n2, _, hlang, hloop⟩ := REtoNDLoop_tree regex.alphabet hA t ht 0
  have hnn : t ≠ .null := by
    intro h
    rw [h] at ht
    simp [AST.WellFormed] at ht
  refine ⟨S, ?_, hlang⟩
  unfold REtoND
  rw [if_neg hnn, visitingASTforAutoma_eq t hnn]
  simp only
  have := hloop [] []
  rw [List.append_nil] at this
  rw [this]
  simp [REtoNDLoop]

/-- Witness of `REtoND_language`: the tree of `a · (a|b)*` over `{a, b}`. -/
theorem REtoND_language_witness :
    ((∀ c ∈ (⟨['a', 'b'], []⟩ : Regex).alphabet, c ∉ operators) ∧
      (AST.node '.' (.node 'a' .null .null)
        (.node '*' (.node '|' (.node 'a' .null .null) (.node 'b' .null .null)) .null)).WellFormed
        (⟨['a', 'b'], []⟩ : Regex).alphabet) ∧
    ∃ N : NDFA,
      REtoND (AST.node '.' (.node 'a' .null .null)
        (.node '*' (.node '|' (.node 'a' .null .null) (.node 'b' .null .null)) .null))
        ⟨['a', 'b'], []⟩ = .ok N ∧
      ∀ w : List Char, NfaAccepts N w ↔
        w ∈ (AST.node '.' (.node 'a' .null .null)
          (.node '*' (.node '|' (.node 'a' .null .null) (.node 'b' .null .null)) .null)).language :=
  ⟨⟨by decide, by simp [AST.WellFormed]⟩,
   REtoND_language ⟨['a', 'b'], []⟩ _ (by decide) (by simp [AST.WellFormed])⟩

/-! ## The pool machines on arbitrary operands -/

theorem mmInsertRange_perm {κ ν : Type} [LT κ] [DecidableRel (α := κ) (· < ·)]
    (range : List (κ × ν)) : ∀ m : List (κ × ν), (mmInsertRange m range).Perm (m ++ range) := by
  induction range with
  | nil => intro m; simp [mmInsertRange]
  | cons e es ih =>
    intro m
    have h1 := ih (mmInsert e m)
    simp only [mmInsertRange, List.foldl_cons] at h1 ⊢
    refine h1.trans ?_
    refine ((mmInsert_perm e m).append_right es).trans ?_
    simp only [List.cons_append]
    exact List.perm_middle.symm

theorem outCount_perm {m1 m2 : NTransitions} (h : m1.Perm m2) (k : Key Int) :
    outCount m1 k = outCount m2 k := by
  unfold outCount equalRange
  exact (h.filter _).length_eq

/-- The Kleene-star machine over an NFA that has no transition out of the counter `n`
and none out of its accept state, which is not `n`. -/
theorem AutomataPool_KleeneStar_perm (left : NDFA) (n : Int)
    (hsrc : ∀ e ∈ left.transitions, e.1.state ≠ n) (hfin : left.finalStates ≠ n)
    (hout : ∀ e ∈ left.transitions, e.1.state ≠ left.finalStates) :
    ∃ S : NDFA, AutomataPool_KleeneStar left n = .ok (S, n + 2) ∧
      S.initialState = n ∧ S.finalStates = n + 1 ∧
      S.transitions.Perm
        ((⟨left.finalStates, epsilon⟩, left.initialState) :: (⟨n, epsilon⟩, left.initialState) ::
          (⟨left.finalStates, epsilon⟩, n + 1) :: (⟨n, epsilon⟩, n + 1) ::
          left.transitions) := by
  have c0 : ∀ k : Key Int, outCount (mmInsertRange [] left.transitions) k =
      outCount left.transitions k := by
    intro k
    rw [outCount_mmInsertRange, outCount_nil, Nat.zero_add]
  have cn : outCount left.transitions ⟨n, epsilon⟩ = 0 :=
    outCount_eq_zero _ _ (fun e he hk => hsrc e he (by rw [hk]))
  have cf : outCount left.transitions ⟨left.finalStates, epsilon⟩ = 0 :=
    outCount_eq_zero _ _ (fun e he hk => hout e he (by rw [hk]))
  have hne : ¬ ((⟨n, epsilon⟩ : Key Int) = ⟨left.finalStates, epsilon⟩) := by
    intro hk
    exact hfin (congrArg Key.state hk).symm
  have hne2 : ¬ ((⟨left.finalStates, epsilon⟩ : Key Int) = ⟨n, epsilon⟩) :=
    fun hk => hne hk.symm
  unfold AutomataPool_KleeneStar
  simp only [emptyNDFA]
  rw [addTransition_eps _ _ _ (by simp only [c0, cn]; decide)]
  simp only
  rw [addTransition_eps _ _ _ (by simp only [outCount_mmInsert, c0, cf, hne]; decide)]
  simp only
  rw [addTransition_eps _ _ _ (by
    simp only [outCount_mmInsert, c0, cn, hne2, if_true, if_false]; decide)]
  simp only
  rw [addTransition_eps _ _ _ (by
    simp only [outCount_mmInsert, c0, cf, hne, if_true, if_false]; decide)]
  simp only
  refine ⟨_, rfl, ?_, ?_, ?_⟩
  · rw [(addTransitionStates_fields _).2.1]
  · rw [(addTransitionStates_fields _).2.2.1]
  · rw [(addTransitionStates_fields _).1]
    simp only
    have h0 : (mmInsertRange [] left.transitions).Perm left.transitions := by
      simpa using mmInsertRange_perm left.transitions []
    have h1 := (mmInsert_perm ((⟨n, epsilon⟩, n + 1) : Key Int × Int)
      (mmInsertRange [] left.transitions)).trans (h0.cons _)
    have h2 := (mmInsert_perm ((⟨left.finalStates, epsilon⟩, n + 1) : Key Int × Int) _).trans
      (h1.cons _)
    have h3 := (mmInsert_perm ((⟨n, epsilon⟩, left.initialState) : Key Int × Int) _).trans
      (h2.cons _)
    have h4 := (mmInsert_perm
      ((⟨left.finalStates, epsilon⟩, left.initialState) : Key Int × Int) _).trans (h3.cons _)
    exact h4

theorem mem_addState (a : NDFA) (s x : Int) :
    x ∈ (a.addState s).allStates ↔ x ∈ a.allStates ∨ x = s := by
  unfold Automaton.addState
  by_cases h : s ∈ a.allStates
  · rw [if_pos h]
    constructor
    · exact Or.inl
    · rintro (h1 | h1)
      · exact h1
      · rw [h1]; exact h
  · rw [if_neg h]
    simp

theorem mem_addTransitionStates_fold (l : NTransitions) : ∀ (a : NDFA) (x : Int),
    x ∈ (l.foldl (fun acc entry => (acc.addState entry.1.state).addState entry.2) a).allStates
      ↔ x ∈ a.allStates ∨ ∃ e ∈ l, x = e.1.state ∨ x = e.2 := by
  induction l with
  | nil => intro a x; simp
  | cons e es ih =>
    intro a x
    rw [List.foldl_cons, ih, mem_addState, mem_addState]
    simp only [List.mem_cons, exists_eq_or_imp]
    constructor
    · rintro (((h | h) | h) | h)
      · exact Or.inl h
      · exact Or.inr (Or.inl (Or.inl h))
      · exact Or.inr (Or.inl (Or.inr h))
      · exact Or.inr (Or.inr h)
    · rintro (h | (h | h) | h)
      · exact Or.inl (Or.inl (Or.inl h))
      · exact Or.inl (Or.inl (Or.inr h))
      · exact Or.inl (Or.inr h)
      · exact Or.inr h

/-- The state list after the closing loop of a pool function. -/
theorem mem_addTransitionStates (a : NDFA) (x : Int) :
    x ∈ (addTransitionStates a).allStates ↔
      x ∈ a.allStates ∨ ∃ e ∈ a.transitions, x = e.1.state ∨ x = e.2 :=
  mem_addTransitionStates_fold a.transitions a x

/-- The union machine over two NFAs that have no transition out of the counter `n` and
none out of either accept state; the accept states differ and are not `n`. -/
theorem AutomataPool_Union_perm (left right : NDFA) (n : Int)
    (hsrcL : ∀ e ∈ left.transitions, e.1.state ≠ n)
    (hsrcR : ∀ e ∈ right.transitions, e.1.state ≠ n)
    (hfinL : left.finalStates ≠ n) (hfinR : right.finalStates ≠ n)
    (hfin : left.finalStates ≠ right.finalStates)
    (hLL : ∀ e ∈ left.transitions, e.1.state ≠ left.finalStates)
    (hRL : ∀ e ∈ right.transitions, e.1.state ≠ left.finalStates)
    (hLR : ∀ e ∈ left.transitions, e.1.state ≠ right.finalStates)
    (hRR : ∀ e ∈ right.transitions, e.1.state ≠ right.finalStates) :
    ∃ S : NDFA, AutomataPool_Union left right n = .ok (S, n + 2) ∧
      S.initialState = n ∧ S.finalStates = n + 1 ∧
      S.transitions.Perm
        ((⟨right.finalStates, epsilon⟩, n + 1) :: (⟨left.finalStates, epsilon⟩, n + 1) ::
          (⟨n, epsilon⟩, right.initialState) :: (⟨n, epsilon⟩, left.initialState) ::
          (left.transitions ++ right.transitions)) := by
  have c0 : ∀ k : Key Int,
      outCount (mmInsertRange (mmInsertRange [] left.transitions) right.transitions) k =
        outCount left.transitions k + outCount right.transitions k := by
    intro k
    rw [outCount_mmInsertRange, outCount_mmInsertRange, outCount_nil, Nat.zero_add]
  have cln : outCount left.transitions ⟨n, epsilon⟩ = 0 :=
    outCount_eq_zero _ _ (fun e he hk => hsrcL e he (by rw [hk]))
  have crn : outCount right.transitions ⟨n, epsilon⟩ = 0 :=
    outCount_eq_zero _ _ (fun e he hk => hsrcR e he (by rw [hk]))
  have clf : outCount left.transitions ⟨left.finalStates, epsilon⟩ = 0 :=
    outCount_eq_zero _ _ (fun e he hk => hLL e he (by rw [hk]))
  have crlf : outCount right.transitions ⟨left.finalStates, epsilon⟩ = 0 :=
    outCount_eq_zero _ _ (fun e he hk => hRL e he (by rw [hk]))
  have clrf : outCount left.transitions ⟨right.finalStates, epsilon⟩ = 0 :=
    outCount_eq_zero _ _ (fun e he hk => hLR e he (by rw [hk]))
  have crf : outCount right.transitions ⟨right.finalStates, epsilon⟩ = 0 :=
    outCount_eq_zero _ _ (fun e he hk => hRR e he (by rw [hk]))
  have hne1 : ¬ ((⟨n, epsilon⟩ : Key Int) = ⟨left.finalStates, epsilon⟩) :=
    fun hk => hfinL (congrArg Key.state hk).symm
  have hne2 : ¬ ((⟨n, epsilon⟩ : Key Int) = ⟨right.finalStates, epsilon⟩) :=
    fun hk => hfinR (congrArg Key.state hk).symm
  have hne3 : ¬ ((⟨left.finalStates, epsilon⟩ : Key Int) = ⟨right.finalStates, epsilon⟩) :=
    fun hk => hfin (congrArg Key.state hk)
  unfold AutomataPool_Union
  simp only [emptyNDFA]
  rw [addTransition_eps _ _ _ (by simp only [c0, cln, crn]; decide)]
  simp only
  rw [addTransition_eps _ _ _ (by simp only [outCount_mmInsert, c0, cln, crn, if_true]; decide)]
  simp only
  rw [addTransition_eps _ _ _ (by
    simp only [outCount_mmInsert, c0, clf, crlf, hne1, if_false]; decide)]
  simp only
  rw [addTransition_eps _ _ _ (by
    simp only [outCount_mmInsert, c0, clrf, crf, hne2, hne3, if_false]; decide)]
  simp only
  have e2 : n + 1 + 1 = n + 2 := by omega
  rw [e2]
  refine ⟨_, rfl, ?_, ?_, ?_⟩
  · rw [(addTransitionStates_fields _).2.1]
  · rw [(addTransitionStates_fields _).2.2.1]
  · rw [(addTransitionStates_fields _).1]
    simp only
    have h0 : (mmInsertRange (mmInsertRange [] left.transitions) right.transitions).Perm
        (left.transitions ++ right.transitions) := by
      refine (mmInsertRange_perm right.transitions _).trans ?_
      refine List.Perm.append_right _ ?_
      simpa using mmInsertRange_perm left.transitions []
    have h1 := (mmInsert_perm ((⟨n, epsilon⟩, left.initialState) : Key Int × Int) _).trans
      (h0.cons _)
    have h2 := (mmInsert_perm ((⟨n, epsilon⟩, right.initialState) : Key Int × Int) _).trans
      (h1.cons _)
    have h3 := (mmInsert_perm ((⟨left.finalStates, epsilon⟩, n + 1) : Key Int × Int) _).trans
      (h2.cons _)
    exact (mmInsert_perm ((⟨right.finalStates, epsilon⟩, n + 1) : Key Int × Int) _).trans
      (h3.cons _)

/-- The concatenation machine over two NFAs neither of which has a transition out of the
accept state of the first. -/
theorem AutomataPool_Concatenation_perm (left right : NDFA)
    (hLL : ∀ e ∈ left.transitions, e.1.state ≠ left.finalStates)
    (hRL : ∀ e ∈ right.transitions, e.1.state ≠ left.finalStates) :
    ∃ S : NDFA, AutomataPool_Concatenation left right = .ok S ∧
      S.initialState = left.initialState ∧ S.finalStates = right.finalStates ∧
      S.transitions.Perm
        ((⟨left.finalStates, epsilon⟩, right.initialState) ::
          (left.transitions ++ right.transitions)) ∧
      ∀ x ∈ S.allStates, ∃ e ∈ S.transitions, x = e.1.state ∨ x = e.2 := by
  have c0 : ∀ k : Key Int,
      outCount (mmInsertRange (mmInsertRange [] left.transitions) right.transitions) k =
        outCount left.transitions k + outCount right.transitions k := by
    intro k
    rw [outCount_mmInsertRange, outCount_mmInsertRange, outCount_nil, Nat.zero_add]
  have clf : outCount left.transitions ⟨left.finalStates, epsilon⟩ = 0 :=
    outCount_eq_zero _ _ (fun e he hk => hLL e he (by rw [hk]))
  have crlf : outCount right.transitions ⟨left.finalStates, epsilon⟩ = 0 :=
    outCount_eq_zero _ _ (fun e he hk => hRL e he (by rw [hk]))
  unfold AutomataPool_Concatenation
  simp only [emptyNDFA]
  rw [addTransition_eps _ _ _ (by simp only [c0, clf, crlf]; decide)]
  simp only
  refine ⟨_, rfl, ?_, ?_, ?_, ?_⟩
  · rw [(addTransitionStates_fields _).2.1]
  · rw [(addTransitionStates_fields _).2.2.1]
  · rw [(addTransitionStates_fields _).1]
    simp only
    have h0 : (mmInsertRange (mmInsertRange [] left.transitions) right.transitions).Perm
        (left.transitions ++ right.transitions) := by
      refine (mmInsertRange_perm right.transitions _).trans ?_
      refine List.Perm.append_right _ ?_
      simpa using mmInsertRange_perm left.transitions []
    exact (mmInsert_perm _ _).trans (h0.cons _)
  · intro x hx
    rw [(addTransitionStates_fields _).1]
    rcases (mem_addTransitionStates _ x).mp hx with h | h
    · simp at h
    · exact h

theorem mem_stateIds (A : NDFA) (x : Int) :
    x ∈ A.stateIds ↔ x = A.initialState ∨ x = A.finalStates ∨ x ∈ A.allStates ∨
      (∃ e ∈ A.transitions, x = e.1.state) ∨ (∃ e ∈ A.transitions, x = e.2) := by
  unfold Automaton.stateIds
  simp only [List.mem_cons, List.mem_append, List.mem_map]
  constructor
  · rintro (h | h | h | ⟨e, he, h⟩ | ⟨e, he, h⟩)
    · exact Or.inl h
    · exact Or.inr (Or.inl h)
    · exact Or.inr (Or.inr (Or.inl h))
    · exact Or.inr (Or.inr (Or.inr (Or.inl ⟨e, he, h.symm⟩)))
    · exact Or.inr (Or.inr (Or.inr (Or.inr ⟨e, he, h.symm⟩)))
  · rintro (h | h | h | ⟨e, he, h⟩ | ⟨e, he, h⟩)
    · exact Or.inl h
    · exact Or.inr (Or.inl h)
    · exact Or.inr (Or.inr (Or.inl h))
    · exact Or.inr (Or.inr (Or.inr (Or.inl ⟨e, he, h.symm⟩)))
    · exact Or.inr (Or.inr (Or.inr (Or.inr ⟨e, he, h.symm⟩)))

theorem source_mem_stateIds (A : NDFA) (e : Key Int × Int) (he : e ∈ A.transitions) :
    e.1.state ∈ A.stateIds :=
  (mem_stateIds A _).mpr (Or.inr (Or.inr (Or.inr (Or.inl ⟨e, he, rfl⟩))))

theorem target_mem_stateIds (A : NDFA) (e : Key Int × Int) (he : e ∈ A.transitions) :
    e.2 ∈ A.stateIds :=
  (mem_stateIds A _).mpr (Or.inr (Or.inr (Or.inr (Or.inr ⟨e, he, rfl⟩))))

theorem initial_mem_stateIds (A : NDFA) : A.initialState ∈ A.stateIds :=
  (mem_stateIds A _).mpr (Or.inl rfl)

theorem final_mem_stateIds (A : NDFA) : A.finalStates ∈ A.stateIds :=
  (mem_stateIds A _).mpr (Or.inr (Or.inl rfl))

/-- C11: for an NFA `A` whose accept state has no outgoing transition and whose state
ids are all below the counter `n`, `AutomataPool_KleeneStar(A, n)` succeeds, leaves the
counter at `n + 2`, and returns an NFA with start `n`, accept `n + 1`, whose transitions
are those of `A` and the four ε-edges `n → n+1`, `n → A.start`, `A.accept → n+1`,
`A.accept → A.start`, each once. -/
theorem AutomataPool_KleeneStar_spec (A : NDFA) (n : Int)
    (hids : ∀ x ∈ A.stateIds, x < n)
    (hout : ∀ e ∈ A.transitions, e.1.state ≠ A.finalStates) :
    ∃ S : NDFA, AutomataPool_KleeneStar A n = .ok (S, n + 2) ∧
      S.initialState = n ∧ S.finalStates = n + 1 ∧
      S.transitions.Perm
        ((⟨A.finalStates, epsilon⟩, A.initialState) :: (⟨n, epsilon⟩, A.initialState) ::
          (⟨A.finalStates, epsilon⟩, n + 1) :: (⟨n, epsilon⟩, n + 1) :: A.transitions) := by
  apply AutomataPool_KleeneStar_perm A n
  · intro e he hk
    have := hids _ (source_mem_stateIds A e he)
    omega
  · have := hids _ (final_mem_stateIds A)
    omega
  · exact hout

/-- Witness of `AutomataPool_KleeneStar_spec`: the symbol machine `0 --a--> 1` and the
counter 2. -/
theorem AutomataPool_KleeneStar_spec_witness :
    ((∀ x ∈ machine_a.stateIds, x < 2) ∧
      (∀ e ∈ machine_a.transitions, e.1.state ≠ machine_a.finalStates)) ∧
    ∃ S : NDFA, AutomataPool_KleeneStar machine_a 2 = .ok (S, 2 + 2) ∧
      S.initialState = 2 ∧ S.finalStates = 2 + 1 ∧
      S.transitions.Perm
        ((⟨machine_a.finalStates, epsilon⟩, machine_a.initialState) ::
          (⟨2, epsilon⟩, machine_a.initialState) ::
          (⟨machine_a.finalStates, epsilon⟩, 2 + 1) :: (⟨2, epsilon⟩, 2 + 1) ::
          machine_a.transitions) :=
  ⟨⟨by decide, by decide⟩, AutomataPool_KleeneStar_spec machine_a 2 (by decide) (by decide)⟩

/-- C12: for NFAs `A`, `B` with disjoint state ids all below the counter `n` and accept
states without outgoing transition, `AutomataPool_Union(A, B, n)` succeeds, leaves the
counter at `n + 2`, and returns an NFA with start `n`, accept `n + 1`, whose transitions
are those of `A`, those of `B` and the four ε-edges `n → A.start`, `n → B.start`,
`A.accept → n+1`, `B.accept → n+1`, each once. -/
theorem AutomataPool_Union_spec (A B : NDFA) (n : Int)
    (hA : ∀ x ∈ A.stateIds, x < n) (hB : ∀ x ∈ B.stateIds, x < n)
    (hdisj : ∀ x ∈ A.stateIds, x ∉ B.stateIds)
    (houtA : ∀ e ∈ A.transitions, e.1.state ≠ A.finalStates)
    (houtB : ∀ e ∈ B.transitions, e.1.state ≠ B.finalStates) :
    ∃ S : NDFA, AutomataPool_Union A B n = .ok (S, n + 2) ∧
      S.initialState = n ∧ S.finalStates = n + 1 ∧
      S.transitions.Perm
        ((⟨B.finalStates, epsilon⟩, n + 1) :: (⟨A.finalStates, epsilon⟩, n + 1) ::
          (⟨n, epsilon⟩, B.initialState) :: (⟨n, epsilon⟩, A.initialState) ::
          (A.transitions ++ B.transitions)) := by
  apply AutomataPool_Union_perm A B n
  · intro e he hk
    have := hA _ (source_mem_stateIds A e he)
    omega
  · intro e he hk
    have := hB _ (source_mem_stateIds B e he)
    omega
  · have := hA _ (final_mem_stateIds A)
    omega
  · have := hB _ (final_mem_stateIds B)
    omega
  · intro hk
    apply hdisj _ (final_mem_stateIds A)
    rw [hk]
    exact final_mem_stateIds B
  · exact houtA
  · intro e he hk
    apply hdisj _ (final_mem_stateIds A)
    rw [← hk]
    exact source_mem_stateIds B e he
  · intro e he hk
    apply hdisj _ (source_mem_stateIds A e he)
    rw [hk]
    exact final_mem_stateIds B
  · exact houtB

/-- Witness of `AutomataPool_Union_spec`: the symbol machines `0 --a--> 1` and
`2 --b--> 3` and the counter 4. -/
theorem AutomataPool_Union_spec_witness :
    ((∀ x ∈ machine_a.stateIds, x < 4) ∧ (∀ x ∈ machine_b.stateIds, x < 4) ∧
      (∀ x ∈ machine_a.stateIds, x ∉ machine_b.stateIds) ∧
      (∀ e ∈ machine_a.transitions, e.1.state ≠ machine_a.finalStates) ∧
      (∀ e ∈ machine_b.transitions, e.1.state ≠ machine_b.finalStates)) ∧
    ∃ S : NDFA, AutomataPool_Union machine_a machine_b 4 = .ok (S, 4 + 2) ∧
      S.initialState = 4 ∧ S.finalStates = 4 + 1 ∧
      S.transitions.Perm
        ((⟨machine_b.finalStates, epsilon⟩, 4 + 1) ::
          (⟨machine_a.finalStates, epsilon⟩, 4 + 1) ::
          (⟨4, epsilon⟩, machine_b.initialState) :: (⟨4, epsilon⟩, machine_a.initialState) ::
          (machine_a.transitions ++ machine_b.transitions)) :=
  ⟨⟨by decide, by decide, by decide, by decide, by decide⟩,
   AutomataPool_Union_spec machine_a machine_b 4 (by decide) (by decide) (by decide)
     (by decide) (by decide)⟩

/-- C13: for NFAs `A`, `B` with disjoint state ids where the accept state of `A` has no
outgoing transition, `AutomataPool_Concatenation(A, B)` succeeds and returns an NFA with
start `A.start`, accept `B.accept`, whose transitions are those of `A`, those of `B` and
the ε-edge `A.accept → B.start`, each once; every state id of the result is a state id of
`A` or of `B`. -/
theorem AutomataPool_Concatenation_spec (A B : NDFA)
    (hdisj : ∀ x ∈ A.stateIds, x ∉ B.stateIds)
    (houtA : ∀ e ∈ A.transitions, e.1.state ≠ A.finalStates) :
    ∃ S : NDFA, AutomataPool_Concatenation A B = .ok S ∧
      S.initialState = A.initialState ∧ S.finalStates = B.finalStates ∧
      S.transitions.Perm
        ((⟨A.finalStates, epsilon⟩, B.initialState) :: (A.transitions ++ B.transitions)) ∧
      ∀ x ∈ S.stateIds, x ∈ A.stateIds ∨ x ∈ B.stateIds := by
  obtain ⟨S, hS, hs, hf, hT, hall⟩ := AutomataPool_Concatenation_perm A B houtA
    (by
      intro e he hk
      apply hdisj _ (final_mem_stateIds A)
      rw [← hk]
      exact source_mem_stateIds B e he)
  refine ⟨S, hS, hs, hf, hT, ?_⟩
  have hedge : ∀ e ∈ S.transitions,
      (e.1.state ∈ A.stateIds ∨ e.1.state ∈ B.stateIds) ∧
      (e.2 ∈ A.stateIds ∨ e.2 ∈ B.stateIds) := by
    intro e he
    have := hT.mem_iff.mp he
    rcases List.mem_cons.mp this with h | h
    · rw [h]
      exact ⟨Or.inl (final_mem_stateIds A), Or.inr (initial_mem_stateIds B)⟩
    · rcases List.mem_append.mp h with h | h
      · exact ⟨Or.inl (source_mem_stateIds A e h), Or.inl (target_mem_stateIds A e h)⟩
      · exact ⟨Or.inr (source_mem_stateIds B e h), Or.inr (target_mem_stateIds B e h)⟩
  intro x hx
  rcases (mem_stateIds S x).mp hx with h | h | h | ⟨e, he, h⟩ | ⟨e, he, h⟩
  · rw [h, hs]; exact Or.inl (initial_mem_stateIds A)
  · rw [h, hf]; exact Or.inr (final_mem_stateIds B)
  · obtain ⟨e, he, h2⟩ := hall x h
    rcases h2 with h2 | h2
    · rw [h2]; exact (hedge e he).1
    · rw [h2]; exact (hedge e he).2
  · rw [h]; exact (hedge e he).1
  · rw [h]; exact (hedge e he).2

/-- Witness of `AutomataPool_Concatenation_spec`: the symbol machines `0 --a--> 1` and
`2 --b--> 3`. -/
theorem AutomataPool_Concatenation_spec_witness :
    ((∀ x ∈ machine_a.stateIds, x ∉ machine_b.stateIds) ∧
      (∀ e ∈ machine_a.transitions, e.1.state ≠ machine_a.finalStates)) ∧
    ∃ S : NDFA, AutomataPool_Concatenation machine_a machine_b = .ok S ∧
      S.initialState = machine_a.initialState ∧ S.finalStates = machine_b.finalStates ∧
      S.transitions.Perm
        ((⟨machine_a.finalStates, epsilon⟩, machine_b.initialState) ::
          (machine_a.transitions ++ machine_b.transitions)) ∧
      ∀ x ∈ S.stateIds, x ∈ machine_a.stateIds ∨ x ∈ machine_b.stateIds :=
  ⟨⟨by decide, by decide⟩,
   AutomataPool_Concatenation_spec machine_a machine_b (by decide) (by decide)⟩

theorem outCount_pos_iff (m : NTransitions) (k : Key Int) :
    0 < outCount m k ↔ ∃ t : Int, (k, t) ∈ m := by
  unfold outCount equalRange
  rw [List.length_pos_iff_exists_mem]
  constructor
  · rintro ⟨e, he⟩
    rw [List.mem_filter] at he
    have hk : e.1 = k := by simpa using he.2
    exact ⟨e.2, by rw [← hk]; exact he.1⟩
  · rintro ⟨t, ht⟩
    exact ⟨(k, t), List.mem_filter.mpr ⟨ht, by simp⟩⟩

/-- C14: `addTransition(s, c, t)` throws (always the `runtime_error` of the transition
bound) exactly when `c` is ε and `s` already has two or more outgoing ε-transitions, or
`c` is not ε and `s` already has a transition on `c`; when it throws the automaton is
unchanged, and when it returns the one transition `s --c--> t` has been added and nothing
else has changed. The exception-returning model `addTransition` agrees with it. -/
theorem addTransition_spec (a : NDFA) (s t : Int) (c : Char) :
    ((a.addTransitionState s c t).2 = .error .transitionsNumber ↔
      (c = epsilon ∧ 2 ≤ outCount a.transitions ⟨s, epsilon⟩) ∨
      (c ≠ epsilon ∧ ∃ t2 : Int, ((⟨s, c⟩, t2) : Key Int × Int) ∈ a.transitions)) ∧
    ((a.addTransitionState s c t).2 = .ok () ∨
      (a.addTransitionState s c t).2 = .error .transitionsNumber) ∧
    ((a.addTransitionState s c t).2 = .error .transitionsNumber →
      (a.addTransitionState s c t).1 = a) ∧
    ((a.addTransitionState s c t).2 = .ok () →
      (a.addTransitionState s c t).1.transitions.Perm ((⟨s, c⟩, t) :: a.transitions) ∧
      (a.addTransitionState s c t).1 =
        { a with transitions := (a.addTransitionState s c t).1.transitions }) ∧
    a.addTransition s c t =
      (match (a.addTransitionState s c t).2 with
       | .ok _ => .ok (a.addTransitionState s c t).1
       | .error e => .error e) := by
  have hpos := outCount_pos_iff a.transitions ⟨s, c⟩
  by_cases hc : c = '*'
  · subst hc
    by_cases h2 : (equalRange a.transitions ⟨s, '*'⟩).length < 2
    · have h3 : ¬ 2 ≤ outCount a.transitions ⟨s, epsilon⟩ := by
        unfold outCount epsilon; omega
      have hrun : a.addTransitionState s '*' t =
          ({ a with transitions := mmInsert (⟨s, '*'⟩, t) a.transitions }, .ok ()) := by
        simp [Automaton.addTransitionState, h2]
      have hex : a.addTransition s '*' t =
          .ok { a with transitions := mmInsert (⟨s, '*'⟩, t) a.transitions } := by
        simp [Automaton.addTransition, h2]
      rw [hrun, hex]
      refine ⟨?_, Or.inl rfl, ?_, ?_, rfl⟩
      · constructor
        · intro h; cases h
        · rintro (⟨_, h⟩ | ⟨h, _⟩)
          · exact absurd h h3
          · exact absurd rfl h
      · intro h; cases h
      · intro _
        exact ⟨mmInsert_perm _ _, rfl⟩
    · have h3 : 2 ≤ outCount a.transitions ⟨s, epsilon⟩ := by
        unfold outCount epsilon; omega
      have hrun : a.addTransitionState s '*' t = (a, .error .transitionsNumber) := by
        simp [Automaton.addTransitionState, h2]
      have hex : a.addTransition s '*' t = .error .transitionsNumber := by
        simp [Automaton.addTransition, h2]
      rw [hrun, hex]
      refine ⟨?_, Or.inr rfl, fun _ => rfl, ?_, rfl⟩
      · constructor
        · intro _
          exact Or.inl ⟨rfl, h3⟩
        · intro _; rfl
      · intro h; cases h
  · have hce : c ≠ epsilon := hc
    by_cases h0 : (equalRange a.transitions ⟨s, c⟩).length = 0
    · have h3 : ¬ ∃ t2 : Int, ((⟨s, c⟩, t2) : Key Int × Int) ∈ a.transitions := by
        rw [← hpos]
        unfold outCount; omega
      have hrun : a.addTransitionState s c t =
          ({ a with transitions := mmInsert (⟨s, c⟩, t) a.transitions }, .ok ()) := by
        simp [Automaton.addTransitionState, hc, h0]
      have hex : a.addTransition s c t =
          .ok { a with transitions := mmInsert (⟨s, c⟩, t) a.transitions } := by
        simp [Automaton.addTransition, hc, h0]
      rw [hrun, hex]
      refine ⟨?_, Or.inl rfl, ?_, ?_, rfl⟩
      · constructor
        · intro h; cases h
        · rintro (⟨h, _⟩ | ⟨_, h⟩)
          · exact absurd h hce
          · exact absurd h h3
      · intro h; cases h
      · intro _
        exact ⟨mmInsert_perm _ _, rfl⟩
    · have h3 : ∃ t2 : Int, ((⟨s, c⟩, t2) : Key Int × Int) ∈ a.transitions := by
        rw [← hpos]
        unfold outCount; omega
      have hrun : a.addTransitionState s c t = (a, .error .transitionsNumber) := by
        simp [Automaton.addTransitionState, hc, h0]
      have hex : a.addTransition s c t = .error .transitionsNumber := by
        simp [Automaton.addTransition, hc, h0]
      rw [hrun, hex]
      refine ⟨?_, Or.inr rfl, fun _ => rfl, ?_, rfl⟩
      · constructor
        · intro _
          exact Or.inr ⟨hce, h3⟩
        · intro _; rfl
      · intro h; cases h

/-! ## An induction principle for the Thompson construction -/

theorem Symbol_shape (S : NDFA) (c : Char) (n : Int) (hs : S.initialState = n)
    (hf : S.finalStates = n + 1) (hT : S.transitions = [(⟨n, c⟩, n + 1)]) :
    ThompsonShape S n (n + 2) := by
  refine { range := ?_, start := ?_, final := ?_, finalOut := ?_ }
  · intro e he
    rw [hT, List.mem_singleton] at he
    rw [he]
    simp only
    omega
  · omega
  · omega
  · intro e he
    rw [hT, List.mem_singleton] at he
    rw [he, hf]
    simp

theorem KleeneStar_shape (S1 S : NDFA) (n n1 : Int) (h : ThompsonShape S1 n n1)
    (hs : S.initialState = n1) (hf : S.finalStates = n1 + 1)
    (hT : ∀ e ∈ S.transitions,
      (e ∈ S1.transitions ∨ e = (⟨n1, epsilon⟩, n1 + 1) ∨
        e = (⟨S1.finalStates, epsilon⟩, n1 + 1) ∨ e = (⟨n1, epsilon⟩, S1.initialState) ∨
        e = (⟨S1.finalStates, epsilon⟩, S1.initialState))) :
    ThompsonShape S n (n1 + 2) := by
  have hlo := h.start
  have hfin := h.final
  refine { range := ?_, start := ?_, final := ?_, finalOut := ?_ }
  · intro e he
    rcases hT e he with h1 | h1 | h1 | h1 | h1
    · have := h.range e h1; omega
    · rw [h1]; simp only; omega
    · rw [h1]; simp only; omega
    · rw [h1]; simp only; omega
    · rw [h1]; simp only; omega
  · omega
  · omega
  · intro e he
    rw [hf]
    rcases hT e he with h1 | h1 | h1 | h1 | h1
    · have := h.range e h1; omega
    · rw [h1]; simp
    · rw [h1]; simp only; omega
    · rw [h1]; simp
    · rw [h1]; simp only; omega

theorem Concatenation_shape (S1 S2 S : NDFA) (n n1 n2 : Int) (h1 : ThompsonShape S1 n n1)
    (h2 : ThompsonShape S2 n1 n2) (hs : S.initialState = S1.initialState)
    (hf : S.finalStates = S2.finalStates)
    (hT : ∀ e ∈ S.transitions,
      (e ∈ S1.transitions ∨ e ∈ S2.transitions ∨
        e = (⟨S1.finalStates, epsilon⟩, S2.initialState))) :
    ThompsonShape S n n2 := by
  have hlo1 := h1.start
  have hlo2 := h2.start
  have hf1 := h1.final
  have hf2 := h2.final
  refine { range := ?_, start := ?_, final := ?_, finalOut := ?_ }
  · intro e he
    rcases hT e he with h | h | h
    · have := h1.range e h; omega
    · have := h2.range e h; omega
    · rw [h]; simp only; omega
  · omega
  · omega
  · intro e he
    rw [hf]
    rcases hT e he with h | h | h
    · have := h1.range e h; omega
    · exact h2.finalOut e h
    · rw [h]; simp only; omega

theorem Union_shape (S1 S2 S : NDFA) (n n1 n2 : Int) (h1 : ThompsonShape S1 n n1)
    (h2 : ThompsonShape S2 n1 n2) (hs : S.initialState = n2) (hf : S.finalStates = n2 + 1)
    (hT : ∀ e ∈ S.transitions,
      (e ∈ S1.transitions ∨ e ∈ S2.transitions ∨
        e = (⟨n2, epsilon⟩, S1.initialState) ∨ e = (⟨n2, epsilon⟩, S2.initialState) ∨
        e = (⟨S1.finalStates, epsilon⟩, n2 + 1) ∨
        e = (⟨S2.finalStates, epsilon⟩, n2 + 1))) :
    ThompsonShape S n (n2 + 2) := by
  have hlo1 := h1.start
  have hlo2 := h2.start
  have hf1 := h1.final
  have hf2 := h2.final
  refine { range := ?_, start := ?_, final := ?_, finalOut := ?_ }
  · intro e he
    rcases hT e he with h | h | h | h | h | h
    · have := h1.range e h; omega
    · have := h2.range e h; omega
    · rw [h]; simp only; omega
    · rw [h]; simp only; omega
    · rw [h]; simp only; omega
    · rw [h]; simp only; omega
  · omega
  · omega
  · intro e he
    rw [hf]
    rcases hT e he with h | h | h | h | h | h
    · have := h1.range e h; omega
    · have := h2.range e h; omega
    · rw [h]; simp
    · rw [h]; simp
    · rw [h]; simp only; omega
    · rw [h]; simp only; omega

/-- Induction over the Thompson construction: a property `Q` of (tree, NFA, first state,
counter after) that holds of every symbol machine and is kept by the three operators
holds of the NFA the loop of `REtoND` pushes for a well-formed tree. -/
theorem REtoNDLoop_tree_ind (alphabet : List Char) (hA : ∀ c ∈ alphabet, c ∉ operators)
    (Q : AST → NDFA → Int → Int → Prop)
    (hsym : ∀ (c : Char) (n : Int) (S : NDFA), c ∈ alphabet →
      AutomataPool_Symbol c n = .ok (S, n + 2) → Q (.node c .null .null) S n (n + 2))
    (hstar : ∀ (l : AST) (S1 S : NDFA) (n n1 : Int), ThompsonShape S1 n n1 → Q l S1 n n1 →
      AutomataPool_KleeneStar S1 n1 = .ok (S, n1 + 2) → Q (.node '*' l .null) S n (n1 + 2))
    (hcat : ∀ (l r : AST) (S1 S2 S : NDFA) (n n1 n2 : Int), ThompsonShape S1 n n1 →
      ThompsonShape S2 n1 n2 → Q l S1 n n1 → Q r S2 n1 n2 →
      AutomataPool_Concatenation S1 S2 = .ok S → Q (.node '.' l r) S n n2)
    (huni : ∀ (l r : AST) (S1 S2 S : NDFA) (n n1 n2 : Int), ThompsonShape S1 n n1 →
      ThompsonShape S2 n1 n2 → Q l S1 n n1 → Q r S2 n1 n2 →
      AutomataPool_Union S1 S2 n2 = .ok (S, n2 + 2) → Q (.node '|' l r) S n (n2 + 2))
    (t : AST) : t.WellFormed alphabet → ∀ n : Int,
    ∃ (S : NDFA) (n2 : Int), ThompsonShape S n n2 ∧ Q t S n n2 ∧
      ∀ (rest : List AST) (stack : List NDFA),
        REtoNDLoop alphabet (t.postorder ++ rest) (stack, n) =
          REtoNDLoop alphabet rest (S :: stack, n2) := by
  have hstar0 : '*' ∉ alphabet := fun h => hA _ h (by decide)
  have hdot : '.' ∉ alphabet := fun h => hA _ h (by decide)
  have hbar : '|' ∉ alphabet := fun h => hA _ h (by decide)
  induction t with
  | null => intro h; exact absurd h (by simp [AST.WellFormed])
  | node c l r ihl ihr =>
    intro hwf n
    simp only [AST.WellFormed] at hwf
    rcases hwf with ⟨hc, hl, hr⟩ | ⟨hc, hl, hr⟩ | ⟨hc, hl, hr⟩
    · subst hl hr
      obtain ⟨S, hS, hs, hf, hT⟩ := AutomataPool_Symbol_ok c n
      refine ⟨S, n + 2, Symbol_shape S c n hs hf hT, hsym c n S hc hS, ?_⟩
      intro rest stack
      simp only [AST.postorder, List.nil_append]
      rw [REtoNDLoop_append_single]
      simp only [AST.getCharacter, REtoNDStep, hc, if_true, hS]
    · subst hc hr
      obtain ⟨S1, n1, hshape, hq, hloop⟩ := ihl hl n
      obtain ⟨S, hS, hs, hf, hT⟩ := AutomataPool_KleeneStar_ok S1 n n1 hshape
      refine ⟨S, n1 + 2, KleeneStar_shape S1 S n n1 hshape hs hf (fun e he => (hT e).mp he),
        hstar l S1 S n n1 hshape hq hS, ?_⟩
      intro rest stack
      simp only [AST.postorder, List.nil_append, List.append_assoc]
      rw [hloop, REtoNDLoop_append_single]
      simp only [AST.getCharacter, REtoNDStep, hstar0, if_false, hS]
      simp
    · obtain ⟨S1, n1, hshape1, hq1, hloop1⟩ := ihl hl n
      obtain ⟨S2, n2, hshape2, hq2, hloop2⟩ := ihr hr n1
      rcases hc with hc | hc
      · subst hc
        obtain ⟨S, hS, hs, hf, hT⟩ :=
          AutomataPool_Concatenation_ok S1 S2 n n1 n2 hshape1 hshape2
        refine ⟨S, n2,
          Concatenation_shape S1 S2 S n n1 n2 hshape1 hshape2 hs hf (fun e he => (hT e).mp he),
          hcat l r S1 S2 S n n1 n2 hshape1 hshape2 hq1 hq2 hS, ?_⟩
        intro rest stack
        simp only [AST.postorder, List.append_assoc]
        rw [hloop1, hloop2, REtoNDLoop_append_single]
        simp only [AST.getCharacter, REtoNDStep, hdot, if_false, hS]
        simp
      · subst hc
        obtain ⟨S, hS, hs, hf, hT⟩ := AutomataPool_Union_ok S1 S2 n n1 n2 hshape1 hshape2
        refine ⟨S, n2 + 2,
          Union_shape S1 S2 S n n1 n2 hshape1 hshape2 hs hf (fun e he => (hT e).mp he),
          huni l r S1 S2 S n n1 n2 hshape1 hshape2 hq1 hq2 hS, ?_⟩
        intro rest stack
        simp only [AST.postorder, List.append_assoc]
        rw [hloop1, hloop2, REtoNDLoop_append_single]
        simp only [AST.getCharacter, REtoNDStep, hbar, if_false, hS]
        simp

/-- The induction principle for the result of `REtoND`. -/
theorem REtoND_ind (regex : Regex) (hA : ∀ c ∈ regex.alphabet, c ∉ operators)
    (Q : AST → NDFA → Int → Int → Prop)
    (hsym : ∀ (c : Char) (n : Int) (S : NDFA), c ∈ regex.alphabet →
      AutomataPool_Symbol c n = .ok (S, n + 2) → Q (.node c .null .null) S n (n + 2))
    (hstar : ∀ (l : AST) (S1 S : NDFA) (n n1 : Int), ThompsonShape S1 n n1 → Q l S1 n n1 →
      AutomataPool_KleeneStar S1 n1 = .ok (S, n1 + 2) → Q (.node '*' l .null) S n (n1 + 2))
    (hcat : ∀ (l r : AST) (S1 S2 S : NDFA) (n n1 n2 : Int), ThompsonShape S1 n n1 →
      ThompsonShape S2 n1 n2 → Q l S1 n n1 → Q r S2 n1 n2 →
      AutomataPool_Concatenation S1 S2 = .ok S → Q (.node '.' l r) S n n2)
    (huni : ∀ (l r : AST) (S1 S2 S : NDFA) (n n1 n2 : Int), ThompsonShape S1 n n1 →
      ThompsonShape S2 n1 n2 → Q l S1 n n1 → Q r S2 n1 n2 →
      AutomataPool_Union S1 S2 n2 = .ok (S, n2 + 2) → Q (.node '|' l r) S n (n2 + 2))
    (t : AST) (ht : t.WellFormed regex.alphabet) :
    ∃ (N : NDFA) (n2 : Int), REtoND t regex = .ok N ∧ ThompsonShape N 0 n2 ∧ Q t N 0 n2 := by
  obtain ⟨S, n2, hshape, hq, hloop⟩ :=
    REtoNDLoop_tree_ind regex.alphabet hA Q hsym hstar hcat huni t ht 0
  have hnn : t ≠ .null := by
    intro h
    rw [h] at ht
    simp [AST.WellFormed] at ht
  refine ⟨S, n2, ?_, hshape, hq⟩
  unfold REtoND
  rw [if_neg hnn, visitingASTforAutoma_eq t hnn]
  simp only
  have := hloop [] []
  rw [List.append_nil] at this
  rw [this]
  simp [REtoNDLoop]

/-! ## Out-degrees in the Thompson construction -/

theorem symOut_perm {T1 T2 : NTransitions} (h : T1.Perm T2) (x : Int) :
    symOut T1 x = symOut T2 x := h.countP_eq _

theorem epsOut_perm {T1 T2 : NTransitions} (h : T1.Perm T2) (x : Int) :
    epsOut T1 x = epsOut T2 x := h.countP_eq _

theorem symOut_append (T1 T2 : NTransitions) (x : Int) :
    symOut (T1 ++ T2) x = symOut T1 x + symOut T2 x := by
  unfold symOut
  rw [List.countP_append]

theorem epsOut_append (T1 T2 : NTransitions) (x : Int) :
    epsOut (T1 ++ T2) x = epsOut T1 x + epsOut T2 x := by
  unfold epsOut
  rw [List.countP_append]

theorem symOut_cons_eps (s t : Int) (T : NTransitions) (x : Int) :
    symOut ((⟨s, epsilon⟩, t) :: T) x = symOut T x := by
  unfold symOut
  rw [List.countP_cons]
  simp

theorem epsOut_cons_eps (s t : Int) (T : NTransitions) (x : Int) :
    epsOut ((⟨s, epsilon⟩, t) :: T) x = epsOut T x + (if s = x then 1 else 0) := by
  unfold epsOut
  rw [List.countP_cons]
  simp

theorem symOut_eq_zero (T : NTransitions) (x : Int) (h : ∀ e ∈ T, e.1.state ≠ x) :
    symOut T x = 0 := by
  unfold symOut
  rw [List.countP_eq_zero]
  intro e he
  have := h e he
  simp [this]

theorem epsOut_eq_zero (T : NTransitions) (x : Int) (h : ∀ e ∈ T, e.1.state ≠ x) :
    epsOut T x = 0 := by
  unfold epsOut
  rw [List.countP_eq_zero]
  intro e he
  have := h e he
  simp [this]

/-- Outside the block of states of a Thompson machine, and at its accept state, no
transition leaves. -/
theorem ThompsonShape.no_out {A : NDFA} {lo hi : Int} (h : ThompsonShape A lo hi) (x : Int)
    (hx : x < lo ∨ hi ≤ x ∨ x = A.finalStates) : ∀ e ∈ A.transitions, e.1.state ≠ x := by
  intro e he hex
  have h1 := h.range e he
  have h2 := h.finalOut e he
  rcases hx with hx | hx | hx
  · omega
  · omega
  · exact h2 (hex.trans hx)

/-- The degree property is kept along the loop of `REtoND`. -/
theorem REtoND_degree (regex : Regex) (hA : ∀ c ∈ regex.alphabet, c ∉ operators) (t : AST)
    (ht : t.WellFormed regex.alphabet) :
    ∃ (N : NDFA) (n2 : Int), REtoND t regex = .ok N ∧ ThompsonShape N 0 n2 ∧
      ∀ x : Int, ThompsonDegree N.transitions x := by
  refine REtoND_ind regex hA (fun _ S _ _ => ∀ x : Int, ThompsonDegree S.transitions x)
    ?_ ?_ ?_ ?_ t ht
  · intro c n S hc hS x
    obtain ⟨S2, hS2, _, _, hT⟩ := AutomataPool_Symbol_ok c n
    rw [hS] at hS2
    injection hS2 with h1
    injection h1 with h1 _
    subst h1
    have hce : c ≠ epsilon := by
      intro h
      exact hA c hc (by rw [h]; decide)
    rw [hT]
    left
    unfold symOut epsOut
    simp only [List.countP_cons, List.countP_nil]
    simp [hce]
    split_ifs <;> omega
  · intro l S1 S n n1 hshape hq hS x
    have hf := hshape.final
    obtain ⟨S2, hS2, _, _, hT⟩ := AutomataPool_KleeneStar_perm S1 n1
      (hshape.no_out n1 (Or.inr (Or.inl (le_refl _)))) (by omega)
      (hshape.no_out _ (Or.inr (Or.inr rfl)))
    rw [hS] at hS2
    injection hS2 with h1
    injection h1 with h1 _
    subst h1
    unfold ThompsonDegree
    rw [symOut_perm hT, epsOut_perm hT]
    simp only [symOut_cons_eps, epsOut_cons_eps]
    have ih := hq x
    unfold ThompsonDegree at ih
    by_cases hx1 : x = n1
    · have z1 := symOut_eq_zero _ x (hshape.no_out x (Or.inr (Or.inl (by omega))))
      have z2 := epsOut_eq_zero _ x (hshape.no_out x (Or.inr (Or.inl (by omega))))
      have hne : ¬ S1.finalStates = x := by omega
      rw [if_neg hne, if_pos hx1.symm, z1, z2]
      omega
    · by_cases hx2 : x = S1.finalStates
      · have z1 := symOut_eq_zero _ x (hshape.no_out x (Or.inr (Or.inr hx2)))
        have z2 := epsOut_eq_zero _ x (hshape.no_out x (Or.inr (Or.inr hx2)))
        have hne : ¬ n1 = x := fun h => hx1 h.symm
        rw [if_pos hx2.symm, if_neg hne, z1, z2]
        omega
      · have hne1 : ¬ n1 = x := fun h => hx1 h.symm
        have hne2 : ¬ S1.finalStates = x := fun h => hx2 h.symm
        rw [if_neg hne1, if_neg hne2]
        omega
  · intro l r S1 S2 S n n1 n2 hshape1 hshape2 hq1 hq2 hS x
    have hf1 := hshape1.final
    have hs2 := hshape2.start
    obtain ⟨S3, hS3, _, _, hT, _⟩ := AutomataPool_Concatenation_perm S1 S2
      (hshape1.no_out _ (Or.inr (Or.inr rfl)))
      (hshape2.no_out _ (Or.inl (by omega)))
    rw [hS] at hS3
    injection hS3 with h1
    subst h1
    unfold ThompsonDegree
    rw [symOut_perm hT, epsOut_perm hT]
    simp only [symOut_cons_eps, epsOut_cons_eps, symOut_append, epsOut_append]
    have ih1 := hq1 x
    have ih2 := hq2 x
    unfold ThompsonDegree at ih1 ih2
    by_cases hxf : x = S1.finalStates
    · have z1 := symOut_eq_zero _ x (hshape1.no_out x (Or.inr (Or.inr hxf)))
      have z2 := epsOut_eq_zero _ x (hshape1.no_out x (Or.inr (Or.inr hxf)))
      have z3 := symOut_eq_zero _ x (hshape2.no_out x (Or.inl (by omega)))
      have z4 := epsOut_eq_zero _ x (hshape2.no_out x (Or.inl (by omega)))
      rw [if_pos hxf.symm, z1, z2, z3, z4]
      omega
    · have hne : ¬ S1.finalStates = x := fun h => hxf h.symm
      rw [if_neg hne]
      by_cases hlt : x < n1
      · have z3 := symOut_eq_zero _ x (hshape2.no_out x (Or.inl hlt))
        have z4 := epsOut_eq_zero _ x (hshape2.no_out x (Or.inl hlt))
        rw [z3, z4]
        omega
      · have z1 := symOut_eq_zero _ x (hshape1.no_out x (Or.inr (Or.inl (by omega))))
        have z2 := epsOut_eq_zero _ x (hshape1.no_out x (Or.inr (Or.inl (by omega))))
        rw [z1, z2]
        omega
  · intro l r S1 S2 S n n1 n2 hshape1 hshape2 hq1 hq2 hS x
    have hf1 := hshape1.final
    have hf2 := hshape2.final
    have hs1 := hshape1.start
    have hs2 := hshape2.start
    obtain ⟨S3, hS3, _, _, hT⟩ := AutomataPool_Union_perm S1 S2 n2
      (hshape1.no_out n2 (Or.inr (Or.inl (by omega))))
      (hshape2.no_out n2 (Or.inr (Or.inl (le_refl _))))
      (by omega) (by omega) (by omega)
      (hshape1.no_out _ (Or.inr (Or.inr rfl)))
      (hshape2.no_out _ (Or.inl (by omega)))
      (hshape1.no_out _ (Or.inr (Or.inl (by omega))))
      (hshape2.no_out _ (Or.inr (Or.inr rfl)))
    rw [hS] at hS3
    injection hS3 with h1
    injection h1 with h1 _
    subst h1
    unfold ThompsonDegree
    rw [symOut_perm hT, epsOut_perm hT]
    simp only [symOut_cons_eps, epsOut_cons_eps, symOut_append, epsOut_append]
    have ih1 := hq1 x
    have ih2 := hq2 x
    unfold ThompsonDegree at ih1 ih2
    have zl : n1 ≤ x → symOut S1.transitions x = 0 ∧ epsOut S1.transitions x = 0 :=
      fun h => ⟨symOut_eq_zero _ x (hshape1.no_out x (Or.inr (Or.inl h))),
        epsOut_eq_zero _ x (hshape1.no_out x (Or.inr (Or.inl h)))⟩
    have zr : x < n1 ∨ n2 ≤ x → symOut S2.transitions x = 0 ∧ epsOut S2.transitions x = 0 := by
      intro h
      have h2 : x < n1 ∨ n2 ≤ x ∨ x = S2.finalStates := by omega
      exact ⟨symOut_eq_zero _ x (hshape2.no_out x h2), epsOut_eq_zero _ x (hshape2.no_out x h2)⟩
    have zf1 : x = S1.finalStates → symOut S1.transitions x = 0 ∧ epsOut S1.transitions x = 0 :=
      fun h => ⟨symOut_eq_zero _ x (hshape1.no_out x (Or.inr (Or.inr h))),
        epsOut_eq_zero _ x (hshape1.no_out x (Or.inr (Or.inr h)))⟩
    have zf2 : x = S2.finalStates → symOut S2.transitions x = 0 ∧ epsOut S2.transitions x = 0 :=
      fun h => ⟨symOut_eq_zero _ x (hshape2.no_out x (Or.inr (Or.inr h))),
        epsOut_eq_zero _ x (hshape2.no_out x (Or.inr (Or.inr h)))⟩
    split_ifs <;> omega

/-- C15: for an alphabet with none of the operator characters and a well-formed syntax
tree over it, `REtoND` returns an NFA in which every state has either at most one
outgoing symbol transition and no outgoing ε-transition, or at most two outgoing
ε-transitions and no outgoing symbol transition. -/
theorem REtoND_thompson_degree (regex : Regex) (hA : ∀ c ∈ regex.alphabet, c ∉ operators)
    (t : AST) (ht : t.WellFormed regex.alphabet) :
    ∃ N : NDFA, REtoND t regex = .ok N ∧
      ∀ x : Int,
        (symOut N.transitions x ≤ 1 ∧ epsOut N.transitions x = 0) ∨
        (epsOut N.transitions x ≤ 2 ∧ symOut N.transitions x = 0) := by
  obtain ⟨N, n2, hN, _, hdeg⟩ := REtoND_degree regex hA t ht
  exact ⟨N, hN, hdeg⟩

theorem REtoND_thompson_degree_witness :
    ∃ N : NDFA, REtoND tree_union_ab ⟨['a', 'b'], []⟩ = .ok N ∧
      ∀ x : Int,
        (symOut N.transitions x ≤ 1 ∧ epsOut N.transitions x = 0) ∨
        (epsOut N.transitions x ≤ 2 ∧ symOut N.transitions x = 0) :=
  REtoND_thompson_degree ⟨['a', 'b'], []⟩ (by decide) tree_union_ab
    (by simp [tree_union_ab, AST.WellFormed])

/-! ## The accept indices and the order of the state list of `NDtoD` -/

theorem finalStates_fold_sorted (c : Nat → Prop) [DecidablePred c] (l : List Nat) :
    ∀ init : List Int, init.Sorted (· < ·) →
      (l.foldl (fun acc i => if c i then setInsert (i : Int) acc else acc) init).Sorted
        (· < ·) := by
  induction l with
  | nil => intro init h; exact h
  | cons i is ih =>
    intro init h
    rw [List.foldl_cons]
    apply ih
    by_cases hc : c i
    · rw [if_pos hc]
      exact setInsert_sorted _ _ h
    · rw [if_neg hc]
      exact h

theorem finalStatesDFAIndices_sorted (f : Int) (work : List (List Int)) :
    (finalStatesDFAIndices f work).Sorted (· < ·) := by
  unfold finalStatesDFAIndices
  exact finalStates_fold_sorted (fun i => f ∈ work.getD i []) _ [] List.sorted_nil

theorem NDtoDSymbol_head (N : NDFA) (Q : List Int) (w : Worklist) (a : Char)
    (h : w.DFA.allStates.head? = some w.DFA.initialState) :
    (NDtoDSymbol N Q w a).DFA.allStates.head? = some (NDtoDSymbol N Q w a).DFA.initialState := by
  unfold NDtoDSymbol
  simp only
  by_cases h1 : epsilonClosure N (nextStateSet N Q a) ≠ []
  · rw [if_pos h1]
    by_cases h2 : epsilonClosure N (nextStateSet N Q a) ∉ w.visitedStates
    · rw [if_pos h2]
      simp only [Automaton.addState]
      by_cases h3 : epsilonClosure N (nextStateSet N Q a) ∈ w.DFA.allStates
      · rw [if_pos h3]
        exact h
      · rw [if_neg h3]
        simp only
        cases hw : w.DFA.allStates with
        | nil => rw [hw] at h; simp at h
        | cons x xs => rw [hw] at h; simpa using h
    · rw [if_neg h2]
      exact h
  · rw [if_neg h1]
    exact h

theorem NDtoDSymbol_fold_head (N : NDFA) (Q : List Int) (A : List Char) :
    ∀ w : Worklist, w.DFA.allStates.head? = some w.DFA.initialState →
      (A.foldl (NDtoDSymbol N Q) w).DFA.allStates.head? =
        some (A.foldl (NDtoDSymbol N Q) w).DFA.initialState := by
  induction A with
  | nil => intro w h; exact h
  | cons a as ih =>
    intro w h
    rw [List.foldl_cons]
    exact ih _ (NDtoDSymbol_head N Q w a h)

theorem NDtoDLoop_head (N : NDFA) (A : List Char) : ∀ (fuel : Nat) (w : Worklist),
    w.DFA.allStates.head? = some w.DFA.initialState →
      (NDtoDLoop N A fuel w).DFA.allStates.head? =
        some (NDtoDLoop N A fuel w).DFA.initialState := by
  intro fuel
  induction fuel with
  | zero => intro w h; exact h
  | succ fuel ih =>
    intro w h
    unfold NDtoDLoop
    cases hq : w.stateQueue with
    | nil => exact h
    | cons Q rest =>
      simp only
      exact ih _ (NDtoDSymbol_fold_head N Q A _ h)

theorem NDtoD_head (N : NDFA) :
    (NDtoD N).allStates.head? = some (NDtoD N).initialState :=
  NDtoDLoop_head N _ (NDtoDFuel N) (NDtoDInit N) (by simp [NDtoDInit, Automaton.addState])

/-- C16: the accept-index set of `NDtoD N` holds exactly the positions, counted from 0
in the DFA's state list, of the subsets that contain the accept state of `N`; the index
set is strictly increasing, the state list has no repetition and its position 0 is the
start subset. -/
theorem NDtoD_finalStates_spec (N : NDFA) :
    (∀ i : Int, i ∈ (NDtoD N).finalStates ↔
      ∃ (n : Nat) (Q : List Int),
        i = (n : Int) ∧ (NDtoD N).allStates[n]? = some Q ∧ N.finalStates ∈ Q) ∧
    (NDtoD N).finalStates.Sorted (· < ·) ∧
    (NDtoD N).allStates.Nodup ∧
    (NDtoD N).allStates.head? = some (NDtoD N).initialState := by
  refine ⟨?_, ?_, (NDtoD_inv N).2.nodup, NDtoD_head N⟩
  · intro i
    rw [NDtoD_finalStates, mem_finalStatesDFAIndices]
    constructor
    · rintro ⟨n, hn, hf, hi⟩
      refine ⟨n, (NDtoD N).allStates[n], hi, List.getElem?_eq_getElem hn, ?_⟩
      rw [List.getD_eq_getElem _ _ hn] at hf
      exact hf
    · rintro ⟨n, Q, hi, hq, hf⟩
      obtain ⟨hn, hget⟩ := List.getElem?_eq_some.mp hq
      refine ⟨n, hn, ?_, hi⟩
      rw [List.getD_eq_getElem _ _ hn, hget]
      exact hf
  · rw [NDtoD_finalStates]
    exact finalStatesDFAIndices_sorted _ _

/-! ## The worked examples -/

theorem NDtoD_nfa_ab : NDtoD nfa_ab = dfa_ab := by rfl

theorem NDtoD_nfa_star_a : NDtoD nfa_star_a = dfa_star_a := by rfl

theorem NDtoD_nfa_union_ab : NDtoD nfa_union_ab = dfa_union_ab := by rfl

theorem dfaRun_cons (D : DFA) (Q : List Int) (a : Char) (w : List Char) :
    dfaRun D Q (a :: w) =
      match mapFind D.transitions ⟨Q, a⟩ with
      | none => none
      | some R => dfaRun D R w := rfl

theorem dfa_ab_run3 (c : Char) (w : List Char) : dfaRun dfa_ab [3] (c :: w) = none := by
  rw [dfaRun_cons]
  simp [mapFind, dfa_ab]

theorem dfa_ab_run12 (c : Char) (w : List Char) :
    dfaRun dfa_ab [1, 2] (c :: w) = if c = 'b' then dfaRun dfa_ab [3] w else none := by
  rw [dfaRun_cons]
  by_cases h : c = 'b'
  · subst h
    simp [mapFind, dfa_ab]
  · have h2 : ¬ 'b' = c := fun e => h e.symm
    simp [mapFind, dfa_ab, h, h2, List.find?]

theorem dfa_ab_run0 (c : Char) (w : List Char) :
    dfaRun dfa_ab [0] (c :: w) = if c = 'a' then dfaRun dfa_ab [1, 2] w else none := by
  rw [dfaRun_cons]
  by_cases h : c = 'a'
  · subst h
    simp [mapFind, dfa_ab]
  · have h2 : ¬ 'a' = c := fun e => h e.symm
    simp [mapFind, dfa_ab, h, h2, List.find?]

theorem dfa_ab_accepts (w : List Char) : dfaAccepts dfa_ab w = true ↔ w = ['a', 'b'] := by
  unfold dfaAccepts
  have hi : dfa_ab.initialState = [0] := rfl
  rw [hi]
  rcases w with _ | ⟨c, _ | ⟨d, _ | ⟨e, w⟩⟩⟩
  · simp [dfaRun, getIndexForState, getIndexForStateFrom, dfa_ab]
  · rw [dfa_ab_run0]
    by_cases h : c = 'a'
    · simp [h, dfaRun, getIndexForState, getIndexForStateFrom, dfa_ab]
    · simp [h]
  · rw [dfa_ab_run0]
    by_cases h : c = 'a'
    · rw [if_pos h, dfa_ab_run12]
      by_cases h2 : d = 'b'
      · simp [h, h2, dfaRun, getIndexForState, getIndexForStateFrom, dfa_ab]
      · simp [h, h2]
    · simp [h]
  · rw [dfa_ab_run0]
    by_cases h : c = 'a'
    · rw [if_pos h, dfa_ab_run12]
      by_cases h2 : d = 'b'
      · rw [if_pos h2, dfa_ab_run3]
        simp
      · simp [h2]
    · simp [h]

theorem dfa_star_a_run (w : List Char) :
    dfaRun dfa_star_a [0, 1, 3] w = if ∀ c ∈ w, c = 'a' then some [0, 1, 3] else none := by
  induction w with
  | nil => simp [dfaRun]
  | cons c w ih =>
    rw [dfaRun_cons]
    by_cases h : c = 'a'
    · subst h
      simp only [List.mem_cons, forall_eq_or_imp, true_and]
      rw [← ih]
      simp [mapFind, dfa_star_a]
    · have h2 : ¬ 'a' = c := fun e => h e.symm
      simp [mapFind, dfa_star_a, h, h2, List.find?]

theorem dfa_star_a_accepts (w : List Char) :
    dfaAccepts dfa_star_a w = true ↔ ∀ c ∈ w, c = 'a' := by
  unfold dfaAccepts
  have hi : dfa_star_a.initialState = [0, 2, 3] := rfl
  rw [hi]
  rcases w with _ | ⟨c, w⟩
  · simp [dfaRun, getIndexForState, getIndexForStateFrom, dfa_star_a]
  · rw [dfaRun_cons]
    by_cases h : c = 'a'
    · subst h
      have hf : mapFind dfa_star_a.transitions ⟨[0, 2, 3], 'a'⟩ = some [0, 1, 3] := by
        simp [mapFind, dfa_star_a, List.find?]
      rw [hf]
      simp only [List.mem_cons, forall_eq_or_imp, true_and]
      rw [dfa_star_a_run]
      by_cases hw : ∀ c ∈ w, c = 'a'
      · rw [if_pos hw]
        simp [getIndexForState, getIndexForStateFrom, dfa_star_a]
        exact hw
      · rw [if_neg hw]
        simp [hw]
    · have h2 : ¬ 'a' = c := fun e => h e.symm
      simp [mapFind, dfa_star_a, h, h2, List.find?]

theorem dfa_union_ab_stuck (Q : List Int) (hQ : Q ≠ [0, 2, 4]) (c : Char) (w : List Char) :
    dfaRun dfa_union_ab Q (c :: w) = none := by
  have hQ2 : ¬ [0, 2, 4] = Q := fun e => hQ e.symm
  rw [dfaRun_cons]
  simp [mapFind, dfa_union_ab, hQ2, List.find?]

theorem dfa_union_ab_run0 (c : Char) (w : List Char) :
    dfaRun dfa_union_ab [0, 2, 4] (c :: w) =
      if c = 'a' then dfaRun dfa_union_ab [1, 5] w
      else if c = 'b' then dfaRun dfa_union_ab [3, 5] w else none := by
  rw [dfaRun_cons]
  by_cases h : c = 'a'
  · subst h
    simp [mapFind, dfa_union_ab]
  · have h2 : ¬ 'a' = c := fun e => h e.symm
    by_cases h3 : c = 'b'
    · subst h3
      simp [mapFind, dfa_union_ab, List.find?]
    · have h4 : ¬ 'b' = c := fun e => h3 e.symm
      simp [mapFind, dfa_union_ab, h, h2, h3, h4, List.find?]

theorem dfa_union_ab_accepts (w : List Char) :
    dfaAccepts dfa_union_ab w = true ↔ w = ['a'] ∨ w = ['b'] := by
  unfold dfaAccepts
  have hi : dfa_union_ab.initialState = [0, 2, 4] := rfl
  rw [hi]
  rcases w with _ | ⟨c, _ | ⟨d, w⟩⟩
  · simp [dfaRun, getIndexForState, getIndexForStateFrom, dfa_union_ab]
  · rw [dfa_union_ab_run0]
    by_cases h : c = 'a'
    · simp [h, dfaRun, getIndexForState, getIndexForStateFrom, dfa_union_ab]
    · by_cases h3 : c = 'b'
      · simp [h3, dfaRun, getIndexForState, getIndexForStateFrom, dfa_union_ab]
      · simp [h, h3]
  · rw [dfa_union_ab_run0]
    by_cases h : c = 'a'
    · rw [if_pos h, dfa_union_ab_stuck _ (by decide)]
      simp
    · rw [if_neg h]
      by_cases h3 : c = 'b'
      · rw [if_pos h3, dfa_union_ab_stuck _ (by decide)]
        simp
      · simp [h3]

/-- Counterexample to C17 as stated: on the bare text `.(a)(b)` over `{a, b}` the
pipeline of `main` stops in `buildSyntaxTree`, which reads `(` at index 1 as the
operator, and no NFA is built. -/
theorem main_bare_ab_fails :
    buildSyntaxTree regex_ab_bare (removeblank regex_ab_bare.expression) =
      .error (.unknownOperator '(') ∧
    ERtoND.main regex_ab_bare = .error (.unknownOperator '(') ∧
    ¬ ∃ N : NDFA, ERtoND.main regex_ab_bare = .ok N :=
  ⟨rfl, rfl, fun ⟨_, h⟩ => by cases h⟩

/-- C17 (amended): on the text `(.(a)(b))` over `{a, b}`, `buildSyntaxTree` on the
blank-stripped text followed by `REtoND` yields an NFA of 4 states whose transitions are
exactly `0 --a--> 1`, `1 --ε--> 2`, `2 --b--> 3`, with start state 0 and accept
state 3. -/
theorem main_wrapped_ab :
    buildSyntaxTree regex_ab_wrapped (removeblank regex_ab_wrapped.expression) =
      .ok (.node '.' (.node 'a' .null .null) (.node 'b' .null .null)) ∧
    ∃ N : NDFA, ERtoND.main regex_ab_wrapped = .ok N ∧
      N.countAllStates = 4 ∧ (∀ x : Int, x ∈ N.allStates ↔ x ∈ [0, 1, 2, 3]) ∧
      N.transitions = [(⟨0, 'a'⟩, 1), (⟨1, epsilon⟩, 2), (⟨2, 'b'⟩, 3)] ∧
      N.initialState = 0 ∧ N.finalStates = 3 :=
  ⟨rfl, nfa_ab, rfl, rfl, fun _ => Iff.rfl, rfl, rfl, rfl⟩

/-- Counterexample to C18 as stated: `NDtoD` on the NFA `0 --a--> 1`,
`1 --ε--> 2`, `2 --b--> 3` returns a DFA with 3 states, not 4: the empty subset is
never added. -/
theorem NDtoD_nfa_ab_three_states :
    (NDtoD nfa_ab).countAllStates = 3 ∧ (NDtoD nfa_ab).countAllStates ≠ 4 ∧
    [] ∉ (NDtoD nfa_ab).allStates := by
  rw [NDtoD_nfa_ab]
  decide

/-- C18 (amended): `NDtoD` on the NFA over `{a, b}` with transitions `0 --a--> 1`,
`1 --ε--> 2`, `2 --b--> 3`, start 0 and accept 3 returns a DFA with the 3 states
`{0}`, `{1, 2}`, `{3}` that accepts exactly the string `ab`. -/
theorem NDtoD_nfa_ab_spec :
    (NDtoD nfa_ab).allStates = [[0], [1, 2], [3]] ∧
    (NDtoD nfa_ab).initialState = [0] ∧ (NDtoD nfa_ab).finalStates = [2] ∧
    (NDtoD nfa_ab).transitions = [(⟨[0], 'a'⟩, [1, 2]), (⟨[1, 2], 'b'⟩, [3])] ∧
    ∀ w : List Char, dfaAccepts (NDtoD nfa_ab) w = true ↔ w = ['a', 'b'] := by
  rw [NDtoD_nfa_ab]
  exact ⟨rfl, rfl, rfl, rfl, dfa_ab_accepts⟩

/-- C19: for the syntax tree `Star(a)` over `{a}`, `REtoND` returns an NFA whose start
state has exactly two outgoing transitions, both on ε: one to the accept state and one
to the start state of the inner machine of `a`; `NDtoD` of that NFA accepts exactly the
words `a^n`, `n ≥ 0`. -/
theorem star_a_example (expression : List Char) :
    ∃ (N inner : NDFA),
      REtoND tree_star_a ⟨['a'], expression⟩ = .ok N ∧
      AutomataPool_Symbol 'a' 0 = .ok (inner, 2) ∧
      (∀ e ∈ inner.transitions, e ∈ N.transitions) ∧
      (∀ e ∈ N.transitions, e.1.state = N.initialState →
        e = (⟨N.initialState, epsilon⟩, N.finalStates) ∨
        e = (⟨N.initialState, epsilon⟩, inner.initialState)) ∧
      (⟨N.initialState, epsilon⟩, N.finalStates) ∈ N.transitions ∧
      (⟨N.initialState, epsilon⟩, inner.initialState) ∈ N.transitions ∧
      N.finalStates ≠ inner.initialState ∧
      (dfaAccepts (NDtoD N) [] = true) ∧
      ∀ w : List Char, dfaAccepts (NDtoD N) w = true ↔ ∃ n : Nat, w = List.replicate n 'a' := by
  refine ⟨nfa_star_a, machine_a, rfl, rfl, by decide, by decide, by decide, by decide,
    by decide, ?_, ?_⟩
  · rw [NDtoD_nfa_star_a]
    rfl
  · intro w
    rw [NDtoD_nfa_star_a, dfa_star_a_accepts]
    constructor
    · intro h
      exact ⟨w.length, List.eq_replicate_iff.mpr ⟨rfl, h⟩⟩
    · rintro ⟨n, hn⟩
      exact (List.eq_replicate_iff.mp hn).2

/-- C20: for the syntax tree `Union(a, b)` over `{a, b}`, `NDtoD` applied to the NFA
that `REtoND` builds accepts exactly the two strings `a` and `b`. -/
theorem union_ab_example (expression : List Char) :
    ∃ N : NDFA, REtoND tree_union_ab ⟨['a', 'b'], expression⟩ = .ok N ∧
      ∀ w : List Char, dfaAccepts (NDtoD N) w = true ↔ w = ['a'] ∨ w = ['b'] := by
  refine ⟨nfa_union_ab, rfl, ?_⟩
  intro w
  rw [NDtoD_nfa_union_ab]
  exact dfa_union_ab_accepts w

/-! ## Decimal numbers -/

theorem digitChar_spec (d : Nat) (h : d < 10) :
    (digitChar d).isDigit = true ∧ (digitChar d).toNat - 48 = d := by
  interval_cases d <;> exact ⟨rfl, rfl⟩

theorem digitsValue_append (xs ys : List Char) :
    digitsValue (xs ++ ys) =
      ys.foldl (fun acc c => acc * 10 + (c.toNat - 48)) (digitsValue xs) := by
  unfold digitsValue
  rw [List.foldl_append]

theorem digitsValue_cons_aux (ds : List Char) : ∀ a : Nat,
    ds.foldl (fun acc c => acc * 10 + (c.toNat - 48)) a =
      a * 10 ^ ds.length + digitsValue ds := by
  induction ds with
  | nil => intro a; simp [digitsValue]
  | cons c cs ih =>
    intro a
    unfold digitsValue
    rw [List.foldl_cons, List.foldl_cons, ih, ih (0 * 10 + (c.toNat - 48))]
    simp only [List.length_cons, pow_succ]
    ring

/-- The digits `printNatCore` puts in front of `acc` are decimal digits, at least one,
and their value is `n`. -/
theorem printNatCore_spec : ∀ (fuel n : Nat) (acc : List Char), n < fuel →
    ∃ ds : List Char, printNatCore fuel n acc = ds ++ acc ∧ ds ≠ [] ∧
      (∀ c ∈ ds, c.isDigit = true) ∧ digitsValue ds = n := by
  intro fuel
  induction fuel with
  | zero => intro n acc h; omega
  | succ fuel ih =>
    intro n acc h
    have hd := digitChar_spec (n % 10) (Nat.mod_lt _ (by decide))
    unfold printNatCore
    by_cases h0 : n / 10 = 0
    · rw [if_pos h0]
      refine ⟨[digitChar (n % 10)], rfl, by simp, ?_, ?_⟩
      · intro c hc
        rw [List.mem_singleton] at hc
        rw [hc]; exact hd.1
      · have hn : n % 10 = n := by omega
        rw [hn] at hd ⊢
        simp [digitsValue, hd.2]
    · rw [if_neg h0]
      obtain ⟨ds, hds, hne, hdig, hval⟩ := ih (n / 10) (digitChar (n % 10) :: acc) (by omega)
      refine ⟨ds ++ [digitChar (n % 10)], ?_, by simp, ?_, ?_⟩
      · rw [hds]; simp
      · intro c hc
        rcases List.mem_append.mp hc with hc | hc
        · exact hdig c hc
        · rw [List.mem_singleton] at hc
          rw [hc]; exact hd.1
      · rw [digitsValue_append, hval]
        simp only [List.foldl_cons, List.foldl_nil, hd.2]
        omega

theorem printNat_spec (n : Nat) :
    printNat n ≠ [] ∧ (∀ c ∈ printNat n, c.isDigit = true) ∧ digitsValue (printNat n) = n := by
  obtain ⟨ds, hds, hne, hdig, hval⟩ := printNatCore_spec (n + 1) n [] (by omega)
  unfold printNat
  rw [hds, List.append_nil]
  exact ⟨hne, hdig, hval⟩

theorem isDigit_not_special (c : Char) (h : c.isDigit = true) :
    c ≠ '\n' ∧ c ≠ ' ' ∧ c ≠ '-' ∧ c ≠ '+' ∧ isSpace c = false := by
  refine ⟨?_, ?_, ?_, ?_, ?_⟩
  · rintro rfl; exact absurd h (by decide)
  · rintro rfl; exact absurd h (by decide)
  · rintro rfl; exact absurd h (by decide)
  · rintro rfl; exact absurd h (by decide)
  · unfold isSpace
    simp only [Bool.or_eq_false_iff, decide_eq_false_iff_not]
    refine ⟨⟨⟨⟨⟨?_, ?_⟩, ?_⟩, ?_⟩, ?_⟩, ?_⟩ <;> (rintro rfl; exact absurd h (by decide))

/-- The text of an integer holds digits and at most a leading minus sign: no blank and
no line feed. -/
theorem printInt_chars (n : Int) :
    printInt n ≠ [] ∧ ∀ c ∈ printInt n, c ≠ '\n' ∧ c ≠ ' ' := by
  obtain ⟨hne, hdig, _⟩ := printNat_spec n.natAbs
  unfold printInt
  by_cases h : n < 0
  · rw [if_pos h]
    refine ⟨by simp, ?_⟩
    intro c hc
    rcases List.mem_cons.mp hc with hc | hc
    · rw [hc]; exact ⟨by decide, by decide⟩
    · exact ⟨(isDigit_not_special c (hdig c hc)).1, (isDigit_not_special c (hdig c hc)).2.1⟩
  · rw [if_neg h]
    refine ⟨hne, ?_⟩
    intro c hc
    exact ⟨(isDigit_not_special c (hdig c hc)).1, (isDigit_not_special c (hdig c hc)).2.1⟩

theorem takeWhile_append_of_all {α : Type} (p : α → Bool) (xs : List α) (y : α) (ys : List α)
    (hx : ∀ x ∈ xs, p x = true) (hy : p y = false) :
    (xs ++ y :: ys).takeWhile p = xs ∧ (xs ++ y :: ys).dropWhile p = y :: ys := by
  induction xs with
  | nil => simp [List.takeWhile, List.dropWhile, hy]
  | cons x xs ih =>
    have hx1 := hx x (List.mem_cons_self _ _)
    have := ih (fun z hz => hx z (List.mem_cons_of_mem _ hz))
    simp [List.takeWhile, List.dropWhile, hx1, this]

theorem takeWhile_all {α : Type} (p : α → Bool) (xs : List α)
    (hx : ∀ x ∈ xs, p x = true) :
    xs.takeWhile p = xs ∧ xs.dropWhile p = [] := by
  induction xs with
  | nil => simp
  | cons x xs ih =>
    have hx1 := hx x (List.mem_cons_self _ _)
    have := ih (fun z hz => hx z (List.mem_cons_of_mem _ hz))
    simp [List.takeWhile, List.dropWhile, hx1, this]

theorem extractInt_cons (x : Char) (xs : List Char) (hx : isSpace x = false) :
    extractInt { buffer := x :: xs, eofbit := false, failbit := false } =
      if ((if x = '-' ∨ x = '+' then xs else x :: xs).takeWhile Char.isDigit).isEmpty then
        (some 0,
          { buffer := (if x = '-' ∨ x = '+' then xs else x :: xs).dropWhile Char.isDigit
            eofbit := ((if x = '-' ∨ x = '+' then xs else x :: xs).dropWhile Char.isDigit).isEmpty
            failbit := true })
      else
        (some (if x = '-' then
            -(digitsValue ((if x = '-' ∨ x = '+' then xs else x :: xs).takeWhile Char.isDigit) : Int)
          else (digitsValue ((if x = '-' ∨ x = '+' then xs else x :: xs).takeWhile Char.isDigit) : Int)),
          { buffer := (if x = '-' ∨ x = '+' then xs else x :: xs).dropWhile Char.isDigit
            eofbit := ((if x = '-' ∨ x = '+' then xs else x :: xs).dropWhile Char.isDigit).isEmpty
            failbit := false }) := by
  unfold extractInt
  simp only [IStream.good, Bool.not_false, Bool.and_self, if_true]
  rw [List.dropWhile_cons]
  simp only [hx, Bool.false_eq_true, if_false]

/-- Reading back a printed integer that is followed by a character that is no digit:
the value is the integer, the stream stands at that character and stays good. -/
theorem extractInt_printInt (n : Int) (c : Char) (rest : List Char) (hc : c.isDigit = false) :
    extractInt { buffer := printInt n ++ c :: rest, eofbit := false, failbit := false } =
      (some n, { buffer := c :: rest, eofbit := false, failbit := false }) := by
  obtain ⟨hne, hdig, hval⟩ := printNat_spec n.natAbs
  obtain ⟨d, ds, hds⟩ := List.exists_cons_of_ne_nil hne
  have hd : d.isDigit = true := hdig d (by rw [hds]; exact List.mem_cons_self _ _)
  have hdsp := isDigit_not_special d hd
  have htd := takeWhile_append_of_all Char.isDigit (printNat n.natAbs) c rest hdig hc
  have hemp : (printNat n.natAbs).isEmpty = false := by rw [hds]; rfl
  unfold printInt
  by_cases h : n < 0
  · rw [if_pos h, List.cons_append, extractInt_cons _ _ (by decide)]
    simp only [true_or, if_true, htd.1, htd.2, hval, hemp, Bool.false_eq_true, if_false,
      List.isEmpty_cons]
    have : -((n.natAbs : Nat) : Int) = n := by omega
    rw [this]
  · rw [if_neg h]
    have hm : ¬ (d = '-' ∨ d = '+') := by
      rintro (h1 | h1)
      · exact hdsp.2.2.1 h1
      · exact hdsp.2.2.2.1 h1
    have hbuf : printNat n.natAbs ++ c :: rest = d :: (ds ++ c :: rest) := by
      rw [hds]; rfl
    rw [hbuf, extractInt_cons _ _ hdsp.2.2.2.2, if_neg hm, ← hbuf]
    simp only [htd.1, htd.2, hval, hemp, Bool.false_eq_true, if_false, List.isEmpty_cons,
      hdsp.2.2.1]
    have : ((n.natAbs : Nat) : Int) = n := by omega
    rw [this]

/-! ## The DFA output -/

theorem textOfLines_append (l1 l2 : List (List Char)) :
    textOfLines (l1 ++ l2) = textOfLines l1 ++ textOfLines l2 := by
  unfold textOfLines
  rw [List.flatMap_append]

theorem textOfLines_map {α : Type} (f : α → List Char) (l : List α) :
    textOfLines (l.map f) = l.flatMap (fun x => f x ++ ['\n']) := by
  unfold textOfLines
  induction l with
  | nil => rfl
  | cons x xs ih => simp [List.flatMap_cons, ih]

theorem textOfLines_flatMap {α : Type} (f : α → List (List Char)) (l : List α) :
    textOfLines (l.flatMap f) = l.flatMap (fun x => textOfLines (f x)) := by
  induction l with
  | nil => rfl
  | cons x xs ih => simp [List.flatMap_cons, textOfLines_append, ih]

theorem count_textOfLines (lines : List (List Char)) (h : ∀ l ∈ lines, '\n' ∉ l) :
    (textOfLines lines).count '\n' = lines.length := by
  induction lines with
  | nil => rfl
  | cons l ls ih =>
    have h1 : l.count '\n' = 0 := List.count_eq_zero.mpr (h l (List.mem_cons_self _ _))
    have h2 := ih (fun x hx => h x (List.mem_cons_of_mem _ hx))
    unfold textOfLines at h2 ⊢
    rw [List.flatMap_cons, List.count_append, List.count_append, h1, h2]
    simp
    omega

theorem not_mem_printInts (l : List Int) :
    '\n' ∉ l.flatMap (fun value => printInt value ++ [' ']) := by
  intro h
  rw [List.mem_flatMap] at h
  obtain ⟨v, _, hv⟩ := h
  rcases List.mem_append.mp hv with hv | hv
  · exact ((printInt_chars v).2 _ hv).1 rfl
  · rw [List.mem_singleton] at hv
    exact absurd hv (by decide)

/-- In a container with pairwise distinct keys the equal range of a key is the entry
`find` gives, if any. -/
theorem equalRange_of_nodup {κ ν : Type} [DecidableEq κ] (m : List (κ × ν))
    (h : (m.map Prod.fst).Nodup) (k : κ) :
    equalRange m k = match mapFind m k with
      | some v => [(k, v)]
      | none => [] := by
  induction m with
  | nil => rfl
  | cons e m ih =>
    rw [List.map_cons, List.nodup_cons] at h
    have ih2 := ih h.2
    unfold equalRange mapFind at ih2 ⊢
    by_cases hk : e.1 = k
    · have hnone : m.filter (fun x => decide (x.1 = k)) = [] := by
        rw [List.filter_eq_nil_iff]
        intro x hx hxk
        apply h.1
        rw [hk]
        have : x.1 = k := by simpa using hxk
        rw [← this]
        exact List.mem_map_of_mem _ hx
      simp only [List.filter_cons, hk, decide_True, if_true, hnone, List.find?_cons,
        Option.map_some']
      rw [← hk]
    · simp only [List.filter_cons, hk, decide_False, List.find?_cons]
      exact ih2

theorem key_lt_irrefl (k : Key (List Int)) : ¬ k < k := by
  intro h
  rcases h with h | ⟨_, h⟩
  · exact lt_irrefl _ h
  · exact lt_irrefl _ h

/-- The guard `range.first != transitions.end()` of `writeOutputDFA` changes nothing:
when it fails the equal range is empty. -/
theorem writeOutputDFA_guard (D : DFA) (T : DTransitions) (k : Key (List Int)) :
    (if T.any (fun e => decide (¬ e.1 < k)) then
      (equalRange T k).flatMap (fun it => printInt (getIndexForState D it.2))
    else []) = (equalRange T k).flatMap (fun it => printInt (getIndexForState D it.2)) := by
  split
  · rfl
  · rename_i h
    have hnone : equalRange T k = [] := by
      unfold equalRange
      rw [List.filter_eq_nil_iff]
      intro e he hek
      apply h
      rw [List.any_eq_true]
      refine ⟨e, he, ?_⟩
      have : e.1 = k := by simpa using hek
      rw [this]
      simpa using key_lt_irrefl k
    rw [hnone]
    rfl

theorem writeOutputDFA_lines (D : DFA) (h : (D.transitions.map Prod.fst).Nodup) :
    writeOutputDFA D = textOfLines (dfaOutputLines D) := by
  unfold writeOutputDFA dfaOutputLines
  rw [textOfLines_append, textOfLines_append, textOfLines_map, textOfLines_flatMap]
  congr 1
  · congr 1
    simp [textOfLines]
  · apply List.flatMap_congr
    intro Q _
    rw [textOfLines_map]
    apply List.flatMap_congr
    intro a _
    congr 1
    rw [writeOutputDFA_guard, equalRange_of_nodup _ h]
    unfold dfaPairLine
    cases mapFind D.transitions ⟨Q, a⟩ <;> simp

theorem dfaOutputLines_length (D : DFA) :
    (dfaOutputLines D).length =
      D.allStates.length + 1 + D.allStates.length * D.alphabet.length := by
  unfold dfaOutputLines
  simp only [List.length_append, List.length_map, List.length_singleton, List.length_flatMap]
  have : (List.map (List.length ∘ fun state =>
      List.map (fun symbol => dfaPairLine D state symbol) D.alphabet) D.allStates) =
      List.replicate D.allStates.length D.alphabet.length := by
    rw [List.eq_replicate_iff]
    refine ⟨by simp, ?_⟩
    intro b hb
    rw [List.mem_map] at hb
    obtain ⟨Q, _, rfl⟩ := hb
    simp
  rw [this, List.sum_replicate, smul_eq_mul]

theorem dfaPairLine_eq_nil (D : DFA) (Q : List Int) (a : Char) :
    dfaPairLine D Q a = [] ↔ mapFind D.transitions ⟨Q, a⟩ = none := by
  unfold dfaPairLine
  cases mapFind D.transitions ⟨Q, a⟩ with
  | none => simp
  | some R => simpa using (printInt_chars _).1

theorem dfaOutputLines_no_feed (D : DFA) : ∀ l ∈ dfaOutputLines D, '\n' ∉ l := by
  intro l hl
  unfold dfaOutputLines at hl
  simp only [List.mem_append, List.mem_map, List.mem_singleton, List.mem_flatMap] at hl
  rcases hl with (⟨Q, _, rfl⟩ | rfl) | ⟨Q, _, a, _, rfl⟩
  · exact not_mem_printInts Q
  · exact not_mem_printInts _
  · unfold dfaPairLine
    cases mapFind D.transitions ⟨Q, a⟩ with
    | none => simp
    | some R => exact fun h => ((printInt_chars _).2 _ h).1 rfl

/-- C23: for the DFA `NDtoD` returns, `writeOutputDFA` writes the lines of
`dfaOutputLines`, each ended by a line feed and none holding one: a line per state with
the members of its subset, a line with the accept indices, and a line for every state
(in the order of the state list) and every symbol (in the order of the alphabet set).
The line of a pair is empty exactly when the transition map has no entry for the pair,
and otherwise it is the position of the target in the state list. The text has
`|states| + 1 + |states| · |alphabet|` lines. -/
theorem writeOutputDFA_spec (N : NDFA) :
    writeOutputDFA (NDtoD N) = textOfLines (dfaOutputLines (NDtoD N)) ∧
    (∀ l ∈ dfaOutputLines (NDtoD N), '\n' ∉ l) ∧
    (dfaOutputLines (NDtoD N)).length =
      (NDtoD N).allStates.length + 1 +
        (NDtoD N).allStates.length * (NDtoD N).alphabet.length ∧
    (writeOutputDFA (NDtoD N)).count '\n' =
      (NDtoD N).allStates.length + 1 +
        (NDtoD N).allStates.length * (NDtoD N).alphabet.length ∧
    (∀ (Q : List Int) (a : Char),
      dfaPairLine (NDtoD N) Q a = [] ↔ mapFind (NDtoD N).transitions ⟨Q, a⟩ = none) ∧
    (∀ (Q : List Int) (a : Char) (R : List Int),
      mapFind (NDtoD N).transitions ⟨Q, a⟩ = some R →
      ∃ n : Nat, (NDtoD N).allStates[n]? = some R ∧
        dfaPairLine (NDtoD N) Q a = printNat n) := by
  have hinv := (NDtoD_inv N).2
  have hkeys : ((NDtoD N).transitions.map Prod.fst).Nodup := hinv.keys
  have hlines := writeOutputDFA_lines (NDtoD N) hkeys
  refine ⟨hlines, dfaOutputLines_no_feed _, dfaOutputLines_length _, ?_,
    dfaPairLine_eq_nil _, ?_⟩
  · rw [hlines, count_textOfLines _ (dfaOutputLines_no_feed _), dfaOutputLines_length]
  · intro Q a R hR
    have hmem : ((⟨Q, a⟩, R) : Key (List Int) × List Int) ∈ (NDtoD N).transitions :=
      (mapFind_eq_some _ _ _ hkeys).mp hR
    have hRin : R ∈ (NDtoD N).allStates := (hinv.trans _ hmem).2.2.2.2
    obtain ⟨n, hn, hget, hidx⟩ := getIndexForStateFrom_mem R (NDtoD N).allStates 0 hRin
    refine ⟨n, ?_, ?_⟩
    · rw [List.getD_eq_getElem _ _ hn] at hget
      rw [List.getElem?_eq_getElem hn, hget]
    · unfold dfaPairLine
      rw [hR]
      simp only
      unfold getIndexForState
      rw [hidx]
      unfold printInt
      simp

/-! ## Blanks in the regex text -/

theorem buildSyntaxTreeFuel_alphabet (r1 r2 : Regex) (h : r1.alphabet = r2.alphabet) :
    ∀ (fuel : Nat) (s : List Char), buildSyntaxTreeFuel r1 fuel s = buildSyntaxTreeFuel r2 fuel s := by
  intro fuel
  induction fuel with
  | zero => intro s; rfl
  | succ fuel ih =>
    intro s
    have hf : buildSyntaxTreeFuel r1 fuel = buildSyntaxTreeFuel r2 fuel := funext ih
    simp only [buildSyntaxTreeFuel, hf]
    unfold buildSyntaxTreeBody
    rw [h]

/-- C30: `removeblank(S)` is `S` without its blank characters, the others in their
order; hence two texts that differ only in blanks give the same tree (or the same
error) in `buildSyntaxTree` after `removeblank`, and the same result of the whole
pipeline; in particular a blank inserted anywhere changes nothing. -/
theorem removeblank_spec (S : List Char) :
    removeblank S = S.filter (fun c => decide (c ≠ ' ')) ∧
    (∀ (regex : Regex) (S2 : List Char),
      S2.filter (fun c => decide (c ≠ ' ')) = S.filter (fun c => decide (c ≠ ' ')) →
      buildSyntaxTree regex (removeblank S2) = buildSyntaxTree regex (removeblank S) ∧
      ERtoND.main ⟨regex.alphabet, S2⟩ = ERtoND.main ⟨regex.alphabet, S⟩) ∧
    (∀ (regex : Regex) (S1 S2 : List Char), S = S1 ++ S2 →
      buildSyntaxTree regex (removeblank (S1 ++ ' ' :: S2)) =
        buildSyntaxTree regex (removeblank S)) := by
  refine ⟨removeblank_eq_filter S, ?_, ?_⟩
  · intro regex S2 h
    have hrb : removeblank S2 = removeblank S := by
      rw [removeblank_eq_filter, removeblank_eq_filter, h]
    refine ⟨by rw [hrb], ?_⟩
    have hb : buildSyntaxTree ⟨regex.alphabet, S2⟩ (removeblank S) =
        buildSyntaxTree ⟨regex.alphabet, S⟩ (removeblank S) :=
      buildSyntaxTreeFuel_alphabet ⟨regex.alphabet, S2⟩ ⟨regex.alphabet, S⟩ rfl _ _
    unfold ERtoND.main
    simp only [hrb, hb]
    cases buildSyntaxTree ⟨regex.alphabet, S⟩ (removeblank S) <;> rfl
  · intro regex S1 S2 h
    rw [h, removeblank_eq_filter, removeblank_eq_filter]
    simp

/-! ## The NFA input with an ε row -/

/-- C21: `importNDFA` on the text with alphabet `a`, accept state 1 and, for state 0,
the target 1 on the ε row and on the `a` row returns the NFA with the transitions
`0 --ε--> 1` and `0 --a--> 1` whose start state, found by `findStartState`, is 0; for
it `NDtoD` returns a DFA whose start subset is `{0, 1}`, at position 0 of the state list,
whose accept-index set holds 0, and which accepts the empty word. -/
theorem importNDFA_eps_example :
    ∃ N : NDFA, importNDFA nfa_text_eps = some (.ok N) ∧
      N.alphabet = [epsilon, 'a'] ∧ N.finalStates = 1 ∧
      N.transitions = [(⟨0, epsilon⟩, 1), (⟨0, 'a'⟩, 1)] ∧
      N.initialState = findStartState N.transitions ∧ N.initialState = 0 ∧
      (NDtoD N).initialState = [0, 1] ∧ (NDtoD N).allStates[0]? = some [0, 1] ∧
      (0 : Int) ∈ (NDtoD N).finalStates ∧ getIndexForState (NDtoD N) [0, 1] = 0 ∧
      dfaAccepts (NDtoD N) [] = true :=
  ⟨⟨0, 1, ['*', 'a'], [(⟨0, '*'⟩, 1), (⟨0, 'a'⟩, 1)], [0, 1]⟩, rfl, rfl, rfl, rfl, rfl, rfl,
    rfl, rfl, by decide, rfl, rfl⟩

/-! ## The order of a transition multimap -/

theorem keyInt_lt_irrefl (k : Key Int) : ¬ k < k := by
  intro h
  rcases h with h | ⟨_, h⟩
  · exact lt_irrefl _ h
  · exact lt_irrefl _ h

theorem keyInt_lt_trans {a b c : Key Int} (h1 : a < b) (h2 : b < c) : a < c := by
  rcases h1 with h1 | ⟨e1, h1⟩
  · rcases h2 with h2 | ⟨e2, h2⟩
    · exact Or.inl (lt_trans h1 h2)
    · exact Or.inl (by rw [← e2]; exact h1)
  · rcases h2 with h2 | ⟨e2, h2⟩
    · exact Or.inl (by rw [e1]; exact h2)
    · exact Or.inr ⟨e1.trans e2, lt_trans h1 h2⟩

theorem keyInt_lt_asymm {a b : Key Int} (h1 : a < b) : ¬ b < a :=
  fun h2 => keyInt_lt_irrefl a (keyInt_lt_trans h1 h2)

theorem keyInt_lt_trichotomy (a b : Key Int) : a < b ∨ a = b ∨ b < a := by
  rcases lt_trichotomy a.state b.state with h | h | h
  · exact Or.inl (Or.inl h)
  · rcases lt_trichotomy a.symbol b.symbol with h2 | h2 | h2
    · exact Or.inl (Or.inr ⟨h, h2⟩)
    · right; left
      cases a; cases b
      simp only at h h2
      rw [h, h2]
    · exact Or.inr (Or.inr (Or.inr ⟨h.symm, h2⟩))
  · exact Or.inr (Or.inr (Or.inl h))

theorem mmInsert_keySorted (e : Key Int × Int) (T : NTransitions) (h : KeySorted T) :
    KeySorted (mmInsert e T) := by
  unfold KeySorted at h ⊢
  induction T with
  | nil => simp [mmInsert]
  | cons x xs ih =>
    rw [List.pairwise_cons] at h
    unfold mmInsert
    by_cases hlt : e.1 < x.1
    · rw [if_pos hlt, List.pairwise_cons]
      refine ⟨?_, List.pairwise_cons.mpr h⟩
      intro y hy
      rcases List.mem_cons.mp hy with rfl | hy
      · exact keyInt_lt_asymm hlt
      · intro hye
        exact h.1 y hy (keyInt_lt_trans hye hlt)
    · rw [if_neg hlt, List.pairwise_cons]
      refine ⟨?_, ih h.2⟩
      intro y hy
      rcases (mem_mmInsert e y xs).mp hy with rfl | hy
      · exact hlt
      · exact h.1 y hy

theorem mmInsertRange_keySorted (range : NTransitions) : ∀ T : NTransitions, KeySorted T →
    KeySorted (mmInsertRange T range) := by
  induction range with
  | nil => intro T h; simpa [mmInsertRange] using h
  | cons e es ih =>
    intro T h
    have := ih (mmInsert e T) (mmInsert_keySorted e T h)
    simpa [mmInsertRange] using this

/-- An entry whose key is not below any key of the container goes to the end. -/
theorem mmInsert_append (e : Key Int × Int) (T : NTransitions)
    (h : ∀ x ∈ T, ¬ e.1 < x.1) : mmInsert e T = T ++ [e] := by
  induction T with
  | nil => rfl
  | cons x xs ih =>
    unfold mmInsert
    rw [if_neg (h x (List.mem_cons_self _ _)), ih (fun y hy => h y (List.mem_cons_of_mem _ hy))]
    rfl

theorem mmInsert_fold_append (k : Key Int) (ts : List Int) : ∀ acc : NTransitions,
    (∀ x ∈ acc, ¬ k < x.1) →
    ts.foldl (fun m toState => mmInsert (k, toState) m) acc = acc ++ ts.map (fun t => (k, t)) := by
  induction ts with
  | nil => intro acc _; simp
  | cons t ts ih =>
    intro acc h
    rw [List.foldl_cons, mmInsert_append _ _ h, ih]
    · simp
    · intro x hx
      rcases List.mem_append.mp hx with hx | hx
      · exact h x hx
      · rw [List.mem_singleton] at hx
        rw [hx]
        exact keyInt_lt_irrefl k

/-- A key-sorted container none of whose keys is below `k` starts with its entries of
key `k`. -/
theorem keySorted_split (k : Key Int) (T : NTransitions) (h : KeySorted T)
    (hk : ∀ e ∈ T, ¬ e.1 < k) :
    T = equalRange T k ++ T.filter (fun e => decide (e.1 ≠ k)) := by
  unfold KeySorted at h
  unfold equalRange
  induction T with
  | nil => rfl
  | cons x xs ih =>
    rw [List.pairwise_cons] at h
    by_cases hx : x.1 = k
    · have := ih h.2 (fun e he => hk e (List.mem_cons_of_mem _ he))
      simp only [List.filter_cons, hx, decide_True, if_true, ne_eq, not_true_eq_false,
        decide_False, Bool.false_eq_true, if_false, List.cons_append]
      rw [← hx] at this ⊢
      congr 1
    · have hlt : k < x.1 := by
        rcases keyInt_lt_trichotomy k x.1 with h1 | h1 | h1
        · exact h1
        · exact absurd h1.symm hx
        · exact absurd h1 (hk x (List.mem_cons_self _ _))
      have hnone : xs.filter (fun e => decide (e.1 = k)) = [] := by
        rw [List.filter_eq_nil_iff]
        intro y hy hyk
        have : y.1 = k := by simpa using hyk
        apply h.1 y hy
        rw [this]
        exact hlt
      have hall : xs.filter (fun e => decide (e.1 ≠ k)) = xs := by
        rw [List.filter_eq_self]
        intro y hy
        have hyk : y.1 ≠ k := by
          intro hyk
          rw [List.filter_eq_nil_iff] at hnone
          exact hnone y hy (by simpa using hyk)
        simpa using hyk
      simp only [List.filter_cons, hx, decide_False, Bool.false_eq_true, if_false, hnone, ne_eq,
        not_false_eq_true, decide_True, if_true, List.nil_append]
      simp only [ne_eq] at hall
      rw [hall]

/-- A key-sorted container is the concatenation of its equal ranges over any strictly
ascending list of keys that holds all its keys. -/
theorem keySorted_eq_flatMap (K : List (Key Int)) : ∀ T : NTransitions, KeySorted T →
    K.Pairwise (· < ·) → (∀ e ∈ T, e.1 ∈ K) → T = K.flatMap (equalRange T) := by
  induction K with
  | nil =>
    intro T _ _ hK
    cases T with
    | nil => rfl
    | cons x xs => exact absurd (hK x (List.mem_cons_self _ _)) (by simp)
  | cons k K ih =>
    intro T hT hP hK
    rw [List.pairwise_cons] at hP
    have hge : ∀ e ∈ T, ¬ e.1 < k := by
      intro e he hlt
      rcases List.mem_cons.mp (hK e he) with h1 | h1
      · rw [h1] at hlt
        exact keyInt_lt_irrefl k hlt
      · exact keyInt_lt_asymm (hP.1 _ h1) hlt
    have hsplit := keySorted_split k T hT hge
    have hT2 : KeySorted (T.filter (fun e => decide (e.1 ≠ k))) :=
      List.Pairwise.sublist (List.filter_sublist _) hT
    have hK2 : ∀ e ∈ T.filter (fun e => decide (e.1 ≠ k)), e.1 ∈ K := by
      intro e he
      rw [List.mem_filter] at he
      have hne : e.1 ≠ k := by simpa using he.2
      rcases List.mem_cons.mp (hK e he.1) with h1 | h1
      · exact absurd h1 hne
      · exact h1
    have ih2 := ih _ hT2 hP.2 hK2
    have hsame : K.flatMap (equalRange (T.filter (fun e => decide (e.1 ≠ k)))) =
        K.flatMap (equalRange T) := by
      apply List.flatMap_congr
      intro k2 hk2
      unfold equalRange
      rw [List.filter_filter]
      apply List.filter_congr
      intro e _
      have hne : k2 ≠ k := by
        intro h
        rw [h] at hk2
        exact keyInt_lt_irrefl k (hP.1 k hk2)
      by_cases he : e.1 = k2
      · simp [he, hne]
      · simp [he]
    rw [List.flatMap_cons, ← hsame, ← ih2]
    exact hsplit

/-! ## Lines of a text -/

theorem splitLine_append (l rest : List Char) (h : '\n' ∉ l) :
    splitLine (l ++ '\n' :: rest) = (l, some rest) := by
  induction l with
  | nil => simp [splitLine]
  | cons c cs ih =>
    have hc : c ≠ '\n' := fun e => h (by rw [e]; exact List.mem_cons_self _ _)
    have := ih (fun hm => h (List.mem_cons_of_mem _ hm))
    rw [List.cons_append]
    unfold splitLine
    rw [if_neg hc, this]

theorem getline_line (l rest : List Char) (h : '\n' ∉ l) :
    getline { buffer := l ++ '\n' :: rest, eofbit := false, failbit := false } =
      (l, { buffer := rest, eofbit := false, failbit := false }) := by
  unfold getline
  simp only [IStream.good, Bool.not_false, Bool.and_self, if_true, splitLine_append l rest h]

theorem printInt_head_not_space (t : Int) (rest : List Char) :
    (printInt t ++ rest).dropWhile isSpace = printInt t ++ rest := by
  obtain ⟨hne, _⟩ := printInt_chars t
  obtain ⟨d, ds, hds⟩ := List.exists_cons_of_ne_nil hne
  have hd : isSpace d = false := by
    obtain ⟨_, hdig, _⟩ := printNat_spec t.natAbs
    have hmem : d ∈ printInt t := by rw [hds]; exact List.mem_cons_self _ _
    unfold printInt at hmem
    split at hmem
    · rcases List.mem_cons.mp hmem with h1 | h1
      · rw [h1]; decide
      · exact (isDigit_not_special d (hdig d h1)).2.2.2.2
    · exact (isDigit_not_special d (hdig d hmem)).2.2.2.2
  rw [hds, List.cons_append, List.dropWhile_cons]
  simp only [hd, Bool.false_eq_true, if_false]

theorem printInts_dropWhile (ts : List Int) :
    (ts.flatMap (fun t => printInt t ++ [' '])).dropWhile isSpace =
      ts.flatMap (fun t => printInt t ++ [' ']) := by
  cases ts with
  | nil => rfl
  | cons t ts =>
    rw [List.flatMap_cons, List.append_assoc]
    exact printInt_head_not_space t _

theorem extractInt_dropWhile (b : List Char) :
    extractInt { buffer := b, eofbit := false, failbit := false } =
      extractInt { buffer := b.dropWhile isSpace, eofbit := false, failbit := false } := by
  unfold extractInt
  simp only [IStream.good, Bool.not_false, Bool.and_self, if_true, List.dropWhile_idempotent]

theorem readIntsLoop_printInts (ts : List Int) : ∀ (fuel : Nat) (b : List Char),
    ts.length < fuel →
    b.dropWhile isSpace = ts.flatMap (fun t => printInt t ++ [' ']) →
    readIntsLoop fuel { buffer := b, eofbit := false, failbit := false } = ts := by
  induction ts with
  | nil =>
    intro fuel b hf hb
    cases fuel with
    | zero => simp at hf
    | succ fuel =>
      simp only [List.flatMap_nil] at hb
      unfold readIntsLoop extractInt
      simp only [IStream.good, Bool.not_false, Bool.and_self, if_true, hb]
  | cons t ts ih =>
    intro fuel b hf hb
    cases fuel with
    | zero => simp at hf
    | succ fuel =>
      have hrest := ih fuel (' ' :: ts.flatMap (fun t => printInt t ++ [' ']))
        (by simp at hf; omega)
        (by
          rw [List.dropWhile_cons]
          have hsp : isSpace ' ' = true := by decide
          simp only [hsp, if_true]
          exact printInts_dropWhile ts)
      unfold readIntsLoop
      have hext : extractInt { buffer := b, eofbit := false, failbit := false } =
          (some t, { buffer := ' ' :: ts.flatMap (fun t => printInt t ++ [' ']),
                     eofbit := false, failbit := false }) := by
        rw [extractInt_dropWhile, hb, List.flatMap_cons, List.append_assoc]
        exact extractInt_printInt t ' ' _ (by decide)
      rw [hext]
      simp only [Bool.false_eq_true, if_false, hrest]

theorem readInts_printInts (ts : List Int) :
    readInts (ts.flatMap (fun t => printInt t ++ [' '])) = ts := by
  unfold readInts IStream.onText
  apply readIntsLoop_printInts
  · have : ts.length ≤ (ts.flatMap (fun t => printInt t ++ [' '])).length := by
      induction ts with
      | nil => simp
      | cons t ts ih =>
        simp only [List.flatMap_cons, List.length_append, List.length_cons, List.length_nil]
          at ih ⊢
        omega
    omega
  · exact printInts_dropWhile ts

/-! ## Reading the rows `writeOutputNDFA` writes -/

theorem writeOutputNDFARow_eq (T : NTransitions) (s : Int) (a : Char) :
    writeOutputNDFARow T s a =
      (equalRange T ⟨s, a⟩).flatMap (fun it => printInt it.2 ++ [' ']) ++ ['\n'] := by
  unfold writeOutputNDFARow
  split
  · rename_i h
    rw [h]
    rfl
  · rfl

theorem equalRange_map_snd (T : NTransitions) (k : Key Int) :
    ((equalRange T k).map Prod.snd).map (fun t => (k, t)) = equalRange T k := by
  unfold equalRange
  rw [List.map_map]
  conv_rhs => rw [← List.map_id (List.filter (fun e => decide (e.1 = k)) T)]
  apply List.map_congr_left
  intro e he
  rw [List.mem_filter] at he
  have : e.1 = k := by simpa using he.2
  simp only [Function.comp, id]
  rw [← this]

theorem printInts_eq_nil (ts : List Int) :
    (ts.flatMap (fun t => printInt t ++ [' '])).isEmpty = true ↔ ts = [] := by
  cases ts with
  | nil => simp
  | cons t ts => simp

/-- One round of the inner loop of `importNDFA` on the line `writeOutputNDFA` writes for
the state `s` and the symbol `a`: the entries of the equal range of `(s, a)` are appended
to the transitions read so far. -/
theorem importNDFARow_line (A : List Char) (T : NTransitions) (s : Int) (i : Nat) (a : Char)
    (is : List Nat) (rest : List Char) (acc : NTransitions)
    (hi : getValueAtIndex A i = .ok a) (hacc : ∀ x ∈ acc, ¬ (⟨s, a⟩ : Key Int) < x.1) :
    importNDFARow A s (i :: is)
        ({ buffer := writeOutputNDFARow T s a ++ rest, eofbit := false, failbit := false }, acc) =
      importNDFARow A s is
        ({ buffer := rest, eofbit := false, failbit := false }, acc ++ equalRange T ⟨s, a⟩) := by
  have hline : '\n' ∉ (equalRange T ⟨s, a⟩).flatMap (fun it => printInt it.2 ++ [' ']) := by
    intro h
    rw [List.mem_flatMap] at h
    obtain ⟨e, _, he⟩ := h
    rcases List.mem_append.mp he with he | he
    · exact ((printInt_chars e.2).2 _ he).1 rfl
    · rw [List.mem_singleton] at he
      exact absurd he (by decide)
  have hflat : (equalRange T ⟨s, a⟩).flatMap (fun it => printInt it.2 ++ [' ']) =
      ((equalRange T ⟨s, a⟩).map Prod.snd).flatMap (fun t => printInt t ++ [' ']) := by
    rw [List.flatMap_map]
  rw [writeOutputNDFARow_eq, List.append_assoc, List.singleton_append]
  conv_lhs => unfold importNDFARow
  rw [getline_line _ _ hline]
  simp only
  by_cases hemp : equalRange T ⟨s, a⟩ = []
  · rw [hemp]
    simp
  · have hne : ((equalRange T ⟨s, a⟩).flatMap (fun it => printInt it.2 ++ [' '])).isEmpty
        = false := by
      rw [hflat]
      have := printInts_eq_nil ((equalRange T ⟨s, a⟩).map Prod.snd)
      cases hq : (((equalRange T ⟨s, a⟩).map Prod.snd).flatMap
          (fun t => printInt t ++ [' '])).isEmpty with
      | false => rfl
      | true =>
        rw [hq] at this
        have h2 := this.mp rfl
        rw [List.map_eq_nil_iff] at h2
        exact absurd h2 hemp
    rw [hne]
    simp only [Bool.false_eq_true, if_false, hi]
    rw [hflat, readInts_printInts, mmInsert_fold_append _ _ _ hacc, equalRange_map_snd]

/-- The inner loop of `importNDFA` on the lines written for one state. -/
theorem importNDFARow_state (A : List Char) (T : NTransitions) (s : Int) (is : List Nat)
    (as : List Char) (h2 : List.Forall₂ (fun i a => getValueAtIndex A i = .ok a) is as) :
    ∀ (rest : List Char) (acc : NTransitions), as.Pairwise (· < ·) →
      (∀ x ∈ acc, ∀ a ∈ as, ¬ (⟨s, a⟩ : Key Int) < x.1) →
      importNDFARow A s is
          ({ buffer := as.flatMap (fun a => writeOutputNDFARow T s a) ++ rest,
             eofbit := false, failbit := false }, acc) =
        .ok ({ buffer := rest, eofbit := false, failbit := false },
          acc ++ as.flatMap (fun a => equalRange T ⟨s, a⟩)) := by
  induction h2 with
  | nil =>
    intro rest acc _ _
    simp [importNDFARow]
  | @cons i a is as hi _ ih =>
    intro rest acc hP hacc
    rw [List.pairwise_cons] at hP
    rw [List.flatMap_cons, List.append_assoc,
      importNDFARow_line A T s i a is _ acc hi (fun x hx => hacc x hx a (List.mem_cons_self _ _)),
      ih _ _ hP.2]
    · rw [List.flatMap_cons, List.append_assoc]
    · intro x hx b hb
      rcases List.mem_append.mp hx with hx | hx
      · exact hacc x hx b (List.mem_cons_of_mem _ hb)
      · unfold equalRange at hx
        rw [List.mem_filter] at hx
        have hk : x.1 = ⟨s, a⟩ := by simpa using hx.2
        rw [hk]
        exact keyInt_lt_asymm (Or.inr ⟨rfl, hP.1 b hb⟩)

theorem getValueAtIndex_indices {α : Type} (A : List α) :
    List.Forall₂ (fun i a => getValueAtIndex A i = .ok a)
      ((List.range A.length).map (· + 1)) A := by
  rw [List.forall₂_iff_get]
  refine ⟨by simp, ?_⟩
  intro i h1 h2
  simp only [List.get_eq_getElem, List.getElem_map, List.getElem_range]
  unfold getValueAtIndex
  have : 0 < i + 1 ∧ i + 1 ≤ A.length := by omega
  rw [if_pos this]
  simp only [Nat.add_sub_cancel]
  rw [List.getElem?_eq_getElem h2]

/-- The inner loop of `importNDFA` at the end of the text: nothing is read and `eofbit`
is set. -/
theorem importNDFARow_end (A : List Char) (s : Int) (acc : NTransitions) :
    ∀ (is : List Nat) (fi : IStream), fi.buffer = [] →
      (fi.eofbit = true ∨ (fi.eofbit = false ∧ fi.failbit = false ∧ is ≠ [])) →
      ∃ fi2 : IStream, importNDFARow A s is (fi, acc) = .ok (fi2, acc) ∧ fi2.eofbit = true := by
  intro is
  induction is with
  | nil =>
    intro fi _ h
    rcases h with h | ⟨_, _, h⟩
    · exact ⟨fi, rfl, h⟩
    · exact absurd rfl h
  | cons i is ih =>
    intro fi hb h
    have hg : (getline fi).1 = [] ∧ (getline fi).2.buffer = [] ∧
        (getline fi).2.eofbit = true := by
      unfold getline
      rcases h with h | ⟨h1, h2, _⟩
      · have hgood : fi.good = false := by simp [IStream.good, h]
        rw [hgood]
        exact ⟨rfl, hb, h⟩
      · have hgood : fi.good = true := by simp [IStream.good, h1, h2]
        rw [hgood, hb]
        exact ⟨rfl, rfl, rfl⟩
    unfold importNDFARow
    simp only [hg.1, List.isEmpty_nil, if_true]
    exact ih _ hg.2.1 (Or.inl hg.2.2)

/-- The loop `while (!fi.eof())` of `importNDFA` on the rows `writeOutputNDFA` writes
for the states `j, j + 1, ..., j + m - 1`: it ends and has appended the equal ranges of
all pairs in order. -/
theorem importNDFALoop_rows (A : List Char) (T : NTransitions) (hA : A ≠ [])
    (hP : A.Pairwise (· < ·)) : ∀ (m j fuel : Nat) (acc : NTransitions), m + 2 ≤ fuel →
    (∀ x ∈ acc, x.1.state < (j : Int)) →
    importNDFALoop A fuel
        { buffer := (List.range' j m).flatMap (fun i =>
            A.flatMap (fun a => writeOutputNDFARow T (i : Int) a)),
          eofbit := false, failbit := false } acc (j : Int) =
      some (.ok (acc ++ (List.range' j m).flatMap (fun i =>
        A.flatMap (fun a => equalRange T ⟨(i : Int), a⟩)))) := by
  intro m
  induction m with
  | zero =>
    intro j fuel acc hf _
    obtain ⟨f1, rfl⟩ : ∃ f1, fuel = f1 + 2 := ⟨fuel - 2, by omega⟩
    have hidx : (List.range A.length).map (· + 1) ≠ [] := by
      intro h
      apply hA
      have := congrArg List.length h
      simp only [List.length_map, List.length_range, List.length_nil] at this
      exact List.length_eq_zero.mp this
    obtain ⟨fi2, hrow, heof⟩ := importNDFARow_end A (j : Int) acc _
      { buffer := [], eofbit := false, failbit := false } rfl (Or.inr ⟨rfl, rfl, hidx⟩)
    simp only [List.range'_zero, List.flatMap_nil, List.append_nil]
    unfold importNDFALoop
    simp only [Bool.false_eq_true, if_false, hrow]
    unfold importNDFALoop
    simp only [heof, if_true]
  | succ m ih =>
    intro j fuel acc hf hacc
    obtain ⟨f1, rfl⟩ : ∃ f1, fuel = f1 + 1 := ⟨fuel - 1, by omega⟩
    have hrow := importNDFARow_state A T (j : Int) _ A (getValueAtIndex_indices A)
      ((List.range' (j + 1) m).flatMap (fun i =>
        A.flatMap (fun a => writeOutputNDFARow T (i : Int) a))) acc hP
      (by
        intro x hx a _ hlt
        have := hacc x hx
        rcases hlt with h | ⟨h, _⟩
        · simp only at h; omega
        · simp only at h; omega)
    have hnext := ih (j + 1) f1 (acc ++ A.flatMap (fun a => equalRange T ⟨(j : Int), a⟩))
      (by omega)
      (by
        intro x hx
        rcases List.mem_append.mp hx with hx | hx
        · have := hacc x hx
          push_cast
          omega
        · rw [List.mem_flatMap] at hx
          obtain ⟨a, _, hx⟩ := hx
          unfold equalRange at hx
          rw [List.mem_filter] at hx
          have hk : x.1 = ⟨(j : Int), a⟩ := by simpa using hx.2
          rw [hk]
          push_cast
          show (j : Int) < (j : Int) + 1
          omega)
    rw [List.range'_succ, List.flatMap_cons, List.flatMap_cons]
    unfold importNDFALoop
    simp only [Bool.false_eq_true, if_false, hrow]
    push_cast at hnext
    rw [hnext, List.append_assoc]

/-! ## The layout of a Thompson NFA -/

theorem setInsert_pairwise_char (x : Char) (l : List Char) (h : l.Pairwise (· < ·)) :
    (setInsert x l).Pairwise (· < ·) := by
  induction l with
  | nil => simp [setInsert]
  | cons y ys ih =>
    rw [List.pairwise_cons] at h
    unfold setInsert
    by_cases h1 : x = y
    · rw [if_pos h1]
      exact List.pairwise_cons.mpr h
    · by_cases h2 : x < y
      · rw [if_neg h1, if_pos h2]
        refine List.pairwise_cons.mpr ⟨?_, List.pairwise_cons.mpr h⟩
        intro b hb
        rcases List.mem_cons.mp hb with rfl | hb
        · exact h2
        · exact lt_trans h2 (h.1 b hb)
      · rw [if_neg h1, if_neg h2]
        have hy : y < x := by
          rcases lt_trichotomy x y with h3 | h3 | h3
          · exact absurd h3 h2
          · exact absurd h3 h1
          · exact h3
        refine List.pairwise_cons.mpr ⟨?_, ih h.2⟩
        intro b hb
        rcases (mem_setInsert x b ys).mp hb with rfl | hb
        · exact hy
        · exact h.1 b hb

theorem setInsertRange_pairwise_char (range : List Char) : ∀ s : List Char,
    s.Pairwise (· < ·) → (setInsertRange s range).Pairwise (· < ·) := by
  induction range with
  | nil => intro s h; simpa [setInsertRange] using h
  | cons x xs ih =>
    intro s h
    have := ih (setInsert x s) (setInsert_pairwise_char x s h)
    simpa [setInsertRange] using this

theorem addTransition_ok_inv (a a2 : NDFA) (s t : Int) (c : Char)
    (h : a.addTransition s c t = .ok a2) :
    a2 = { a with transitions := mmInsert (⟨s, c⟩, t) a.transitions } := by
  unfold Automaton.addTransition at h
  simp only at h
  split at h
  · split at h
    · injection h with h; exact h.symm
    · cases h
  · split at h
    · injection h with h; exact h.symm
    · cases h

theorem addState_nodup (a : NDFA) (s : Int) (h : a.allStates.Nodup) :
    (a.addState s).allStates.Nodup := by
  unfold Automaton.addState
  by_cases hs : s ∈ a.allStates
  · rw [if_pos hs]; exact h
  · rw [if_neg hs]
    simp only
    rw [List.nodup_append]
    exact ⟨h, List.nodup_singleton _, by
      intro x hx hx2
      rw [List.mem_singleton] at hx2
      exact hs (hx2 ▸ hx)⟩

theorem addTransitionStates_fold_nodup (l : NTransitions) : ∀ a : NDFA, a.allStates.Nodup →
    (l.foldl (fun acc entry => (acc.addState entry.1.state).addState entry.2) a).allStates.Nodup := by
  induction l with
  | nil => intro a h; exact h
  | cons e es ih =>
    intro a h
    rw [List.foldl_cons]
    exact ih _ (addState_nodup _ _ (addState_nodup _ _ h))

/-- The closing loop of a pool function on an automaton with an empty state list. -/
theorem addTransitionStates_layout (a : NDFA) (h0 : a.allStates = []) :
    (addTransitionStates a).allStates.Nodup ∧
    ∀ x : Int, x ∈ (addTransitionStates a).allStates ↔
      ∃ e ∈ a.transitions, x = e.1.state ∨ x = e.2 := by
  refine ⟨addTransitionStates_fold_nodup _ _ (by rw [h0]; exact List.nodup_nil), ?_⟩
  intro x
  rw [mem_addTransitionStates, h0]
  simp

theorem AutomataPool_Symbol_fields (c : Char) (n m : Int) (S : NDFA)
    (h : AutomataPool_Symbol c n = .ok (S, m)) :
    S.alphabet = setInsert c (setInsert epsilon []) ∧ S.allStates = [n, n + 1] ∧
    S.transitions = [(⟨n, c⟩, n + 1)] ∧ S.initialState = n ∧ S.finalStates = n + 1 := by
  unfold AutomataPool_Symbol at h
  simp only at h
  split at h
  · cases h
  · rename_i a2 ha
    have := addTransition_ok_inv _ _ _ _ _ ha
    injection h with h
    injection h with h1 _
    subst h1
    rw [this]
    simp [emptyNDFA, Automaton.addState, mmInsert]

theorem AutomataPool_KleeneStar_fields (left : NDFA) (n m : Int) (S : NDFA)
    (h : AutomataPool_KleeneStar left n = .ok (S, m)) :
    S.alphabet = setInsertRange [] left.alphabet ∧ KeySorted S.transitions ∧
    S.allStates.Nodup ∧
    ∀ x : Int, x ∈ S.allStates ↔ ∃ e ∈ S.transitions, x = e.1.state ∨ x = e.2 := by
  unfold AutomataPool_KleeneStar at h
  simp only at h
  split at h
  · cases h
  · rename_i k1 h1
    split at h
    · cases h
    · rename_i k2 h2
      split at h
      · cases h
      · rename_i k3 h3
        split at h
        · cases h
        · rename_i k4 h4
          have e1 := addTransition_ok_inv _ _ _ _ _ h1
          have e2 := addTransition_ok_inv _ _ _ _ _ h2
          have e3 := addTransition_ok_inv _ _ _ _ _ h3
          have e4 := addTransition_ok_inv _ _ _ _ _ h4
          injection h with h
          injection h with hS _
          subst hS
          have hf := addTransitionStates_fields k4
          have hl := addTransitionStates_layout k4 (by rw [e4, e3, e2, e1]; rfl)
          rw [hf.2.2.2, hf.1]
          refine ⟨by rw [e4, e3, e2, e1]; rfl, ?_, hl.1, hl.2⟩
          rw [e4, e3, e2, e1]
          simp only [emptyNDFA]
          exact mmInsert_keySorted _ _ (mmInsert_keySorted _ _ (mmInsert_keySorted _ _
            (mmInsert_keySorted _ _ (mmInsertRange_keySorted _ _ List.Pairwise.nil))))

theorem AutomataPool_Union_fields (left right : NDFA) (n m : Int) (S : NDFA)
    (h : AutomataPool_Union left right n = .ok (S, m)) :
    S.alphabet = setInsertRange (setInsertRange [] left.alphabet) right.alphabet ∧
    KeySorted S.transitions ∧ S.allStates.Nodup ∧
    ∀ x : Int, x ∈ S.allStates ↔ ∃ e ∈ S.transitions, x = e.1.state ∨ x = e.2 := by
  unfold AutomataPool_Union at h
  simp only at h
  split at h
  · cases h
  · rename_i k1 h1
    split at h
    · cases h
    · rename_i k2 h2
      split at h
      · cases h
      · rename_i k3 h3
        split at h
        · cases h
        · rename_i k4 h4
          have e1 := addTransition_ok_inv _ _ _ _ _ h1
          have e2 := addTransition_ok_inv _ _ _ _ _ h2
          have e3 := addTransition_ok_inv _ _ _ _ _ h3
          have e4 := addTransition_ok_inv _ _ _ _ _ h4
          injection h with h
          injection h with hS _
          subst hS
          have hf := addTransitionStates_fields k4
          have hl := addTransitionStates_layout k4 (by rw [e4, e3, e2, e1]; rfl)
          rw [hf.2.2.2, hf.1]
          refine ⟨by rw [e4, e3, e2, e1]; rfl, ?_, hl.1, hl.2⟩
          rw [e4, e3, e2, e1]
          simp only [emptyNDFA]
          exact mmInsert_keySorted _ _ (mmInsert_keySorted _ _ (mmInsert_keySorted _ _
            (mmInsert_keySorted _ _ (mmInsertRange_keySorted _ _
              (mmInsertRange_keySorted _ _ List.Pairwise.nil)))))

theorem AutomataPool_Concatenation_fields (left right : NDFA) (S : NDFA)
    (h : AutomataPool_Concatenation left right = .ok S) :
    S.alphabet = setInsertRange (setInsertRange [] left.alphabet) right.alphabet ∧
    KeySorted S.transitions ∧ S.allStates.Nodup ∧
    ∀ x : Int, x ∈ S.allStates ↔ ∃ e ∈ S.transitions, x = e.1.state ∨ x = e.2 := by
  unfold AutomataPool_Concatenation at h
  simp only at h
  split at h
  · cases h
  · rename_i k1 h1
    have e1 := addTransition_ok_inv _ _ _ _ _ h1
    injection h with hS
    subst hS
    have hf := addTransitionStates_fields k1
    have hl := addTransitionStates_layout k1 (by rw [e1]; rfl)
    rw [hf.2.2.2, hf.1]
    refine ⟨by rw [e1]; rfl, ?_, hl.1, hl.2⟩
    rw [e1]
    simp only [emptyNDFA]
    exact mmInsert_keySorted _ _ (mmInsertRange_keySorted _ _
      (mmInsertRange_keySorted _ _ List.Pairwise.nil))

/-- The state list of a machine whose states are the endpoints of its transitions holds
exactly the states of its block. -/
theorem layout_statesMem (S : NDFA) (lo hi : Int) (shape : ThompsonShape S lo hi)
    (startOut : ∃ e ∈ S.transitions, e.1.state = S.initialState)
    (targets : ∀ x : Int, lo ≤ x → x < hi → x ≠ S.initialState →
      ∃ e ∈ S.transitions, e.2 = x)
    (hall : ∀ x : Int, x ∈ S.allStates ↔ ∃ e ∈ S.transitions, x = e.1.state ∨ x = e.2) :
    ∀ x : Int, x ∈ S.allStates ↔ lo ≤ x ∧ x < hi := by
  intro x
  rw [hall]
  constructor
  · rintro ⟨e, he, h | h⟩
    · have := shape.range e he; omega
    · have := shape.range e he; omega
  · rintro ⟨h1, h2⟩
    by_cases hx : x = S.initialState
    · obtain ⟨e, he, hes⟩ := startOut
      exact ⟨e, he, Or.inl (by rw [hx, hes])⟩
    · obtain ⟨e, he, hes⟩ := targets x h1 h2 hx
      exact ⟨e, he, Or.inr hes.symm⟩

theorem ThompsonLayout_symbol (A : List Char) (c : Char) (n : Int) (S : NDFA) (hc : c ∈ A)
    (hS : AutomataPool_Symbol c n = .ok (S, n + 2)) : ThompsonLayout A S n (n + 2) := by
  obtain ⟨halpha, hstates, hT, hs, hf⟩ := AutomataPool_Symbol_fields c n _ S hS
  refine
    { sorted := ?_, alphabetSorted := ?_, epsilonMem := ?_, alphabetMem := ?_, symbolMem := ?_,
      startOut := ?_, startIn := ?_, targets := ?_, statesNodup := ?_, statesMem := ?_ }
  · unfold KeySorted
    rw [hT]
    exact List.pairwise_singleton _ _
  · rw [halpha]
    exact setInsert_pairwise_char _ _ (setInsert_pairwise_char _ _ List.Pairwise.nil)
  · rw [halpha, mem_setInsert, mem_setInsert]
    exact Or.inr (Or.inl rfl)
  · intro x hx
    rw [halpha, mem_setInsert, mem_setInsert] at hx
    rcases hx with h | h | h
    · exact Or.inr (h ▸ hc)
    · exact Or.inl h
    · exact absurd h (List.not_mem_nil _)
  · intro e he
    rw [hT, List.mem_singleton] at he
    rw [he, halpha, mem_setInsert]
    exact Or.inl rfl
  · exact ⟨(⟨n, c⟩, n + 1), by rw [hT]; exact List.mem_singleton.mpr rfl, by rw [hs]⟩
  · intro e he
    rw [hT, List.mem_singleton] at he
    rw [he, hs]
    simp only
    omega
  · intro x h1 h2 hx
    rw [hs] at hx
    exact ⟨(⟨n, c⟩, n + 1), by rw [hT]; exact List.mem_singleton.mpr rfl, by simp only; omega⟩
  · rw [hstates]
    simp
  · intro x
    rw [hstates]
    simp only [List.mem_cons, List.mem_singleton, List.not_mem_nil, or_false]
    omega

theorem ThompsonLayout_star (A : List Char) (S1 S : NDFA) (n n1 : Int)
    (hshape : ThompsonShape S1 n n1) (hq : ThompsonLayout A S1 n n1)
    (hS : AutomataPool_KleeneStar S1 n1 = .ok (S, n1 + 2)) :
    ThompsonLayout A S n (n1 + 2) := by
  have hst := hshape.start
  have hfi := hshape.final
  obtain ⟨S2, hS2, hs, hf, hT⟩ := AutomataPool_KleeneStar_perm S1 n1
    (hshape.no_out n1 (Or.inr (Or.inl (le_refl _)))) (by omega)
    (hshape.no_out _ (Or.inr (Or.inr rfl)))
  rw [hS] at hS2
  injection hS2 with h1
  injection h1 with h1 _
  subst h1
  obtain ⟨halpha, hsorted, hnodup, hall⟩ := AutomataPool_KleeneStar_fields S1 n1 _ S hS
  have hmem : ∀ e : Key Int × Int, e ∈ S.transitions ↔
      (e = (⟨S1.finalStates, epsilon⟩, S1.initialState) ∨
       e = (⟨n1, epsilon⟩, S1.initialState) ∨ e = (⟨S1.finalStates, epsilon⟩, n1 + 1) ∨
       e = (⟨n1, epsilon⟩, n1 + 1) ∨ e ∈ S1.transitions) := by
    intro e
    rw [hT.mem_iff]
    simp only [List.mem_cons]
  have hTs : ThompsonShape S n (n1 + 2) :=
    KleeneStar_shape S1 S n n1 hshape hs hf (fun e he => by
      have := (hmem e).mp he
      tauto)
  have hstart : ∃ e ∈ S.transitions, e.1.state = S.initialState :=
    ⟨(⟨n1, epsilon⟩, S1.initialState), (hmem _).mpr (Or.inr (Or.inl rfl)), by rw [hs]⟩
  have htargets : ∀ x : Int, n ≤ x → x < n1 + 2 → x ≠ S.initialState →
      ∃ e ∈ S.transitions, e.2 = x := by
    intro x h1 h2 hx
    rw [hs] at hx
    by_cases hx1 : x = n1 + 1
    · exact ⟨(⟨n1, epsilon⟩, n1 + 1), (hmem _).mpr (Or.inr (Or.inr (Or.inr (Or.inl rfl)))),
        hx1.symm⟩
    · by_cases hx2 : x = S1.initialState
      · exact ⟨(⟨n1, epsilon⟩, S1.initialState), (hmem _).mpr (Or.inr (Or.inl rfl)), hx2.symm⟩
      · obtain ⟨e, he, hex⟩ := hq.targets x h1 (by omega) hx2
        exact ⟨e, (hmem _).mpr (Or.inr (Or.inr (Or.inr (Or.inr he)))), hex⟩
  have heps : epsilon ∈ S.alphabet := by
    rw [halpha, mem_setInsertRange]
    exact Or.inr hq.epsilonMem
  refine
    { sorted := hsorted, alphabetSorted := ?_, epsilonMem := heps, alphabetMem := ?_,
      symbolMem := ?_, startOut := hstart, startIn := ?_, targets := htargets,
      statesNodup := hnodup, statesMem := layout_statesMem S n (n1 + 2) hTs hstart htargets hall }
  · rw [halpha]
    exact setInsertRange_pairwise_char _ _ List.Pairwise.nil
  · intro c hc
    rw [halpha, mem_setInsertRange] at hc
    rcases hc with h | h
    · exact absurd h (List.not_mem_nil _)
    · exact hq.alphabetMem c h
  · intro e he
    rcases (hmem e).mp he with h | h | h | h | h
    · rw [h]; exact heps
    · rw [h]; exact heps
    · rw [h]; exact heps
    · rw [h]; exact heps
    · rw [halpha, mem_setInsertRange]
      exact Or.inr (hq.symbolMem e h)
  · intro e he
    rw [hs]
    rcases (hmem e).mp he with h | h | h | h | h
    · rw [h]; simp only; omega
    · rw [h]; simp only; omega
    · rw [h]; simp only; omega
    · rw [h]; simp only; omega
    · have := hshape.range e h; omega

theorem ThompsonLayout_concatenation (A : List Char) (S1 S2 S : NDFA) (n n1 n2 : Int)
    (hshape1 : ThompsonShape S1 n n1) (hshape2 : ThompsonShape S2 n1 n2)
    (hq1 : ThompsonLayout A S1 n n1) (hq2 : ThompsonLayout A S2 n1 n2)
    (hS : AutomataPool_Concatenation S1 S2 = .ok S) : ThompsonLayout A S n n2 := by
  have hst1 := hshape1.start
  have hfi1 := hshape1.final
  have hst2 := hshape2.start
  have hfi2 := hshape2.final
  obtain ⟨S3, hS3, hs, hf, hT, _⟩ := AutomataPool_Concatenation_perm S1 S2
    (hshape1.no_out _ (Or.inr (Or.inr rfl)))
    (hshape2.no_out _ (Or.inl (by omega)))
  rw [hS] at hS3
  injection hS3 with h1
  subst h1
  obtain ⟨halpha, hsorted, hnodup, hall⟩ := AutomataPool_Concatenation_fields S1 S2 S hS
  have hmem : ∀ e : Key Int × Int, e ∈ S.transitions ↔
      (e = (⟨S1.finalStates, epsilon⟩, S2.initialState) ∨ e ∈ S1.transitions ∨
        e ∈ S2.transitions) := by
    intro e
    rw [hT.mem_iff]
    simp only [List.mem_cons, List.mem_append]
  have hTs : ThompsonShape S n n2 :=
    Concatenation_shape S1 S2 S n n1 n2 hshape1 hshape2 hs hf (fun e he => by
      have := (hmem e).mp he
      tauto)
  have hstart : ∃ e ∈ S.transitions, e.1.state = S.initialState := by
    obtain ⟨e, he, hes⟩ := hq1.startOut
    exact ⟨e, (hmem _).mpr (Or.inr (Or.inl he)), by rw [hs, hes]⟩
  have htargets : ∀ x : Int, n ≤ x → x < n2 → x ≠ S.initialState →
      ∃ e ∈ S.transitions, e.2 = x := by
    intro x h1 h2 hx
    rw [hs] at hx
    by_cases hlt : x < n1
    · obtain ⟨e, he, hex⟩ := hq1.targets x h1 hlt hx
      exact ⟨e, (hmem _).mpr (Or.inr (Or.inl he)), hex⟩
    · by_cases hx2 : x = S2.initialState
      · exact ⟨(⟨S1.finalStates, epsilon⟩, S2.initialState), (hmem _).mpr (Or.inl rfl),
          hx2.symm⟩
      · obtain ⟨e, he, hex⟩ := hq2.targets x (by omega) h2 hx2
        exact ⟨e, (hmem _).mpr (Or.inr (Or.inr he)), hex⟩
  have heps : epsilon ∈ S.alphabet := by
    rw [halpha, mem_setInsertRange]
    exact Or.inr hq2.epsilonMem
  refine
    { sorted := hsorted, alphabetSorted := ?_, epsilonMem := heps, alphabetMem := ?_,
      symbolMem := ?_, startOut := hstart, startIn := ?_, targets := htargets,
      statesNodup := hnodup, statesMem := layout_statesMem S n n2 hTs hstart htargets hall }
  · rw [halpha]
    exact setInsertRange_pairwise_char _ _ (setInsertRange_pairwise_char _ _ List.Pairwise.nil)
  · intro c hc
    rw [halpha, mem_setInsertRange, mem_setInsertRange] at hc
    rcases hc with (h | h) | h
    · exact absurd h (List.not_mem_nil _)
    · exact hq1.alphabetMem c h
    · exact hq2.alphabetMem c h
  · intro e he
    rcases (hmem e).mp he with h | h | h
    · rw [h]; exact heps
    · rw [halpha, mem_setInsertRange, mem_setInsertRange]
      exact Or.inl (Or.inr (hq1.symbolMem e h))
    · rw [halpha, mem_setInsertRange]
      exact Or.inr (hq2.symbolMem e h)
  · intro e he
    rw [hs]
    rcases (hmem e).mp he with h | h | h
    · rw [h]; simp only; omega
    · exact hq1.startIn e h
    · have := hshape2.range e h; omega

theorem ThompsonLayout_union (A : List Char) (S1 S2 S : NDFA) (n n1 n2 : Int)
    (hshape1 : ThompsonShape S1 n n1) (hshape2 : ThompsonShape S2 n1 n2)
    (hq1 : ThompsonLayout A S1 n n1) (hq2 : ThompsonLayout A S2 n1 n2)
    (hS : AutomataPool_Union S1 S2 n2 = .ok (S, n2 + 2)) : ThompsonLayout A S n (n2 + 2) := by
  have hst1 := hshape1.start
  have hfi1 := hshape1.final
  have hst2 := hshape2.start
  have hfi2 := hshape2.final
  obtain ⟨S3, hS3, hs, hf, hT⟩ := AutomataPool_Union_perm S1 S2 n2
    (hshape1.no_out n2 (Or.inr (Or.inl (by omega))))
    (hshape2.no_out n2 (Or.inr (Or.inl (le_refl _))))
    (by omega) (by omega) (by omega)
    (hshape1.no_out _ (Or.inr (Or.inr rfl)))
    (hshape2.no_out _ (Or.inl (by omega)))
    (hshape1.no_out _ (Or.inr (Or.inl (by omega))))
    (hshape2.no_out _ (Or.inr (Or.inr rfl)))
  rw [hS] at hS3
  injection hS3 with h1
  injection h1 with h1 _
  subst h1
  obtain ⟨halpha, hsorted, hnodup, hall⟩ := AutomataPool_Union_fields S1 S2 n2 _ S hS
  have hmem : ∀ e : Key Int × Int, e ∈ S.transitions ↔
      (e = (⟨S2.finalStates, epsilon⟩, n2 + 1) ∨ e = (⟨S1.finalStates, epsilon⟩, n2 + 1) ∨
       e = (⟨n2, epsilon⟩, S2.initialState) ∨ e = (⟨n2, epsilon⟩, S1.initialState) ∨
       e ∈ S1.transitions ∨ e ∈ S2.transitions) := by
    intro e
    rw [hT.mem_iff]
    simp only [List.mem_cons, List.mem_append]
  have hTs : ThompsonShape S n (n2 + 2) :=
    Union_shape S1 S2 S n n1 n2 hshape1 hshape2 hs hf (fun e he => by
      have := (hmem e).mp he
      tauto)
  have hstart : ∃ e ∈ S.transitions, e.1.state = S.initialState :=
    ⟨(⟨n2, epsilon⟩, S1.initialState),
      (hmem _).mpr (Or.inr (Or.inr (Or.inr (Or.inl rfl)))), by rw [hs]⟩
  have htargets : ∀ x : Int, n ≤ x → x < n2 + 2 → x ≠ S.initialState →
      ∃ e ∈ S.transitions, e.2 = x := by
    intro x h1 h2 hx
    rw [hs] at hx
    by_cases hx1 : x = n2 + 1
    · exact ⟨(⟨S1.finalStates, epsilon⟩, n2 + 1), (hmem _).mpr (Or.inr (Or.inl rfl)),
        hx1.symm⟩
    · by_cases hlt : x < n1
      · by_cases hx2 : x = S1.initialState
        · exact ⟨(⟨n2, epsilon⟩, S1.initialState),
            (hmem _).mpr (Or.inr (Or.inr (Or.inr (Or.inl rfl)))), hx2.symm⟩
        · obtain ⟨e, he, hex⟩ := hq1.targets x h1 hlt hx2
          exact ⟨e, (hmem _).mpr (Or.inr (Or.inr (Or.inr (Or.inr (Or.inl he))))), hex⟩
      · by_cases hx2 : x = S2.initialState
        · exact ⟨(⟨n2, epsilon⟩, S2.initialState),
            (hmem _).mpr (Or.inr (Or.inr (Or.inl rfl))), hx2.symm⟩
        · obtain ⟨e, he, hex⟩ := hq2.targets x (by omega) (by omega) hx2
          exact ⟨e, (hmem _).mpr (Or.inr (Or.inr (Or.inr (Or.inr (Or.inr he))))), hex⟩
  have heps : epsilon ∈ S.alphabet := by
    rw [halpha, mem_setInsertRange]
    exact Or.inr hq2.epsilonMem
  refine
    { sorted := hsorted, alphabetSorted := ?_, epsilonMem := heps, alphabetMem := ?_,
      symbolMem := ?_, startOut := hstart, startIn := ?_, targets := htargets,
      statesNodup := hnodup,
      statesMem := layout_statesMem S n (n2 + 2) hTs hstart htargets hall }
  · rw [halpha]
    exact setInsertRange_pairwise_char _ _ (setInsertRange_pairwise_char _ _ List.Pairwise.nil)
  · intro c hc
    rw [halpha, mem_setInsertRange, mem_setInsertRange] at hc
    rcases hc with (h | h) | h
    · exact absurd h (List.not_mem_nil _)
    · exact hq1.alphabetMem c h
    · exact hq2.alphabetMem c h
  · intro e he
    rcases (hmem e).mp he with h | h | h | h | h | h
    · rw [h]; exact heps
    · rw [h]; exact heps
    · rw [h]; exact heps
    · rw [h]; exact heps
    · rw [halpha, mem_setInsertRange, mem_setInsertRange]
      exact Or.inl (Or.inr (hq1.symbolMem e h))
    · rw [halpha, mem_setInsertRange]
      exact Or.inr (hq2.symbolMem e h)
  · intro e he
    rw [hs]
    rcases (hmem e).mp he with h | h | h | h | h | h
    · rw [h]; simp only; omega
    · rw [h]; simp only; omega
    · rw [h]; simp only; omega
    · rw [h]; simp only; omega
    · have := hshape1.range e h; omega
    · have := hshape2.range e h; omega

/-- The NFA `REtoND` returns for a well-formed tree has the Thompson layout over the
states `0 .. n2 - 1`. -/
theorem REtoND_layout (regex : Regex) (hA : ∀ c ∈ regex.alphabet, c ∉ operators) (t : AST)
    (ht : t.WellFormed regex.alphabet) :
    ∃ (N : NDFA) (n2 : Int), REtoND t regex = .ok N ∧ ThompsonShape N 0 n2 ∧
      ThompsonLayout regex.alphabet N 0 n2 :=
  REtoND_ind regex hA (fun _ S lo hi => ThompsonLayout regex.alphabet S lo hi)
    (fun c n S hc hS => ThompsonLayout_symbol _ c n S hc hS)
    (fun _ S1 S n n1 hshape hq hS => ThompsonLayout_star _ S1 S n n1 hshape hq hS)
    (fun _ _ S1 S2 S n n1 n2 h1 h2 q1 q2 hS =>
      ThompsonLayout_concatenation _ S1 S2 S n n1 n2 h1 h2 q1 q2 hS)
    (fun _ _ S1 S2 S n n1 n2 h1 h2 q1 q2 hS =>
      ThompsonLayout_union _ S1 S2 S n n1 n2 h1 h2 q1 q2 hS)
    t ht

/-! ## The start state found by `findStartState` -/

theorem mem_foldl_setInsert {α : Type} (f : α → Int) (l : List α) : ∀ (s : List Int) (x : Int),
    x ∈ l.foldl (fun s entry => setInsert (f entry) s) s ↔ x ∈ s ∨ ∃ e ∈ l, f e = x := by
  induction l with
  | nil => intro s x; simp
  | cons e es ih =>
    intro s x
    rw [List.foldl_cons, ih, mem_setInsert]
    simp only [List.mem_cons, exists_eq_or_imp]
    constructor
    · rintro ((h | h) | h)
      · exact Or.inr (Or.inl h.symm)
      · exact Or.inl h
      · exact Or.inr (Or.inr h)
    · rintro (h | h | h)
      · exact Or.inl (Or.inr h)
      · exact Or.inl (Or.inl h.symm)
      · exact Or.inr h

theorem find?_unique {α : Type} (p : α → Bool) (x : α) (l : List α) (hx : x ∈ l)
    (hp : p x = true) (hu : ∀ y ∈ l, p y = true → y = x) : l.find? p = some x := by
  induction l with
  | nil => simp at hx
  | cons y ys ih =>
    rw [List.find?_cons]
    cases hy : p y with
    | true =>
      rw [hu y (List.mem_cons_self _ _) hy]
    | false =>
      simp only
      rcases List.mem_cons.mp hx with h | h
      · rw [h, hy] at hp; cases hp
      · exact ih h (fun z hz => hu z (List.mem_cons_of_mem _ hz))

/-- The function `findStartState` returns the only source state that is no target. -/
theorem findStartState_eq (T : NTransitions) (s : Int)
    (hout : ∃ e ∈ T, e.1.state = s) (hin : ∀ e ∈ T, e.2 ≠ s)
    (hother : ∀ e ∈ T, e.1.state ≠ s → ∃ e2 ∈ T, e2.2 = e.1.state) :
    findStartState T = s := by
  unfold findStartState
  simp only
  have hfind : (T.foldl (fun s entry => setInsert entry.1.state s) []).find?
      (fun value => decide (value ∉ T.foldl (fun s entry => setInsert entry.2 s) [])) =
      some s := by
    apply find?_unique
    · rw [mem_foldl_setInsert (fun e : Key Int × Int => e.1.state)]
      exact Or.inr hout
    · rw [decide_eq_true_eq, mem_foldl_setInsert (fun e : Key Int × Int => e.2)]
      rintro (h | ⟨e, he, hes⟩)
      · exact absurd h (List.not_mem_nil _)
      · exact hin e he hes
    · intro y hy hpy
      rw [mem_foldl_setInsert (fun e : Key Int × Int => e.1.state)] at hy
      rw [decide_eq_true_eq, mem_foldl_setInsert (fun e : Key Int × Int => e.2)] at hpy
      by_contra hne
      rcases hy with hy | ⟨e, he, hes⟩
      · exact absurd hy (List.not_mem_nil _)
      · apply hpy
        right
        rw [← hes] at hne ⊢
        exact hother e he hne
  rw [hfind]

/-! ## Reading the alphabet line -/

theorem mem_alphabet_fold (line : List Char) : ∀ (s : List Char) (x : Char),
    x ∈ line.foldl (fun a character => if isSymbol character then setInsert character a else a) s
      ↔ x ∈ s ∨ (x ∈ line ∧ isSymbol x = true) := by
  induction line with
  | nil => intro s x; simp
  | cons c cs ih =>
    intro s x
    rw [List.foldl_cons, ih]
    by_cases hc : isSymbol c = true
    · rw [if_pos hc, mem_setInsert]
      simp only [List.mem_cons]
      constructor
      · rintro ((h | h) | h)
        · exact Or.inr ⟨Or.inl h, h ▸ hc⟩
        · exact Or.inl h
        · exact Or.inr ⟨Or.inr h.1, h.2⟩
      · rintro (h | ⟨h | h, h2⟩)
        · exact Or.inl (Or.inr h)
        · exact Or.inl (Or.inl h)
        · exact Or.inr ⟨h, h2⟩
    · rw [if_neg hc]
      simp only [List.mem_cons]
      constructor
      · rintro (h | h)
        · exact Or.inl h
        · exact Or.inr ⟨Or.inr h.1, h.2⟩
      · rintro (h | ⟨h | h, h2⟩)
        · exact Or.inl h
        · rw [h] at h2; exact absurd h2 hc
        · exact Or.inr ⟨h, h2⟩

theorem alphabet_fold_pairwise (line : List Char) : ∀ s : List Char, s.Pairwise (· < ·) →
    (line.foldl (fun a character => if isSymbol character then setInsert character a else a)
      s).Pairwise (· < ·) := by
  induction line with
  | nil => intro s h; exact h
  | cons c cs ih =>
    intro s h
    rw [List.foldl_cons]
    apply ih
    split
    · exact setInsert_pairwise_char _ _ h
    · exact h

theorem pairwise_lt_ext (l1 l2 : List Char) (h1 : l1.Pairwise (· < ·))
    (h2 : l2.Pairwise (· < ·)) (h : ∀ x, x ∈ l1 ↔ x ∈ l2) : l1 = l2 :=
  List.eq_of_perm_of_sorted
    ((List.perm_ext_iff_of_nodup (h1.imp ne_of_lt) (h2.imp ne_of_lt)).mpr h) h1 h2

/-- Reading back the alphabet line of `writeOutputNDFA`: the set read is the alphabet
written when that is an ascending set holding ε and otherwise letters and digits. -/
theorem importNDFA_alphabet (A : List Char) (hP : A.Pairwise (· < ·)) (heps : epsilon ∈ A)
    (hsym : ∀ c ∈ A, c = epsilon ∨ isSymbol c = true) :
    ((A.filter (fun c => decide (c ≠ epsilon))).flatMap (fun symbol => [symbol, ' '])).foldl
      (fun a character => if isSymbol character then setInsert character a else a)
      (setInsert epsilon []) = A := by
  apply pairwise_lt_ext _ _ (alphabet_fold_pairwise _ _ (by simp [setInsert])) hP
  intro x
  rw [mem_alphabet_fold]
  simp only [setInsert, List.mem_singleton, List.mem_flatMap, List.mem_filter, List.mem_cons,
    List.not_mem_nil, or_false, decide_eq_true_eq]
  constructor
  · rintro (h | ⟨⟨c, ⟨hc, _⟩, h | h⟩, h2⟩)
    · rw [h]; exact heps
    · rw [h]; exact hc
    · rw [h] at h2; exact absurd h2 (by decide)
  · intro hx
    rcases hsym x hx with h | h
    · exact Or.inl h
    · by_cases he : x = epsilon
      · exact Or.inl he
      · exact Or.inr ⟨⟨x, ⟨hx, he⟩, Or.inl rfl⟩, h⟩

/-! ## The number of states -/

/-- A duplicate-free list that holds exactly the integers `0 .. hi - 1` has `hi`
entries. -/
theorem length_of_interval (l : List Int) (hi : Int) (hnd : l.Nodup)
    (hmem : ∀ x : Int, x ∈ l ↔ 0 ≤ x ∧ x < hi) : (l.length : Int) = max hi 0 := by
  have hfs : l.toFinset = Finset.Ico 0 hi := by
    ext x
    rw [List.mem_toFinset, hmem, Finset.mem_Ico]
  have hcard := List.toFinset_card_of_nodup hnd
  rw [hfs, Int.card_Ico] at hcard
  rw [← hcard]
  omega

/-! ## Reading back what `writeOutputNDFA` writes -/

theorem isSymbol_not_operator (c : Char) (h : isSymbol c = true) : c ∉ operators := by
  intro hc
  simp only [operators, List.mem_cons, List.mem_singleton, List.not_mem_nil, or_false] at hc
  rcases hc with rfl | rfl | rfl <;> exact absurd h (by decide)

theorem keys_pairwise (A : List Char) (hP : A.Pairwise (· < ·)) (m : Nat) :
    ((List.range' 0 m).flatMap (fun i => A.map (fun a => (⟨(i : Int), a⟩ : Key Int)))).Pairwise
      (· < ·) := by
  rw [List.pairwise_flatMap]
  constructor
  · intro i _
    rw [List.pairwise_map]
    exact hP.imp (fun h => Or.inr ⟨rfl, h⟩)
  · have hlt : (List.range' 0 m).Pairwise (· < ·) := List.pairwise_lt_range' 0 m
    refine hlt.imp ?_
    intro i j hij x hx y hy
    rw [List.mem_map] at hx hy
    obtain ⟨a, _, rfl⟩ := hx
    obtain ⟨b, _, rfl⟩ := hy
    exact Or.inl (by simp only; omega)

theorem rows_length (A : List Char) (T : NTransitions) (hA : A ≠ []) (m : Nat) :
    m ≤ ((List.range m).flatMap (fun i =>
      A.flatMap (fun symbol => writeOutputNDFARow T (i : Int) symbol))).length := by
  have hrow : ∀ i : Nat, 1 ≤ (A.flatMap (fun symbol =>
      writeOutputNDFARow T (i : Int) symbol)).length := by
    intro i
    obtain ⟨a, as, rfl⟩ := List.exists_cons_of_ne_nil hA
    rw [List.flatMap_cons, List.length_append, writeOutputNDFARow_eq, List.length_append]
    simp only [List.length_singleton]
    omega
  induction m with
  | zero => simp
  | succ m ih =>
    rw [List.range_succ, List.flatMap_append, List.length_append]
    have := hrow m
    simp only [List.flatMap_cons, List.flatMap_nil, List.append_nil]
    omega

/-- Reading back the text written for an NFA with the Thompson layout over the states
`0 .. hi - 1` and an alphabet of letters and digits. -/
theorem importNDFA_of_layout (A : List Char) (hA : ∀ c ∈ A, isSymbol c = true) (N : NDFA)
    (hi : Int) (shape : ThompsonShape N 0 hi) (layout : ThompsonLayout A N 0 hi) :
    ∃ M : NDFA, importNDFA (writeOutputNDFA N) = some (.ok M) ∧
      M.alphabet = N.alphabet ∧ M.finalStates = N.finalStates ∧
      M.initialState = N.initialState ∧ M.transitions = N.transitions ∧
      ∀ x : Int, x ∈ M.allStates ↔ x ∈ N.allStates := by
  have hne : N.alphabet ≠ [] := List.ne_nil_of_mem layout.epsilonMem
  have hsym : ∀ c ∈ N.alphabet, c = epsilon ∨ isSymbol c = true := by
    intro c hc
    rcases layout.alphabetMem c hc with h | h
    · exact Or.inl h
    · exact Or.inr (hA c h)
  have hlen : (N.allStates.length : Int) = max hi 0 :=
    length_of_interval _ hi layout.statesNodup layout.statesMem
  -- the three parts of the text
  have hhead : '\n' ∉ (N.alphabet.filter (fun c => decide (c ≠ epsilon))).flatMap
      (fun symbol => [symbol, ' ']) := by
    intro h
    rw [List.mem_flatMap] at h
    obtain ⟨c, hc, h⟩ := h
    rw [List.mem_filter] at hc
    rcases List.mem_cons.mp h with h | h
    · rcases hsym c hc.1 with h2 | h2
      · exact absurd (h.trans h2) (by decide)
      · rw [← h] at h2; exact absurd h2 (by decide)
    · rw [List.mem_singleton] at h
      exact absurd h (by decide)
  have htext : writeOutputNDFA N =
      (N.alphabet.filter (fun c => decide (c ≠ epsilon))).flatMap (fun symbol => [symbol, ' ']) ++
        '\n' :: (printInt N.finalStates ++ '\n' ::
          (List.range N.allStates.length).flatMap (fun i =>
            N.alphabet.flatMap (fun symbol =>
              writeOutputNDFARow N.transitions (i : Int) symbol))) := by
    unfold writeOutputNDFA
    simp only [List.append_assoc, List.singleton_append, List.cons_append, List.nil_append]
  have hget := getline_line _ (printInt N.finalStates ++ '\n' ::
      (List.range N.allStates.length).flatMap (fun i =>
        N.alphabet.flatMap (fun symbol =>
          writeOutputNDFARow N.transitions (i : Int) symbol))) hhead
  have hext := extractInt_printInt N.finalStates '\n'
    ((List.range N.allStates.length).flatMap (fun i =>
      N.alphabet.flatMap (fun symbol =>
        writeOutputNDFARow N.transitions (i : Int) symbol))) (by decide)
  have hign : ∀ rows : List Char, ignoreLine ⟨'\n' :: rows, false, false⟩ =
      ⟨rows, false, false⟩ := by
    intro rows
    unfold ignoreLine
    simp [IStream.good, splitLine]
  have halpha := importNDFA_alphabet N.alphabet layout.alphabetSorted layout.epsilonMem hsym
  -- the rows
  have hkeys : ∀ e ∈ N.transitions, e.1 ∈
      (List.range' 0 N.allStates.length).flatMap
        (fun i => N.alphabet.map (fun a => (⟨(i : Int), a⟩ : Key Int))) := by
    intro e he
    have hr := shape.range e he
    rw [List.mem_flatMap]
    refine ⟨e.1.state.toNat, ?_, ?_⟩
    · rw [List.mem_range']
      refine ⟨e.1.state.toNat, ?_, by omega⟩
      omega
    · rw [List.mem_map]
      refine ⟨e.1.symbol, layout.symbolMem e he, ?_⟩
      have : ((e.1.state.toNat : Nat) : Int) = e.1.state := by omega
      rw [this]
  have hflat := keySorted_eq_flatMap _ N.transitions layout.sorted
    (keys_pairwise N.alphabet layout.alphabetSorted N.allStates.length) hkeys
  have hrows := importNDFALoop_rows N.alphabet N.transitions hne layout.alphabetSorted
    N.allStates.length 0 ((writeOutputNDFA N).length + 2) []
    (by
      have := rows_length N.alphabet N.transitions hne N.allStates.length
      rw [htext]
      simp only [List.length_append, List.length_cons]
      omega)
    (by intro x hx; exact absurd hx (List.not_mem_nil _))
  rw [List.nil_append, ← List.range_eq_range'] at hrows
  have hsame : (List.range N.allStates.length).flatMap (fun i =>
      N.alphabet.flatMap (fun a => equalRange N.transitions ⟨(i : Int), a⟩)) =
      N.transitions := by
    conv_rhs => rw [hflat]
    rw [List.range_eq_range', List.flatMap_assoc]
    apply List.flatMap_congr
    intro i _
    rw [List.flatMap_map]
  rw [hsame] at hrows
  have hstart : findStartState N.transitions = N.initialState := by
    apply findStartState_eq _ _ layout.startOut layout.startIn
    intro e he hne2
    have hr := shape.range e he
    exact layout.targets e.1.state hr.1 hr.2.1 hne2
  -- the whole run
  have hrun : importNDFA (writeOutputNDFA N) = some (.ok (N.transitions.foldl
      (fun a entry => (a.addState entry.1.state).addState entry.2)
      { initialState := N.initialState, finalStates := N.finalStates, alphabet := N.alphabet,
        transitions := N.transitions, allStates := [] })) := by
    unfold importNDFA
    simp only [IStream.onText]
    rw [htext] at hrows ⊢
    simp only [hget, hext, hign, halpha, Nat.cast_zero] at hrows ⊢
    rw [hrows]
    simp only [hstart]
  refine ⟨_, hrun, ?_⟩
  have hf := addTransitionStates_fold N.transitions
    { initialState := N.initialState, finalStates := N.finalStates, alphabet := N.alphabet,
      transitions := N.transitions, allStates := [] }
  refine ⟨hf.2.2.2, hf.2.2.1, hf.2.1, hf.1, ?_⟩
  intro x
  rw [mem_addTransitionStates_fold, layout.statesMem]
  simp only [List.not_mem_nil, false_or]
  constructor
  · rintro ⟨e, he, h | h⟩
    · have := shape.range e he; omega
    · have := shape.range e he; omega
  · rintro ⟨h1, h2⟩
    by_cases hx : x = N.initialState
    · obtain ⟨e, he, hes⟩ := layout.startOut
      exact ⟨e, he, Or.inl (by rw [hx, hes])⟩
    · obtain ⟨e, he, hes⟩ := layout.targets x h1 h2 hx
      exact ⟨e, he, Or.inr hes.symm⟩

/-- C22: for an alphabet of letters and digits and a well-formed syntax tree over it,
`importNDFA` applied to the text `writeOutputNDFA` writes for the NFA `N` that `REtoND`
returns gives an automaton with the alphabet of `N` (ε included), its accept state, its
start state and its transitions, the container being the same entry for entry; the
state lists hold the same states. -/
theorem importNDFA_writeOutputNDFA (regex : Regex)
    (hA : ∀ c ∈ regex.alphabet, isSymbol c = true) (t : AST)
    (ht : t.WellFormed regex.alphabet) :
    ∃ N M : NDFA, REtoND t regex = .ok N ∧
      importNDFA (writeOutputNDFA N) = some (.ok M) ∧
      M.alphabet = N.alphabet ∧ epsilon ∈ M.alphabet ∧ M.finalStates = N.finalStates ∧
      M.initialState = N.initialState ∧ M.transitions = N.transitions ∧
      ∀ x : Int, x ∈ M.allStates ↔ x ∈ N.allStates := by
  obtain ⟨N, n2, hN, shape, layout⟩ :=
    REtoND_layout regex (fun c hc => isSymbol_not_operator c (hA c hc)) t ht
  obtain ⟨M, hM, h1, h2, h3, h4, h5⟩ := importNDFA_of_layout regex.alphabet hA N n2 shape layout
  exact ⟨N, M, hN, hM, h1, by rw [h1]; exact layout.epsilonMem, h2, h3, h4, h5⟩

theorem importNDFA_writeOutputNDFA_witness :
    ∃ N M : NDFA, REtoND tree_union_ab ⟨['a', 'b'], []⟩ = .ok N ∧
      importNDFA (writeOutputNDFA N) = some (.ok M) ∧
      M.alphabet = N.alphabet ∧ epsilon ∈ M.alphabet ∧ M.finalStates = N.finalStates ∧
      M.initialState = N.initialState ∧ M.transitions = N.transitions ∧
      ∀ x : Int, x ∈ M.allStates ↔ x ∈ N.allStates :=
  importNDFA_writeOutputNDFA ⟨['a', 'b'], []⟩ (by decide) tree_union_ab
    (by simp [tree_union_ab, AST.WellFormed])

/-! ## The symbol table -/

theorem mapFind_mmInsert_ne (m : List (String × Option Value)) (k x : String)
    (v : Option Value) (h : x ≠ k) : mapFind (mmInsert (k, v) m) x = mapFind m x := by
  have hk : ¬ k = x := fun e => h e.symm
  induction m with
  | nil => simp [mmInsert, mapFind, hk]
  | cons e es ih =>
    unfold mmInsert
    unfold mapFind at ih ⊢
    split
    · simp only [List.find?_cons, hk, decide_False]
    · simp only [List.find?_cons]
      split
      · rfl
      · exact ih

theorem mapFind_mmInsert_self (m : List (String × Option Value)) (k : String)
    (v : Option Value) (h : mapFind m k = none) : mapFind (mmInsert (k, v) m) k = some v := by
  induction m with
  | nil => simp [mmInsert, mapFind]
  | cons e es ih =>
    unfold mapFind at h ih ⊢
    unfold mmInsert
    rw [List.find?_cons] at h
    by_cases he : e.1 = k
    · simp [he] at h
    · simp only [he, decide_False] at h
      split
      · simp only [List.find?_cons, decide_True, Option.map_some']
      · simp only [List.find?_cons, he, decide_False]
        exact ih h

theorem namedValuesAt_fst (m : List (String × Option Value)) (x : String) :
    (namedValuesAt m x).1 = (mapFind m x).join := by
  unfold namedValuesAt
  cases mapFind m x <;> rfl

/-- Reading `NamedValues[k]` changes no lookup. -/
theorem lookup_namedValuesAt (m : List (String × Option Value)) (k x : String) :
    (namedValuesAt (namedValuesAt m k).2 x).1 = (namedValuesAt m x).1 := by
  rw [namedValuesAt_fst, namedValuesAt_fst]
  unfold namedValuesAt
  cases hk : mapFind m k with
  | some A => rfl
  | none =>
    simp only
    by_cases hx : x = k
    · subst hx
      rw [mapFind_mmInsert_self m x none hk, hk]
      rfl
    · rw [mapFind_mmInsert_ne m k x none hx]

theorem mapFind_map_ne (m : List (String × Option Value)) (k x : String) (v : Option Value)
    (h : x ≠ k) :
    mapFind (m.map (fun e => if e.1 = k then (k, v) else e)) x = mapFind m x := by
  have hk : ¬ k = x := fun e => h e.symm
  unfold mapFind
  induction m with
  | nil => rfl
  | cons e es ih =>
    rw [List.map_cons, List.find?_cons, List.find?_cons]
    by_cases he : e.1 = k
    · have hex : ¬ e.1 = x := by rw [he]; exact hk
      simp only [he, if_true, hk, decide_False, hex]
      simp only [he] at hex
      exact ih
    · simp only [he, if_false]
      split
      · rfl
      · exact ih

theorem mapFind_map_self (m : List (String × Option Value)) (k : String) (v : Option Value)
    (h : mapFind m k ≠ none) :
    mapFind (m.map (fun e => if e.1 = k then (k, v) else e)) k = some v := by
  unfold mapFind at h ⊢
  induction m with
  | nil => simp at h
  | cons e es ih =>
    rw [List.map_cons, List.find?_cons]
    rw [List.find?_cons] at h
    by_cases he : e.1 = k
    · simp only [he, if_true, decide_True, Option.map_some']
    · simp only [he, if_false, decide_False] at h ⊢
      exact ih h

theorem mapFind_namedValuesAt (m : List (String × Option Value)) (k : String) :
    mapFind (namedValuesAt m k).2 k ≠ none := by
  unfold namedValuesAt
  cases hk : mapFind m k with
  | some A => simp [hk]
  | none =>
    simp only
    rw [mapFind_mmInsert_self m k none hk]
    simp

/-- The assignment `NamedValues[k] = v` sets the lookup of `k` and no other. -/
theorem lookup_namedValuesSet (m : List (String × Option Value)) (k x : String)
    (v : Option Value) :
    (namedValuesAt (namedValuesSet m k v) x).1 = if x = k then v else (namedValuesAt m x).1 := by
  unfold namedValuesSet
  by_cases hx : x = k
  · subst hx
    rw [if_pos rfl, namedValuesAt_fst, mapFind_map_self _ x v (mapFind_namedValuesAt m x)]
    rfl
  · rw [if_neg hx, ← lookup_namedValuesAt m k x, namedValuesAt_fst, namedValuesAt_fst,
      mapFind_map_ne _ k x v hx]

theorem Driver.lookup_at (drv : Driver) (k x : String) :
    Driver.lookup { drv with NamedValues := (namedValuesAt drv.NamedValues k).2 } x =
      drv.lookup x :=
  lookup_namedValuesAt drv.NamedValues k x

theorem Driver.lookup_set (drv : Driver) (k x : String) (v : Option Value) :
    Driver.lookup { drv with NamedValues := namedValuesSet drv.NamedValues k v } x =
      if x = k then v else drv.lookup x :=
  lookup_namedValuesSet drv.NamedValues k x v

/-! ## The module is not touched by the lowering of expressions and statements -/

@[simp] theorem module_emit (drv : Driver) (i : Instr) : (drv.emit i).2.module = drv.module := rfl

@[simp] theorem module_LogErrorV (drv : Driver) (Str : String) :
    (drv.LogErrorV Str).2.module = drv.module := rfl

@[simp] theorem module_createBlock (drv : Driver) (label : String) (parent : Option Nat) :
    (drv.createBlock label parent).2.module = drv.module := rfl

@[simp] theorem module_SetInsertPoint (drv : Driver) (BB : Nat) :
    (drv.SetInsertPoint BB).module = drv.module := rfl

@[simp] theorem module_insertBlockInto (drv : Driver) (function : Option Nat) (BB : Nat) :
    (drv.insertBlockInto function BB).module = drv.module := by
  cases function <;> rfl

@[simp] theorem module_CreateEntryBlockAlloca (drv : Driver) (function : Option Nat)
    (VarName : String) : (drv.CreateEntryBlockAlloca function VarName).2.module = drv.module :=
  rfl

@[simp] theorem module_NamedValues (drv : Driver) (m : List (String × Option Value)) :
    Driver.module { drv with NamedValues := m } = drv.module := rfl

@[simp] theorem module_cout (drv : Driver) (c : List String) :
    Driver.module { drv with cout := c } = drv.module := rfl

@[simp] theorem module_storeAssigned (drv : Driver) (Name : String) (Variable : Option Value)
    (boundval : Value) : (drv.storeAssigned Name Variable boundval).2.module = drv.module := by
  unfold Driver.storeAssigned
  cases Variable with
  | none => cases drv.getNamedGlobal Name <;> rfl
  | some V => rfl

@[simp] theorem module_restore (drv : Driver) (names : List String)
    (tmp : List (Option Value)) : (drv.restore names tmp).module = drv.module := rfl

theorem module_of_eq {α : Type} {f : Driver → α × Driver}
    (ih : ∀ drv, (f drv).2.module = drv.module) {drv : Driver} {a : α} {d : Driver}
    (h : f drv = (a, d)) : d.module = drv.module := by
  have := ih drv
  rw [h] at this
  exact this

mutual
theorem ExprAST_codegen_module : ∀ (e : ExprAST) (drv : Driver),
    (e.codegen drv).2.module = drv.module
  | .number _, drv => rfl
  | .variable Name, drv => by
    simp only [ExprAST.codegen]
    split
    · split <;> simp
    · simp
  | .binary Op LHS RHS, drv => by
    have ih1 := ExprAST_codegen_module LHS
    have ih2 := ExprAST_codegen_module RHS
    simp only [ExprAST.codegen]
    split
    · split
      · rename_i d h
        have := ih2 drv
        rw [h] at this
        exact this
      · rename_i R d h
        have := ih2 drv
        rw [h] at this
        simpa using this
    · have h1 := ih1 drv
      have h2 := ih2 (LHS.codegen drv).2
      split
      · split
        · simp [h1, h2]
        · simp [h1, h2]
      · simp [h1, h2]
  | .call Callee Args, drv => by
    have ih := ExprList_codegen_module Args
    simp only [ExprAST.codegen]
    split
    · simp
    · split
      · simp
      · split
        · rename_i d h
          have := ih [] drv
          rw [h] at this
          exact this
        · rename_i ArgsV d h
          have := ih [] drv
          rw [h] at this
          simpa using this
  | .ifExpr cond trueexp falseexp, drv => by
    have ih1 := ExprAST_codegen_module cond
    have ih2 := ExprAST_codegen_module trueexp
    have ih3 := ExprAST_codegen_module falseexp
    simp only [ExprAST.codegen]
    split
    · rename_i d h
      have := ih1 drv
      rw [h] at this
      exact this
    · rename_i CondV d h
      have h1 := ih1 drv
      rw [h] at h1
      split
      · rename_i d2 h2
        have := module_of_eq ih2 h2
        simpa [h1] using this
      · rename_i trueV d2 h2
        have h2' := module_of_eq ih2 h2
        split
        · rename_i d3 h3
          have := module_of_eq ih3 h3
          simpa [h1, h2'] using this
        · rename_i falseV d3 h3
          have := module_of_eq ih3 h3
          simp only [module_emit, module_SetInsertPoint, module_insertBlockInto] at this h2' ⊢
          simpa [h1, h2'] using this
  | .block Def Stmts, drv => by
    have ih1 := InitList_codegen_module Def
    have ih2 := StmtList_codegen_module Stmts
    simp only [ExprAST.codegen]
    split
    · rename_i d h
      have := ih1 [] drv
      rw [h] at this
      exact this
    · rename_i tmp d h
      have h1 := ih1 [] drv
      rw [h] at h1
      split
      · rename_i d2 h2
        have := ih2 none d
        rw [h2] at this
        simpa [h1] using this
      · rename_i bv d2 h2
        have := ih2 none d
        rw [h2] at this
        simpa [h1] using this
theorem ExprList_codegen_module : ∀ (l : ExprList) (ArgsV : List Value) (drv : Driver),
    (l.codegen ArgsV drv).2.module = drv.module
  | .nil, _, _ => rfl
  | .cons arg rest, ArgsV, drv => by
    have ih1 := ExprAST_codegen_module arg
    have ih2 := ExprList_codegen_module rest
    simp only [ExprList.codegen]
    split
    · rename_i d h
      have := ih1 drv
      rw [h] at this
      exact this
    · rename_i V d h
      have h1 := ih1 drv
      rw [h] at h1
      rw [ih2, h1]
theorem InitAST_codegen_module : ∀ (i : InitAST) (drv : Driver),
    (i.codegen drv).2.module = drv.module
  | .varBinding Name Val, drv => by
    have ih := ExprAST_codegen_module Val drv
    simp only [InitAST.codegen]
    simpa using ih
  | .varBindingDefault Name, drv => rfl
  | .assignment Name Val, drv => by
    have ih := ExprAST_codegen_module Val
    simp only [InitAST.codegen]
    split
    · rename_i d h
      have := module_of_eq ih h
      simpa using this
    · rename_i bv d h
      have := module_of_eq ih h
      simpa using this
theorem InitList_codegen_module : ∀ (l : InitList) (tmp : List (Option Value)) (drv : Driver),
    (l.codegen tmp drv).2.module = drv.module
  | .nil, _, _ => rfl
  | .cons def_ rest, tmp, drv => by
    have ih1 := InitAST_codegen_module def_
    have ih2 := InitList_codegen_module rest
    simp only [InitList.codegen]
    split
    · rename_i d h
      have := ih1 drv
      rw [h] at this
      exact this
    · rename_i bv d h
      have h1 := ih1 drv
      rw [h] at h1
      rw [ih2]
      simpa using h1
theorem StmtAST_codegen_module : ∀ (s : StmtAST) (drv : Driver),
    (s.codegen drv).2.module = drv.module
  | .expr e, drv => by
    simp only [StmtAST.codegen]
    exact ExprAST_codegen_module e drv
  | .init i, drv => by
    simp only [StmtAST.codegen]
    exact InitAST_codegen_module i drv
  | .ifStmt cond trueblock falseblock, drv => by
    have ih1 := ExprAST_codegen_module cond
    have ih2 := StmtAST_codegen_module trueblock
    have ih3 := StmtAST_codegen_module falseblock
    simp only [StmtAST.codegen]
    split
    · rename_i d h
      have := ih1 drv
      rw [h] at this
      exact this
    · rename_i CondV d h
      have h1 := ih1 drv
      rw [h] at h1
      split
      · rename_i d2 h2
        have := module_of_eq ih2 h2
        simpa [h1] using this
      · rename_i trueV d2 h2
        have h2' := module_of_eq ih2 h2
        split
        · rename_i d3 h3
          have := module_of_eq ih3 h3
          simpa [h1, h2'] using this
        · rename_i falseV d3 h3
          have := module_of_eq ih3 h3
          simp only [module_emit, module_SetInsertPoint, module_insertBlockInto] at this h2' ⊢
          simpa [h1, h2'] using this
  | .ifStmtNoElse cond trueblock, drv => by
    have ih1 := ExprAST_codegen_module cond
    have ih2 := StmtAST_codegen_module trueblock
    simp only [StmtAST.codegen]
    split
    · rename_i d h
      have := ih1 drv
      rw [h] at this
      exact this
    · rename_i CondV d h
      have h1 := ih1 drv
      rw [h] at h1
      split
      · rename_i d2 h2
        have := module_of_eq ih2 h2
        simpa [h1] using this
      · rename_i trueV d2 h2
        have h2' := module_of_eq ih2 h2
        simp only [module_emit, module_SetInsertPoint, module_insertBlockInto] at h2' ⊢
        simpa [h1] using h2'
  | .forStmt init cond stepName stepVal body, drv => by
    have ih1 := InitAST_codegen_module init
    have ih2 := ExprAST_codegen_module cond
    have ih3 := StmtAST_codegen_module body
    have ih4 := ExprAST_codegen_module stepVal
    simp only [StmtAST.codegen]
    split
    · rename_i d h
      have := module_of_eq ih1 h
      simpa using this
    · rename_i initVal d h
      have h1 := module_of_eq ih1 h
      simp only [module_emit, module_SetInsertPoint, module_createBlock] at h1
      split
      · rename_i d2 h2
        have := module_of_eq ih2 h2
        split at this <;> simpa [h1] using this
      · rename_i condVal d2 h2
        have h2' := module_of_eq ih2 h2
        have h2'' : d2.module = drv.module := by
          split at h2' <;> simpa [h1] using h2'
        split
        · rename_i d3 h3
          have := module_of_eq ih3 h3
          simpa [h2''] using this
        · rename_i bodyVal d3 h3
          have h3' := module_of_eq ih3 h3
          simp only [module_emit, module_SetInsertPoint] at h3'
          split
          · rename_i d4 h4
            have := module_of_eq ih4 h4
            simpa [h2'', h3'] using this
          · rename_i bv d4 h4
            have h4' := module_of_eq ih4 h4
            simp only [module_NamedValues] at h4'
            split
            · rename_i d5 h5
              have := module_storeAssigned d4 stepName
                (namedValuesAt d3.NamedValues stepName).1 bv
              rw [h5] at this
              rw [this, h4', h3', h2'']
            · rename_i sv d5 h5
              have := module_storeAssigned d4 stepName
                (namedValuesAt d3.NamedValues stepName).1 bv
              rw [h5] at this
              split <;> simp [this, h4', h3', h2'']
theorem StmtList_codegen_module : ∀ (l : StmtList) (blockvalue : Option Value) (drv : Driver),
    (l.codegen blockvalue drv).2.module = drv.module
  | .nil, _, _ => rfl
  | .cons stmt rest, bv, drv => by
    have ih1 := StmtAST_codegen_module stmt
    have ih2 := StmtList_codegen_module rest
    simp only [StmtList.codegen]
    split
    · rename_i d h
      have := ih1 drv
      rw [h] at this
      exact this
    · rename_i V d h
      have h1 := ih1 drv
      rw [h] at h1
      rw [ih2, h1]
end

/-! ## Function definitions -/

theorem module_bindArgs (function : Nat) : ∀ (Args : List String) (Idx : Nat) (drv : Driver),
    (bindArgs function Args Idx drv).module = drv.module
  | [], _, _ => rfl
  | Arg :: rest, Idx, drv => by
    simp only [bindArgs]
    rw [module_bindArgs function rest]
    rfl

theorem prologue_fst (f : FunctionAST) (drv : Driver) :
    (f.prologue drv).1 = drv.functionCount := rfl

theorem prologue_module (f : FunctionAST) (drv : Driver) :
    (f.prologue drv).2.module =
      (drv.functions ++
        [{ id := drv.functionCount, Name := f.Proto.Name, Args := f.Proto.Args,
           renamed := drv.nameTaken f.Proto.Name }],
        drv.functionCount + 1, drv.globals, drv.verified) := by
  unfold FunctionAST.prologue
  simp only [module_bindArgs, module_SetInsertPoint, module_createBlock]
  rfl

theorem body_module (f : FunctionAST) (drv : Driver) :
    (f.Body.codegen (f.prologue drv).2).2.module =
      (drv.functions ++
        [{ id := drv.functionCount, Name := f.Proto.Name, Args := f.Proto.Args,
           renamed := drv.nameTaken f.Proto.Name }],
        drv.functionCount + 1, drv.globals, drv.verified) := by
  rw [ExprAST_codegen_module, prologue_module]

theorem module_eq_iff (d : Driver) (F : List Function) (n : Nat) (G : List GlobalVariable)
    (V : List (Nat × Bool)) :
    d.module = (F, n, G, V) ↔
      d.functions = F ∧ d.functionCount = n ∧ d.globals = G ∧ d.verified = V := by
  simp only [Driver.module, Prod.mk.injEq]

theorem FunctionAST_codegen_functionCount (verifyFunction : Driver → Nat → Bool)
    (f : FunctionAST) (drv : Driver) (h : drv.getFunction f.Proto.Name = none) :
    (f.codegen verifyFunction drv).2.functionCount = drv.functionCount + 1 := by
  have hb := (module_eq_iff _ _ _ _ _).mp (body_module f drv)
  unfold FunctionAST.codegen
  rw [h]
  simp only
  split
  · rename_i RetVal drv2 h2
    rw [h2] at hb
    exact hb.2.1
  · rename_i drv2 h2
    rw [h2] at hb
    exact hb.2.1

theorem getFunction_prototype (proto : PrototypeAST) (drv : Driver)
    (h : drv.nameTaken proto.Name = false) :
    (proto.codegen drv).2.getFunction proto.Name ≠ none := by
  intro hn
  unfold Driver.getFunction PrototypeAST.codegen at hn
  simp only [h] at hn
  rw [List.find?_eq_none] at hn
  have := hn { id := drv.functionCount, Name := proto.Name, Args := proto.Args, renamed := false }
    (by simp)
  simp at this

/-- Counterexample to C26 as stated: after the prototype `extern f(x)` has declared `f`
and nothing has defined it, the definition `def f(x) x` is rejected: the result is null
and the state stays as the prototype left it. -/
theorem FunctionAST_codegen_declared_rejected :
    (prototype_f.codegen Driver.initial).2.code = [] ∧
    function_f_x.codegen verifier_accepts (prototype_f.codegen Driver.initial).2 =
      (none, (prototype_f.codegen Driver.initial).2) := by
  exact ⟨rfl, rfl⟩

/-- C26 (amended): `FunctionAST::codegen` rejects a function, returning null and leaving
the state as it was, if and only if the module already holds a function of the same name,
declared or defined; a name that an earlier Prototype declared cannot be defined. -/
theorem FunctionAST_codegen_rejects_iff (verifyFunction : Driver → Nat → Bool)
    (f : FunctionAST) (drv : Driver) :
    (f.codegen verifyFunction drv = (none, drv) ↔ drv.getFunction f.Proto.Name ≠ none) ∧
    (∀ (proto : PrototypeAST) (d0 : Driver), proto.Name = f.Proto.Name →
      d0.nameTaken proto.Name = false →
      f.codegen verifyFunction (proto.codegen d0).2 = (none, (proto.codegen d0).2)) := by
  have hrej : ∀ d : Driver, d.getFunction f.Proto.Name ≠ none →
      f.codegen verifyFunction d = (none, d) := by
    intro d hd
    unfold FunctionAST.codegen
    cases hF : d.getFunction f.Proto.Name with
    | none => exact absurd hF hd
    | some F => rfl
  refine ⟨⟨?_, hrej drv⟩, ?_⟩
  · intro h hn
    have := FunctionAST_codegen_functionCount verifyFunction f drv hn
    rw [h] at this
    simp at this
  · intro proto d0 hname htaken
    apply hrej
    rw [← hname]
    exact getFunction_prototype proto d0 htaken

/-- Counterexample to C27 as stated: with a verifier that reports the function `def f(y) y`
as broken, `FunctionAST::codegen` still returns the function and leaves it in the
module. -/
theorem FunctionAST_codegen_verifier_ignored :
    (function_f_y.codegen verifier_rejects Driver.initial).2.verified = [(0, true)] ∧
    (function_f_y.codegen verifier_rejects Driver.initial).1 = some 0 ∧
    (function_f_y.codegen verifier_rejects Driver.initial).2.getFunction "f" =
      some { id := 0, Name := "f", Args := ["y"], renamed := false } := by
  exact ⟨rfl, rfl, rfl⟩

/-- C27 (amended): for every Function whose name is free and whose body lowers to a value,
`FunctionAST::codegen` runs the structural verifier on the emitted function once and,
whatever the verifier reports, returns the function and leaves it in the module. -/
theorem FunctionAST_codegen_verifier (verifyFunction : Driver → Nat → Bool)
    (f : FunctionAST) (drv : Driver) (RetVal : Value)
    (hname : drv.getFunction f.Proto.Name = none)
    (hbody : (f.Body.codegen (f.prologue drv).2).1 = some RetVal) :
    (f.codegen verifyFunction drv).1 = some drv.functionCount ∧
    (f.codegen verifyFunction drv).2.functions =
      drv.functions ++
        [{ id := drv.functionCount, Name := f.Proto.Name, Args := f.Proto.Args,
           renamed := drv.nameTaken f.Proto.Name }] ∧
    ∃ d : Driver, (f.codegen verifyFunction drv).2.verified =
      drv.verified ++ [(drv.functionCount, verifyFunction d drv.functionCount)] := by
  have hb := (module_eq_iff _ _ _ _ _).mp (body_module f drv)
  unfold FunctionAST.codegen
  rw [hname]
  simp only
  split
  · rename_i v drv2 h2
    rw [h2] at hb
    refine ⟨rfl, hb.1, (drv2.emit (.ret v)).2, ?_⟩
    simp only [prologue_fst]
    rw [hb.2.2.2]
  · rename_i drv2 h2
    rw [h2] at hbody
    cases hbody

theorem FunctionAST_codegen_verifier_witness :
    (function_f_y.codegen verifier_rejects Driver.initial).1 = some 0 ∧
    (function_f_y.codegen verifier_rejects Driver.initial).2.functions =
      [{ id := 0, Name := "f", Args := ["y"], renamed := false }] ∧
    ∃ d : Driver, (function_f_y.codegen verifier_rejects Driver.initial).2.verified =
      [(0, verifier_rejects d 0)] :=
  FunctionAST_codegen_verifier verifier_rejects function_f_y Driver.initial (.instruction 2)
    rfl rfl

/-- The defect behind C29: for the declaration `var x = y` with `y` undefined, the
initial value lowers to null, yet `VarBindingsAST::codegen` emits a store of the missing
value into the new slot and returns the slot, whereas the assignment `x = y` returns null
and emits nothing. In the same way the block `{ var x = { var x = 1; h() }; 1 }` lowers
to a value although the initial value of its declaration lowers to null. -/
theorem VarBindingsAST_codegen_null :
    ((ExprAST.variable "y").codegen state_in_main).1 = none ∧
    ((InitAST.varBinding "x" (.variable "y")).codegen state_in_main).1 =
      some (.instruction 0) ∧
    ((InitAST.varBinding "x" (.variable "y")).codegen state_in_main).2.code =
      [(.entry (some 0), .alloca "x"), (.block (some 0), .store none (.instruction 0))] ∧
    ((InitAST.assignment "x" (.variable "y")).codegen state_in_main).1 = none ∧
    ((InitAST.assignment "x" (.variable "y")).codegen state_in_main).2.code = [] ∧
    (block_x_then_call.codegen state_in_main).1 = none ∧
    (block_nested_null.codegen state_in_main).1 = some (.constant 1) := by
  exact ⟨rfl, rfl, rfl, rfl, rfl, rfl, rfl⟩

theorem ExprList.size_eq : ∀ (l : ExprList), l.size = l.toList.length
  | .nil => rfl
  | .cons _ rest => by
    simp only [ExprList.size, ExprList.toList, List.length_cons, ExprList.size_eq rest]

theorem ExprList.codegen_eq : ∀ (l : ExprList) (ArgsV : List Value) (drv : Driver),
    l.codegen ArgsV drv =
      ((lowerInOrder l.toList drv).1.map (fun Vs => ArgsV ++ Vs), (lowerInOrder l.toList drv).2)
  | .nil, ArgsV, drv => by
    simp [ExprList.codegen, ExprList.toList, lowerInOrder]
  | .cons arg rest, ArgsV, drv => by
    simp only [ExprList.codegen, ExprList.toList, lowerInOrder]
    cases h : arg.codegen drv with
    | mk r d =>
      cases r with
      | none => rfl
      | some V =>
        simp only
        rw [ExprList.codegen_eq rest]
        cases h2 : lowerInOrder rest.toList d with
        | mk r2 d2 =>
          cases r2 with
          | none => rfl
          | some Vs => simp

/-- C28: `CallExprAST::codegen` reports "undefined function" when the module has no
function of the callee's name, and "incorrect number of arguments" when the number of
arguments differs from the number of parameters of the callee; in both cases the result
is null and nothing but the message is added to the state, so no argument has been
lowered. Otherwise the arguments are lowered from left to right; the result is null,
with the state reached there, at the first argument that lowers to null; when all
arguments lower to values, one call of the callee with these values in order is emitted
and is the result. -/
theorem CallExprAST_codegen_spec (Callee : String) (Args : ExprList) (drv : Driver) :
    (drv.getFunction Callee = none →
      (ExprAST.call Callee Args).codegen drv =
        (none, { drv with cerr := drv.cerr ++ [.message "undefined function"] })) ∧
    (∀ CalleeF : Function, drv.getFunction Callee = some CalleeF →
      CalleeF.Args.length ≠ Args.toList.length →
      (ExprAST.call Callee Args).codegen drv =
        (none, { drv with cerr := drv.cerr ++ [.message "incorrect number of arguments"] })) ∧
    (∀ CalleeF : Function, drv.getFunction Callee = some CalleeF →
      CalleeF.Args.length = Args.toList.length →
      (∀ d : Driver, lowerInOrder Args.toList drv = (none, d) →
        (ExprAST.call Callee Args).codegen drv = (none, d)) ∧
      (∀ (ArgsV : List Value) (d : Driver), lowerInOrder Args.toList drv = (some ArgsV, d) →
        (ExprAST.call Callee Args).codegen drv =
          (some (.instruction d.code.length),
            { d with code := d.code ++ [(.block d.insertBlock, .call CalleeF.id ArgsV)] }))) := by
  refine ⟨?_, ?_, ?_⟩
  · intro h
    simp only [ExprAST.codegen, h]
    rfl
  · intro CalleeF h hne
    simp only [ExprAST.codegen, h, ExprList.size_eq]
    rw [if_pos hne]
    rfl
  · intro CalleeF h heq
    refine ⟨?_, ?_⟩
    · intro d hd
      simp only [ExprAST.codegen, h, ExprList.size_eq, ExprList.codegen_eq, hd]
      rw [if_neg (not_not.mpr heq)]
      rfl
    · intro ArgsV d hd
      simp only [ExprAST.codegen, h, ExprList.size_eq, ExprList.codegen_eq, hd]
      rw [if_neg (not_not.mpr heq)]
      rfl

/-! ## Expressions of numbers, references and operators -/

theorem getNamedGlobal_congr (d drv : Driver) (h : d.module = drv.module) (y : String) :
    d.getNamedGlobal y = drv.getNamedGlobal y := by
  have hg : d.globals = drv.globals := congrArg (fun m => m.2.2.1) h
  unfold Driver.getNamedGlobal
  rw [hg]

theorem Pure_keepsLookups {e : ExprAST} (h : e.Pure) : KeepsLookups e.codegen := by
  induction h with
  | number Val => intro drv x; rfl
  | reference Name =>
    intro drv x
    simp only [ExprAST.codegen]
    split
    · split
      · exact Driver.lookup_at drv Name x
      · exact Driver.lookup_at drv Name x
    · exact Driver.lookup_at drv Name x
  | binary Op LHS RHS _ _ ihL ihR =>
    intro drv x
    simp only [ExprAST.codegen]
    split
    · cases hR : RHS.codegen drv with
      | mk Rv d =>
        have := ihR drv x
        rw [hR] at this
        cases Rv <;> exact this
    · cases hL : LHS.codegen drv with
      | mk Lv d1 =>
        cases hR : RHS.codegen d1 with
        | mk Rv d2 =>
          have h1 := ihL drv x
          rw [hL] at h1
          have h2 := ihR d1 x
          rw [hR] at h2
          have h12 : d2.lookup x = drv.lookup x := h2.trans h1
          simp only
          cases Lv with
          | none => exact h12
          | some L =>
            cases Rv with
            | none => exact h12
            | some R =>
              simp only
              split <;> exact h12

theorem lookup_bindArgs (function : Nat) (x : String) : ∀ (Args : List String) (Idx : Nat)
    (drv : Driver), x ∉ Args → (bindArgs function Args Idx drv).lookup x = drv.lookup x
  | [], _, _, _ => rfl
  | Arg :: rest, Idx, drv, hx => by
    simp only [bindArgs]
    rw [lookup_bindArgs function x rest _ _ (fun h => hx (List.mem_cons_of_mem _ h))]
    have hne : x ≠ Arg := fun h => hx (h ▸ List.mem_cons_self _ _)
    have := Driver.lookup_set ((drv.CreateEntryBlockAlloca (some function) Arg).2.emit
      (.store (some (.argument function Idx))
        (drv.CreateEntryBlockAlloca (some function) Arg).1)).2 Arg x
      (some (drv.CreateEntryBlockAlloca (some function) Arg).1)
    rw [if_neg hne] at this
    exact this

theorem lookup_prologue (f : FunctionAST) (drv : Driver) (x : String) (hx : x ∉ f.Proto.Args) :
    (f.prologue drv).2.lookup x = drv.lookup x := by
  unfold FunctionAST.prologue
  simp only
  rw [lookup_bindArgs _ x _ _ _ hx]
  rfl

theorem mem_move (N : NDFA) (Q : List Int) (a : Char) (t : Int) :
    t ∈ move N Q a ↔ ∃ p ∈ Q, ((⟨p, a⟩, t) : Key Int × Int) ∈ N.transitions := by
  unfold move
  rw [mem_setInsertRange]
  simp only [List.not_mem_nil, false_or, List.mem_flatMap, List.mem_map]
  constructor
  · rintro ⟨p, hp, e, he, rfl⟩
    rw [mem_equalRange] at he
    refine ⟨p, hp, ?_⟩
    have : e = (⟨p, a⟩, e.2) := by rw [← he.2]
    rw [← this]
    exact he.1
  · rintro ⟨p, hp, h⟩
    exact ⟨p, hp, _, (mem_equalRange _ _ _).mpr ⟨h, rfl⟩, rfl⟩

theorem move_sorted (N : NDFA) (Q : List Int) (a : Char) : (move N Q a).Sorted (· < ·) :=
  setInsertRange_sorted _ [] List.sorted_nil

/-- The subset the loop of `NDtoD` computes is the ε-closure of `move(Q, a)`. -/
theorem subsetStep_eq_move (N : NDFA) (Q : List Int) (a : Char) :
    subsetStep N Q a = epsilonClosure N (move N Q a) := by
  apply sorted_eq_of_toFinset_eq
  · exact epsilonClosure_sorted N _ (nextStateSet_sorted N Q a)
  · exact epsilonClosure_sorted N _ (move_sorted N Q a)
  · ext x
    simp only [List.mem_toFinset]
    rw [mem_subsetStep, mem_epsilonClosure]
    constructor
    · rintro ⟨p, hp, t, ht, hr⟩
      exact ⟨t, (mem_move N Q a t).mpr ⟨p, hp, ht⟩, hr⟩
    · rintro ⟨t, ht, hr⟩
      obtain ⟨p, hp, h⟩ := (mem_move N Q a t).mp ht
      exact ⟨p, hp, t, h, hr⟩

/-- A set of states that is closed under ε-transitions is its own ε-closure. -/
theorem epsilonClosure_of_closed (N : NDFA) (Q : List Int) (hs : Q.Sorted (· < ·))
    (hc : ∀ x ∈ Q, ∀ y, EpsStep N.transitions x y → y ∈ Q) : epsilonClosure N Q = Q := by
  apply sorted_eq_of_toFinset_eq _ _ (epsilonClosure_sorted N Q hs) hs
  ext x
  simp only [List.mem_toFinset]
  rw [mem_epsilonClosure]
  constructor
  · rintro ⟨s, hsQ, hr⟩
    induction hr with
    | refl => exact hsQ
    | tail _ hstep ih => exact hc _ ih _ hstep
  · intro hx
    exact ⟨x, hx, Relation.ReflTransGen.refl⟩

theorem getIndexForState_listed (D : DFA) (R : List Int) (hR : R ∈ D.allStates) :
    ∃ n : Nat, n < D.allStates.length ∧ D.allStates[n]? = some R ∧
      getIndexForState D R = (n : Int) := by
  obtain ⟨n, hn, hget, hidx⟩ := getIndexForStateFrom_mem R D.allStates 0 hR
  refine ⟨n, hn, ?_, ?_⟩
  · rw [List.getD_eq_getElem?_getD] at hget
    rw [List.getElem?_eq_getElem hn] at hget ⊢
    simpa using hget
  · unfold getIndexForState
    rw [hidx]
    omega

/-- C39: every subset in the state list of `NDtoD(N)` is non-empty and is its own
ε-closure; the source and the target of every transition of the DFA are in the state
list, and `getIndexForState` returns for the target a position of the state list, at
which the target stands, never -1. -/
theorem NDtoD_states_closed (N : NDFA) :
    (∀ Q ∈ (NDtoD N).allStates, Q ≠ [] ∧ epsilonClosure N Q = Q) ∧
    (∀ e ∈ (NDtoD N).transitions,
      e.1.state ∈ (NDtoD N).allStates ∧ e.2 ∈ (NDtoD N).allStates ∧
      ∃ n : Nat, n < (NDtoD N).allStates.length ∧ (NDtoD N).allStates[n]? = some e.2 ∧
        getIndexForState (NDtoD N) e.2 = (n : Int)) := by
  have hinv := (NDtoD_inv N).2
  refine ⟨?_, ?_⟩
  · intro Q hQ
    have hg := hinv.good Q hQ
    exact ⟨hg.nonempty, epsilonClosure_of_closed N Q hg.sorted hg.closed⟩
  · intro e he
    have ht := hinv.trans e he
    exact ⟨ht.2.2.2.1, ht.2.2.2.2, getIndexForState_listed (NDtoD N) e.2 ht.2.2.2.2⟩

/-- The entry of the transition map of `NDtoD(N)` for a listed subset and a symbol of
the alphabet other than ε. -/
theorem NDtoD_mapFind (N : NDFA) (Q : List Int) (a : Char) (hQ : Q ∈ (NDtoD N).allStates)
    (ha : a ∈ N.alphabet) (hne : a ≠ epsilon) :
    (subsetStep N Q a ≠ [] → mapFind (NDtoD N).transitions ⟨Q, a⟩ = some (subsetStep N Q a)) ∧
    (subsetStep N Q a = [] → mapFind (NDtoD N).transitions ⟨Q, a⟩ = none) := by
  have hinv := (NDtoD_inv N).2
  have hkeys : ((NDtoD N).transitions.map Prod.fst).Nodup := hinv.keys
  refine ⟨?_, ?_⟩
  · intro hstep
    have hP : Q ∈ (NDtoD N).allStates ∧
        a ∈ N.alphabet.filter (fun c => decide (c ≠ epsilon)) :=
      ⟨hQ, List.mem_filter.mpr ⟨ha, by simpa using hne⟩⟩
    obtain ⟨R, hR⟩ := hinv.complete Q a hP hstep
    have hR2 := (hinv.trans _ hR).1
    simp only at hR2
    rw [mapFind_eq_some _ _ _ hkeys, ← hR2]
    exact hR
  · intro hstep
    rw [mapFind_eq_none]
    intro v hv
    have ht := hinv.trans _ hv
    simp only at ht
    exact ht.2.1 (ht.1.trans hstep)

/-- C31: for a subset `Q` in the state list of `NDtoD(N)` and a symbol `a` of the
alphabet other than ε, the transition map sends `(Q, a)` to the ε-closure of
`move(Q, a)` when that set is not empty and has no entry for `(Q, a)` when it is empty;
`move(Q, a)` holds the targets of the transitions on `a` that leave a state of `Q`. -/
theorem NDtoD_transition_spec (N : NDFA) (Q : List Int) (a : Char)
    (hQ : Q ∈ (NDtoD N).allStates) (ha : a ∈ N.alphabet) (hne : a ≠ epsilon) :
    (∀ t : Int, t ∈ move N Q a ↔ ∃ p ∈ Q, ((⟨p, a⟩, t) : Key Int × Int) ∈ N.transitions) ∧
    (epsilonClosure N (move N Q a) ≠ [] →
      mapFind (NDtoD N).transitions ⟨Q, a⟩ = some (epsilonClosure N (move N Q a))) ∧
    (epsilonClosure N (move N Q a) = [] →
      mapFind (NDtoD N).transitions ⟨Q, a⟩ = none) := by
  have h := NDtoD_mapFind N Q a hQ ha hne
  rw [subsetStep_eq_move] at h
  exact ⟨mem_move N Q a, h.1, h.2⟩

theorem NDtoD_transition_spec_witness :
    (∀ t : Int, t ∈ move nfa_ab [0] 'a' ↔
      ∃ p ∈ [0], ((⟨p, 'a'⟩, t) : Key Int × Int) ∈ nfa_ab.transitions) ∧
    (epsilonClosure nfa_ab (move nfa_ab [0] 'a') ≠ [] →
      mapFind (NDtoD nfa_ab).transitions ⟨[0], 'a'⟩ =
        some (epsilonClosure nfa_ab (move nfa_ab [0] 'a'))) ∧
    (epsilonClosure nfa_ab (move nfa_ab [0] 'a') = [] →
      mapFind (NDtoD nfa_ab).transitions ⟨[0], 'a'⟩ = none) :=
  NDtoD_transition_spec nfa_ab [0] 'a' (by rw [NDtoD_nfa_ab]; decide) (by decide) (by decide)

/-! ## Termination and discovery order of the subset construction -/

/-- More iterations than the loop of `epsilonClosure` needs change nothing. -/
theorem epsilonClosureLoop_fuel (T : NTransitions) : ∀ (fuel : Nat)
    (closure stateQueue : List Int), (epsilonClosureLoop T fuel closure stateQueue).2 = [] →
    ∀ k : Nat, epsilonClosureLoop T (fuel + k) closure stateQueue =
      epsilonClosureLoop T fuel closure stateQueue := by
  intro fuel
  induction fuel with
  | zero =>
    intro closure stateQueue h k
    simp only [epsilonClosureLoop] at h
    subst h
    cases k <;> simp [epsilonClosureLoop]
  | succ fuel ih =>
    intro closure stateQueue h k
    rw [Nat.add_right_comm]
    cases stateQueue with
    | nil => simp [epsilonClosureLoop]
    | cons current rest =>
      simp only [epsilonClosureLoop] at h ⊢
      exact ih _ _ h k

/-- More iterations than the worklist loop of `NDtoD` needs change nothing. -/
theorem NDtoDLoop_fuel (N : NDFA) (A : List Char) : ∀ (fuel : Nat) (w : Worklist),
    (NDtoDLoop N A fuel w).stateQueue = [] →
    ∀ k : Nat, NDtoDLoop N A (fuel + k) w = NDtoDLoop N A fuel w := by
  intro fuel
  induction fuel with
  | zero =>
    intro w h k
    simp only [NDtoDLoop] at h
    cases k with
    | zero => rfl
    | succ k => simp [NDtoDLoop, h]
  | succ fuel ih =>
    intro w h k
    rw [Nat.add_right_comm]
    unfold NDtoDLoop at h ⊢
    cases hq : w.stateQueue with
    | nil => rfl
    | cons Q rest =>
      rw [hq] at h
      simp only at h ⊢
      exact ih _ h k

/-- The subsets taken from the queue are, in this order, the state list. -/
theorem NDtoDPopped_eq (N : NDFA) (A : List Char) : ∀ (fuel : Nat) (pre : List (List Int))
    (w : Worklist), WorklistInv N A pre (fun Q a => Q ∈ pre ∧ a ∈ A) w →
    NDtoDFuel N ≤ fuel + pre.length →
      pre ++ NDtoDPopped N A fuel w = (NDtoDLoop N A fuel w).DFA.allStates := by
  intro fuel
  induction fuel with
  | zero =>
    intro pre w h hfuel
    simp only [NDtoDLoop, NDtoDPopped, List.append_nil]
    have hlen := h.length_le
    have hst := h.states
    have hq : w.stateQueue = [] := by
      apply List.length_eq_zero.mp
      have := congrArg List.length hst
      simp only [List.length_append] at this
      omega
    rw [hst, hq, List.append_nil]
  | succ fuel ih =>
    intro pre w h hfuel
    unfold NDtoDLoop NDtoDPopped
    cases hq : w.stateQueue with
    | nil =>
      simp only
      rw [h.states, hq]
    | cons Q rest =>
      simp only
      have hst : w.DFA.allStates = (pre ++ [Q]) ++ rest := by
        rw [h.states, hq]; simp
      have hQ : Q ∈ w.DFA.allStates := by rw [hst]; simp
      have h0 : WorklistInv N A (pre ++ [Q]) (fun Q2 a => Q2 ∈ pre ∧ a ∈ A)
          { w with stateQueue := rest } :=
        { states := hst, visited := h.visited, nodup := h.nodup, good := h.good,
          initial := h.initial, initialMem := h.initialMem, trans := h.trans,
          keys := h.keys, complete := h.complete }
      have h1 := NDtoDSymbols_inv N A (pre ++ [Q]) Q A _ _ h0 (fun a ha => ha) hQ
      have h2 : WorklistInv N A (pre ++ [Q]) (fun Q2 a => Q2 ∈ pre ++ [Q] ∧ a ∈ A)
          (A.foldl (NDtoDSymbol N Q) { w with stateQueue := rest }) :=
        h1.weaken (by
          intro Q2 a2 ⟨hq2, ha2⟩
          rcases List.mem_append.mp hq2 with hq2 | hq2
          · exact Or.inl ⟨hq2, ha2⟩
          · exact Or.inr ⟨by simpa using hq2, ha2⟩)
      have := ih _ _ h2 (by simp only [List.length_append, List.length_singleton]; omega)
      rw [← this]
      simp

theorem DiscoveryOrder_mono {T T2 : DTransitions} {L : List (List Int)}
    (h : DiscoveryOrder T L) (hT : ∀ e ∈ T, e ∈ T2) : DiscoveryOrder T2 L := by
  intro j R hj hR
  obtain ⟨i, Q, a, hi, hQ, he⟩ := h j R hj hR
  exact ⟨i, Q, a, hi, hQ, hT _ he⟩

theorem NDtoDSymbol_discovery (N : NDFA) (A : List Char) (pre : List (List Int))
    (P : List Int → Char → Prop) (Q : List Int) (w : Worklist) (a : Char)
    (hinv : WorklistInv N A pre P w) (hQ : Q ∈ w.DFA.allStates)
    (h : DiscoveryOrder w.transitions w.DFA.allStates) :
    DiscoveryOrder (NDtoDSymbol N Q w a).transitions (NDtoDSymbol N Q w a).DFA.allStates := by
  have hmono : ∀ e ∈ w.transitions,
      e ∈ mapEmplace (⟨Q, a⟩, subsetStep N Q a) w.transitions :=
    fun e he => (mem_mapEmplace _ e _).mpr (Or.inl he)
  rw [NDtoDSymbol_eq]
  by_cases h1 : subsetStep N Q a ≠ []
  · rw [if_pos h1]
    by_cases h2 : subsetStep N Q a ∉ w.visitedStates
    · rw [if_pos h2]
      simp only
      have hnot : subsetStep N Q a ∉ w.DFA.allStates :=
        fun hm => h2 ((hinv.visited _).mpr hm)
      have hall : (w.DFA.addState (subsetStep N Q a)).allStates =
          w.DFA.allStates ++ [subsetStep N Q a] := by
        unfold Automaton.addState
        rw [if_neg hnot]
      rw [hall]
      intro j R hj hR
      by_cases hlt : j < w.DFA.allStates.length
      · rw [List.getElem?_append_left hlt] at hR
        obtain ⟨i, Q2, a2, hi, hQ2, he⟩ := h j R hj hR
        refine ⟨i, Q2, a2, hi, ?_, hmono _ he⟩
        rw [List.getElem?_append_left (by omega)]
        exact hQ2
      · have hge : w.DFA.allStates.length ≤ j := by omega
        rw [List.getElem?_append_right hge] at hR
        have hR2 : R = subsetStep N Q a := by
          cases hk : j - w.DFA.allStates.length with
          | zero => rw [hk] at hR; simpa using hR.symm
          | succ k => rw [hk] at hR; simp at hR
        obtain ⟨i, hi, hget⟩ := List.getElem_of_mem hQ
        refine ⟨i, Q, a, by omega, ?_, ?_⟩
        · rw [List.getElem?_append_left hi, List.getElem?_eq_getElem hi, hget]
        · obtain ⟨v, hv⟩ := mapEmplace_key
            ((⟨Q, a⟩, subsetStep N Q a) : Key (List Int) × List Int) w.transitions
          have hveq : v = subsetStep N Q a := by
            rcases (mem_mapEmplace _ _ _).mp hv with hin | ⟨heq, _⟩
            · exact (hinv.trans _ hin).1
            · exact congrArg Prod.snd heq
          rw [hR2]
          rw [hveq] at hv
          exact hv
    · rw [if_neg h2]
      exact DiscoveryOrder_mono h hmono
  · rw [if_neg h1]
    exact h

theorem NDtoDSymbols_discovery (N : NDFA) (A : List Char) (pre : List (List Int))
    (Q : List Int) (l : List Char) : ∀ (P : List Int → Char → Prop) (w : Worklist),
    WorklistInv N A pre P w → (∀ a ∈ l, a ∈ A) → Q ∈ w.DFA.allStates →
    DiscoveryOrder w.transitions w.DFA.allStates →
      DiscoveryOrder (l.foldl (NDtoDSymbol N Q) w).transitions
        (l.foldl (NDtoDSymbol N Q) w).DFA.allStates := by
  induction l with
  | nil => intro P w _ _ _ h; exact h
  | cons a as ih =>
    intro P w hinv hA hQ h
    rw [List.foldl_cons]
    exact ih _ _ (NDtoDSymbol_inv N A pre P Q w a hinv (hA a (List.mem_cons_self _ _)) hQ)
      (fun b hb => hA b (List.mem_cons_of_mem _ hb))
      (NDtoDSymbol_allStates_mono N Q w a Q hQ)
      (NDtoDSymbol_discovery N A pre P Q w a hinv hQ h)

theorem NDtoDLoop_discovery (N : NDFA) (A : List Char) : ∀ (fuel : Nat)
    (pre : List (List Int)) (w : Worklist),
    WorklistInv N A pre (fun Q a => Q ∈ pre ∧ a ∈ A) w →
    DiscoveryOrder w.transitions w.DFA.allStates →
      DiscoveryOrder (NDtoDLoop N A fuel w).transitions
        (NDtoDLoop N A fuel w).DFA.allStates := by
  intro fuel
  induction fuel with
  | zero => intro pre w _ h; exact h
  | succ fuel ih =>
    intro pre w h hd
    unfold NDtoDLoop
    cases hq : w.stateQueue with
    | nil => exact hd
    | cons Q rest =>
      simp only
      have hst : w.DFA.allStates = (pre ++ [Q]) ++ rest := by
        rw [h.states, hq]; simp
      have hQ : Q ∈ w.DFA.allStates := by rw [hst]; simp
      have h0 : WorklistInv N A (pre ++ [Q]) (fun Q2 a => Q2 ∈ pre ∧ a ∈ A)
          { w with stateQueue := rest } :=
        { states := hst, visited := h.visited, nodup := h.nodup, good := h.good,
          initial := h.initial, initialMem := h.initialMem, trans := h.trans,
          keys := h.keys, complete := h.complete }
      have h1 := NDtoDSymbols_inv N A (pre ++ [Q]) Q A _ _ h0 (fun a ha => ha) hQ
      have h2 : WorklistInv N A (pre ++ [Q]) (fun Q2 a => Q2 ∈ pre ++ [Q] ∧ a ∈ A)
          (A.foldl (NDtoDSymbol N Q) { w with stateQueue := rest }) :=
        h1.weaken (by
          intro Q2 a2 ⟨hq2, ha2⟩
          rcases List.mem_append.mp hq2 with hq2 | hq2
          · exact Or.inl ⟨hq2, ha2⟩
          · exact Or.inr ⟨by simpa using hq2, ha2⟩)
      exact ih _ _ h2
        (NDtoDSymbols_discovery N A (pre ++ [Q]) Q A _ _ h0 (fun a ha => ha) hQ hd)

theorem NDtoD_discovery (N : NDFA) :
    DiscoveryOrder (NDtoD N).transitions (NDtoD N).allStates := by
  apply NDtoDLoop_discovery N _ (NDtoDFuel N) [] (NDtoDInit N) (NDtoDInit_inv N _)
  intro j R hj hR
  have hall : (NDtoDInit N).DFA.allStates =
      [epsilonClosure N (setInsert N.initialState [])] := by
    simp [NDtoDInit, Automaton.addState]
  rw [hall] at hR
  cases j with
  | zero => omega
  | succ j => simp at hR

theorem getIndexForState_position (D : DFA) (hnd : D.allStates.Nodup) (n : Nat)
    (Q : List Int) (h : D.allStates[n]? = some Q) : getIndexForState D Q = (n : Int) := by
  obtain ⟨hn, hget⟩ := List.getElem?_eq_some.mp h
  obtain ⟨m, hm, hmget, hidx⟩ :=
    getIndexForState_listed D Q (by rw [← hget]; exact List.getElem_mem _)
  obtain ⟨_, hmget2⟩ := List.getElem?_eq_some.mp hmget
  have : m = n := (List.Nodup.getElem_inj_iff hnd).mp (hmget2.trans hget.symm)
  rw [hidx, this]

/-- C35: the loop of `epsilonClosure` stops with an empty queue within the iterations
the model grants it, for every NFA and every set of states, also with ε-cycles, and more
iterations change nothing; the worklist loop of `NDtoD` stops with an empty queue within
`NDtoDFuel` iterations and more iterations change nothing; the subsets it takes from the
queue are the state list of the DFA, in which no subset stands twice. -/
theorem NDtoD_terminates (N : NDFA) :
    (∀ S : List Int,
      (epsilonClosureLoop N.transitions (S.length + N.transitions.length) S S).2 = [] ∧
      ∀ k : Nat, epsilonClosureLoop N.transitions (S.length + N.transitions.length + k) S S =
        epsilonClosureLoop N.transitions (S.length + N.transitions.length) S S) ∧
    ((NDtoDLoop N (N.alphabet.filter (fun c => decide (c ≠ epsilon))) (NDtoDFuel N)
        (NDtoDInit N)).stateQueue = [] ∧
      ∀ k : Nat, NDtoDLoop N (N.alphabet.filter (fun c => decide (c ≠ epsilon)))
          (NDtoDFuel N + k) (NDtoDInit N) =
        NDtoDLoop N (N.alphabet.filter (fun c => decide (c ≠ epsilon))) (NDtoDFuel N)
          (NDtoDInit N)) ∧
    NDtoDPopped N (N.alphabet.filter (fun c => decide (c ≠ epsilon))) (NDtoDFuel N)
      (NDtoDInit N) = (NDtoD N).allStates ∧
    (NDtoD N).allStates.Nodup ∧
    epsilonClosure nfa_eps_cycle [0] = [0, 1] := by
  have hinv := NDtoD_inv N
  refine ⟨?_, ⟨hinv.1, NDtoDLoop_fuel N _ _ _ hinv.1⟩, ?_, hinv.2.nodup, by rfl⟩
  · intro S
    have h := (epsilonClosure_loop N S).1
    exact ⟨h, epsilonClosureLoop_fuel N.transitions _ S S h⟩
  · have := NDtoDPopped_eq N (N.alphabet.filter (fun c => decide (c ≠ epsilon)))
      (NDtoDFuel N) [] (NDtoDInit N) (NDtoDInit_inv N _) (by simp)
    rw [List.nil_append] at this
    exact this

/-- C34: the state list of `NDtoD(N)` starts with the ε-closure of the start state of
`N`, which is the start state of the DFA; no subset stands twice in it; every subset
after the first is the target of a transition of the DFA whose source stands earlier in
the list; the index `getIndexForState` gives a listed subset is its position, and it is
the same for every run on the same NFA, `NDtoD` being a function. -/
theorem NDtoD_discovery_order (N : NDFA) :
    (NDtoD N).allStates[0]? = some (epsilonClosure N (setInsert N.initialState [])) ∧
    (NDtoD N).initialState = epsilonClosure N (setInsert N.initialState []) ∧
    (NDtoD N).allStates.Nodup ∧
    (∀ (j : Nat) (R : List Int), 0 < j → (NDtoD N).allStates[j]? = some R →
      ∃ (i : Nat) (Q : List Int) (a : Char), i < j ∧ (NDtoD N).allStates[i]? = some Q ∧
        mapFind (NDtoD N).transitions ⟨Q, a⟩ = some R) ∧
    (∀ (n : Nat) (Q : List Int), (NDtoD N).allStates[n]? = some Q →
      getIndexForState (NDtoD N) Q = (n : Int)) ∧
    (∀ N2 : NDFA, N2 = N → ∀ Q : List Int,
      getIndexForState (NDtoD N2) Q = getIndexForState (NDtoD N) Q) := by
  have hinv := (NDtoD_inv N).2
  have hinit : (NDtoD N).initialState = epsilonClosure N (setInsert N.initialState []) :=
    hinv.initial
  have hkeys : ((NDtoD N).transitions.map Prod.fst).Nodup := hinv.keys
  have hnd : (NDtoD N).allStates.Nodup := hinv.nodup
  refine ⟨?_, hinit, hnd, ?_, getIndexForState_position (NDtoD N) hnd, ?_⟩
  · have := NDtoD_head N
    rw [hinit] at this
    rw [← this, List.head?_eq_getElem?]
  · intro j R hj hR
    obtain ⟨i, Q, a, hi, hQ, he⟩ := NDtoD_discovery N j R hj hR
    exact ⟨i, Q, a, hi, hQ, (mapFind_eq_some _ _ _ hkeys).mpr he⟩
  · intro N2 h Q
    rw [h]

/-! ## The states of the Thompson NFA -/

theorem AST.leaves_node (c : Char) (l r : AST) (h : l ≠ .null) :
    (AST.node c l r).leaves = l.leaves + r.leaves := by
  cases l with
  | null => exact absurd rfl h
  | node _ _ _ => simp [AST.leaves]

theorem AST.operatorNodes_node (op c : Char) (l r : AST) (h : l ≠ .null) :
    (AST.node c l r).operatorNodes op =
      (if c = op then 1 else 0) + l.operatorNodes op + r.operatorNodes op := by
  cases l with
  | null => exact absurd rfl h
  | node _ _ _ => simp [AST.operatorNodes]

theorem AST.thompsonStates_leaf (c : Char) : (AST.node c .null .null).thompsonStates = 2 := rfl

theorem AST.thompsonStates_star (l : AST) (h : l ≠ .null) :
    (AST.node '*' l .null).thompsonStates = l.thompsonStates + 2 := by
  unfold AST.thompsonStates
  rw [AST.leaves_node _ _ _ h, AST.operatorNodes_node _ _ _ _ h,
    AST.operatorNodes_node _ _ _ _ h]
  simp [AST.leaves, AST.operatorNodes]
  omega

theorem AST.thompsonStates_concatenation (l r : AST) (h : l ≠ .null) :
    (AST.node '.' l r).thompsonStates = l.thompsonStates + r.thompsonStates := by
  unfold AST.thompsonStates
  rw [AST.leaves_node _ _ _ h, AST.operatorNodes_node _ _ _ _ h,
    AST.operatorNodes_node _ _ _ _ h]
  simp
  omega

theorem AST.thompsonStates_union (l r : AST) (h : l ≠ .null) :
    (AST.node '|' l r).thompsonStates = l.thompsonStates + r.thompsonStates + 2 := by
  unfold AST.thompsonStates
  rw [AST.leaves_node _ _ _ h, AST.operatorNodes_node _ _ _ _ h,
    AST.operatorNodes_node _ _ _ _ h]
  simp
  omega

theorem ne_null_of_states (l : AST) (n n1 : Int) (hlt : n < n1)
    (h : n1 - n = (l.thompsonStates : Int)) : l ≠ .null := by
  intro hl
  subst hl
  simp [AST.thompsonStates, AST.leaves, AST.operatorNodes] at h
  omega

/-- The NFA `REtoND` returns for a well-formed tree has the Thompson layout and as many
states as the tree asks for. -/
theorem REtoND_layout_states (regex : Regex) (hA : ∀ c ∈ regex.alphabet, c ∉ operators)
    (t : AST) (ht : t.WellFormed regex.alphabet) :
    ∃ (N : NDFA) (n2 : Int), REtoND t regex = .ok N ∧ ThompsonShape N 0 n2 ∧
      ThompsonLayout regex.alphabet N 0 n2 ∧ n2 = (t.thompsonStates : Int) := by
  obtain ⟨N, n2, hN, hshape, hl, hc⟩ := REtoND_ind regex hA
    (fun t S lo hi => ThompsonLayout regex.alphabet S lo hi ∧
      hi - lo = (t.thompsonStates : Int))
    (fun c n S hc hS => ⟨ThompsonLayout_symbol _ c n S hc hS, by
      rw [AST.thompsonStates_leaf]; push_cast; omega⟩)
    (fun l S1 S n n1 hshape hq hS => ⟨ThompsonLayout_star _ S1 S n n1 hshape hq.1 hS, by
      have hne := ne_null_of_states l n n1 (by have := hshape.start; omega) hq.2
      rw [AST.thompsonStates_star l hne]
      have := hq.2
      push_cast
      omega⟩)
    (fun l r S1 S2 S n n1 n2 h1 h2 q1 q2 hS =>
      ⟨ThompsonLayout_concatenation _ S1 S2 S n n1 n2 h1 h2 q1.1 q2.1 hS, by
        have hne := ne_null_of_states l n n1 (by have := h1.start; omega) q1.2
        rw [AST.thompsonStates_concatenation l r hne]
        have := q1.2
        have := q2.2
        push_cast
        omega⟩)
    (fun l r S1 S2 S n n1 n2 h1 h2 q1 q2 hS =>
      ⟨ThompsonLayout_union _ S1 S2 S n n1 n2 h1 h2 q1.1 q2.1 hS, by
        have hne := ne_null_of_states l n n1 (by have := h1.start; omega) q1.2
        rw [AST.thompsonStates_union l r hne]
        have := q1.2
        have := q2.2
        push_cast
        omega⟩)
    t ht
  exact ⟨N, n2, hN, hshape, hl, by omega⟩

/-- C38: for an alphabet without `*`, `.`, `|` and a well-formed tree `t` over it, the
state list of `REtoND(t)` holds exactly the integers `0 .. n - 1`, each once, where `n`
is twice the number of leaves, `*` nodes and `|` nodes of `t`; hence `countAllStates()`
is `n` and the loop of `writeOutputNDFA` over `0 .. countAllStates() - 1` runs over
exactly the states. -/
theorem REtoND_states (regex : Regex) (hA : ∀ c ∈ regex.alphabet, c ∉ operators)
    (t : AST) (ht : t.WellFormed regex.alphabet) :
    ∃ N : NDFA, REtoND t regex = .ok N ∧
      (∀ x : Int, x ∈ N.allStates ↔
        0 ≤ x ∧ x < 2 * ((t.leaves : Int) + t.operatorNodes '*' + t.operatorNodes '|')) ∧
      N.allStates.Nodup ∧
      N.countAllStates = 2 * ((t.leaves : Int) + t.operatorNodes '*' + t.operatorNodes '|') ∧
      (∀ x : Int, x ∈ N.allStates ↔ ∃ i ∈ List.range N.allStates.length, (i : Int) = x) := by
  obtain ⟨N, n2, hN, hshape, hl, hn⟩ := REtoND_layout_states regex hA t ht
  have hcount : (t.thompsonStates : Int) =
      2 * ((t.leaves : Int) + t.operatorNodes '*' + t.operatorNodes '|') := by
    unfold AST.thompsonStates
    push_cast
    ring
  have hmem : ∀ x : Int, x ∈ N.allStates ↔ 0 ≤ x ∧ x < n2 := hl.statesMem
  have hlen : (N.allStates.length : Int) = n2 := by
    rw [length_of_interval N.allStates n2 hl.statesNodup hmem]
    have := hshape.start
    omega
  refine ⟨N, hN, ?_, hl.statesNodup, ?_, ?_⟩
  · intro x
    rw [hmem, hn, hcount]
  · unfold Automaton.countAllStates
    rw [hlen, hn, hcount]
  · intro x
    rw [hmem]
    simp only [List.mem_range]
    constructor
    · rintro ⟨h0, h1⟩
      exact ⟨x.toNat, by omega, by omega⟩
    · rintro ⟨i, hi, rfl⟩
      omega

theorem REtoND_states_witness :
    ∃ N : NDFA, REtoND tree_union_ab ⟨['a', 'b'], []⟩ = .ok N ∧
      (∀ x : Int, x ∈ N.allStates ↔
        0 ≤ x ∧ x < 2 * ((tree_union_ab.leaves : Int) + tree_union_ab.operatorNodes '*' +
          tree_union_ab.operatorNodes '|')) ∧
      N.allStates.Nodup ∧
      N.countAllStates = 2 * ((tree_union_ab.leaves : Int) +
        tree_union_ab.operatorNodes '*' + tree_union_ab.operatorNodes '|') ∧
      (∀ x : Int, x ∈ N.allStates ↔ ∃ i ∈ List.range N.allStates.length, (i : Int) = x) :=
  REtoND_states ⟨['a', 'b'], []⟩ (by decide) tree_union_ab
    (by simp [tree_union_ab, AST.WellFormed])

/-- C36: for an alphabet without `*`, `.`, `|` and a well-formed tree `t` over it,
`findStartState` applied to the transitions of `REtoND(t)` returns the start state of
that NFA; the start state is the only state that is the target of no transition, and no
transition leaves the accept state. -/
theorem findStartState_REtoND (regex : Regex) (hA : ∀ c ∈ regex.alphabet, c ∉ operators)
    (t : AST) (ht : t.WellFormed regex.alphabet) :
    ∃ N : NDFA, REtoND t regex = .ok N ∧
      findStartState N.transitions = N.initialState ∧
      N.initialState ∈ N.allStates ∧
      (∀ x ∈ N.allStates, (∀ e ∈ N.transitions, e.2 ≠ x) ↔ x = N.initialState) ∧
      (∀ e ∈ N.transitions, e.1.state ≠ N.finalStates) := by
  obtain ⟨N, n2, hN, hshape, hl⟩ := REtoND_layout regex hA t ht
  refine ⟨N, hN, ?_, ?_, ?_, hshape.finalOut⟩
  · apply findStartState_eq N.transitions N.initialState hl.startOut hl.startIn
    intro e he hne
    have hr := hshape.range e he
    exact hl.targets e.1.state hr.1 hr.2.1 hne
  · exact (hl.statesMem _).mpr hshape.start
  · intro x hx
    have hr := (hl.statesMem x).mp hx
    constructor
    · intro h
      by_contra hne
      obtain ⟨e, he, hex⟩ := hl.targets x hr.1 hr.2 hne
      exact h e he hex
    · rintro rfl
      exact hl.startIn

theorem findStartState_REtoND_witness :
    ∃ N : NDFA, REtoND tree_star_a ⟨['a'], []⟩ = .ok N ∧
      findStartState N.transitions = N.initialState ∧
      N.initialState ∈ N.allStates ∧
      (∀ x ∈ N.allStates, (∀ e ∈ N.transitions, e.2 ≠ x) ↔ x = N.initialState) ∧
      (∀ e ∈ N.transitions, e.1.state ≠ N.finalStates) :=
  findStartState_REtoND ⟨['a'], []⟩ (by decide) tree_star_a
    (by simp [tree_star_a, AST.WellFormed])

/-! ## The tree the parser returns -/

theorem REview_unary (c : Char) (l : AST) (h : l ≠ .null) :
    (AST.node c l .null).REview = c :: '(' :: (l.REview ++ [')']) := by
  cases l with
  | null => exact absurd rfl h
  | node _ _ _ => simp [AST.REview]

theorem REview_binary (c : Char) (l r : AST) (hl : l ≠ .null) (hr : r ≠ .null) :
    (AST.node c l r).REview =
      c :: '(' :: (l.REview ++ (')' :: '(' :: (r.REview ++ [')']))) := by
  cases l with
  | null => exact absurd rfl hl
  | node _ _ _ =>
    cases r with
    | null => exact absurd rfl hr
    | node _ _ _ => simp [AST.REview]

theorem WellFormed_ne_null (A : List Char) (t : AST) (h : t.WellFormed A) : t ≠ .null := by
  intro ht
  subst ht
  exact h

/-- A well-formed tree is the tree of an expression of the grammar whose text is what
`REview` prints. -/
theorem WellFormed_expr (A : List Char) (t : AST) : t.WellFormed A →
    ∃ e : Expr, e.tree = t ∧ e.text = t.REview ∧ ∀ c ∈ e.symbols, c ∈ A := by
  induction t with
  | null => intro h; exact absurd h (by simp [AST.WellFormed])
  | node c l r ihl ihr =>
    intro h
    simp only [AST.WellFormed] at h
    rcases h with ⟨hc, hl, hr⟩ | ⟨hc, hl, hr⟩ | ⟨hc, hl, hr⟩
    · subst hl hr
      exact ⟨.sym c, rfl, rfl, by simp [Expr.symbols, hc]⟩
    · subst hc hr
      obtain ⟨e, he1, he2, he3⟩ := ihl hl
      refine ⟨.star e, by simp [Expr.tree, he1], ?_, he3⟩
      rw [REview_unary _ _ (WellFormed_ne_null A l hl)]
      simp [Expr.text, he2]
    · obtain ⟨e1, ha1, ha2, ha3⟩ := ihl hl
      obtain ⟨e2, hb1, hb2, hb3⟩ := ihr hr
      have hrev := REview_binary c l r (WellFormed_ne_null A l hl) (WellFormed_ne_null A r hr)
      rcases hc with hc | hc
      · subst hc
        refine ⟨.concat e1 e2, by simp [Expr.tree, ha1, hb1], ?_, ?_⟩
        · rw [hrev]
          simp [Expr.text, ha2, hb2]
        · intro x hx
          simp only [Expr.symbols, List.mem_append] at hx
          rcases hx with hx | hx
          · exact ha3 x hx
          · exact hb3 x hx
      · subst hc
        refine ⟨.union e1 e2, by simp [Expr.tree, ha1, hb1], ?_, ?_⟩
        · rw [hrev]
          simp [Expr.text, ha2, hb2]
        · intro x hx
          simp only [Expr.symbols, List.mem_append] at hx
          rcases hx with hx | hx
          · exact ha3 x hx
          · exact hb3 x hx

/-- C37: for an alphabet without `(` and `)` and a well-formed tree `t` over it,
`buildSyntaxTree` applied to the text `REview` prints for `t`, enclosed in one pair of
parentheses, returns `t`. -/
theorem buildSyntaxTree_REview (regex : Regex)
    (hA : '(' ∉ regex.alphabet ∧ ')' ∉ regex.alphabet) (t : AST)
    (ht : t.WellFormed regex.alphabet) :
    buildSyntaxTree regex ('(' :: (t.REview ++ [')'])) = .ok t := by
  obtain ⟨e, he1, he2, he3⟩ := WellFormed_expr regex.alphabet t ht
  rw [← he2, ← he1]
  apply buildSyntaxTree_text
  intro c hc
  refine ⟨he3 c hc, ?_, ?_⟩
  · rintro rfl
    exact hA.1 (he3 _ hc)
  · rintro rfl
    exact hA.2 (he3 _ hc)

theorem buildSyntaxTree_REview_witness :
    buildSyntaxTree ⟨['a', 'b'], []⟩ ('(' :: (tree_union_ab.REview ++ [')'])) =
      .ok tree_union_ab :=
  buildSyntaxTree_REview ⟨['a', 'b'], []⟩ (by decide) tree_union_ab
    (by simp [tree_union_ab, AST.WellFormed])

theorem buildSyntaxTreeFuel_wellFormed (regex : Regex) : ∀ (fuel : Nat) (s : List Char)
    (t : AST), buildSyntaxTreeFuel regex fuel s = .ok t → t.WellFormed regex.alphabet := by
  intro fuel
  induction fuel with
  | zero => intro s t h; simp [buildSyntaxTreeFuel] at h
  | succ fuel ih =>
    intro s t h
    simp only [buildSyntaxTreeFuel, buildSyntaxTreeBody] at h
    split at h
    · split at h
      · cases h
      · split at h
        · cases h
        · rename_i hc
          injection h with h
          subst h
          simp only [AST.WellFormed]
          exact Or.inl ⟨not_not.mp hc, trivial, trivial⟩
    · split at h
      · cases h
      · rename_i op _
        split at h
        · cases h
        · rename_i hop
          have hop2 : op ∈ operators := not_not.mp hop
          split at h
          · cases h
          · split at h
            · cases h
            · split at h
              · rename_i hstar
                split at h
                · cases h
                · rename_i leftTree hl
                  injection h with h
                  subst h
                  simp only [AST.WellFormed]
                  exact Or.inr (Or.inl ⟨hstar, ih _ _ hl, trivial⟩)
              · rename_i hstar
                split at h
                · cases h
                · split at h
                  · cases h
                  · split at h
                    · cases h
                    · rename_i leftTree hl
                      split at h
                      · cases h
                      · rename_i rightTree hr
                        injection h with h
                        subst h
                        simp only [AST.WellFormed]
                        refine Or.inr (Or.inr ⟨?_, ih _ _ hl, ih _ _ hr⟩)
                        simp only [operators, List.mem_cons, List.mem_singleton,
                          List.not_mem_nil, or_false] at hop2
                        rcases hop2 with h1 | h1 | h1
                        · exact absurd h1 hstar
                        · exact Or.inl h1
                        · exact Or.inr h1

theorem postorder_length (t : AST) : t.postorder.length = t.size := by
  induction t with
  | null => rfl
  | node c l r ihl ihr =>
    simp only [AST.postorder, AST.size, List.length_append, List.length_singleton, ihl, ihr]
    omega

theorem REtoND_of_loop (regex : Regex) (t : AST) (ht : t ≠ .null) (N : NDFA) (n : Int)
    (h : REtoNDLoop regex.alphabet t.postorder ([], 0) = .ok ([N], n)) :
    REtoND t regex = .ok N := by
  unfold REtoND
  rw [if_neg ht, visitingASTforAutoma_eq t ht]
  simp only [h]

/-- C33: for an alphabet without `*`, `.`, `|` and a tree `buildSyntaxTree` returns over
it, the tree is well formed and `REtoND` returns an NFA and no error: its loop over the
post-order of the tree ends with exactly one NFA on the working stack, which is the
result, so no operator found too few NFAs on the stack and no call of `addTransition`
threw. -/
theorem REtoND_no_error (regex : Regex) (hA : ∀ c ∈ regex.alphabet, c ∉ operators)
    (s : List Char) (t : AST) (h : buildSyntaxTree regex s = .ok t) :
    t.WellFormed regex.alphabet ∧
    ∃ (N : NDFA) (n : Int), visitingASTforAutoma t = .ok t.postorder ∧
      REtoNDLoop regex.alphabet t.postorder ([], 0) = .ok ([N], n) ∧
      REtoND t regex = .ok N ∧ ∀ e : Error, REtoND t regex ≠ .error e := by
  have hwf := buildSyntaxTreeFuel_wellFormed regex _ s t h
  have hne := WellFormed_ne_null _ t hwf
  obtain ⟨S, n2, _, _, hloop⟩ := REtoNDLoop_tree regex.alphabet hA t hwf 0
  have hl : REtoNDLoop regex.alphabet t.postorder ([], 0) = .ok ([S], n2) := by
    have := hloop [] []
    rw [List.append_nil] at this
    rw [this]
    rfl
  have hN := REtoND_of_loop regex t hne S n2 hl
  refine ⟨hwf, S, n2, visitingASTforAutoma_eq t hne, hl, hN, ?_⟩
  intro e he
  rw [hN] at he
  cases he

theorem REtoND_no_error_witness :
    (AST.node '.' (.node 'a' .null .null) (.node 'b' .null .null)).WellFormed
      regex_ab_wrapped.alphabet ∧
    ∃ (N : NDFA) (n : Int),
      visitingASTforAutoma (.node '.' (.node 'a' .null .null) (.node 'b' .null .null)) =
        .ok (AST.node '.' (.node 'a' .null .null) (.node 'b' .null .null)).postorder ∧
      REtoNDLoop regex_ab_wrapped.alphabet
        (AST.node '.' (.node 'a' .null .null) (.node 'b' .null .null)).postorder ([], 0) =
        .ok ([N], n) ∧
      REtoND (.node '.' (.node 'a' .null .null) (.node 'b' .null .null)) regex_ab_wrapped =
        .ok N ∧
      ∀ e : Error,
        REtoND (.node '.' (.node 'a' .null .null) (.node 'b' .null .null)) regex_ab_wrapped ≠
          .error e :=
  REtoND_no_error regex_ab_wrapped (by decide) regex_ab_wrapped.expression
    (.node '.' (.node 'a' .null .null) (.node 'b' .null .null)) rfl

/-- C32: for a non-null tree the stack `visitingASTforAutoma` returns, read from its
top, is the post-order of the tree: every node once, the left subtree before the right
subtree before the node. Hence, over an alphabet without operator characters, when the
loop of `REtoND` reaches a node `.` or `|` with well-formed operands, the top of the
stack is the NFA the loop has built for the right operand and the one beneath it is the
NFA it has built for the left operand, on top of what the stack held before. -/
theorem visitingASTforAutoma_postorder (t : AST) (ht : t ≠ .null) :
    visitingASTforAutoma t = .ok t.postorder ∧ t.postorder.length = t.size ∧
    (∀ (c : Char) (l r : AST),
      (AST.node c l r).postorder = l.postorder ++ (r.postorder ++ [.node c l r])) ∧
    (∀ (alphabet : List Char), (∀ c ∈ alphabet, c ∉ operators) →
      ∀ (op : Char) (l r : AST), op = '.' ∨ op = '|' →
      l.WellFormed alphabet → r.WellFormed alphabet →
      ∀ (n : Int) (stack : List NDFA) (rest : List AST),
      ∃ (Sl Sr : NDFA) (n1 n2 : Int),
        REtoNDLoop alphabet l.postorder ([], n) = .ok ([Sl], n1) ∧
        REtoNDLoop alphabet r.postorder ([], n1) = .ok ([Sr], n2) ∧
        (∀ w, NfaPath Sl.transitions Sl.initialState w Sl.finalStates ↔ w ∈ l.language) ∧
        (∀ w, NfaPath Sr.transitions Sr.initialState w Sr.finalStates ↔ w ∈ r.language) ∧
        REtoNDLoop alphabet ((AST.node op l r).postorder ++ rest) (stack, n) =
          match REtoNDStep alphabet op (Sr :: Sl :: stack, n2) with
          | .error e => .error e
          | .ok st => REtoNDLoop alphabet rest st) := by
  refine ⟨visitingASTforAutoma_eq t ht, postorder_length t, fun _ _ _ => rfl, ?_⟩
  intro alphabet hA op l r _ hl hr n stack rest
  obtain ⟨Sl, n1, _, hlang1, hloop1⟩ := REtoNDLoop_tree alphabet hA l hl n
  obtain ⟨Sr, n2, _, hlang2, hloop2⟩ := REtoNDLoop_tree alphabet hA r hr n1
  refine ⟨Sl, Sr, n1, n2, ?_, ?_, hlang1, hlang2, ?_⟩
  · have := hloop1 [] []
    rw [List.append_nil] at this
    rw [this]
    rfl
  · have := hloop2 [] []
    rw [List.append_nil] at this
    rw [this]
    rfl
  · simp only [AST.postorder, List.append_assoc]
    rw [hloop1, hloop2]
    exact REtoNDLoop_append_single alphabet (.node op l r) rest _

theorem visitingASTforAutoma_postorder_witness :
    visitingASTforAutoma tree_union_ab = .ok tree_union_ab.postorder ∧
    tree_union_ab.postorder.length = tree_union_ab.size ∧
    (∀ (c : Char) (l r : AST),
      (AST.node c l r).postorder = l.postorder ++ (r.postorder ++ [.node c l r])) ∧
    (∀ (alphabet : List Char), (∀ c ∈ alphabet, c ∉ operators) →
      ∀ (op : Char) (l r : AST), op = '.' ∨ op = '|' →
      l.WellFormed alphabet → r.WellFormed alphabet →
      ∀ (n : Int) (stack : List NDFA) (rest : List AST),
      ∃ (Sl Sr : NDFA) (n1 n2 : Int),
        REtoNDLoop alphabet l.postorder ([], n) = .ok ([Sl], n1) ∧
        REtoNDLoop alphabet r.postorder ([], n1) = .ok ([Sr], n2) ∧
        (∀ w, NfaPath Sl.transitions Sl.initialState w Sl.finalStates ↔ w ∈ l.language) ∧
        (∀ w, NfaPath Sr.transitions Sr.initialState w Sr.finalStates ↔ w ∈ r.language) ∧
        REtoNDLoop alphabet ((AST.node op l r).postorder ++ rest) (stack, n) =
          match REtoNDStep alphabet op (Sr :: Sl :: stack, n2) with
          | .error e => .error e
          | .ok st => REtoNDLoop alphabet rest st) :=
  visitingASTforAutoma_postorder tree_union_ab (by decide)

/-! ## The recorded builder calls and the log only grow -/

theorem Driver.Grows.grows_refl (d : Driver) : d.Grows d := ⟨fun _ h => h, fun _ h => h⟩

theorem Driver.Grows.grows_trans {a b c : Driver} (h1 : a.Grows b) (h2 : b.Grows c) : a.Grows c :=
  ⟨fun p hp => h2.1 p (h1.1 p hp), fun l hl => h2.2 l (h1.2 l hl)⟩

theorem grows_emit {a b : Driver} (i : Instr) (h : a.Grows b) : a.Grows (b.emit i).2 :=
  h.grows_trans ⟨fun _ hp => List.mem_append_left _ hp, fun _ hl => hl⟩

theorem grows_LogErrorV {a b : Driver} (Str : String) (h : a.Grows b) :
    a.Grows (b.LogErrorV Str).2 :=
  h.grows_trans ⟨fun _ hp => hp, fun _ hl => List.mem_append_left _ hl⟩

theorem grows_createBlock {a b : Driver} (label : String) (parent : Option Nat)
    (h : a.Grows b) : a.Grows (b.createBlock label parent).2 :=
  h.grows_trans ⟨fun _ hp => hp, fun _ hl => hl⟩

theorem grows_SetInsertPoint {a b : Driver} (BB : Nat) (h : a.Grows b) :
    a.Grows (b.SetInsertPoint BB) :=
  h.grows_trans ⟨fun _ hp => hp, fun _ hl => hl⟩

theorem grows_insertBlockInto {a b : Driver} (function : Option Nat) (BB : Nat)
    (h : a.Grows b) : a.Grows (b.insertBlockInto function BB) := by
  cases function with
  | none => exact h
  | some f => exact h.grows_trans ⟨fun _ hp => hp, fun _ hl => hl⟩

theorem grows_CreateEntryBlockAlloca {a b : Driver} (function : Option Nat) (VarName : String)
    (h : a.Grows b) : a.Grows (b.CreateEntryBlockAlloca function VarName).2 :=
  h.grows_trans ⟨fun _ hp => List.mem_append_left _ hp, fun _ hl => hl⟩

theorem grows_NamedValues {a b : Driver} (m : List (String × Option Value))
    (h : a.Grows b) : a.Grows { b with NamedValues := m } :=
  h.grows_trans ⟨fun _ hp => hp, fun _ hl => hl⟩

theorem grows_cout {a b : Driver} (c : List String) (h : a.Grows b) :
    a.Grows { b with cout := c } :=
  h.grows_trans ⟨fun _ hp => hp, fun _ hl => hl⟩

theorem grows_storeAssigned {a b : Driver} (Name : String) (Variable : Option Value)
    (boundval : Value) (h : a.Grows b) :
    a.Grows (b.storeAssigned Name Variable boundval).2 := by
  unfold Driver.storeAssigned
  cases Variable with
  | none =>
    cases b.getNamedGlobal Name with
    | none => exact h
    | some g => exact grows_emit _ h
  | some V => exact grows_emit _ h

theorem grows_restore {a b : Driver} (names : List String) (tmp : List (Option Value))
    (h : a.Grows b) : a.Grows (b.restore names tmp) :=
  h.grows_trans ⟨fun _ hp => hp, fun _ hl => hl⟩

theorem grows_of_eq {α : Type} {f : Driver → α × Driver}
    (ih : ∀ drv : Driver, drv.Grows (f drv).2) {drv : Driver} {a : α} {d : Driver}
    (h : f drv = (a, d)) : drv.Grows d := by
  have := ih drv
  rw [h] at this
  exact this

mutual
theorem ExprAST_codegen_grows : ∀ (e : ExprAST) (drv : Driver), drv.Grows (e.codegen drv).2
  | .number _, drv => Driver.Grows.grows_refl drv
  | .variable Name, drv => by
    simp only [ExprAST.codegen]
    split
    · split
      · exact grows_LogErrorV _ (grows_NamedValues _ (Driver.Grows.grows_refl drv))
      · exact grows_emit _ (grows_NamedValues _ (Driver.Grows.grows_refl drv))
    · exact grows_emit _ (grows_NamedValues _ (Driver.Grows.grows_refl drv))
  | .binary Op LHS RHS, drv => by
    have ih1 := ExprAST_codegen_grows LHS
    have ih2 := ExprAST_codegen_grows RHS
    simp only [ExprAST.codegen]
    split
    · split
      · rename_i d h
        exact grows_of_eq ih2 h
      · rename_i R d h
        exact grows_emit _ (grows_of_eq ih2 h)
    · have h12 : drv.Grows (RHS.codegen (LHS.codegen drv).2).2 := (ih1 drv).grows_trans (ih2 _)
      split
      · split
        · exact grows_emit _ h12
        · exact grows_LogErrorV _ (grows_cout _ h12)
      · exact h12
  | .call Callee Args, drv => by
    have ih := ExprList_codegen_grows Args
    simp only [ExprAST.codegen]
    split
    · exact grows_LogErrorV _ (Driver.Grows.grows_refl drv)
    · split
      · exact grows_LogErrorV _ (Driver.Grows.grows_refl drv)
      · split
        · rename_i d h
          have := ih [] drv
          rw [h] at this
          exact this
        · rename_i ArgsV d h
          have := ih [] drv
          rw [h] at this
          exact grows_emit _ this
  | .ifExpr cond trueexp falseexp, drv => by
    have ih1 := ExprAST_codegen_grows cond
    have ih2 := ExprAST_codegen_grows trueexp
    have ih3 := ExprAST_codegen_grows falseexp
    simp only [ExprAST.codegen]
    split
    · rename_i d h
      exact grows_of_eq ih1 h
    · rename_i CondV d h
      have g1 := grows_of_eq ih1 h
      split
      · rename_i d2 h2
        exact (grows_SetInsertPoint _ (grows_emit _ (grows_createBlock _ _
          (grows_createBlock _ _ (grows_createBlock _ _ g1))))).grows_trans (grows_of_eq ih2 h2)
      · rename_i trueV d2 h2
        have g2 := (grows_SetInsertPoint _ (grows_emit _ (grows_createBlock _ _
          (grows_createBlock _ _ (grows_createBlock _ _ g1))))).grows_trans (grows_of_eq ih2 h2)
        split
        · rename_i d3 h3
          exact (grows_SetInsertPoint _ (grows_insertBlockInto _ _ (grows_emit _ g2))).grows_trans
            (grows_of_eq ih3 h3)
        · rename_i falseV d3 h3
          have g3 := (grows_SetInsertPoint _ (grows_insertBlockInto _ _
            (grows_emit _ g2))).grows_trans (grows_of_eq ih3 h3)
          exact grows_emit _ (grows_SetInsertPoint _ (grows_insertBlockInto _ _
            (grows_emit _ g3)))
  | .block Def Stmts, drv => by
    have ih1 := InitList_codegen_grows Def
    have ih2 := StmtList_codegen_grows Stmts
    simp only [ExprAST.codegen]
    split
    · rename_i d h
      have := ih1 [] drv
      rw [h] at this
      exact this
    · rename_i tmp d h
      have g1 := ih1 [] drv
      rw [h] at g1
      split
      · rename_i d2 h2
        have := ih2 none d
        rw [h2] at this
        exact g1.grows_trans this
      · rename_i bv d2 h2
        have := ih2 none d
        rw [h2] at this
        exact grows_restore _ _ (g1.grows_trans this)
theorem ExprList_codegen_grows : ∀ (l : ExprList) (ArgsV : List Value) (drv : Driver),
    drv.Grows (l.codegen ArgsV drv).2
  | .nil, _, drv => Driver.Grows.grows_refl drv
  | .cons arg rest, ArgsV, drv => by
    have ih1 := ExprAST_codegen_grows arg
    have ih2 := ExprList_codegen_grows rest
    simp only [ExprList.codegen]
    split
    · rename_i d h
      exact grows_of_eq ih1 h
    · rename_i V d h
      exact (grows_of_eq ih1 h).grows_trans (ih2 _ _)
theorem InitAST_codegen_grows : ∀ (i : InitAST) (drv : Driver), drv.Grows (i.codegen drv).2
  | .varBinding Name Val, drv => by
    have ih := ExprAST_codegen_grows Val drv
    simp only [InitAST.codegen]
    exact grows_emit _ (grows_CreateEntryBlockAlloca _ _ ih)
  | .varBindingDefault Name, drv => by
    simp only [InitAST.codegen]
    exact grows_emit _ (grows_CreateEntryBlockAlloca _ _ (Driver.Grows.grows_refl drv))
  | .assignment Name Val, drv => by
    have ih := ExprAST_codegen_grows Val
    simp only [InitAST.codegen]
    split
    · rename_i d h
      exact (grows_NamedValues _ (Driver.Grows.grows_refl drv)).grows_trans (grows_of_eq ih h)
    · rename_i bv d h
      exact grows_storeAssigned _ _ _
        ((grows_NamedValues _ (Driver.Grows.grows_refl drv)).grows_trans (grows_of_eq ih h))
theorem InitList_codegen_grows : ∀ (l : InitList) (tmp : List (Option Value)) (drv : Driver),
    drv.Grows (l.codegen tmp drv).2
  | .nil, _, drv => Driver.Grows.grows_refl drv
  | .cons def_ rest, tmp, drv => by
    have ih1 := InitAST_codegen_grows def_
    have ih2 := InitList_codegen_grows rest
    simp only [InitList.codegen]
    split
    · rename_i d h
      exact grows_of_eq ih1 h
    · rename_i bv d h
      exact (grows_NamedValues _ (grows_of_eq ih1 h)).grows_trans (ih2 _ _)
theorem StmtAST_codegen_grows : ∀ (s : StmtAST) (drv : Driver), drv.Grows (s.codegen drv).2
  | .expr e, drv => by
    simp only [StmtAST.codegen]
    exact ExprAST_codegen_grows e drv
  | .init i, drv => by
    simp only [StmtAST.codegen]
    exact InitAST_codegen_grows i drv
  | .ifStmt cond trueblock falseblock, drv => by
    have ih1 := ExprAST_codegen_grows cond
    have ih2 := StmtAST_codegen_grows trueblock
    have ih3 := StmtAST_codegen_grows falseblock
    simp only [StmtAST.codegen]
    split
    · rename_i d h
      exact grows_of_eq ih1 h
    · rename_i CondV d h
      have g1 := grows_of_eq ih1 h
      split
      · rename_i d2 h2
        exact (grows_SetInsertPoint _ (grows_emit _ (grows_createBlock _ _
          (grows_createBlock _ _ (grows_createBlock _ _ g1))))).grows_trans (grows_of_eq ih2 h2)
      · rename_i trueV d2 h2
        have g2 := (grows_SetInsertPoint _ (grows_emit _ (grows_createBlock _ _
          (grows_createBlock _ _ (grows_createBlock _ _ g1))))).grows_trans (grows_of_eq ih2 h2)
        split
        · rename_i d3 h3
          exact (grows_SetInsertPoint _ (grows_insertBlockInto _ _ (grows_SetInsertPoint _
            (grows_emit _ g2)))).grows_trans (grows_of_eq ih3 h3)
        · rename_i falseV d3 h3
          have g3 := (grows_SetInsertPoint _ (grows_insertBlockInto _ _
            (grows_SetInsertPoint _ (grows_emit _ g2)))).grows_trans (grows_of_eq ih3 h3)
          exact grows_emit _ (grows_SetInsertPoint _ (grows_insertBlockInto _ _
            (grows_emit _ g3)))
  | .ifStmtNoElse cond trueblock, drv => by
    have ih1 := ExprAST_codegen_grows cond
    have ih2 := StmtAST_codegen_grows trueblock
    simp only [StmtAST.codegen]
    split
    · rename_i d h
      exact grows_of_eq ih1 h
    · rename_i CondV d h
      have g1 := grows_of_eq ih1 h
      split
      · rename_i d2 h2
        exact (grows_SetInsertPoint _ (grows_emit _ (grows_createBlock _ _
          (grows_createBlock _ _ (grows_createBlock _ _ g1))))).grows_trans (grows_of_eq ih2 h2)
      · rename_i trueV d2 h2
        have g2 := (grows_SetInsertPoint _ (grows_emit _ (grows_createBlock _ _
          (grows_createBlock _ _ (grows_createBlock _ _ g1))))).grows_trans (grows_of_eq ih2 h2)
        exact grows_emit _ (grows_SetInsertPoint _ (grows_insertBlockInto _ _ (grows_emit _
          (grows_SetInsertPoint _ (grows_insertBlockInto _ _ (grows_SetInsertPoint _
            (grows_emit _ g2)))))))
  | .forStmt init cond stepName stepVal body, drv => by
    have ih1 := InitAST_codegen_grows init
    have ih2 := ExprAST_codegen_grows cond
    have ih3 := StmtAST_codegen_grows body
    have ih4 := ExprAST_codegen_grows stepVal
    simp only [StmtAST.codegen]
    have g0 : drv.Grows (((((drv.createBlock "init" drv.insertParent).2.emit
        (.br (drv.createBlock "init" drv.insertParent).1)).2.createBlock "cond"
        drv.insertParent).2.createBlock "loop" drv.insertParent).2.createBlock "endloop"
        drv.insertParent).2 :=
      grows_createBlock _ _ (grows_createBlock _ _ (grows_createBlock _ _ (grows_emit _
        (grows_createBlock _ _ (Driver.Grows.grows_refl drv)))))
    split
    · rename_i d h
      exact (grows_SetInsertPoint _ g0).grows_trans (grows_of_eq ih1 h)
    · rename_i initVal d h
      have g1 := (grows_SetInsertPoint _ g0).grows_trans (grows_of_eq ih1 h)
      have g1b : drv.Grows (if init.getType = initType.BINDING then
          { d with NamedValues := namedValuesSet d.NamedValues init.getName (some initVal) }
          else d) := by
        split
        · exact grows_NamedValues _ g1
        · exact g1
      split
      · rename_i d2 h2
        exact (grows_SetInsertPoint _ (grows_emit _ g1b)).grows_trans (grows_of_eq ih2 h2)
      · rename_i condVal d2 h2
        have g2 := (grows_SetInsertPoint _ (grows_emit _ g1b)).grows_trans (grows_of_eq ih2 h2)
        split
        · rename_i d3 h3
          exact (grows_SetInsertPoint _ (grows_emit _ g2)).grows_trans (grows_of_eq ih3 h3)
        · rename_i bodyVal d3 h3
          have g3 := (grows_SetInsertPoint _ (grows_emit _ g2)).grows_trans (grows_of_eq ih3 h3)
          split
          · rename_i d4 h4
            exact (grows_NamedValues _ g3).grows_trans (grows_of_eq ih4 h4)
          · rename_i bv d4 h4
            have g4 := (grows_NamedValues _ g3).grows_trans (grows_of_eq ih4 h4)
            split
            · rename_i d5 h5
              have := grows_storeAssigned stepName
                (namedValuesAt d3.NamedValues stepName).1 bv g4
              rw [h5] at this
              exact this
            · rename_i sv d5 h5
              have g5 := grows_storeAssigned stepName
                (namedValuesAt d3.NamedValues stepName).1 bv g4
              rw [h5] at g5
              have g6 := grows_emit (.phi [(.constant 0, some
                ((drv.createBlock "init" drv.insertParent).2.emit
                  (.br (drv.createBlock "init" drv.insertParent).1)).2.blocks.length)])
                (grows_SetInsertPoint (((((drv.createBlock "init" drv.insertParent).2.emit
                  (.br (drv.createBlock "init" drv.insertParent).1)).2.createBlock "cond"
                  drv.insertParent).2.createBlock "loop" drv.insertParent).2.createBlock
                  "endloop" drv.insertParent).1 (grows_emit (.br
                  (((drv.createBlock "init" drv.insertParent).2.emit
                  (.br (drv.createBlock "init" drv.insertParent).1)).2.createBlock "cond"
                  drv.insertParent).1) g5))
              split
              · exact grows_NamedValues _ g6
              · exact g6
theorem StmtList_codegen_grows : ∀ (l : StmtList) (blockvalue : Option Value) (drv : Driver),
    drv.Grows (l.codegen blockvalue drv).2
  | .nil, _, drv => Driver.Grows.grows_refl drv
  | .cons stmt rest, bv, drv => by
    have ih1 := StmtAST_codegen_grows stmt
    have ih2 := StmtList_codegen_grows rest
    simp only [StmtList.codegen]
    split
    · rename_i d h
      exact grows_of_eq ih1 h
    · rename_i V d h
      exact (grows_of_eq ih1 h).grows_trans (ih2 _ _)
end

/-! ## Lookups after a node that lowers to a value -/

theorem nullOperand_of_grows {a b : Driver} (h : a.Grows b) (hb : b.nullOperand = false) :
    a.nullOperand = false := by
  cases ha : a.nullOperand with
  | false => rfl
  | true =>
    simp only [Driver.nullOperand, List.any_eq_true] at ha
    obtain ⟨p, hp, hn⟩ := ha
    have : b.nullOperand = true := by
      simp only [Driver.nullOperand, List.any_eq_true]
      exact ⟨p, h.1 p hp, hn⟩
    rw [hb] at this
    cases this

theorem KeepsLookupsOnSuccess.of_eq {α : Type} {step : Driver → Option α × Driver}
    (h : KeepsLookupsOnSuccess step) {drv d : Driver} {v : α} (he : step drv = (some v, d))
    (hn : d.nullOperand = false) (x : String) : d.lookup x = drv.lookup x := by
  have := h drv (by rw [he]; simp) (by rw [he]; exact hn) x
  rw [he] at this
  exact this

@[simp] theorem lookup_emit (drv : Driver) (i : Instr) (x : String) :
    (drv.emit i).2.lookup x = drv.lookup x := rfl

@[simp] theorem lookup_createBlock (drv : Driver) (label : String) (parent : Option Nat)
    (x : String) : (drv.createBlock label parent).2.lookup x = drv.lookup x := rfl

@[simp] theorem lookup_SetInsertPoint (drv : Driver) (BB : Nat) (x : String) :
    (drv.SetInsertPoint BB).lookup x = drv.lookup x := rfl

@[simp] theorem lookup_insertBlockInto (drv : Driver) (function : Option Nat) (BB : Nat)
    (x : String) : (drv.insertBlockInto function BB).lookup x = drv.lookup x := by
  cases function <;> rfl

@[simp] theorem lookup_CreateEntryBlockAlloca (drv : Driver) (function : Option Nat)
    (VarName : String) (x : String) :
    (drv.CreateEntryBlockAlloca function VarName).2.lookup x = drv.lookup x := rfl

theorem number_onSuccess (Val : Double) : KeepsLookupsOnSuccess (ExprAST.number Val).codegen :=
  fun _ _ _ _ => rfl

theorem variable_onSuccess (Name : String) :
    KeepsLookupsOnSuccess (ExprAST.variable Name).codegen :=
  fun drv _ _ x => Pure_keepsLookups (.reference Name) drv x

theorem binary_onSuccess (Op : Char) (LHS RHS : ExprAST)
    (hL : KeepsLookupsOnSuccess LHS.codegen) (hR : KeepsLookupsOnSuccess RHS.codegen) :
    KeepsLookupsOnSuccess (ExprAST.binary Op LHS RHS).codegen := by
  intro drv hv hn x
  generalize hr : (ExprAST.binary Op LHS RHS).codegen drv = r at hv hn ⊢
  simp only [ExprAST.codegen] at hr
  split at hr
  · split at hr
    · subst hr; simp at hv
    · rename_i R d h
      subst hr
      exact hR.of_eq h (nullOperand_of_grows (grows_emit _ (Driver.Grows.grows_refl d)) hn) x
  · cases hL1 : LHS.codegen drv with
    | mk Lv d1 =>
      cases hR1 : RHS.codegen d1 with
      | mk Rv d2 =>
        rw [hL1] at hr
        simp only [hR1] at hr
        cases Lv with
        | none => subst hr; simp at hv
        | some L =>
          cases Rv with
          | none => subst hr; simp at hv
          | some R =>
            simp only at hr
            have n2 : d2.nullOperand = false := by
              split at hr
              · subst hr
                exact nullOperand_of_grows (grows_emit _ (Driver.Grows.grows_refl d2)) hn
              · subst hr; simp [Driver.LogErrorV] at hv
            have n1 : d1.nullOperand = false :=
              nullOperand_of_grows (grows_of_eq (ExprAST_codegen_grows RHS) hR1) n2
            have k : d2.lookup x = drv.lookup x :=
              (hR.of_eq hR1 n2 x).trans (hL.of_eq hL1 n1 x)
            split at hr
            · subst hr; exact k
            · subst hr; exact k

theorem ExprList_onSuccess : ∀ (l : ExprList),
    (∀ e ∈ l.toList, KeepsLookupsOnSuccess e.codegen) →
    ∀ ArgsV : List Value, KeepsLookupsOnSuccess (l.codegen ArgsV)
  | .nil, _, _ => fun _ _ _ _ => rfl
  | .cons arg rest, hk, ArgsV => by
    intro drv hv hn x
    simp only [ExprList.toList, List.mem_cons, forall_eq_or_imp] at hk
    generalize hr : (ExprList.cons arg rest).codegen ArgsV drv = r at hv hn ⊢
    simp only [ExprList.codegen] at hr
    split at hr
    · subst hr; simp at hv
    · rename_i V d h
      subst hr
      have n1 : d.nullOperand = false :=
        nullOperand_of_grows (ExprList_codegen_grows rest _ d) hn
      exact (ExprList_onSuccess rest hk.2 _ d hv hn x).trans (hk.1.of_eq h n1 x)

theorem call_onSuccess (Callee : String) (Args : ExprList)
    (hk : ∀ e ∈ Args.toList, KeepsLookupsOnSuccess e.codegen) :
    KeepsLookupsOnSuccess (ExprAST.call Callee Args).codegen := by
  intro drv hv hn x
  generalize hr : (ExprAST.call Callee Args).codegen drv = r at hv hn ⊢
  simp only [ExprAST.codegen] at hr
  split at hr
  · subst hr; simp [Driver.LogErrorV] at hv
  · split at hr
    · subst hr; simp [Driver.LogErrorV] at hv
    · split at hr
      · subst hr; simp at hv
      · rename_i ArgsV d h
        subst hr
        exact (ExprList_onSuccess Args hk []).of_eq h
          (nullOperand_of_grows (grows_emit _ (Driver.Grows.grows_refl d)) hn) x

theorem ifExpr_onSuccess (cond trueexp falseexp : ExprAST)
    (h1 : KeepsLookupsOnSuccess cond.codegen) (h2 : KeepsLookupsOnSuccess trueexp.codegen)
    (h3 : KeepsLookupsOnSuccess falseexp.codegen) :
    KeepsLookupsOnSuccess (ExprAST.ifExpr cond trueexp falseexp).codegen := by
  intro drv hv hn x
  generalize hr : (ExprAST.ifExpr cond trueexp falseexp).codegen drv = r at hv hn ⊢
  simp only [ExprAST.codegen] at hr
  split at hr
  · subst hr; simp at hv
  · rename_i CondV d1 e1
    split at hr
    · subst hr; simp at hv
    · rename_i trueV d2 e2
      split at hr
      · subst hr; simp at hv
      · rename_i falseV d3 e3
        subst hr
        have n3 : d3.nullOperand = false :=
          nullOperand_of_grows (grows_emit _ (grows_SetInsertPoint _ (grows_insertBlockInto _ _
            (grows_emit _ (Driver.Grows.grows_refl d3))))) hn
        have n2 : d2.nullOperand = false :=
          nullOperand_of_grows ((grows_SetInsertPoint _ (grows_insertBlockInto _ _
            (grows_emit _ (Driver.Grows.grows_refl d2)))).grows_trans
              (grows_of_eq (ExprAST_codegen_grows falseexp) e3)) n3
        have n1 : d1.nullOperand = false :=
          nullOperand_of_grows ((grows_SetInsertPoint _ (grows_emit _ (grows_createBlock _ _
            (grows_createBlock _ _ (grows_createBlock _ _
              (Driver.Grows.grows_refl d1)))))).grows_trans
              (grows_of_eq (ExprAST_codegen_grows trueexp) e2)) n2
        have k1 : d1.lookup x = drv.lookup x := h1.of_eq e1 n1 x
        have k2 : d2.lookup x = d1.lookup x := h2.of_eq e2 n2 x
        have k3 : d3.lookup x = d2.lookup x :=
          (h3.of_eq e3 n3 x).trans (by simp only [lookup_emit, lookup_createBlock,
            lookup_SetInsertPoint, lookup_insertBlockInto])
        simp only [lookup_emit, lookup_createBlock, lookup_SetInsertPoint,
          lookup_insertBlockInto]
        exact k3.trans (k2.trans k1)

theorem varBinding_onSuccess (Name : String) (Val : ExprAST)
    (h : KeepsLookupsOnSuccess Val.codegen) :
    KeepsLookupsOnSuccess (InitAST.varBinding Name Val).codegen := by
  intro drv hv hn x
  cases e : Val.codegen drv with
  | mk r d =>
    simp only [InitAST.codegen, e] at hn ⊢
    cases r with
    | none =>
      simp [Driver.nullOperand, Driver.emit, Instr.nullOperand] at hn
    | some v =>
      exact h.of_eq e (nullOperand_of_grows (grows_emit _ (grows_CreateEntryBlockAlloca _ _
        (Driver.Grows.grows_refl d))) hn) x

theorem varBindingDefault_onSuccess (Name : String) :
    KeepsLookupsOnSuccess (InitAST.varBindingDefault Name).codegen :=
  fun _ _ _ _ => rfl

theorem lookup_storeAssigned (drv : Driver) (Name : String) (Variable : Option Value)
    (boundval : Value) (x : String) :
    (drv.storeAssigned Name Variable boundval).2.lookup x = drv.lookup x := by
  unfold Driver.storeAssigned
  cases Variable with
  | none => cases drv.getNamedGlobal Name <;> rfl
  | some V => rfl

theorem assignment_onSuccess (Name : String) (Val : ExprAST)
    (h : KeepsLookupsOnSuccess Val.codegen) :
    KeepsLookupsOnSuccess (InitAST.assignment Name Val).codegen := by
  intro drv hv hn x
  generalize hr : (InitAST.assignment Name Val).codegen drv = r at hv hn ⊢
  simp only [InitAST.codegen] at hr
  split at hr
  · subst hr; simp at hv
  · rename_i bv d e
    subst hr
    have n1 : d.nullOperand = false :=
      nullOperand_of_grows (grows_storeAssigned _ _ _ (Driver.Grows.grows_refl d)) hn
    exact (lookup_storeAssigned d Name _ bv x).trans
      ((h.of_eq e n1 x).trans (Driver.lookup_at drv Name x))

theorem stmt_expr_onSuccess (e : ExprAST) (h : KeepsLookupsOnSuccess e.codegen) :
    KeepsLookupsOnSuccess (StmtAST.expr e).codegen := by
  intro drv hv hn x
  simp only [StmtAST.codegen] at hv hn ⊢
  exact h drv hv hn x

theorem stmt_init_onSuccess (i : InitAST) (h : KeepsLookupsOnSuccess i.codegen) :
    KeepsLookupsOnSuccess (StmtAST.init i).codegen := by
  intro drv hv hn x
  simp only [StmtAST.codegen] at hv hn ⊢
  exact h drv hv hn x

theorem ifStmt_onSuccess (cond : ExprAST) (trueblock falseblock : StmtAST)
    (h1 : KeepsLookupsOnSuccess cond.codegen) (h2 : KeepsLookupsOnSuccess trueblock.codegen)
    (h3 : KeepsLookupsOnSuccess falseblock.codegen) :
    KeepsLookupsOnSuccess (StmtAST.ifStmt cond trueblock falseblock).codegen := by
  intro drv hv hn x
  generalize hr : (StmtAST.ifStmt cond trueblock falseblock).codegen drv = r at hv hn ⊢
  simp only [StmtAST.codegen] at hr
  split at hr
  · subst hr; simp at hv
  · rename_i CondV d1 e1
    split at hr
    · subst hr; simp at hv
    · rename_i trueV d2 e2
      split at hr
      · subst hr; simp at hv
      · rename_i falseV d3 e3
        subst hr
        have n3 : d3.nullOperand = false :=
          nullOperand_of_grows (grows_emit _ (grows_SetInsertPoint _ (grows_insertBlockInto _ _
            (grows_emit _ (Driver.Grows.grows_refl d3))))) hn
        have n2 : d2.nullOperand = false :=
          nullOperand_of_grows ((grows_SetInsertPoint _ (grows_insertBlockInto _ _
            (grows_SetInsertPoint _ (grows_emit _ (Driver.Grows.grows_refl d2))))).grows_trans
              (grows_of_eq (StmtAST_codegen_grows falseblock) e3)) n3
        have n1 : d1.nullOperand = false :=
          nullOperand_of_grows ((grows_SetInsertPoint _ (grows_emit _ (grows_createBlock _ _
            (grows_createBlock _ _ (grows_createBlock _ _
              (Driver.Grows.grows_refl d1)))))).grows_trans
              (grows_of_eq (StmtAST_codegen_grows trueblock) e2)) n2
        have k1 : d1.lookup x = drv.lookup x := h1.of_eq e1 n1 x
        have k2 : d2.lookup x = d1.lookup x := h2.of_eq e2 n2 x
        have k3 : d3.lookup x = d2.lookup x :=
          (h3.of_eq e3 n3 x).trans (by simp only [lookup_emit, lookup_createBlock,
            lookup_SetInsertPoint, lookup_insertBlockInto])
        simp only [lookup_emit, lookup_createBlock, lookup_SetInsertPoint,
          lookup_insertBlockInto]
        exact k3.trans (k2.trans k1)

theorem ifStmtNoElse_onSuccess (cond : ExprAST) (trueblock : StmtAST)
    (h1 : KeepsLookupsOnSuccess cond.codegen) (h2 : KeepsLookupsOnSuccess trueblock.codegen) :
    KeepsLookupsOnSuccess (StmtAST.ifStmtNoElse cond trueblock).codegen := by
  intro drv hv hn x
  generalize hr : (StmtAST.ifStmtNoElse cond trueblock).codegen drv = r at hv hn ⊢
  simp only [StmtAST.codegen] at hr
  split at hr
  · subst hr; simp at hv
  · rename_i CondV d1 e1
    split at hr
    · subst hr; simp at hv
    · rename_i trueV d2 e2
      subst hr
      have n2 : d2.nullOperand = false :=
        nullOperand_of_grows (grows_emit _ (grows_SetInsertPoint _ (grows_insertBlockInto _ _
          (grows_emit _ (grows_SetInsertPoint _ (grows_insertBlockInto _ _
            (grows_SetInsertPoint _ (grows_emit _ (Driver.Grows.grows_refl d2))))))))) hn
      have n1 : d1.nullOperand = false :=
        nullOperand_of_grows ((grows_SetInsertPoint _ (grows_emit _ (grows_createBlock _ _
          (grows_createBlock _ _ (grows_createBlock _ _
            (Driver.Grows.grows_refl d1)))))).grows_trans
            (grows_of_eq (StmtAST_codegen_grows trueblock) e2)) n2
      have k1 : d1.lookup x = drv.lookup x := h1.of_eq e1 n1 x
      have k2 : d2.lookup x = d1.lookup x := h2.of_eq e2 n2 x
      simp only [lookup_emit, lookup_createBlock, lookup_SetInsertPoint,
        lookup_insertBlockInto]
      exact k2.trans k1

theorem StmtList_onSuccess : ∀ (l : StmtList),
    (∀ s ∈ l.toList, KeepsLookupsOnSuccess s.codegen) →
    ∀ blockvalue : Option Value, KeepsLookupsOnSuccess (l.codegen blockvalue)
  | .nil, _, _ => fun _ _ _ _ => rfl
  | .cons stmt rest, hk, bv => by
    intro drv hv hn x
    simp only [StmtList.toList, List.mem_cons, forall_eq_or_imp] at hk
    generalize hr : (StmtList.cons stmt rest).codegen bv drv = r at hv hn ⊢
    simp only [StmtList.codegen] at hr
    split at hr
    · subst hr; simp at hv
    · rename_i V d h
      subst hr
      have n1 : d.nullOperand = false :=
        nullOperand_of_grows (StmtList_codegen_grows rest _ d) hn
      exact (StmtList_onSuccess rest hk.2 _ d hv hn x).trans (hk.1.of_eq h n1 x)

/-- The first loop of a block that runs to its end: the binding saved first for a
declared name is the one the name had on entry, and the lookup of the other names is not
changed, when every declaration that lowers to a value keeps the lookups. -/
theorem InitList_codegen_saved : ∀ (Def : InitList) (tmp : List (Option Value))
    (drv : Driver), (∀ i ∈ Def.toList, KeepsLookupsOnSuccess i.codegen) →
    ∀ (tmp2 : List (Option Value)) (d : Driver), Def.codegen tmp drv = (some tmp2, d) →
      d.nullOperand = false →
      ∃ saved : List (Option Value), tmp2 = tmp ++ saved ∧ saved.length = Def.names.length ∧
        (∀ x ∈ Def.names, (Def.names.zip saved).find? (fun e => decide (e.1 = x)) =
          some (x, drv.lookup x)) ∧
        ∀ x, x ∉ Def.names → d.lookup x = drv.lookup x
  | .nil, tmp, drv, _, tmp2, d, h, _ => by
    simp only [InitList.codegen, Prod.mk.injEq, Option.some.injEq] at h
    obtain ⟨h1, h2⟩ := h
    subst h1 h2
    exact ⟨[], by simp, rfl, by simp [InitList.names], fun _ _ => rfl⟩
  | .cons def_ rest, tmp, drv, hk, tmp2, d, h, hn => by
    simp only [InitList.toList, List.mem_cons, forall_eq_or_imp] at hk
    simp only [InitList.codegen] at h
    cases h1 : def_.codegen drv with
    | mk r d1 =>
      rw [h1] at h
      cases r with
      | none => simp at h
      | some boundval =>
        simp only at h
        have n1 : d1.nullOperand = false :=
          nullOperand_of_grows ((grows_NamedValues _ (Driver.Grows.grows_refl d1)).grows_trans
            (grows_of_eq (InitList_codegen_grows rest _) h)) hn
        have hd1 : ∀ x, d1.lookup x = drv.lookup x := fun x => hk.1.of_eq h1 n1 x
        obtain ⟨saved, e1, e2, e3, e4⟩ := InitList_codegen_saved rest _ _ hk.2 tmp2 d h hn
        have hset : ∀ x, Driver.lookup
            { d1 with NamedValues :=
                namedValuesSet d1.NamedValues def_.getName (some boundval) } x =
            if x = def_.getName then some boundval else drv.lookup x := by
          intro x
          rw [Driver.lookup_set, hd1]
        refine ⟨d1.lookup def_.getName :: saved, ?_, ?_, ?_, ?_⟩
        · rw [e1, List.append_assoc]
          rfl
        · simp only [InitList.names, List.length_cons, e2]
        · intro x hx
          simp only [InitList.names, List.mem_cons] at hx
          simp only [InitList.names, List.zip_cons_cons, List.find?_cons]
          by_cases hxn : def_.getName = x
          · simp only [hxn, decide_True]
            rw [← hxn, hd1]
          · simp only [hxn, decide_False]
            have hx2 : x ∈ rest.names := by
              rcases hx with hx | hx
              · exact absurd hx.symm hxn
              · exact hx
            rw [e3 x hx2, hset, if_neg (fun e => hxn e.symm)]
        · intro x hx
          simp only [InitList.names, List.mem_cons, not_or] at hx
          rw [e4 x hx.2, hset, if_neg hx.1]

/-- The loop that writes the saved bindings back, in the order of the list: a name gets
the binding of the last pair that holds it, and keeps its binding when no pair holds
it. -/
theorem lookup_restore_last (x : String) : ∀ (l : List (String × Option Value))
    (m : List (String × Option Value)),
    (namedValuesAt (l.foldl (fun m e => namedValuesSet m e.1 e.2) m) x).1 =
      match l.reverse.find? (fun e => decide (e.1 = x)) with
      | some e => e.2
      | none => (namedValuesAt m x).1
  | [], _ => rfl
  | e :: es, m => by
    rw [List.foldl_cons, lookup_restore_last x es, List.reverse_cons, List.find?_append]
    cases hf : es.reverse.find? (fun e => decide (e.1 = x)) with
    | some e2 => rfl
    | none =>
      simp only [Option.none_or, List.find?_cons, List.find?_nil, lookup_namedValuesSet]
      by_cases hx : e.1 = x
      · simp [hx]
      · have hx2 : ¬ x = e.1 := fun h => hx h.symm
        simp [hx, hx2]

theorem find_reverse_zip (x : String) : ∀ (names : List String) (tmp : List (Option Value)),
    names.Nodup →
    (names.zip tmp).reverse.find? (fun e => decide (e.1 = x)) =
      (names.zip tmp).find? (fun e => decide (e.1 = x))
  | [], _, _ => rfl
  | _ :: _, [], _ => rfl
  | n :: ns, t :: ts, hnd => by
    rw [List.nodup_cons] at hnd
    rw [List.zip_cons_cons, List.reverse_cons, List.find?_append, find_reverse_zip x ns ts hnd.2,
      List.find?_cons]
    by_cases hx : n = x
    · have hnone : (ns.zip ts).find? (fun e => decide (e.1 = x)) = none := by
        rw [List.find?_eq_none]
        intro e he
        have := (List.of_mem_zip he).1
        simp only [decide_eq_true_eq]
        intro h
        exact hnd.1 (hx ▸ h ▸ this)
      simp [hnone, hx]
    · simp only [hx, decide_False, List.find?_cons, List.find?_nil]
      cases (ns.zip ts).find? (fun e => decide (e.1 = x)) <;> rfl

/-- A block that lowers to a value: the first loop runs to its end and saves, first for
each declared name, the binding the name had on entry; afterwards a name has the binding
saved by the last declaration of that name, and the binding it had on entry when the
block does not declare it. -/
theorem block_lookup (Def : InitList) (Stmts : StmtList)
    (hDef : ∀ i ∈ Def.toList, KeepsLookupsOnSuccess i.codegen)
    (hStmts : ∀ s ∈ Stmts.toList, KeepsLookupsOnSuccess s.codegen) (drv : Driver)
    (hv : ((ExprAST.block Def Stmts).codegen drv).1 ≠ none)
    (hn : ((ExprAST.block Def Stmts).codegen drv).2.nullOperand = false) :
    ∃ (tmp : List (Option Value)) (d1 : Driver), Def.codegen [] drv = (some tmp, d1) ∧
      tmp.length = Def.names.length ∧
      (∀ x ∈ Def.names, (Def.names.zip tmp).find? (fun e => decide (e.1 = x)) =
        some (x, drv.lookup x)) ∧
      ∀ x, ((ExprAST.block Def Stmts).codegen drv).2.lookup x =
        match (Def.names.zip tmp).reverse.find? (fun e => decide (e.1 = x)) with
        | some e => e.2
        | none => drv.lookup x := by
  simp only [ExprAST.codegen] at hv hn ⊢
  cases h1 : Def.codegen [] drv with
  | mk r d1 =>
    rw [h1] at hv hn
    cases r with
    | none => simp at hv
    | some tmp =>
      simp only at hv hn ⊢
      cases h2 : Stmts.codegen none d1 with
      | mk r2 d2 =>
        rw [h2] at hv hn
        cases r2 with
        | none => simp at hv
        | some blockvalue =>
          simp only at hv hn ⊢
          have n2 : d2.nullOperand = false :=
            nullOperand_of_grows (grows_restore _ _ (Driver.Grows.grows_refl d2)) hn
          have n1 : d1.nullOperand = false :=
            nullOperand_of_grows (grows_of_eq (StmtList_codegen_grows Stmts none) h2) n2
          obtain ⟨saved, e1, e2, e3, e4⟩ := InitList_codegen_saved Def [] drv hDef tmp d1 h1 n1
          rw [List.nil_append] at e1
          subst e1
          have hS : ∀ x, d2.lookup x = d1.lookup x :=
            fun x => (StmtList_onSuccess Stmts hStmts none).of_eq h2 n2 x
          refine ⟨tmp, d1, rfl, e2, e3, ?_⟩
          intro x
          have hx : (d2.restore Def.names tmp).lookup x =
              match (Def.names.zip tmp).reverse.find? (fun e => decide (e.1 = x)) with
              | some e => e.2
              | none => d2.lookup x := lookup_restore_last x _ _
          rw [hx]
          cases hf : (Def.names.zip tmp).reverse.find? (fun e => decide (e.1 = x)) with
          | some e => rfl
          | none =>
            simp only
            have hmem : x ∉ Def.names := by
              intro hmem
              have h3 := List.mem_of_find?_eq_some (e3 x hmem)
              rw [List.find?_eq_none] at hf
              have := hf (x, drv.lookup x) (List.mem_reverse.mpr h3)
              simp at this
            rw [hS, e4 x hmem]

/-- A block with pairwise distinct declared names keeps the lookups when it lowers to a
value, provided its declarations and statements do. -/
theorem block_onSuccess (Def : InitList) (Stmts : StmtList) (hnames : Def.names.Nodup)
    (hDef : ∀ i ∈ Def.toList, KeepsLookupsOnSuccess i.codegen)
    (hStmts : ∀ s ∈ Stmts.toList, KeepsLookupsOnSuccess s.codegen) :
    KeepsLookupsOnSuccess (ExprAST.block Def Stmts).codegen := by
  intro drv hv hn x
  obtain ⟨tmp, d1, _, e2, e3, e4⟩ := block_lookup Def Stmts hDef hStmts drv hv hn
  rw [e4 x, find_reverse_zip x _ _ hnames]
  by_cases hmem : x ∈ Def.names
  · rw [e3 x hmem]
  · have hnone : (Def.names.zip tmp).find? (fun e => decide (e.1 = x)) = none := by
      rw [List.find?_eq_none]
      intro e he
      have := (List.of_mem_zip he).1
      simp only [decide_eq_true_eq]
      intro h
      exact hmem (h ▸ this)
    rw [hnone]

/-- A `for` statement keeps the lookups when it lowers to a value, provided its
initialisation, its condition, its body and the value of its step do. -/
theorem forStmt_onSuccess (init : InitAST) (cond : ExprAST) (stepName : String)
    (stepVal : ExprAST) (body : StmtAST)
    (hinit : KeepsLookupsOnSuccess init.codegen)
    (hcond : KeepsLookupsOnSuccess cond.codegen)
    (hbody : KeepsLookupsOnSuccess body.codegen)
    (hstep : KeepsLookupsOnSuccess stepVal.codegen) :
    KeepsLookupsOnSuccess (StmtAST.forStmt init cond stepName stepVal body).codegen := by
  intro drv hv hn x
  generalize hr : (StmtAST.forStmt init cond stepName stepVal body).codegen drv = r at hv hn ⊢
  simp only [StmtAST.codegen] at hr
  split at hr
  · subst hr; simp at hv
  · rename_i initVal d1 h1
    split at hr
    · subst hr; simp at hv
    · rename_i condVal d2 h2
      split at hr
      · subst hr; simp at hv
      · rename_i bodyVal d3 h3
        split at hr
        · subst hr; simp at hv
        · rename_i boundval d4 h4
          split at hr
          · subst hr; simp at hv
          · rename_i sv d5 h5
            subst hr
            have g5 : d5.Grows ((((d5.emit (.br
                ((((drv.createBlock "init" drv.insertParent).2.emit
                  (.br (drv.createBlock "init" drv.insertParent).1)).2.createBlock "cond"
                  drv.insertParent).1))).2.SetInsertPoint
                (((((drv.createBlock "init" drv.insertParent).2.emit
                  (.br (drv.createBlock "init" drv.insertParent).1)).2.createBlock "cond"
                  drv.insertParent).2.createBlock "loop" drv.insertParent).2.createBlock
                  "endloop" drv.insertParent).1).emit (.phi [(.constant 0, some
                ((drv.createBlock "init" drv.insertParent).2.emit
                  (.br (drv.createBlock "init" drv.insertParent).1)).2.blocks.length)]))).2 :=
              grows_emit _ (grows_SetInsertPoint _ (grows_emit _ (Driver.Grows.grows_refl d5)))
            have n5 : d5.nullOperand = false := by
              by_cases hb : init.getType = initType.BINDING
              · rw [if_pos hb] at hn
                exact nullOperand_of_grows (grows_NamedValues _ g5) hn
              · rw [if_neg hb] at hn
                exact nullOperand_of_grows g5 hn
            have gs := grows_storeAssigned stepName (namedValuesAt d3.NamedValues stepName).1
              boundval (Driver.Grows.grows_refl d4)
            rw [h5] at gs
            have n4 : d4.nullOperand = false := nullOperand_of_grows gs n5
            have n3 : d3.nullOperand = false :=
              nullOperand_of_grows ((grows_NamedValues _
                (Driver.Grows.grows_refl d3)).grows_trans
                (grows_of_eq (ExprAST_codegen_grows stepVal) h4)) n4
            have n2 : d2.nullOperand = false :=
              nullOperand_of_grows ((grows_SetInsertPoint _ (grows_emit _
                (Driver.Grows.grows_refl d2))).grows_trans
                (grows_of_eq (StmtAST_codegen_grows body) h3)) n3
            have g1b : d1.Grows (if init.getType = initType.BINDING then
                { d1 with NamedValues :=
                    namedValuesSet d1.NamedValues init.getName (some initVal) }
                else d1) := by
              split
              · exact grows_NamedValues _ (Driver.Grows.grows_refl d1)
              · exact Driver.Grows.grows_refl d1
            have n1 : d1.nullOperand = false :=
              nullOperand_of_grows ((grows_SetInsertPoint _ (grows_emit _ g1b)).grows_trans
                (grows_of_eq (ExprAST_codegen_grows cond) h2)) n2
            have k1 := hinit.of_eq h1 n1 x
            have k2 := hcond.of_eq h2 n2 x
            have k3 := hbody.of_eq h3 n3 x
            have k4 := hstep.of_eq h4 n4 x
            have k5 := lookup_storeAssigned d4 stepName
              (namedValuesAt d3.NamedValues stepName).1 boundval x
            rw [h5] at k5
            have k1b : d1.lookup x = drv.lookup x := k1
            have k3b : d3.lookup x = d2.lookup x := k3
            have k4b : d4.lookup x = d3.lookup x := k4.trans (Driver.lookup_at d3 stepName x)
            have k5b : d5.lookup x = d4.lookup x := k5
            have k345 : d5.lookup x = d2.lookup x := by rw [k5b, k4b, k3b]
            by_cases hb : init.getType = initType.BINDING
            · rw [if_pos hb] at k2 ⊢
              have k2b : d2.lookup x =
                  if x = init.getName then some initVal else d1.lookup x :=
                k2.trans (Driver.lookup_set d1 init.getName x (some initVal))
              refine (Driver.lookup_set _ init.getName x _).trans ?_
              by_cases hx : x = init.getName
              · rw [if_pos hx]
                subst hx
                exact k1b
              · rw [if_neg hx]
                rw [if_neg hx] at k2b
                exact k345.trans (k2b.trans k1b)
            · rw [if_neg hb] at k2 ⊢
              have k2b : d2.lookup x = d1.lookup x := k2
              exact k345.trans (k2b.trans k1b)

mutual
theorem ExprAST_onSuccess : ∀ (e : ExprAST), e.distinctNames = true →
    KeepsLookupsOnSuccess e.codegen
  | .number Val, _ => number_onSuccess Val
  | .variable Name, _ => variable_onSuccess Name
  | .binary Op LHS RHS, h => by
    simp only [ExprAST.distinctNames, Bool.and_eq_true] at h
    exact binary_onSuccess Op LHS RHS (ExprAST_onSuccess LHS h.1) (ExprAST_onSuccess RHS h.2)
  | .call Callee Args, h => by
    simp only [ExprAST.distinctNames] at h
    exact call_onSuccess Callee Args (ExprList_onSuccess_each Args h)
  | .ifExpr cond trueexp falseexp, h => by
    simp only [ExprAST.distinctNames, Bool.and_eq_true] at h
    exact ifExpr_onSuccess cond trueexp falseexp (ExprAST_onSuccess cond h.1)
      (ExprAST_onSuccess trueexp h.2.1) (ExprAST_onSuccess falseexp h.2.2)
  | .block Def Stmts, h => by
    simp only [ExprAST.distinctNames, Bool.and_eq_true, decide_eq_true_eq] at h
    exact block_onSuccess Def Stmts h.1 (InitList_onSuccess_each Def h.2.1)
      (StmtList_onSuccess_each Stmts h.2.2)
theorem ExprList_onSuccess_each : ∀ (l : ExprList), l.distinctNames = true →
    ∀ e ∈ l.toList, KeepsLookupsOnSuccess e.codegen
  | .nil, _, e, he => by simp [ExprList.toList] at he
  | .cons arg rest, h, e, he => by
    simp only [ExprList.distinctNames, Bool.and_eq_true] at h
    simp only [ExprList.toList, List.mem_cons] at he
    cases he with
    | inl h1 =>
      rw [h1]
      exact ExprAST_onSuccess arg h.1
    | inr h2 => exact ExprList_onSuccess_each rest h.2 e h2
theorem InitAST_onSuccess : ∀ (i : InitAST), i.distinctNames = true →
    KeepsLookupsOnSuccess i.codegen
  | .varBinding Name Val, h => by
    simp only [InitAST.distinctNames] at h
    exact varBinding_onSuccess Name Val (ExprAST_onSuccess Val h)
  | .varBindingDefault Name, _ => varBindingDefault_onSuccess Name
  | .assignment Name Val, h => by
    simp only [InitAST.distinctNames] at h
    exact assignment_onSuccess Name Val (ExprAST_onSuccess Val h)
theorem InitList_onSuccess_each : ∀ (l : InitList), l.distinctNames = true →
    ∀ i ∈ l.toList, KeepsLookupsOnSuccess i.codegen
  | .nil, _, i, hi => by simp [InitList.toList] at hi
  | .cons def_ rest, h, i, hi => by
    simp only [InitList.distinctNames, Bool.and_eq_true] at h
    simp only [InitList.toList, List.mem_cons] at hi
    cases hi with
    | inl h1 =>
      rw [h1]
      exact InitAST_onSuccess def_ h.1
    | inr h2 => exact InitList_onSuccess_each rest h.2 i h2
theorem StmtAST_onSuccess : ∀ (s : StmtAST), s.distinctNames = true →
    KeepsLookupsOnSuccess s.codegen
  | .expr e, h => by
    simp only [StmtAST.distinctNames] at h
    exact stmt_expr_onSuccess e (ExprAST_onSuccess e h)
  | .init i, h => by
    simp only [StmtAST.distinctNames] at h
    exact stmt_init_onSuccess i (InitAST_onSuccess i h)
  | .ifStmt cond trueblock falseblock, h => by
    simp only [StmtAST.distinctNames, Bool.and_eq_true] at h
    exact ifStmt_onSuccess cond trueblock falseblock (ExprAST_onSuccess cond h.1)
      (StmtAST_onSuccess trueblock h.2.1) (StmtAST_onSuccess falseblock h.2.2)
  | .ifStmtNoElse cond trueblock, h => by
    simp only [StmtAST.distinctNames, Bool.and_eq_true] at h
    exact ifStmtNoElse_onSuccess cond trueblock (ExprAST_onSuccess cond h.1)
      (StmtAST_onSuccess trueblock h.2)
  | .forStmt init cond stepName stepVal body, h => by
    simp only [StmtAST.distinctNames, Bool.and_eq_true] at h
    exact forStmt_onSuccess init cond stepName stepVal body (InitAST_onSuccess init h.1)
      (ExprAST_onSuccess cond h.2.1) (StmtAST_onSuccess body h.2.2.2)
      (ExprAST_onSuccess stepVal h.2.2.1)
theorem StmtList_onSuccess_each : ∀ (l : StmtList), l.distinctNames = true →
    ∀ s ∈ l.toList, KeepsLookupsOnSuccess s.codegen
  | .nil, _, s, hs => by simp [StmtList.toList] at hs
  | .cons stmt rest, h, s, hs => by
    simp only [StmtList.distinctNames, Bool.and_eq_true] at h
    simp only [StmtList.toList, List.mem_cons] at hs
    cases hs with
    | inl h1 =>
      rw [h1]
      exact StmtAST_onSuccess stmt h.1
    | inr h2 => exact StmtList_onSuccess_each rest h.2 s h2
end

/-- C40: for every Block in which every block, the Block itself and the blocks nested in
it, declares pairwise distinct names, for every state and every name `x`: when
`BlockAST::codegen` returns a non-null value, no null value having been handed to the
builder on the way, looking `x` up in `NamedValues` afterwards gives the same slot as
before, or the same absence of a slot, a null entry counting like no entry. The same holds
for a ForStmt whose lowering returns a non-null value. The nested blocks
`{ var x = 1; { var x = 2; x } }` and the statement `for (var x = 0; x < 1; x = x + 1) x`,
lowered in the body of `def main()`, are such runs. -/
theorem codegen_lookup_on_success :
    (∀ (Def : InitList) (Stmts : StmtList) (drv : Driver),
      (ExprAST.block Def Stmts).distinctNames = true →
      ((ExprAST.block Def Stmts).codegen drv).1 ≠ none →
      ((ExprAST.block Def Stmts).codegen drv).2.nullOperand = false →
      ∀ x, ((ExprAST.block Def Stmts).codegen drv).2.lookup x = drv.lookup x) ∧
    (∀ (init : InitAST) (cond : ExprAST) (stepName : String) (stepVal : ExprAST)
      (body : StmtAST) (drv : Driver),
      (StmtAST.forStmt init cond stepName stepVal body).distinctNames = true →
      ((StmtAST.forStmt init cond stepName stepVal body).codegen drv).1 ≠ none →
      ((StmtAST.forStmt init cond stepName stepVal body).codegen drv).2.nullOperand = false →
      ∀ x, ((StmtAST.forStmt init cond stepName stepVal body).codegen drv).2.lookup x =
        drv.lookup x) ∧
    (block_nested_x.distinctNames = true ∧
      (block_nested_x.codegen state_in_main).1 = some (.instruction 4) ∧
      (block_nested_x.codegen state_in_main).2.nullOperand = false ∧
      ∀ x, (block_nested_x.codegen state_in_main).2.lookup x = state_in_main.lookup x) ∧
    (for_x.distinctNames = true ∧
      (for_x.codegen state_in_main).1 = some (.instruction 12) ∧
      (for_x.codegen state_in_main).2.nullOperand = false ∧
      ∀ x, (for_x.codegen state_in_main).2.lookup x = state_in_main.lookup x) := by
  have hb : block_nested_x.distinctNames = true := by
    simp [block_nested_x, ExprAST.distinctNames, InitList.distinctNames,
      StmtList.distinctNames, StmtAST.distinctNames, InitAST.distinctNames, InitList.names,
      InitAST.getName]
  have hf : for_x.distinctNames = true := by
    simp [for_x, ExprAST.distinctNames, StmtAST.distinctNames, InitAST.distinctNames]
  refine ⟨?_, ?_, ⟨hb, rfl, rfl, ?_⟩, ⟨hf, rfl, rfl, ?_⟩⟩
  · intro Def Stmts drv hd
    exact ExprAST_onSuccess _ hd drv
  · intro init cond stepName stepVal body drv hd
    exact StmtAST_onSuccess _ hd drv
  · exact ExprAST_onSuccess _ hb state_in_main
      (by rw [show (block_nested_x.codegen state_in_main).1 = some (.instruction 4) from rfl]
          simp) rfl
  · exact StmtAST_onSuccess _ hf state_in_main
      (by rw [show (for_x.codegen state_in_main).1 = some (.instruction 12) from rfl]
          simp) rfl

mutual
theorem ExprAST_reaches (y : String) : ∀ (e : ExprAST) (drv : Driver),
    e.reaches y drv = true →
    (e.codegen drv).1 = none ∧
      LogLine.message ("undefined variable: " ++ y) ∈ (e.codegen drv).2.cerr
  | .number _, _, h => by simp [ExprAST.reaches] at h
  | .variable Name, drv, h => by
    simp only [ExprAST.reaches, Bool.and_eq_true, decide_eq_true_eq,
      Option.isNone_iff_eq_none] at h
    obtain ⟨hy, hl, hg⟩ := h
    subst hy
    have hl2 : (namedValuesAt drv.NamedValues Name).1 = none := hl
    simp only [ExprAST.codegen, hl2, hg]
    exact ⟨rfl, List.mem_append_right _ (List.mem_singleton.mpr rfl)⟩
  | .binary Op LHS RHS, drv, h => by
    have ih1 := ExprAST_reaches y LHS
    have ih2 := ExprAST_reaches y RHS
    simp only [ExprAST.reaches] at h
    simp only [ExprAST.codegen]
    by_cases hop : Op = 'n'
    · rw [if_pos hop] at h ⊢
      have := ih2 drv h
      cases e : RHS.codegen drv with
      | mk r d =>
        rw [e] at this
        cases r with
        | none => exact ⟨rfl, this.2⟩
        | some R => simp at this
    · rw [if_neg hop] at h ⊢
      cases eL : LHS.codegen drv with
      | mk Lv d1 =>
        cases eR : RHS.codegen d1 with
        | mk Rv d2 =>
          simp only [eL, Bool.or_eq_true] at h
          simp only [eR]
          rcases h with h | h
          · have := ih1 drv h
            rw [eL] at this
            have hL : Lv = none := this.1
            subst hL
            have hm := (grows_of_eq (ExprAST_codegen_grows RHS) eR).2 _ this.2
            cases Rv <;> exact ⟨rfl, hm⟩
          · have := ih2 d1 h
            rw [eR] at this
            have hR : Rv = none := this.1
            subst hR
            cases Lv <;> exact ⟨rfl, this.2⟩
  | .call Callee Args, drv, h => by
    have ih := ExprList_reaches y Args []
    simp only [ExprAST.reaches] at h
    cases hf : drv.getFunction Callee with
    | none => simp [hf] at h
    | some F =>
      simp only [hf] at h
      by_cases hlen : F.Args.length ≠ Args.size
      · rw [if_pos hlen] at h
        cases h
      · rw [if_neg hlen] at h
        have := ih drv h
        simp only [ExprAST.codegen, hf, if_neg hlen]
        cases e : Args.codegen [] drv with
        | mk r d =>
          rw [e] at this
          cases r with
          | none => exact ⟨rfl, this.2⟩
          | some R => simp at this
  | .ifExpr cond trueexp falseexp, drv, h => by
    have ih1 := ExprAST_reaches y cond
    have ih2 := ExprAST_reaches y trueexp
    have ih3 := ExprAST_reaches y falseexp
    simp only [ExprAST.reaches, Bool.or_eq_true] at h
    simp only [ExprAST.codegen]
    split
    · rename_i d1 e1
      simp only [e1, Bool.or_eq_true, or_false, Bool.false_eq_true] at h
      have := ih1 drv h
      rw [e1] at this
      exact ⟨rfl, this.2⟩
    · rename_i CondV d1 e1
      simp only [e1, Bool.or_eq_true] at h
      rcases h with h | h
      · have := ih1 drv h
        rw [e1] at this
        simp at this
      · split
        · rename_i d2 e2
          simp only [e2, Bool.or_eq_true, or_false, Bool.false_eq_true] at h
          have := ih2 _ h
          rw [e2] at this
          exact ⟨rfl, this.2⟩
        · rename_i trueV d2 e2
          simp only [e2, Bool.or_eq_true] at h
          rcases h with h | h
          · have := ih2 _ h
            rw [e2] at this
            simp at this
          · have := ih3 _ h
            split
            · rename_i d3 e3
              rw [e3] at this
              exact ⟨rfl, this.2⟩
            · rename_i falseV d3 e3
              rw [e3] at this
              simp at this
  | .block Def Stmts, drv, h => by
    have ih1 := InitList_reaches y Def []
    have ih2 := StmtList_reaches y Stmts none
    simp only [ExprAST.reaches, Bool.or_eq_true] at h
    simp only [ExprAST.codegen]
    split
    · rename_i d1 e1
      simp only [e1, Bool.or_eq_true, or_false, Bool.false_eq_true] at h
      have := ih1 drv h
      rw [e1] at this
      exact ⟨rfl, this.2⟩
    · rename_i tmp d1 e1
      simp only [e1, Bool.or_eq_true] at h
      rcases h with h | h
      · have := ih1 drv h
        rw [e1] at this
        simp at this
      · have := ih2 _ h
        split
        · rename_i d2 e2
          rw [e2] at this
          exact ⟨rfl, this.2⟩
        · rename_i bv d2 e2
          rw [e2] at this
          simp at this
theorem ExprList_reaches (y : String) : ∀ (l : ExprList) (ArgsV : List Value) (drv : Driver),
    l.reaches y drv = true →
    (l.codegen ArgsV drv).1 = none ∧
      LogLine.message ("undefined variable: " ++ y) ∈ (l.codegen ArgsV drv).2.cerr
  | .nil, _, _, h => by simp [ExprList.reaches] at h
  | .cons arg rest, ArgsV, drv, h => by
    have ih1 := ExprAST_reaches y arg
    have ih2 := ExprList_reaches y rest
    simp only [ExprList.reaches, Bool.or_eq_true] at h
    simp only [ExprList.codegen]
    split
    · rename_i d1 e1
      simp only [e1, Bool.or_eq_true, or_false, Bool.false_eq_true] at h
      have := ih1 drv h
      rw [e1] at this
      exact ⟨rfl, this.2⟩
    · rename_i V d1 e1
      simp only [e1, Bool.or_eq_true] at h
      rcases h with h | h
      · have := ih1 drv h
        rw [e1] at this
        simp at this
      · exact ih2 _ _ h
theorem InitAST_reaches (y : String) : ∀ (i : InitAST) (drv : Driver),
    i.reaches y drv = true →
    (i.codegen drv).1 = none ∧
      LogLine.message ("undefined variable: " ++ y) ∈ (i.codegen drv).2.cerr
  | .varBinding _ _, _, h => by simp [InitAST.reaches] at h
  | .varBindingDefault _, _, h => by simp [InitAST.reaches] at h
  | .assignment Name Val, drv, h => by
    have ih := ExprAST_reaches y Val
    simp only [InitAST.reaches] at h
    have := ih _ h
    simp only [InitAST.codegen]
    split
    · rename_i d e
      rw [e] at this
      exact ⟨rfl, this.2⟩
    · rename_i bv d e
      rw [e] at this
      simp at this
theorem InitList_reaches (y : String) : ∀ (l : InitList) (tmp : List (Option Value))
    (drv : Driver), l.reaches y drv = true →
    (l.codegen tmp drv).1 = none ∧
      LogLine.message ("undefined variable: " ++ y) ∈ (l.codegen tmp drv).2.cerr
  | .nil, _, _, h => by simp [InitList.reaches] at h
  | .cons def_ rest, tmp, drv, h => by
    have ih1 := InitAST_reaches y def_
    have ih2 := InitList_reaches y rest
    simp only [InitList.reaches, Bool.or_eq_true] at h
    simp only [InitList.codegen]
    split
    · rename_i d1 e1
      simp only [e1, Bool.or_eq_true, or_false, Bool.false_eq_true] at h
      have := ih1 drv h
      rw [e1] at this
      exact ⟨rfl, this.2⟩
    · rename_i V d1 e1
      simp only [e1, Bool.or_eq_true] at h
      rcases h with h | h
      · have := ih1 drv h
        rw [e1] at this
        simp at this
      · exact ih2 _ _ h
theorem StmtAST_reaches (y : String) : ∀ (s : StmtAST) (drv : Driver),
    s.reaches y drv = true →
    (s.codegen drv).1 = none ∧
      LogLine.message ("undefined variable: " ++ y) ∈ (s.codegen drv).2.cerr
  | .expr e, drv, h => by
    simp only [StmtAST.reaches] at h
    simp only [StmtAST.codegen]
    exact ExprAST_reaches y e drv h
  | .init i, drv, h => by
    simp only [StmtAST.reaches] at h
    simp only [StmtAST.codegen]
    exact InitAST_reaches y i drv h
  | .ifStmt cond trueblock falseblock, drv, h => by
    have ih1 := ExprAST_reaches y cond
    have ih2 := StmtAST_reaches y trueblock
    have ih3 := StmtAST_reaches y falseblock
    simp only [StmtAST.reaches, Bool.or_eq_true] at h
    simp only [StmtAST.codegen]
    split
    · rename_i d1 e1
      simp only [e1, Bool.or_eq_true, or_false, Bool.false_eq_true] at h
      have := ih1 drv h
      rw [e1] at this
      exact ⟨rfl, this.2⟩
    · rename_i CondV d1 e1
      simp only [e1, Bool.or_eq_true] at h
      rcases h with h | h
      · have := ih1 drv h
        rw [e1] at this
        simp at this
      · split
        · rename_i d2 e2
          simp only [e2, Bool.or_eq_true, or_false, Bool.false_eq_true] at h
          have := ih2 _ h
          rw [e2] at this
          exact ⟨rfl, this.2⟩
        · rename_i trueV d2 e2
          simp only [e2, Bool.or_eq_true] at h
          rcases h with h | h
          · have := ih2 _ h
            rw [e2] at this
            simp at this
          · have := ih3 _ h
            split
            · rename_i d3 e3
              rw [e3] at this
              exact ⟨rfl, this.2⟩
            · rename_i falseV d3 e3
              rw [e3] at this
              simp at this
  | .ifStmtNoElse cond trueblock, drv, h => by
    have ih1 := ExprAST_reaches y cond
    have ih2 := StmtAST_reaches y trueblock
    simp only [StmtAST.reaches, Bool.or_eq_true] at h
    simp only [StmtAST.codegen]
    split
    · rename_i d1 e1
      simp only [e1, Bool.or_eq_true, or_false, Bool.false_eq_true] at h
      have := ih1 drv h
      rw [e1] at this
      exact ⟨rfl, this.2⟩
    · rename_i CondV d1 e1
      simp only [e1, Bool.or_eq_true] at h
      rcases h with h | h
      · have := ih1 drv h
        rw [e1] at this
        simp at this
      · have := ih2 _ h
        split
        · rename_i d2 e2
          rw [e2] at this
          exact ⟨rfl, this.2⟩
        · rename_i trueV d2 e2
          rw [e2] at this
          simp at this
  | .forStmt init cond stepName stepVal body, drv, h => by
    have ih1 := InitAST_reaches y init
    have ih2 := ExprAST_reaches y cond
    have ih3 := StmtAST_reaches y body
    have ih4 := ExprAST_reaches y stepVal
    simp only [StmtAST.reaches, Bool.or_eq_true] at h
    simp only [StmtAST.codegen]
    split
    · rename_i d1 e1
      simp only [e1, Bool.or_eq_true, or_false, Bool.false_eq_true] at h
      have := ih1 _ h
      rw [e1] at this
      exact ⟨rfl, this.2⟩
    · rename_i initVal d1 e1
      simp only [e1, Bool.or_eq_true] at h
      rcases h with h | h
      · have := ih1 _ h
        rw [e1] at this
        simp at this
      · split
        · rename_i d2 e2
          simp only [e2, Bool.or_eq_true, or_false, Bool.false_eq_true] at h
          have := ih2 _ h
          rw [e2] at this
          exact ⟨rfl, this.2⟩
        · rename_i condVal d2 e2
          simp only [e2, Bool.or_eq_true] at h
          rcases h with h | h
          · have := ih2 _ h
            rw [e2] at this
            simp at this
          · split
            · rename_i d3 e3
              simp only [e3, Bool.or_eq_true, or_false, Bool.false_eq_true] at h
              have := ih3 _ h
              rw [e3] at this
              exact ⟨rfl, this.2⟩
            · rename_i bodyVal d3 e3
              simp only [e3, Bool.or_eq_true] at h
              rcases h with h | h
              · have := ih3 _ h
                rw [e3] at this
                simp at this
              · have := ih4 _ h
                split
                · rename_i d4 e4
                  rw [e4] at this
                  exact ⟨rfl, this.2⟩
                · rename_i bv d4 e4
                  rw [e4] at this
                  simp at this
theorem StmtList_reaches (y : String) : ∀ (l : StmtList) (blockvalue : Option Value)
    (drv : Driver), l.reaches y drv = true →
    (l.codegen blockvalue drv).1 = none ∧
      LogLine.message ("undefined variable: " ++ y) ∈ (l.codegen blockvalue drv).2.cerr
  | .nil, _, _, h => by simp [StmtList.reaches] at h
  | .cons stmt rest, bv, drv, h => by
    have ih1 := StmtAST_reaches y stmt
    have ih2 := StmtList_reaches y rest
    simp only [StmtList.reaches, Bool.or_eq_true] at h
    simp only [StmtList.codegen]
    split
    · rename_i d1 e1
      simp only [e1, Bool.or_eq_true, or_false, Bool.false_eq_true] at h
      have := ih1 drv h
      rw [e1] at this
      exact ⟨rfl, this.2⟩
    · rename_i V d1 e1
      simp only [e1, Bool.or_eq_true] at h
      rcases h with h | h
      · have := ih1 drv h
        rw [e1] at this
        simp at this
      · exact ih2 _ _ h
end

/-- An expression of numbers, references and operators that references, in an operand
that is lowered, a name without slot and without global variable reaches that
reference. -/
theorem Refers_reaches {y : String} {e : ExprAST} (hr : e.Refers y) :
    e.Pure → ∀ drv : Driver, drv.lookup y = none → drv.getNamedGlobal y = none →
      e.reaches y drv = true := by
  induction hr with
  | reference =>
    intro _ drv hl hg
    simp [ExprAST.reaches, hl, hg]
  | lhs Op LHS RHS hop _ ih =>
    intro hp drv hl hg
    cases hp with
    | binary _ _ _ hpL hpR =>
      simp only [ExprAST.reaches]
      rw [if_neg hop, ih hpL drv hl hg]
      rfl
  | rhs Op LHS RHS _ ih =>
    intro hp drv hl hg
    cases hp with
    | binary _ _ _ hpL hpR =>
      simp only [ExprAST.reaches]
      split
      · exact ih hpR drv hl hg
      · have hk := Pure_keepsLookups hpL drv y
        have hm := ExprAST_codegen_module LHS drv
        rw [ih hpR _ (hk.trans hl) ((getNamedGlobal_congr _ drv hm y).trans hg)]
        exact Bool.or_true _

end Kaltz
